import Mathlib

/-!
# crossfs: routing table, path classification, control file and content filters

A shallow embedding of `src/crossfs/crossfs.c` (Bedrock Linux cross-stratum
filesystem).

Conventions of the embedding:

* a C string is a `List Char`, one `Char` per byte, without its terminating
  NUL; reading the byte at an index at or past the end yields NUL (`cbyte`);
* the cached length fields (`cpath_len`, `lpath_len`, `stratum_len`) are
  always assigned `strlen` of their sibling string (lines 851/879, 891/892,
  956/958) and are represented by `List.length`; `cfg_cnt` and `back_cnt`
  are the lengths of the arrays `cfgs` and `back`;
* `int` return values are `Int`; `size_t` values are `Nat` (no sum of string
  lengths in this file can reach `2^64`);
* outcomes of system calls and of the allocator are explicit parameters;
* `cfg_clear`, `cfg_add`, `cfg_read` and their callers have the result `none`
  where a call runs into undefined behaviour on the heap: a freed block is
  freed or reallocated again, a byte is stored behind the end of a block, or
  bytes never stored are read;
* a stream read with `fgets` is the list of its bytes, and a line buffer is
  the list of bytes `fgets` stored before the terminator it appends.
-/

namespace Crossfs

/-! ## Constants -/

abbrev CStr := List Char

/-- The terminating byte of C strings. -/
def NUL : Char := Char.ofNat 0

def PATH_MAX : Nat := 4096

def CFG_PATH : CStr := "/.config-filesystem".toList
def CMD_ADD : CStr := "add".toList
def CMD_CLEAR : CStr := "clear\n".toList

def ENOENT : Int := 2
def E2BIG : Int := 7
def EAGAIN : Int := 11
def ENOMEM : Int := 12
def EACCES : Int := 13
def EISDIR : Int := 21
def EINVAL : Int := 22
def EROFS : Int := 30
def ENAMETOOLONG : Int := 36

/-- Classes of incoming paths (`enum ipath_class`). -/
inductive ipath_class where
  | CLASS_BACK
  | CLASS_VDIR
  | CLASS_ROOT
  | CLASS_CFG
  | CLASS_ENOENT
  deriving DecidableEq, Repr

/-- Content filters (`enum filter`), in declaration order. -/
inductive filter where
  | FILTER_BIN
  | FILTER_INI
  | FILTER_FONT
  | FILTER_PASS
  deriving DecidableEq, Repr

/-- Table `filter_str`, indexed by the enum. -/
def filter_str : filter → CStr
  | .FILTER_BIN => "bin".toList
  | .FILTER_INI => "ini".toList
  | .FILTER_FONT => "font".toList
  | .FILTER_PASS => "pass".toList

/-- A backing location (`struct back_entry`). -/
structure back_entry where
  lpath : CStr
  stratum : CStr
  root_fd : Int
  deriving DecidableEq, Repr

/-- A configured path (`struct cfg_entry`). -/
structure cfg_entry where
  filter : filter
  cpath : CStr
  back : List back_entry
  deriving DecidableEq, Repr

/-! ## Byte-level helpers -/

/-- Byte `s[i]` of a NUL-terminated string. -/
def cbyte (s : CStr) (i : Nat) : Char := s.getD i NUL

/-- The libc `memcmp` on the first `n` bytes: zero iff they agree, otherwise
the difference of the first pair of bytes that differ. -/
def memcmp : CStr → CStr → Nat → Int
  | _, _, 0 => 0
  | a, b, n + 1 =>
    if cbyte a 0 = cbyte b 0 then memcmp a.tail b.tail n
    else (cbyte a 0).toNat - (cbyte b 0).toNat

/-- The libc `strlen` of a buffer: number of bytes before the first NUL. -/
def strlen (s : CStr) : Nat := (s.takeWhile (fun c => c != NUL)).length

/-! ## Path predicates (lines 335-389) -/

def is_parent (a : CStr) (a_len : Nat) (b : CStr) (b_len : Nat) : Int :=
  if a_len ≥ b_len then 0
  else if cbyte b a_len ≠ '/' then 0
  else if memcmp b a a_len = 0 then 1 else 0

def is_equal_or_parent (a : CStr) (a_len : Nat) (b : CStr) (b_len : Nat) : Int :=
  if a_len > b_len then 0
  else if cbyte b a_len ≠ NUL ∧ cbyte b a_len ≠ '/' then 0
  else if memcmp b a a_len = 0 then 1 else 0

def pstrcmp (a : CStr) (a_len : Nat) (b : CStr) (b_len : Nat) : Int :=
  if a_len ≠ b_len then 1 else memcmp a b a_len

/-! ## Classifier (lines 394-426) -/

/-- First loop of `classify_ipath`: the first entry that is equal to or a
parent of the incoming path. -/
def classify_back (ipath : CStr) (ipath_len : Nat) : List cfg_entry → Option cfg_entry
  | [] => none
  | c :: rest =>
    if is_equal_or_parent c.cpath c.cpath.length ipath ipath_len ≠ 0 then some c
    else classify_back ipath ipath_len rest

/-- Second loop of `classify_ipath`: the first entry the incoming path is a
parent of. -/
def classify_vdir (ipath : CStr) (ipath_len : Nat) : List cfg_entry → Option cfg_entry
  | [] => none
  | c :: rest =>
    if is_parent ipath ipath_len c.cpath c.cpath.length ≠ 0 then some c
    else classify_vdir ipath ipath_len rest

/-- The classifier; the second component is the value stored through `cfg`. -/
def classify_ipath (cfgs : List cfg_entry) (ipath : CStr) (ipath_len : Nat) :
    ipath_class × Option cfg_entry :=
  match classify_back ipath ipath_len cfgs with
  | some c => (.CLASS_BACK, some c)
  | none =>
    match classify_vdir ipath ipath_len cfgs with
    | some c => (.CLASS_VDIR, some c)
    | none =>
      if cbyte ipath 0 = '/' ∧ cbyte ipath 1 = NUL then (.CLASS_ROOT, none)
      else if pstrcmp ipath ipath_len CFG_PATH CFG_PATH.length = 0 then (.CLASS_CFG, none)
      else (.CLASS_ENOENT, none)

/-! ## Backing-path construction (lines 434-452) -/

/-- The bytes `s[off], ..., s[off + n - 1]` that a `memcpy` of `n` bytes from
`s + off` copies. -/
def mem_read (s : CStr) (off n : Nat) : List Char :=
  (List.range n).map (fun i => cbyte s (off + i))

/-- The string held by a byte buffer: its bytes up to the first NUL. -/
def cstr_of (bytes : List Char) : CStr := bytes.takeWhile (fun c => c != NUL)

/-- Function `calc_bpath`: `none` is the `NULL` return; in the last branch the
result is the string left in `tmp` by the two `memcpy` calls. -/
def calc_bpath (cfg : cfg_entry) (back : back_entry) (ipath : CStr) (ipath_len : Nat) :
    Option CStr :=
  if ipath_len < cfg.cpath.length then none
  else if cbyte ipath cfg.cpath.length = NUL then some back.lpath
  else if cbyte ipath cfg.cpath.length ≠ '/' then none
  else if back.lpath.length + ipath_len - cfg.cpath.length + 1 > PATH_MAX then none
  else some (cstr_of (mem_read back.lpath 0 back.lpath.length ++
    mem_read ipath cfg.cpath.length (ipath_len - cfg.cpath.length + 1)))

/-! ## First-match resolution (lines 637-712) -/

/-- Result of one scoped system call (`fchroot_stat`, `fchroot_open`,
`fchroot_readlink`): its return value and the value it stores in `errno`
when it fails (`rv < 0`); a successful call leaves `errno` alone. -/
structure sys_result where
  rv : Int
  errno : Int
  deriving DecidableEq, Repr

/-- The part of `struct stat` the filesystem inspects. -/
structure c_stat where
  st_mode : Nat
  st_size : Int
  deriving DecidableEq, Repr

/-- Value of `errno` after a call with result `r`. -/
def errno_after (errno : Int) (r : sys_result) : Int :=
  if r.rv < 0 then r.errno else errno

/-- What a first-match scan leaves behind: the return value, `errno`, and
the scoped calls issued, oldest first. -/
structure scan_result where
  rv : Int
  errno : Int
  calls : List (Int × CStr)
  deriving DecidableEq, Repr

/-- Loop body of `stat_first_bpath` over the remaining backing entries. The
probe yields the call result and the buffer `stat` fills on success. -/
def stat_first_loop (probe : Int → CStr → sys_result × c_stat) (cfg : cfg_entry)
    (ipath : CStr) (ipath_len : Nat) :
    List back_entry → scan_result → c_stat → scan_result × c_stat
  | [], acc, stbuf => (acc, stbuf)
  | b :: rest, acc, stbuf =>
    match calc_bpath cfg b ipath ipath_len with
    | none => stat_first_loop probe cfg ipath ipath_len rest acc stbuf
    | some bpath =>
      let r := probe b.root_fd bpath
      let errno := errno_after acc.errno r.1
      let stbuf1 := if r.1.rv < 0 then stbuf else r.2
      let acc1 : scan_result := ⟨r.1.rv, errno, acc.calls ++ [(b.root_fd, bpath)]⟩
      if r.1.rv ≥ 0 ∨ errno ≠ ENOENT then (acc1, stbuf1)
      else stat_first_loop probe cfg ipath ipath_len rest acc1 stbuf1

def stat_first_bpath (probe : Int → CStr → sys_result × c_stat) (cfg : cfg_entry)
    (ipath : CStr) (ipath_len : Nat) (stbuf : c_stat) (errno : Int) :
    scan_result × c_stat :=
  stat_first_loop probe cfg ipath ipath_len cfg.back ⟨-ENOENT, errno, []⟩ stbuf

/-- Loop body of `open_first_bpath`; the probe is `fchroot_open` with the
caller's flags. -/
def open_first_loop (probe : Int → CStr → sys_result) (cfg : cfg_entry)
    (ipath : CStr) (ipath_len : Nat) : List back_entry → scan_result → scan_result
  | [], acc => acc
  | b :: rest, acc =>
    match calc_bpath cfg b ipath ipath_len with
    | none => open_first_loop probe cfg ipath ipath_len rest acc
    | some bpath =>
      let r := probe b.root_fd bpath
      let errno := errno_after acc.errno r
      let acc1 : scan_result := ⟨r.rv, errno, acc.calls ++ [(b.root_fd, bpath)]⟩
      if r.rv ≥ 0 ∨ errno ≠ ENOENT then acc1
      else open_first_loop probe cfg ipath ipath_len rest acc1

def open_first_bpath (probe : Int → CStr → sys_result) (cfg : cfg_entry)
    (ipath : CStr) (ipath_len : Nat) (errno : Int) : scan_result :=
  open_first_loop probe cfg ipath ipath_len cfg.back ⟨-ENOENT, errno, []⟩

/-- Loop body of `loc_first_bpath`; the probe is `fchroot_readlink`. The
third component is the pair stored through `back` and `obpath` on a hit;
`strncpy` keeps at most `PATH_MAX` bytes of the candidate. -/
def loc_first_loop (probe : Int → CStr → sys_result) (cfg : cfg_entry)
    (ipath : CStr) (ipath_len : Nat) :
    List back_entry → scan_result → scan_result × Option (back_entry × CStr)
  | [], acc => (acc, none)
  | b :: rest, acc =>
    match calc_bpath cfg b ipath ipath_len with
    | none => loc_first_loop probe cfg ipath ipath_len rest acc
    | some bpath =>
      let r := probe b.root_fd bpath
      let errno := errno_after acc.errno r
      let calls := acc.calls ++ [(b.root_fd, bpath)]
      if r.rv ≥ 0 ∨ errno ≠ ENOENT then
        let rv : Int := if bpath.length ≥ PATH_MAX then -E2BIG else 0
        (⟨rv, errno, calls⟩, some (b, bpath.take PATH_MAX))
      else loc_first_loop probe cfg ipath ipath_len rest ⟨r.rv, errno, calls⟩

def loc_first_bpath (probe : Int → CStr → sys_result) (cfg : cfg_entry)
    (ipath : CStr) (ipath_len : Nat) (errno : Int) :
    scan_result × Option (back_entry × CStr) :=
  loc_first_loop probe cfg ipath ipath_len cfg.back ⟨-ENOENT, errno, []⟩

/-! ## Routing-table state -/

/-- The table the control file governs: the `cfg_cnt` entries of the array
`cfgs` and the cached size `cfg_stat.st_size` (never negative; far below
`2^63`). -/
structure cfg_state where
  cfgs : List cfg_entry
  st_size : Nat
  deriving DecidableEq, Repr

/-- The table at startup: `cfg_cnt = 0`, `cfg_stat.st_size = 0`. -/
def cfg_init : cfg_state := ⟨[], 0⟩

/-- What the pointer variable `cfgs` holds: `NULL`, the address of the live
array, or the address of a block that has been freed. `cfg_clear` frees the
array and leaves the variable as it is (lines 768-770); `cfg_add` hands the
variable to `realloc` (line 870). -/
inductive cfgs_ptr where
  | null
  | live
  | freed
  deriving DecidableEq, Repr

/-- The globals behind the control file: the pointer variable `cfgs` beside
the table it gives access to. The entries of the table are read only at
indices below `cfg_cnt`, so a table without entries is read without touching
the array. Along every defined run from `globals_init` the table has entries
exactly while `ptr` is `live` (lemma `globals_live`). -/
structure cfg_globals where
  ptr : cfgs_ptr
  st : cfg_state
  deriving DecidableEq, Repr

/-- Globals at startup: `cfgs = NULL`, `cfg_cnt = 0`, `cfg_stat.st_size = 0`. -/
def globals_init : cfg_globals := ⟨.null, cfg_init⟩

/-- Function `cfg_clear` (lines 757-773): the loops free the strings and the
backing arrays of the `cfg_cnt` entries, `free(cfgs)` runs when `cfgs` is not
`NULL`, and the counters are reset; `cfgs` keeps its value. The result is
`none` when the call frees a block that is already freed, which is undefined
behaviour. -/
def cfg_clear (g : cfg_globals) : Option cfg_globals :=
  match g.ptr with
  | .null => some ⟨.null, ⟨[], 0⟩⟩
  | .live => some ⟨.freed, ⟨[], 0⟩⟩
  | .freed => none

/-- The table `cfg_clear` leaves when the call is defined. -/
def cfg_clear_tab (_st : cfg_state) : cfg_state := ⟨[], 0⟩

/-! ## Tokenizer: `sscanf(nbuf, "%s %s %s %[^:]:%s%c", ...)` -/

/-- The libc `isspace` in the C locale. -/
def isspace (c : Char) : Bool :=
  c = ' ' || c = '\t' || c = '\n' || c = '\x0b' || c = '\x0c' || c = '\r'

/-- Conversion `%s`: skip white space, then take the longest run of
non-space bytes; fails at the end of the input. -/
def scan_s (s : CStr) : Option (CStr × CStr) :=
  let s1 := s.dropWhile isspace
  let tok := s1.takeWhile (fun c => !isspace c)
  if tok = [] then none else some (tok, s1.dropWhile (fun c => !isspace c))

/-- Conversion `%[^:]`: the longest run of bytes other than a colon, without
skipping white space; fails when that run is empty. -/
def scan_not_colon (s : CStr) : Option (CStr × CStr) :=
  let tok := s.takeWhile (fun c => c != ':')
  if tok = [] then none else some (tok, s.dropWhile (fun c => c != ':'))

/-- The six values a complete conversion stores. -/
structure add_tokens where
  buf_add : CStr
  buf_filter : CStr
  buf_cpath : CStr
  buf_stratum : CStr
  buf_lpath : CStr
  newline : Char
  deriving DecidableEq, Repr

/-- The `sscanf` call of `cfg_add` on the NUL-terminated input `s`: `some`
exactly when the call returns 6. A blank in the format skips any run of white
space; the colon must match literally; `%c` takes the next byte as it is. -/
def sscanf_add (s : CStr) : Option add_tokens :=
  match scan_s s with
  | none => none
  | some (t_add, s1) =>
    match scan_s (s1.dropWhile isspace) with
    | none => none
    | some (t_filter, s2) =>
      match scan_s (s2.dropWhile isspace) with
      | none => none
      | some (t_cpath, s3) =>
        match scan_not_colon (s3.dropWhile isspace) with
        | none => none
        | some (t_stratum, s4) =>
          match s4 with
          | [] => none
          | c :: s5 =>
            if c ≠ ':' then none
            else
              match scan_s s5 with
              | none => none
              | some (t_lpath, s6) =>
                match s6 with
                | [] => none
                | nl :: _ => some ⟨t_add, t_filter, t_cpath, t_stratum, t_lpath, nl⟩

/-! ## Function `cfg_add` (lines 797-978) -/

/-- Outcomes of the allocator calls and of the stratum-root open made by one
`cfg_add` call: `true` is a non-NULL return; `open_root s` is the return value
of `fchroot_open(strata_root_fd, s, O_DIRECTORY)`. -/
structure add_env where
  malloc_cpath : Bool
  realloc_cfgs : Bool
  malloc_lpath : Bool
  malloc_stratum : Bool
  open_root : CStr → Int
  realloc_back : Bool

/-- The loop over `filter_str` (lines 836-845): the first matching index. -/
def find_filter (name : CStr) : Option filter :=
  [filter.FILTER_BIN, filter.FILTER_INI, filter.FILTER_FONT, filter.FILTER_PASS].find?
    (fun f => decide (filter_str f = name))

/-- Lines 799-845: copy, tokenize, sanity-check and determine the filter.
The error value is the one `cfg_add` returns. -/
def cfg_add_parse (buf : CStr) (size : Nat) : Except Int (filter × CStr × CStr × CStr) :=
  if size > PATH_MAX - 1 then .error (-ENAMETOOLONG)
  else
    match sscanf_add (cstr_of (mem_read buf 0 size)) with
    | none => .error (-EINVAL)
    | some t =>
      if t.buf_add ≠ CMD_ADD ∨ cbyte t.buf_cpath 0 ≠ '/' ∨ cbyte t.buf_lpath 0 ≠ '/'
          ∨ t.newline ≠ '\n' ∨ '/' ∈ t.buf_stratum then .error (-EINVAL)
      else
        match find_filter t.buf_filter with
        | none => .error (-EINVAL)
        | some f => .ok (f, t.buf_cpath, t.buf_stratum, t.buf_lpath)

/-- Lines 852-858: index of the first entry whose `cpath` equals the token. -/
def find_cfg (cpath : CStr) : List cfg_entry → Option Nat
  | [] => none
  | c :: rest =>
    if pstrcmp c.cpath c.cpath.length cpath cpath.length = 0 then some 0
    else (find_cfg cpath rest).map (fun i => i + 1)

/-- Lines 893-900: does the entry already hold this (stratum, lpath) pair. -/
def has_back (stratum lpath : CStr) : List back_entry → Bool
  | [] => false
  | b :: rest =>
    if pstrcmp b.stratum b.stratum.length stratum stratum.length = 0
        ∧ pstrcmp b.lpath b.lpath.length lpath lpath.length = 0 then true
    else has_back stratum lpath rest

/-- Inner loop of lines 926-934 over one entry's backing list. -/
def find_root_fd_back (stratum : CStr) : List back_entry → Int → Int
  | [], fd => fd
  | b :: rest, fd =>
    if pstrcmp b.stratum b.stratum.length stratum stratum.length = 0
    then find_root_fd_back stratum rest b.root_fd
    else find_root_fd_back stratum rest fd

/-- Lines 926-934: the descriptor of the last backing entry of the table that
names the stratum, or the initial value. -/
def find_root_fd (stratum : CStr) : List cfg_entry → Int → Int
  | [], fd => fd
  | c :: rest, fd => find_root_fd stratum rest (find_root_fd_back stratum c.back fd)

/-- Lines 952-960: append a backing entry to the entry at index `i`. -/
def push_back : List cfg_entry → Nat → back_entry → List cfg_entry
  | [], _, _ => []
  | c :: rest, 0, b => { c with back := c.back ++ [b] } :: rest
  | c :: rest, i + 1, b => c :: push_back rest i b

/-- Lines 847-978 of `cfg_add`, entered once the line is parsed: extend the
table by the pair (stratum, lpath) under `cpath`. `alen` is `strlen(buf)` of
line 962. -/
def cfg_add_apply (env : add_env) (st : cfg_state) (f : filter) (cpath stratum lpath : CStr)
    (alen : Nat) (size : Nat) : Int × cfg_state :=
  -- lines 850-885: find the entry or append a fresh one
  let found := find_cfg cpath st.cfgs
  if found = none ∧ ¬ env.malloc_cpath then (-ENOMEM, st)
  else if found = none ∧ ¬ env.realloc_cfgs then (-ENOMEM, st)
  else
    let cfgs1 := if found = none then st.cfgs ++ [⟨f, cpath, []⟩] else st.cfgs
    let idx := found.getD st.cfgs.length
    let st1 : cfg_state := ⟨cfgs1, st.st_size⟩
    -- lines 891-900: nothing to do for a known pair
    if has_back stratum lpath (((cfgs1.get? idx).map (fun c => c.back)).getD [])
    then ((size : Int), st1)
    else if ¬ env.malloc_lpath then (-ENOMEM, st1)
    else if ¬ env.malloc_stratum then (-ENOMEM, st1)
    else
      -- lines 926-944: reuse or open the stratum root
      let fd0 := find_root_fd stratum cfgs1 (-1)
      let root_fd := if fd0 < 0 then env.open_root stratum else fd0
      if root_fd < 0 then (-ENOMEM, st1)
      else if ¬ env.realloc_back then (-ENOMEM, st1)
      else
        ((size : Int), ⟨push_back cfgs1 idx ⟨lpath, stratum, root_fd⟩, st.st_size + alen⟩)

/-- The return value of `cfg_add` and the table it leaves, for a call that
does not touch a freed block. `buf` holds the bytes at the caller's pointer
(`strlen(buf)` on line 962 reads them up to the first NUL). -/
def cfg_add_tab (env : add_env) (st : cfg_state) (buf : CStr) (size : Nat) : Int × cfg_state :=
  match cfg_add_parse buf size with
  | .error e => (e, st)
  | .ok (f, cpath, stratum, lpath) =>
    cfg_add_apply env st f cpath stratum lpath (strlen buf) size

/-- Function `cfg_add` (lines 797-978) on the globals. Line 870 hands `cfgs`
to `realloc`; it is reached when no entry has the cpath (lines 852-863) and
the `malloc` of line 864 has succeeded. The result is `none` when `cfgs` then
holds the address of a freed block, which is undefined behaviour; when that
`realloc` succeeds, `cfgs` holds the live array (line 875). Return value and
table are those of `cfg_add_apply`. -/
def cfg_add (env : add_env) (g : cfg_globals) (buf : CStr) (size : Nat) :
    Option (Int × cfg_globals) :=
  match cfg_add_parse buf size with
  | .error e => some (e, g)
  | .ok (f, cpath, stratum, lpath) =>
    if (find_cfg cpath g.st.cfgs = none ∧ env.malloc_cpath = true) ∧ g.ptr = .freed then none
    else
      some ((cfg_add_apply env g.st f cpath stratum lpath (strlen buf) size).1,
        ⟨if (find_cfg cpath g.st.cfgs = none ∧ env.malloc_cpath = true)
            ∧ env.realloc_cfgs = true then .live else g.ptr,
          (cfg_add_apply env g.st f cpath stratum lpath (strlen buf) size).2⟩)

/-! ## Function `cfg_read` (lines 983-1014) -/

/-- One pass of the inner loop of `cfg_read`: the line for one backing entry. -/
def cfg_line (c : cfg_entry) (b : back_entry) : CStr :=
  "add ".toList ++ filter_str c.filter ++ " ".toList ++ c.cpath ++ " ".toList
    ++ b.stratum ++ ":".toList ++ b.lpath ++ "\n".toList

/-- The string `cfg_read` builds with `strcat`. -/
def cfg_dump : List cfg_entry → CStr
  | [] => []
  | c :: rest => (c.back.map (cfg_line c)).flatten ++ cfg_dump rest

/-- Function `cfg_read`: the return value and the bytes it delivers (the
first `rv` bytes of `buf`); `malloc_ok` is whether `malloc(cfg_stat.st_size)`
returns a block. Line 994 and the `strcat` calls store the string and its
terminator, `strlen(str) + 1` bytes, in that block of `cfg_stat.st_size`
bytes, and `strlen(str + offset)` reads from `str + offset` on. The result is
`none` when bytes are stored past the end of the block, or when `str + offset`
lies behind the terminator so that bytes never stored are read: both are
undefined behaviour. -/
def cfg_read (malloc_ok : Bool) (st : cfg_state) (size : Nat) (offset : Nat) :
    Option (Int × CStr) :=
  if st.cfgs.length = 0 then some (0, [])
  else if ¬ malloc_ok then some (-ENOMEM, [])
  else
    let str := cfg_dump st.cfgs
    if st.st_size < str.length + 1 then none
    else if str.length < offset then none
    else
      let rv := if strlen (str.drop offset) < size then strlen (str.drop offset) else size
      some ((rv : Int), (str.drop offset).take rv)

/-! ## Dispatcher entry points for the control file -/

/-- Function `m_write` (lines 1629-1658) on the globals: the return value and
the globals it leaves, or `none` when `cfg_clear` or `cfg_add` touches a freed
block. -/
def m_write (env : add_env) (g : cfg_globals) (uid : Nat) (ipath : CStr) (buf : CStr)
    (size : Nat) : Option (Int × cfg_globals) :=
  if pstrcmp ipath ipath.length CFG_PATH CFG_PATH.length ≠ 0 then some (-EROFS, g)
  else if uid ≠ 0 then some (-EACCES, g)
  else if size ≥ CMD_CLEAR.length ∧ memcmp buf CMD_CLEAR CMD_CLEAR.length = 0 then
    (cfg_clear g).map (fun g1 => ((size : Int), g1))
  else if size ≥ CMD_ADD.length ∧ memcmp buf CMD_ADD CMD_ADD.length = 0 then
    cfg_add env g buf size
  else some (-EINVAL, g)

/-- The return value of `m_write` and the table it leaves, for a call that
does not touch a freed block. -/
def m_write_tab (env : add_env) (st : cfg_state) (uid : Nat) (ipath : CStr) (buf : CStr)
    (size : Nat) : Int × cfg_state :=
  if pstrcmp ipath ipath.length CFG_PATH CFG_PATH.length ≠ 0 then (-EROFS, st)
  else if uid ≠ 0 then (-EACCES, st)
  else if size ≥ CMD_CLEAR.length ∧ memcmp buf CMD_CLEAR CMD_CLEAR.length = 0 then
    ((size : Int), cfg_clear_tab st)
  else if size ≥ CMD_ADD.length ∧ memcmp buf CMD_ADD CMD_ADD.length = 0 then
    cfg_add_tab env st buf size
  else (-EINVAL, st)

/-- Function `m_read` (lines 1588-1627); `read_back` stands for the outcome of
the filter pipeline on a backed path; the result is `none` when `cfg_read`
runs into undefined behaviour. The classifier never returns `CLASS_BACK`
without an entry; that case is listed only to make the match complete. -/
def m_read (read_back : cfg_entry → CStr → Nat → Nat → Int × CStr) (malloc_ok : Bool)
    (st : cfg_state) (uid : Nat) (ipath : CStr) (size : Nat) (offset : Nat) :
    Option (Int × CStr) :=
  match classify_ipath st.cfgs ipath ipath.length with
  | (.CLASS_BACK, some c) => some (read_back c ipath size offset)
  | (.CLASS_BACK, none) => some (-ENOENT, [])
  | (.CLASS_CFG, _) => if uid = 0 then cfg_read malloc_ok st size offset else some (-EACCES, [])
  | (.CLASS_VDIR, _) => some (-EISDIR, [])
  | (.CLASS_ROOT, _) => some (-EISDIR, [])
  | (.CLASS_ENOENT, _) => some (-ENOENT, [])

/-- A control-file write request together with the outcomes of the calls it
makes. -/
structure write_req where
  env : add_env
  uid : Nat
  ipath : CStr
  buf : CStr
  size : Nat

/-- The globals after a sequence of `m_write` calls; `none` when one of the
calls runs into undefined behaviour. -/
def run_writes (g : cfg_globals) : List write_req → Option cfg_globals
  | [] => some g
  | w :: ws =>
    match m_write w.env g w.uid w.ipath w.buf w.size with
    | none => none
    | some r => run_writes r.2 ws

/-- Return values of a sequence of `m_write` calls, in order; `none` when one
of the calls runs into undefined behaviour. -/
def write_rvs (g : cfg_globals) : List write_req → Option (List Int)
  | [] => some []
  | w :: ws =>
    match m_write w.env g w.uid w.ipath w.buf w.size with
    | none => none
    | some r => (write_rvs r.2 ws).map (fun rvs => r.1 :: rvs)

/-- The table after a sequence of writes none of which touches a freed
block. -/
def run_writes_tab (st : cfg_state) (ws : List write_req) : cfg_state :=
  ws.foldl (fun s w => (m_write_tab w.env s w.uid w.ipath w.buf w.size).2) st

/-- Return values of a sequence of writes none of which touches a freed
block, in order. -/
def write_rvs_tab (st : cfg_state) : List write_req → List Int
  | [] => []
  | w :: ws =>
    (m_write_tab w.env st w.uid w.ipath w.buf w.size).1 ::
      write_rvs_tab (m_write_tab w.env st w.uid w.ipath w.buf w.size).2 ws

/-- The effects lines 847-978 can have, by exit path: an allocation fails
before anything changes; a fresh entry is appended and a later step fails;
the pair is already there; the pair is appended to an existing entry; a fresh
entry is appended together with the pair. -/
def add_outcome (st : cfg_state) (f : filter) (c s l : CStr) (alen size : Nat)
    (rv : Int) (st1 : cfg_state) : Prop :=
  (rv = -ENOMEM ∧ st1 = st) ∨
  (rv = -ENOMEM ∧ find_cfg c st.cfgs = none ∧
    st1 = ⟨st.cfgs ++ [⟨f, c, []⟩], st.st_size⟩) ∨
  (rv = (size : Int) ∧ st1 = st ∧ ∃ (i : Nat) (e : cfg_entry),
    find_cfg c st.cfgs = some i ∧ st.cfgs[i]? = some e ∧ has_back s l e.back = true) ∨
  (rv = (size : Int) ∧ ∃ (i : Nat) (e : cfg_entry) (fd : Int),
    find_cfg c st.cfgs = some i ∧ st.cfgs[i]? = some e ∧ has_back s l e.back = false ∧
    0 ≤ fd ∧ st1 = ⟨push_back st.cfgs i ⟨l, s, fd⟩, st.st_size + alen⟩) ∨
  (rv = (size : Int) ∧ find_cfg c st.cfgs = none ∧ ∃ fd : Int, 0 ≤ fd ∧
    st1 = ⟨st.cfgs ++ [⟨f, c, [⟨l, s, fd⟩]⟩], st.st_size + alen⟩)

/-- Table invariant: configured paths are pairwise distinct, and within each
entry the (stratum, lpath) pairs are pairwise distinct. -/
def table_inv (cfgs : List cfg_entry) : Prop :=
  (cfgs.map (fun e => e.cpath)).Nodup ∧
    ∀ e : cfg_entry, e ∈ cfgs → (e.back.map (fun b => (b.stratum, b.lpath))).Nodup

/-- A token as `%s` reads it back: non-empty, free of white space and NUL. -/
def is_token (t : CStr) : Prop :=
  t ≠ [] ∧ ∀ x : Char, x ∈ t → isspace x = false ∧ x ≠ NUL

/-- A stratum label that `%[^:]` reads back and the sanity check admits:
it starts with a byte other than white space and holds no colon, slash or
NUL. -/
def is_label (t : CStr) : Prop :=
  (∃ (h : Char) (r : CStr), t = h :: r ∧ isspace h = false) ∧
    ∀ x : Char, x ∈ t → x ≠ ':' ∧ x ≠ '/' ∧ x ≠ NUL

/-- The canonical line `add <filter> <cpath> <stratum>:<lpath>\n`. -/
def add_line (f : filter) (c s l : CStr) : CStr :=
  "add ".toList ++ filter_str f ++ " ".toList ++ c ++ " ".toList
    ++ s ++ ":".toList ++ l ++ "\n".toList

/-- Fields of a canonical line that `cfg_add` accepts: `cpath` and `lpath`
are tokens starting with a slash, the stratum is a label, and the line fits in
`PATH_MAX - 1` bytes. -/
def valid_add (f : filter) (c s l : CStr) : Prop :=
  is_token c ∧ c.head? = some '/' ∧ is_token l ∧ l.head? = some '/' ∧ is_label s ∧
    (add_line f c s l).length ≤ PATH_MAX - 1

/-- A canonical add request: the fields of the line and the outcomes of the
calls its processing makes. -/
structure add_req where
  env : add_env
  f : filter
  c : CStr
  s : CStr
  l : CStr

/-- The line a request writes. -/
def req_line (r : add_req) : CStr := add_line r.f r.c r.s r.l

/-- The uid-0 control-file write of a request's line. -/
def req_write (r : add_req) : write_req :=
  ⟨r.env, 0, CFG_PATH, req_line r, (req_line r).length⟩

/-- Request `r` may follow the requests `pre` without disturbing the order of
the dump: its cpath is new, or it is the cpath of the request just before, it
carries the filter of every earlier request for that cpath, and its
(cpath, stratum, lpath) has not occurred. -/
def next_ok (pre : List add_req) (r : add_req) : Prop :=
  (∀ q : add_req, q ∈ pre → q.c ≠ r.c) ∨
    ((∃ q : add_req, pre.getLast? = some q ∧ q.c = r.c) ∧
      (∀ q : add_req, q ∈ pre → q.c = r.c → q.f = r.f) ∧
      (∀ q : add_req, q ∈ pre → ¬ (q.c = r.c ∧ q.s = r.s ∧ q.l = r.l)))

/-- Every request of the sequence may follow the ones before it. -/
def grouped (rs : List add_req) : Prop :=
  ∀ (k : Nat) (r : add_req), rs[k]? = some r → next_ok (rs.take k) r

/-- The configured path is neither the control file nor beneath it. -/
def off_control (c : CStr) : Prop :=
  c ≠ CFG_PATH ∧ ¬ (CFG_PATH ++ ['/'] <+: c)

/-- Relation between the requests processed so far and the table: the dump
is the concatenation of their lines; table and requests name the same
configured paths; the last entry is the one of the last request; filters and
backing pairs of the table all stem from requests. -/
def dump_inv (rs : List add_req) (cfgs : List cfg_entry) : Prop :=
  cfg_dump cfgs = (rs.map req_line).flatten ∧
  (∀ c : CStr, (∃ e : cfg_entry, e ∈ cfgs ∧ e.cpath = c) ↔
    (∃ q : add_req, q ∈ rs ∧ q.c = c)) ∧
  (∀ q : add_req, rs.getLast? = some q →
    ∃ e : cfg_entry, cfgs.getLast? = some e ∧ e.cpath = q.c) ∧
  (∀ e : cfg_entry, e ∈ cfgs → ∃ q : add_req, q ∈ rs ∧ q.c = e.cpath ∧ q.f = e.filter) ∧
  (∀ e : cfg_entry, e ∈ cfgs → ∀ b : back_entry, b ∈ e.back →
    ∃ q : add_req, q ∈ rs ∧ q.c = e.cpath ∧ q.s = b.stratum ∧ q.l = b.lpath)

/-- Two requests for the same configured path: `add bin /a s:/b` and
`add bin /a t:/c`. -/
def ex_reqs : List add_req :=
  [⟨⟨true, true, true, true, fun _ => 3, true⟩, .FILTER_BIN, "/a".toList, "s".toList,
      "/b".toList⟩,
    ⟨⟨true, true, true, true, fun _ => 3, true⟩, .FILTER_BIN, "/a".toList, "t".toList,
      "/c".toList⟩]

/-! ## Specification vocabulary -/

/-- Some configured entry is equal to or a parent of the path. -/
def some_backs (cfgs : List cfg_entry) (P : CStr) : Prop :=
  ∃ E ∈ cfgs, is_equal_or_parent E.cpath E.cpath.length P P.length ≠ 0

/-- The path is a parent of some configured entry. -/
def some_virt (cfgs : List cfg_entry) (P : CStr) : Prop :=
  ∃ E ∈ cfgs, is_parent P P.length E.cpath E.cpath.length ≠ 0

/-- Entry `E` sits at index `i` and is the first one, in table order, that is
equal to or a parent of the path. -/
def first_backs (cfgs : List cfg_entry) (P : CStr) (i : Nat) (E : cfg_entry) : Prop :=
  cfgs[i]? = some E ∧ is_equal_or_parent E.cpath E.cpath.length P P.length ≠ 0 ∧
    ∀ j : Nat, j < i → ∀ E1 : cfg_entry, cfgs[j]? = some E1 →
      is_equal_or_parent E1.cpath E1.cpath.length P P.length = 0

/-- A scoped call reports "not found": it fails with `errno == ENOENT`. -/
def not_found (r : sys_result) : Prop := r.rv < 0 ∧ r.errno = ENOENT

/-- The (root descriptor, candidate path) pairs of the backing entries whose
candidate path is constructible, in order. -/
def candidates (cfg : cfg_entry) (ipath : CStr) (ipath_len : Nat) :
    List back_entry → List (Int × CStr)
  | [] => []
  | b :: rest =>
    match calc_bpath cfg b ipath ipath_len with
    | none => candidates cfg ipath ipath_len rest
    | some p => (b.root_fd, p) :: candidates cfg ipath ipath_len rest

/-- Entry `B` at index `i` has the constructible candidate `p`, its probe is
not "not found", and every constructible candidate before it is "not found". -/
def first_hit (res : Int → CStr → sys_result) (cfg : cfg_entry) (ipath : CStr)
    (i : Nat) (B : back_entry) (p : CStr) : Prop :=
  cfg.back[i]? = some B ∧ calc_bpath cfg B ipath ipath.length = some p ∧
    ¬ not_found (res B.root_fd p) ∧
    ∀ j : Nat, j < i → ∀ B1 : back_entry, cfg.back[j]? = some B1 → ∀ p1 : CStr,
      calc_bpath cfg B1 ipath ipath.length = some p1 → not_found (res B1.root_fd p1)

/-- No backing entry has a constructible candidate whose probe is other than
"not found". -/
def no_hit (res : Int → CStr → sys_result) (cfg : cfg_entry) (ipath : CStr) : Prop :=
  ∀ B : back_entry, B ∈ cfg.back → ∀ p : CStr,
    calc_bpath cfg B ipath ipath.length = some p → not_found (res B.root_fd p)

/-- A table entry with two backing entries. -/
def ex_cfg : cfg_entry :=
  ⟨.FILTER_PASS, "/etc".toList, [⟨"/etc".toList, "a".toList, 3⟩, ⟨"/etc".toList, "b".toList, 4⟩]⟩

/-- A probe under which every candidate resolves. -/
def probe_ok : Int → CStr → sys_result := fun _ _ => ⟨0, 0⟩

/-- An environment in which every allocation succeeds and every stratum root
opens as descriptor 3. -/
def env_ok : add_env := ⟨true, true, true, true, fun _ => 3, true⟩

/-- An environment in which allocations succeed and no stratum root opens. -/
def env_no_root : add_env := ⟨true, true, true, true, fun _ => -1, true⟩

/-- A uid-0 write of `buf` (all of it) to the control file, the byte after
the written ones being NUL. -/
def root_write (env : add_env) (buf : CStr) : write_req :=
  ⟨env, 0, CFG_PATH, buf, buf.length⟩

/-- A backed read that delivers nothing; used where the path read is the
control file. -/
def read_back_none : cfg_entry → CStr → Nat → Nat → Int × CStr :=
  fun _ _ _ _ => (0, [])

/-- The dump spelled out: for each entry in table order and each of its
backing entries in order, the canonical line. -/
def dump_lines (cfgs : List cfg_entry) : List CStr :=
  (cfgs.map (fun c => c.back.map (fun b => add_line c.filter c.cpath b.stratum b.lpath))).flatten

/-- The strings of the table hold no NUL byte (they are C strings). -/
def table_cstr (cfgs : List cfg_entry) : Prop :=
  ∀ c : cfg_entry, c ∈ cfgs → NUL ∉ c.cpath ∧
    ∀ b : back_entry, b ∈ c.back → NUL ∉ b.stratum ∧ NUL ∉ b.lpath

/-! ## Filters: constants and library helpers -/

def STRAT_PATH : CStr := "/bedrock/bin/strat".toList
def BOUNCER_PATH : CStr := "/bedrock/libexec/bouncer".toList
def FONTS_DIR : CStr := "fonts.dir".toList
def FONTS_ALIAS : CStr := "fonts.alias".toList

/-- Tables `ini_exec_str` and `ini_exec_len`, row by row. -/
def ini_exec : List (CStr × Nat) :=
  [("TryExec=".toList, 8), ("ExecStart=".toList, 10), ("ExecStop=".toList, 9),
    ("ExecReload=".toList, 11), ("Exec=".toList, 5)]

/-! Mode bits of Linux `<sys/stat.h>`; `mode_t` is an unsigned 32-bit value. -/

def S_IFMT : Nat := 0o170000
def S_IFDIR : Nat := 0o040000
def S_IFREG : Nat := 0o100000
def S_ISUID : Nat := 0o4000
def S_ISGID : Nat := 0o2000
def S_ISVTX : Nat := 0o1000
def S_IWUSR : Nat := 0o200
def S_IWGRP : Nat := 0o020
def S_IWOTH : Nat := 0o002

def S_ISDIR (m : Nat) : Bool := m &&& S_IFMT == S_IFDIR
def S_ISREG (m : Nat) : Bool := m &&& S_IFMT == S_IFREG

/-- The statement `st_mode &= ~(S_ISUID | S_ISGID | S_ISVTX | S_IWUSR | S_IWGRP
| S_IWOTH)` on a 32-bit mode. -/
def clear_mode_bits (m : Nat) : Nat :=
  m &&& (0xFFFFFFFF ^^^ (S_ISUID ||| S_ISGID ||| S_ISVTX ||| S_IWUSR ||| S_IWGRP ||| S_IWOTH))

/-- Size of a pointer (`sizeof(buf)` for the parameter `char *buf`) on the
64-bit targets the filesystem is built for. -/
def SIZEOF_PTR : Nat := 8

/-- The libc `strncmp`: like `memcmp`, but the comparison also ends at a NUL
the two strings share. -/
def strncmp : CStr → CStr → Nat → Int
  | _, _, 0 => 0
  | a, b, n + 1 =>
    if cbyte a 0 ≠ cbyte b 0 then (cbyte a 0).toNat - (cbyte b 0).toNat
    else if cbyte a 0 = NUL then 0
    else strncmp a.tail b.tail n

/-- The libc `strcmp`. -/
def strcmp : CStr → CStr → Int
  | [], b => (NUL.toNat : Int) - (cbyte b 0).toNat
  | x :: a, b =>
    if x ≠ cbyte b 0 then (x.toNat : Int) - (cbyte b 0).toNat
    else if x = NUL then 0
    else strcmp a b.tail

/-- The libc `strchr` for a byte other than NUL: index of its first occurrence
before the terminator, `none` for `NULL`. -/
def strchr : CStr → Char → Option Nat
  | [], _ => none
  | x :: s, c =>
    if x = c then some 0
    else if x = NUL then none
    else (strchr s c).map (fun i => i + 1)

/-- The libc `strrchr` for a byte other than NUL: index of its last occurrence
before the terminator, `none` for `NULL`. -/
def strrchr : CStr → Char → Option Nat
  | [], _ => none
  | x :: s, c =>
    if x = NUL then none
    else
      match strrchr s c with
      | some i => some (i + 1)
      | none => if x = c then some 0 else none

/-- One call `fgets(line, n + 1, fp)` on the unread bytes of a stream: the
bytes stored in `line` before the terminator, and the bytes left unread. At
most `n` bytes are taken and reading stops after a newline. -/
def fgets_take : Nat → List Char → List Char × List Char
  | 0, s => ([], s)
  | _ + 1, [] => ([], [])
  | n + 1, c :: s =>
    if c = '\n' then ([c], s)
    else ((c :: (fgets_take n s).1), (fgets_take n s).2)

/-- The successive buffers of `while (fgets(line, sizeof(line), fp) != NULL)`
with `char line[PATH_MAX]`; `fgets` returns `NULL` once no byte is left. Every
call takes at least one byte, so `fuel` equal to the number of unread bytes
suffices. -/
def fgets_loop : Nat → List Char → List (List Char)
  | 0, _ => []
  | fuel + 1, s =>
    if s = [] then []
    else (fgets_take (PATH_MAX - 1) s).1 :: fgets_loop fuel (fgets_take (PATH_MAX - 1) s).2

def fgets_all (s : List Char) : List (List Char) := fgets_loop s.length s

/-- The result of `snprintf(buf, PATH_MAX, "%lu\n", n)` or `"%u\n"`: the
decimal digits of `n` and a newline (never truncated: at most 21 bytes). -/
def fmt_count (n : Nat) : CStr := Nat.toDigits 10 n ++ ['\n']

/-! ## `strcatoff` (lines 734-752) -/

/-- The variables `strcatoff` updates: `buf` holds the bytes of the caller's
buffer from its start to the end of the last copy, `offset` and `wrote` are
the two counters. -/
structure cat_state where
  buf : List Char
  offset : Nat
  wrote : Nat
  deriving DecidableEq, Repr

/-- Function `strcatoff`; `max - *wrote` is computed in `size_t`. -/
def strcatoff (st : cat_state) (str : CStr) (str_len : Nat) (max : Nat) : cat_state :=
  if st.offset ≥ str_len then { st with offset := st.offset - str_len }
  else
    let room := (max + 2 ^ 64 - st.wrote) % 2 ^ 64
    let len := if str_len - st.offset < room then str_len - st.offset else room
    ⟨st.buf.take st.wrote ++ mem_read str st.offset len, 0, st.wrote + len⟩

/-! ## Environment of the filters -/

/-- Outcome of `fchroot_fopen(root_fd, bpath, "r")`: a stream with the bytes
it will deliver, or `NULL` with the value left in `errno`. -/
inductive stream where
  | opened (bytes : List Char)
  | null (errno : Int)
  deriving DecidableEq, Repr

/-- What the filters obtain from outside: the scoped calls, `pread` (return
value and bytes stored), the outcome of the n-th `malloc` of a request, and
the globals `init_root_fd` and `bouncer_size`. -/
structure fs_env where
  stat : Int → CStr → sys_result × c_stat
  readlink : Int → CStr → sys_result
  open_ro : Int → CStr → sys_result
  fopen : Int → CStr → stream
  pread : Int → Nat → Int → Int × List Char
  malloc : Nat → Bool
  init_root_fd : Int
  bouncer_size : Int

/-! ## Font index merging (lines 502-532, 1015-1078) -/

/-- An element of the hash table (`struct h_kv`). -/
structure h_kv where
  key : CStr
  value : CStr
  deriving DecidableEq, Repr

/-- Body of the `while` loop of `font_merge_kv` up to the call of
`insert_h_kv`: `none` where the line is skipped with `continue`, otherwise the
`key_len` bytes at `line` and the string at `sep` after the `do` loop. -/
def font_split (line : List Char) : Option (CStr × CStr) :=
  if cbyte line 0 = '!' then none
  else
    match (match strchr line ' ' with
      | some i => some i
      | none => strchr line '\t') with
    | none => none
    | some sep =>
      some (line.take sep,
        cstr_of ((line.drop (sep + 1)).dropWhile (fun c => c = ' ' || c = '\t')))

/-- Function `insert_h_kv` with the key already cut to `key_len` bytes. The
table is the list of its elements in insertion order (the order `HASH_ITER`
follows); `n` counts the `malloc` calls made so far. -/
def insert_h_kv (malloc : Nat → Bool) (kvs : List h_kv) (n : Nat) (key value : CStr) :
    Int × List h_kv × Nat :=
  if kvs.any (fun e => e.key == key) then (0, kvs, n)
  else if ¬ malloc n then (-ENOMEM, kvs, n + 1)
  else if ¬ malloc (n + 1) then (-ENOMEM, kvs, n + 2)
  else (0, kvs ++ [⟨key, value⟩], n + 2)

/-- The `while` loop of `font_merge_kv` over the lines of one stream; the
accumulator is `rv`, the table and the `malloc` counter. -/
def font_merge_lines (malloc : Nat → Bool) :
    List (List Char) → Int × List h_kv × Nat → Int × List h_kv × Nat
  | [], acc => acc
  | line :: rest, acc =>
    match font_split line with
    | none => font_merge_lines malloc rest acc
    | some kv =>
      if (insert_h_kv malloc acc.2.1 acc.2.2 kv.1 kv.2).1 < 0 then
        insert_h_kv malloc acc.2.1 acc.2.2 kv.1 kv.2
      else font_merge_lines malloc rest (insert_h_kv malloc acc.2.1 acc.2.2 kv.1 kv.2)

/-- The `for` loop of `font_merge_kv` over the backing entries. -/
def font_merge_backs (env : fs_env) (cfg : cfg_entry) (ipath : CStr) (ipath_len : Nat) :
    List back_entry → Int × List h_kv × Nat → Int × List h_kv × Nat
  | [], acc => acc
  | b :: rest, acc =>
    match calc_bpath cfg b ipath ipath_len with
    | none => font_merge_backs env cfg ipath ipath_len rest acc
    | some bpath =>
      match env.fopen b.root_fd bpath with
      | .null _ => font_merge_backs env cfg ipath ipath_len rest acc
      | .opened bytes =>
        font_merge_backs env cfg ipath ipath_len rest
          (font_merge_lines env.malloc (fgets_all bytes) acc)

/-- Function `font_merge_kv`: its return value and the table it leaves. -/
def font_merge_kv (env : fs_env) (cfg : cfg_entry) (ipath : CStr) (ipath_len : Nat) :
    Int × List h_kv :=
  ((font_merge_backs env cfg ipath ipath_len cfg.back (-ENOENT, [], 0)).1,
    (font_merge_backs env cfg ipath ipath_len cfg.back (-ENOENT, [], 0)).2.1)

/-- Insertion of one element before the first element that does not compare
below it under `vstrcmp`. -/
def sort_insert (e : h_kv) : List h_kv → List h_kv
  | [] => [e]
  | x :: rest => if strcmp e.key x.key ≤ 0 then e :: x :: rest else x :: sort_insert e rest

/-- The uthash `HASH_SORT(kvs, vstrcmp)`: the elements reordered to ascend
under `vstrcmp`, elements that compare equal keeping their order. -/
def hash_sort : List h_kv → List h_kv
  | [] => []
  | e :: rest => sort_insert e (hash_sort rest)

/-- Whether the base name `slash + 1` of the path is the given name. -/
def base_is (ipath : CStr) (ipath_len slash : Nat) (name : CStr) : Bool :=
  pstrcmp (ipath.drop (slash + 1)) (ipath_len - slash - 1) name name.length == 0

/-! ## `getattr_back` (lines 1141-1272) -/

/-- The `for` loop over `ini_exec_str` in the ini branch of `getattr_back`,
on one line; `memcmp` runs on the bytes `fgets` stored (a line shorter than
the prefix differs from it at its terminator at the latest). -/
def ini_size_line (stratum_len : Nat) (line : List Char) : List (CStr × Nat) → Int → Int
  | [], sz => sz
  | p :: rest, sz =>
    if memcmp line p.1 p.2 ≠ 0 then ini_size_line stratum_len line rest sz
    else sz + STRAT_PATH.length + 1 + stratum_len + 1

/-- The ini branch of `getattr_back`. `loc_first_bpath` stores a location
whenever it returns a value that is not negative. -/
def getattr_ini (env : fs_env) (cfg : cfg_entry) (ipath : CStr) (ipath_len : Nat)
    (rv : Int) (stbuf : c_stat) (errno : Int) : Int × c_stat :=
  if ¬ S_ISREG stbuf.st_mode then (rv, stbuf)
  else
    let l := loc_first_bpath env.readlink cfg ipath ipath_len errno
    if l.1.rv < 0 then (-l.1.errno, stbuf)
    else
      match l.2 with
      | none => (l.1.rv, stbuf)
      | some loc =>
        match env.fopen loc.1.root_fd loc.2 with
        | .null e => (-e, stbuf)
        | .opened bytes =>
          let sz : Int := (fgets_all bytes).foldl
            (fun sz line => ini_size_line loc.1.stratum.length line ini_exec sz) stbuf.st_size
          (l.1.rv, { stbuf with st_size := sz })

/-- The font branch of `getattr_back`; `count` is the local that is
initialised to 0 and never assigned. -/
def getattr_font (env : fs_env) (cfg : cfg_entry) (ipath : CStr) (ipath_len : Nat)
    (rv : Int) (stbuf : c_stat) : Int × c_stat :=
  match strrchr ipath '/' with
  | none => (rv, stbuf)
  | some slash =>
    if ¬ base_is ipath ipath_len slash FONTS_DIR ∧ ¬ base_is ipath ipath_len slash FONTS_ALIAS
    then (rv, stbuf)
    else
      let m := font_merge_kv env cfg ipath ipath_len
      if m.1 < 0 then (m.1, stbuf)
      else
        let sz : Int := m.2.foldl
          (fun s kv => if m.1 = 0 then s + strlen kv.key + 1 + strlen kv.value else s) 0
        if base_is ipath ipath_len slash FONTS_DIR then
          let count : Nat := 0
          let wrote := (fmt_count count).length
          if wrote ≥ PATH_MAX then (-EINVAL, { stbuf with st_size := sz })
          else (m.1, { stbuf with st_size := sz + wrote })
        else (m.1, { stbuf with st_size := sz })

/-- Function `getattr_back`: the return value and the `struct stat` left in
`stbuf`. -/
def getattr_back (env : fs_env) (cfg : cfg_entry) (ipath : CStr) (ipath_len : Nat)
    (stbuf : c_stat) (errno : Int) : Int × c_stat :=
  let r := stat_first_bpath env.stat cfg ipath ipath_len stbuf errno
  if r.1.rv < 0 then (-r.1.errno, r.2)
  else
    let out : Int × c_stat :=
      match cfg.filter with
      | .FILTER_BIN =>
        if ¬ S_ISDIR r.2.st_mode then (r.1.rv, { r.2 with st_size := env.bouncer_size })
        else (r.1.rv, r.2)
      | .FILTER_INI => getattr_ini env cfg ipath ipath_len r.1.rv r.2 r.1.errno
      | .FILTER_FONT => getattr_font env cfg ipath ipath_len r.1.rv r.2
      | .FILTER_PASS => (r.1.rv, r.2)
    (out.1, { out.2 with st_mode := clear_mode_bits out.2.st_mode })

/-! ## `read_pass` and `read_back` (lines 1418-1586)

The value returned is paired with the bytes stored at the start of `buf`.
`rv = wrote` is taken as exact: `wrote` never exceeds the request size, which
the FUSE read interface keeps within `int`. -/

/-- Function `read_pass`. -/
def read_pass (env : fs_env) (cfg : cfg_entry) (ipath : CStr) (ipath_len : Nat)
    (size : Nat) (offset : Int) (errno : Int) : Int × List Char :=
  let o := open_first_bpath env.open_ro cfg ipath ipath_len errno
  if o.rv < 0 then (-o.errno, [])
  else env.pread o.rv size offset

/-- The `for` loop over `ini_exec_str` in the ini branch of `read_back`, on
one line, followed by the copy of an unmatched line. -/
def ini_cat_line (stratum : CStr) (size : Nat) (line : List Char) :
    List (CStr × Nat) → cat_state → cat_state
  | [], st => strcatoff st line (strlen line) size
  | p :: rest, st =>
    if strncmp line p.1 p.2 ≠ 0 then ini_cat_line stratum size line rest st
    else
      let s1 := strcatoff st p.1 p.2 size
      let s2 := strcatoff s1 STRAT_PATH STRAT_PATH.length size
      let s3 := strcatoff s2 " ".toList 1 size
      let s4 := strcatoff s3 stratum stratum.length size
      let s5 := strcatoff s4 " ".toList 1 size
      strcatoff s5 (line.drop p.2) (strlen (line.drop p.2)) size

/-- The `while` loop of the ini branch of `read_back`, left early once
`wrote >= size`. -/
def ini_read_loop (stratum : CStr) (size : Nat) : List (List Char) → cat_state → cat_state
  | [], st => st
  | line :: rest, st =>
    if (ini_cat_line stratum size line ini_exec st).wrote ≥ size then
      ini_cat_line stratum size line ini_exec st
    else ini_read_loop stratum size rest (ini_cat_line stratum size line ini_exec st)

/-- The ini branch of `read_back`. -/
def read_ini (env : fs_env) (cfg : cfg_entry) (ipath : CStr) (ipath_len : Nat)
    (size : Nat) (offset : Int) (errno : Int) : Int × List Char :=
  let l := loc_first_bpath env.readlink cfg ipath ipath_len errno
  if l.1.rv < 0 then (-l.1.errno, [])
  else
    match l.2 with
    | none => (l.1.rv, [])
    | some loc =>
      match env.fopen loc.1.root_fd loc.2 with
      | .null e => (-e, [])
      | .opened bytes =>
        if offset < 0 then (-EINVAL, [])
        else
          let st := ini_read_loop loc.1.stratum size (fgets_all bytes) ⟨[], offset.toNat, 0⟩
          ((st.wrote : Int), st.buf)

/-- The `HASH_ITER` loop of the font branch of `read_back`. -/
def font_emit (rv : Int) (size : Nat) : List h_kv → cat_state → cat_state
  | [], st => st
  | kv :: rest, st =>
    if rv ≥ 0 then
      font_emit rv size rest
        (strcatoff (strcatoff (strcatoff st kv.key (strlen kv.key) size) "\t".toList 1 size)
          kv.value (strlen kv.value) size)
    else font_emit rv size rest st

/-- The font branch of `read_back`; `off = offset` converts to `size_t`, and
`HASH_COUNT` is an `unsigned`. -/
def read_font (env : fs_env) (cfg : cfg_entry) (ipath : CStr) (ipath_len : Nat)
    (size : Nat) (offset : Int) (errno : Int) : Int × List Char :=
  match strrchr ipath '/' with
  | none => read_pass env cfg ipath ipath_len size offset errno
  | some slash =>
    if ¬ base_is ipath ipath_len slash FONTS_DIR ∧ ¬ base_is ipath ipath_len slash FONTS_ALIAS
    then read_pass env cfg ipath ipath_len size offset errno
    else
      let m := font_merge_kv env cfg ipath ipath_len
      if m.1 < 0 then (m.1, [])
      else
        let st0 : cat_state := ⟨[], (offset % 2 ^ 64).toNat, 0⟩
        if base_is ipath ipath_len slash FONTS_DIR then
          let count := fmt_count (m.2.length % 2 ^ 32)
          if count.length ≥ SIZEOF_PTR then (-EINVAL, [])
          else
            let st := font_emit m.1 size (hash_sort m.2) (strcatoff st0 count count.length size)
            ((st.wrote : Int), st.buf)
        else
          let st := font_emit m.1 size (hash_sort m.2) st0
          ((st.wrote : Int), st.buf)

/-- Function `read_back`. -/
def read_back (env : fs_env) (cfg : cfg_entry) (ipath : CStr) (ipath_len : Nat)
    (size : Nat) (offset : Int) (errno : Int) : Int × List Char :=
  match cfg.filter with
  | .FILTER_BIN =>
    let o := env.open_ro env.init_root_fd BOUNCER_PATH
    if o.rv < 0 then (-(errno_after errno o), [])
    else env.pread o.rv size offset
  | .FILTER_INI => read_ini env cfg ipath ipath_len size offset errno
  | .FILTER_FONT => read_font env cfg ipath ipath_len size offset errno
  | .FILTER_PASS => read_pass env cfg ipath ipath_len size offset errno

/-! ## Reference descriptions used in the statements on the filters -/

/-- The lines of a text: each runs up to and including a newline; a last line
may lack the newline. -/
def split_lines : List Char → List (List Char)
  | [] => []
  | c :: s =>
    if c = '\n' then [c] :: split_lines s
    else
      match split_lines s with
      | [] => [[c]]
      | l :: ls => (c :: l) :: ls

/-- The ini rewrite of one line as the specification words it: a line that
starts with one of the five prefixes gets the strat path, a blank, the stratum
and a blank inserted after the prefix; any other line is kept. -/
def ini_rewrite (stratum : CStr) (line : List Char) : List Char :=
  match (ini_exec.map (fun p => p.1)).find? (fun p => p.isPrefixOf line) with
  | some p => p ++ "/bedrock/bin/strat".toList ++ " ".toList ++ stratum ++ " ".toList
      ++ line.drop p.length
  | none => line

/-- A full sequential read: requests of `size` bytes at the offsets reached so
far, until a request returns nothing; the bytes received, in order. -/
def seq_read (rd : Int → Int × List Char) : Nat → Nat → List Char
  | 0, _ => []
  | fuel + 1, off =>
    if (rd off).1 ≤ 0 then []
    else (rd off).2 ++ seq_read rd fuel (off + (rd off).1.toNat)

/-! ## Sample environments for the filters -/

/-- An environment where every `stat` succeeds with `st`, `readlink` reports
that the path is no symbolic link, `fopen` is `files`, and no allocation
fails. -/
def ex_env (files : Int → CStr → stream) (st : c_stat) : fs_env :=
  ⟨fun _ _ => (⟨0, 0⟩, st), fun _ _ => ⟨-1, EINVAL⟩, fun _ _ => ⟨3, 0⟩, files,
    fun _ _ _ => (0, []), fun _ => true, 0, 0⟩

def ini_cfg : cfg_entry :=
  ⟨.FILTER_INI, "/applications".toList,
    [⟨"/usr/share/applications".toList, "strat-B".toList, 5⟩]⟩

def ini_files : Int → CStr → stream := fun _ p =>
  if p = "/usr/share/applications/vim.desktop".toList then
    .opened "Name=Vim\nExec=/usr/bin/vim %F\n".toList
  else .null ENOENT

def font_cfg : cfg_entry :=
  ⟨.FILTER_FONT, "/fonts".toList,
    [⟨"/u/a".toList, "strat-A".toList, 5⟩, ⟨"/u/b".toList, "strat-B".toList, 6⟩]⟩

/-- Streams that exist for descriptor 5 (text `a`) and descriptor 6 (text `b`)
under the given paths only. -/
def two_files (pa a pb b : String) : Int → CStr → stream := fun fd p =>
  if fd = 5 ∧ p = pa.toList then .opened a.toList
  else if fd = 6 ∧ p = pb.toList then .opened b.toList
  else .null ENOENT

/-- The state `strcatoff` reaches from `offset = o` and `wrote = 0` once the
strings passed to it concatenate to `S`, for a buffer of `max` bytes. -/
def cat_at (S : List Char) (o max : Nat) : cat_state :=
  if S.length ≤ o then ⟨[], o - S.length, 0⟩
  else ⟨(S.drop o).take max, 0, min max (S.length - o)⟩

/-- The bytes the ini branch of `read_back` passes to `strcatoff` for one
line, concatenated. -/
def ini_line_out (stratum : CStr) (line : List Char) : List (CStr × Nat) → List Char
  | [] => line.take (strlen line)
  | p :: rest =>
    if strncmp line p.1 p.2 ≠ 0 then ini_line_out stratum line rest
    else p.1.take p.2 ++ STRAT_PATH ++ " ".toList ++ stratum ++ " ".toList
      ++ (line.drop p.2).take (strlen (line.drop p.2))

/-- Whether a line starts with one of the five prefixes of `ini_exec_str`. -/
def ini_match (line : List Char) : Bool :=
  ini_exec.any (fun p => p.1.isPrefixOf line)

/-- The backing files of a font index in backing-entry order: the contents of
the streams that `font_merge_kv` gets to open. -/
def font_files (env : fs_env) (cfg : cfg_entry) (ipath : CStr) (ipath_len : Nat) :
    List back_entry → List (List Char)
  | [] => []
  | b :: rest =>
    match calc_bpath cfg b ipath ipath_len with
    | none => font_files env cfg ipath ipath_len rest
    | some bpath =>
      match env.fopen b.root_fd bpath with
      | .null _ => font_files env cfg ipath ipath_len rest
      | .opened bytes => bytes :: font_files env cfg ipath ipath_len rest

/-- The pairs parsed from the lines of the files, in file order and line
order. -/
def font_pairs : List (List Char) → List (CStr × CStr)
  | [] => []
  | f :: rest => (fgets_all f).filterMap font_split ++ font_pairs rest

/-- The pairs kept when each key takes the value of its first definition:
a pair is appended unless its key is present already. -/
def merge_pairs : List (CStr × CStr) → List h_kv → List h_kv
  | [], kvs => kvs
  | q :: rest, kvs =>
    if kvs.any (fun e => e.key == q.1) then merge_pairs rest kvs
    else merge_pairs rest (kvs ++ [⟨q.1, q.2⟩])

/-- The merged index of a font path, sorted. -/
def font_merged (env : fs_env) (cfg : cfg_entry) (ipath : CStr) : List h_kv :=
  hash_sort (merge_pairs (font_pairs (font_files env cfg ipath ipath.length cfg.back)) [])

/-- The text of a merged index: with `dir` the count line first, then one
entry `key TAB value` per pair. -/
def font_text (dir : Bool) (kvs : List h_kv) : List Char :=
  (if dir then fmt_count kvs.length else [])
    ++ (kvs.map (fun e => e.key ++ "\t".toList ++ e.value)).flatten

/-! ## Directory listing (lines 476-497, 596-635, 717-735, 1083-1139, 1311-1367) -/

def CFG_NAME : CStr := ".config-filesystem".toList
def STRATUM_XATTR : CStr := "user.bedrock.stratum".toList
def LPATH_XATTR : CStr := "user.bedrock.localpath".toList
def VIRTUAL_STRATUM : CStr := "virtual".toList
def VIRTUAL_LPATH : CStr := "/".toList

def ERANGE : Int := 34
def ENOTSUP : Int := 95

/-- The operator `|` on two `int` values (32-bit two's complement), as used by
`rv |= ...`. -/
def int_or (a b : Int) : Int :=
  let u : Nat := (a % 2 ^ 32).toNat ||| (b % 2 ^ 32).toNat
  if u < 2 ^ 31 then (u : Int) else (u : Int) - 2 ^ 32

/-- Function `insert_h_str` with the string already cut to `str_len` bytes.
The table is the list of its strings in insertion order (the order
`HASH_ITER` follows); `n` counts the `malloc` calls made so far. -/
def insert_h_str (malloc : Nat → Bool) (files : List CStr) (n : Nat) (str : CStr) :
    Int × List CStr × Nat :=
  if files.any (fun e => e == str) then (0, files, n)
  else if ¬ malloc n then (-ENOMEM, files, n + 1)
  else (0, files ++ [str], n + 1)

/-- The statement `rv |= insert_h_str(&files, str, len)` on the accumulator
`(rv, files, n)`. -/
def or_insert (malloc : Nat → Bool) (acc : Int × List CStr × Nat) (str : CStr) :
    Int × List CStr × Nat :=
  (int_or acc.1 (insert_h_str malloc acc.2.1 acc.2.2 str).1,
    (insert_h_str malloc acc.2.1 acc.2.2 str).2)

/-- Index of the first occurrence of a byte in a list of bytes. -/
def find_byte (c : Char) : List Char → Option Nat
  | [] => none
  | x :: r => if x = c then some 0 else (find_byte c r).map (fun i => i + 1)

/-- The libc `memchr(s + off, c, n)`: the index, counted from `s`, of the
first `c` among the `n` bytes at `s + off`; `none` for `NULL`. -/
def memchr (s : CStr) (off n : Nat) (c : Char) : Option Nat :=
  (find_byte c (mem_read s off n)).map (fun i => i + off)

/-- The inner loop of `virt_filldir` over the backing entries of a direct
child: the name is inserted at the first backing entry whose `fchroot_stat`
does not fail, and the loop is left. -/
def virt_fill_backs (env : fs_env) (name : CStr) :
    List back_entry → Int × List CStr × Nat → Int × List CStr × Nat
  | [], acc => acc
  | b :: rest, acc =>
    if (env.stat b.root_fd b.lpath).1.rv ≥ 0 then or_insert env.malloc acc name
    else virt_fill_backs env name rest acc

/-- Body of the outer loop of `virt_filldir` for one configured entry. In the
grandchild branch `memcpy` copies `slash - cpath` bytes from
`cpath + ipath_len + 1` (bytes past the end of `cpath` read as NUL here) and
the first `len` of them are the name. -/
def virt_fill_entry (env : fs_env) (ipath : CStr) (ipath_len : Nat) (c : cfg_entry)
    (acc : Int × List CStr × Nat) : Int × List CStr × Nat :=
  if is_parent ipath ipath_len c.cpath c.cpath.length = 0 then acc
  else
    match memchr c.cpath (ipath_len + 1) (c.cpath.length - ipath_len - 1) '/' with
    | some slash =>
      if slash + 1 > PATH_MAX then acc
      else
        or_insert env.malloc acc
          ((mem_read c.cpath (ipath_len + 1) slash).take (slash - ipath_len - 1))
    | none =>
      virt_fill_backs env
        ((c.cpath.drop (ipath_len + 1)).take (strlen (c.cpath.drop (ipath_len + 1))))
        c.back acc

/-- Function `virt_filldir` continuing from the accumulator `(rv, files, n)`;
`rv` starts at 0 and is combined with the caller's afterwards. -/
def virt_filldir (env : fs_env) (cfgs : List cfg_entry) (ipath : CStr) (ipath_len : Nat)
    (acc : Int × List CStr × Nat) : Int × List CStr × Nat :=
  cfgs.foldl (fun a c => virt_fill_entry env ipath ipath_len c a) acc

/-- Outcome of opening and reading a directory in `fchroot_filldir`: the
names `readdir` delivers whose `stat` succeeds, or the `errno` left when
`chdir` or `opendir` fails. -/
inductive dir_result where
  | entries (names : List CStr)
  | failed (errno : Int)
  deriving DecidableEq, Repr

/-- Function `fchroot_filldir` continuing from the table in `acc`: each name
not yet present is inserted; a directory that cannot be opened gives `-errno`
unless `errno` is `ENOENT`. -/
def fchroot_filldir (env : fs_env) (listdir : Int → CStr → dir_result) (root_fd : Int)
    (bpath : CStr) (acc : Int × List CStr × Nat) : Int × List CStr × Nat :=
  match listdir root_fd bpath with
  | .entries names => names.foldl (fun a name => or_insert env.malloc a name) (0, acc.2)
  | .failed errno => if errno ≠ ENOENT then (-errno, acc.2) else (0, acc.2)

/-- Function `filldir_all_bpath` continuing from the table in `acc`. -/
def filldir_all_bpath (env : fs_env) (listdir : Int → CStr → dir_result)
    (cfg : cfg_entry) (ipath : CStr) (ipath_len : Nat) :
    List back_entry → Int × List CStr × Nat → Int × List CStr × Nat
  | [], acc => acc
  | b :: rest, acc =>
    match calc_bpath cfg b ipath ipath_len with
    | none => filldir_all_bpath env listdir cfg ipath ipath_len rest acc
    | some bpath =>
      filldir_all_bpath env listdir cfg ipath ipath_len rest
        (int_or acc.1 (fchroot_filldir env listdir b.root_fd bpath acc).1,
          (fchroot_filldir env listdir b.root_fd bpath acc).2)

/-- Function `m_readdir`: the return value and the names passed to `filler`,
in order. The table handed to the helpers already holds `.` (once that
insertion succeeded), so their insertions reach the caller's table. -/
def m_readdir (env : fs_env) (listdir : Int → CStr → dir_result) (st : cfg_state)
    (ipath : CStr) : Int × List CStr :=
  let a0 := or_insert env.malloc (or_insert env.malloc (0, [], 0) ".".toList) "..".toList
  let out : Int × List CStr × Nat :=
    match classify_ipath st.cfgs ipath ipath.length with
    | (.CLASS_BACK, some c) =>
      (int_or a0.1 (filldir_all_bpath env listdir c ipath ipath.length c.back (0, a0.2)).1,
        (filldir_all_bpath env listdir c ipath ipath.length c.back (0, a0.2)).2)
    | (.CLASS_BACK, none) => (-ENOENT, a0.2)
    | (.CLASS_ROOT, _) =>
      (int_or (or_insert env.malloc a0 CFG_NAME).1
          (virt_filldir env st.cfgs ipath 0 (0, (or_insert env.malloc a0 CFG_NAME).2)).1,
        (virt_filldir env st.cfgs ipath 0 (0, (or_insert env.malloc a0 CFG_NAME).2)).2)
    | (.CLASS_VDIR, _) =>
      (int_or a0.1 (virt_filldir env st.cfgs ipath ipath.length (0, a0.2)).1,
        (virt_filldir env st.cfgs ipath ipath.length (0, a0.2)).2)
    | (.CLASS_CFG, _) => (-ENOENT, a0.2)
    | (.CLASS_ENOENT, _) => (-ENOENT, a0.2)
  (out.1, if out.1 = 0 then out.2.1 else [])

/-! ## Entry points `m_getattr`, `m_open`, `m_getxattr` -/

/-- Function `m_getattr` (lines 1274-1309); `vdir_stat` is the global of that
name and `cfg_mode` the mode of the global `cfg_stat`, whose size is the
cached size of the table. -/
def m_getattr (env : fs_env) (vdir_stat : c_stat) (cfg_mode : Nat) (st : cfg_state)
    (ipath : CStr) (stbuf : c_stat) (errno : Int) : Int × c_stat :=
  match classify_ipath st.cfgs ipath ipath.length with
  | (.CLASS_BACK, some c) => getattr_back env c ipath ipath.length stbuf errno
  | (.CLASS_BACK, none) => (-ENOENT, stbuf)
  | (.CLASS_VDIR, _) => (0, vdir_stat)
  | (.CLASS_ROOT, _) => (0, vdir_stat)
  | (.CLASS_CFG, _) => (0, ⟨cfg_mode, (st.st_size : Int)⟩)
  | (.CLASS_ENOENT, _) => (-ENOENT, stbuf)

/-- Function `m_open` (lines 1369-1416); `open_probe flags` is `fchroot_open`
with the caller's flags, and `O_RDONLY` is 0. -/
def m_open (open_probe : Nat → Int → CStr → sys_result) (st : cfg_state) (uid : Nat)
    (ipath : CStr) (flags : Nat) (errno : Int) : Int :=
  match classify_ipath st.cfgs ipath ipath.length with
  | (.CLASS_BACK, some c) =>
    if (open_first_bpath (open_probe flags) c ipath ipath.length errno).rv < 0 then
      -(open_first_bpath (open_probe flags) c ipath ipath.length errno).errno
    else if flags &&& 3 ≠ 0 then -EROFS
    else 0
  | (.CLASS_BACK, none) => -ENOENT
  | (.CLASS_VDIR, _) => 0
  | (.CLASS_ROOT, _) => 0
  | (.CLASS_CFG, _) => if uid ≠ 0 then -EACCES else 0
  | (.CLASS_ENOENT, _) => -ENOENT

/-- The tail of `m_getxattr` (lines 1723-1737): the return value and the
bytes stored in `value` for a target selected with `rv >= 0`. -/
def xattr_reply (target : CStr) (target_len : Nat) (size : Nat) : Int × List Char :=
  if size = 0 then (((target_len + 1 : Nat) : Int), [])
  else if size < target_len + 1 then (-ERANGE, [])
  else (((target_len + 1 : Nat) : Int), mem_read target 0 (target_len + 1))

/-- Function `m_getxattr` (lines 1660-1741): the return value and the bytes
stored in `value`. -/
def m_getxattr (env : fs_env) (st : cfg_state) (ipath name : CStr) (size : Nat)
    (errno : Int) : Int × List Char :=
  match classify_ipath st.cfgs ipath ipath.length with
  | (.CLASS_BACK, some c) =>
    if pstrcmp name name.length STRATUM_XATTR STRATUM_XATTR.length = 0 then
      match loc_first_bpath env.readlink c ipath ipath.length errno with
      | (r, some loc) =>
        if r.rv ≥ 0 then xattr_reply loc.1.stratum loc.1.stratum.length size else (r.rv, [])
      | (r, none) => (r.rv, [])
    else if pstrcmp name name.length LPATH_XATTR LPATH_XATTR.length = 0 then
      match loc_first_bpath env.readlink c ipath ipath.length errno with
      | (r, some loc) =>
        if r.rv ≥ 0 then xattr_reply loc.2 (strlen loc.2) size else (r.rv, [])
      | (r, none) => (r.rv, [])
    else (-ENOTSUP, [])
  | (.CLASS_BACK, none) => (-ENOENT, [])
  | (.CLASS_ENOENT, _) => (-ENOENT, [])
  | _ =>
    if pstrcmp name name.length STRATUM_XATTR STRATUM_XATTR.length = 0 then
      xattr_reply VIRTUAL_STRATUM VIRTUAL_STRATUM.length size
    else if pstrcmp name name.length LPATH_XATTR LPATH_XATTR.length = 0 then
      xattr_reply VIRTUAL_LPATH VIRTUAL_LPATH.length size
    else (-ENOTSUP, [])

/-! ## The routing-table lock -/

/-- Calls on `cfg_lock`. -/
inductive lock_op where
  | rdlock
  | wrlock
  | unlock
  deriving DecidableEq, Repr

/-- The control flow of an entry point, as far as `cfg_lock` is concerned.
`other` is a statement or call that neither touches `cfg_lock` nor leaves the
function (the twelve calls on `cfg_lock` outside `main` are lines 1281, 1307,
1320, 1365, 1373, 1414, 1595, 1625, 1637, 1656, 1665 and 1739); its text is
documentation. `arm body next` is a `case` label with the statements up to the
next label, followed by the later arms of the same `switch`. -/
inductive stmt where
  | skip
  | other (what : String)
  | lock (op : lock_op)
  | brk
  | ret
  | seq (a b : stmt)
  | ite (thn els : stmt)
  | arm (body next : stmt)
  | switch (arms : stmt)
  | loop (body : stmt)
  deriving DecidableEq, Repr

/-- How a run through a statement ends: it falls through to the next
statement, executes `break`, or executes `return`. -/
inductive flow_end where
  | fell
  | broke
  | returned
  deriving DecidableEq, Repr

/-- Runs `ps` followed, where they fall through, by runs `qs`. -/
def then_paths (ps qs : List (List lock_op × flow_end)) : List (List lock_op × flow_end) :=
  ps.flatMap (fun p => if p.2 = .fell then qs.map (fun q => (p.1 ++ q.1, q.2)) else [p])

/-- A `break` ends the enclosing `switch` or loop, after which control falls
through. -/
def leave (p : List lock_op × flow_end) : List lock_op × flow_end :=
  if p.2 = .broke then (p.1, .fell) else p

/-- Every run through a statement: its calls on `cfg_lock`, in order, and how
it ends. The second component lists, for a chain of `arm`s, the runs that
enter at each label: the body of that arm and, unless it breaks or returns,
the arms after it. A loop is followed for no and for one iteration; further
iterations repeat the calls of one. -/
def sem : stmt → List (List lock_op × flow_end) × List (List lock_op × flow_end)
  | .skip => ([([], .fell)], [])
  | .other _ => ([([], .fell)], [])
  | .lock op => ([([op], .fell)], [])
  | .brk => ([([], .broke)], [])
  | .ret => ([([], .returned)], [])
  | .seq a b => (then_paths (sem a).1 (sem b).1, [])
  | .ite a b => ((sem a).1 ++ (sem b).1, [])
  | .arm body next =>
    (then_paths (sem body).1 (sem next).1, then_paths (sem body).1 (sem next).1 ++ (sem next).2)
  | .switch arms => (((sem arms).2).map leave, [])
  | .loop body => (([], .fell) :: ((sem body).1).map leave, [])

/-- Every run through the body of a function. -/
def paths (s : stmt) : List (List lock_op × flow_end) := (sem s).1

/-- Statements in sequence. -/
def block (ss : List stmt) : stmt := ss.foldr stmt.seq .skip

/-- The arms of a `switch`, in source order. -/
def arms (bodies : List (List stmt)) : stmt :=
  .switch (bodies.foldr (fun b r => stmt.arm (block b) r) .skip)

/-- A function body that returns from inside a branch while it holds the
lock: the shape the entry points must not have. -/
def early_return_flow : stmt :=
  block [.lock .rdlock, .ite (block [.other "rv = -ENOENT", .ret]) (.other "rv = 0"),
    .lock .unlock, .ret]

/-- Successive calls of `strcatoff`, one per string with its length. -/
def cat_all (max : Nat) (strs : List CStr) (st : cat_state) : cat_state :=
  strs.foldl (fun a s => strcatoff a s s.length max) st

/-- A directory oracle under which no backing directory exists. -/
def nodir : Int → CStr → dir_result := fun _ _ => .failed ENOENT

/-- An environment without regular files in which every `stat` finds a
directory. -/
def dir_env : fs_env := ex_env (fun _ _ => .null ENOENT) ⟨0o40755, 0⟩

/-- What the dump shows of an entry: its filter, its path and the
(stratum, lpath) pairs of its backing entries, in order. -/
def entry_view (e : cfg_entry) : filter × CStr × List (CStr × CStr) :=
  (e.filter, e.cpath, e.back.map (fun b => (b.stratum, b.lpath)))

/-- The replay of a table: one uid-0 write to the control file per canonical
line of its dump, in dump order. -/
def replay_writes (env : add_env) (cfgs : List cfg_entry) : List write_req :=
  (dump_lines cfgs).map (root_write env)

/-- The strings of the table have the shape `cfg_add` admits: paths are
tokens starting with a slash, strata are labels. -/
def fields_ok (cfgs : List cfg_entry) : Prop :=
  ∀ e : cfg_entry, e ∈ cfgs → is_token e.cpath ∧ e.cpath.head? = some '/' ∧
    ∀ b : back_entry, b ∈ e.back →
      is_label b.stratum ∧ is_token b.lpath ∧ b.lpath.head? = some '/'

/-- Invariant of the tables reached by writes that all succeed: distinct
paths and pairs, admitted strings, and no entry without a backing entry. -/
def replayable (cfgs : List cfg_entry) : Prop :=
  table_inv cfgs ∧ fields_ok cfgs ∧ ∀ e : cfg_entry, e ∈ cfgs → e.back ≠ []

/-- No allocation fails and every stratum root opens. -/
def env_good (env : add_env) : Prop :=
  env.malloc_cpath = true ∧ env.realloc_cfgs = true ∧ env.malloc_lpath = true ∧
    env.malloc_stratum = true ∧ env.realloc_back = true ∧ ∀ s : CStr, 0 ≤ env.open_root s

/-- A local path of 4081 bytes: a slash and 4080 times `c`. -/
def long_lpath : CStr := '/' :: List.replicate 4080 'c'

/-- Two accepted writes for one path: `add font /a s:/b` and, with 4095 bytes,
`add bin /a t:` followed by `long_lpath`. -/
def long_writes : List write_req :=
  [root_write env_ok "add font /a s:/b\n".toList,
    root_write env_ok (add_line .FILTER_BIN "/a".toList "t".toList long_lpath)]

/-- The table `long_writes` leaves: the entry keeps the filter of its first
line. -/
def long_table : List cfg_entry :=
  [⟨.FILTER_FONT, "/a".toList, [⟨"/b".toList, "s".toList, 3⟩, ⟨long_lpath, "t".toList, 3⟩]⟩]

/-- First loop of `classify_ipath` (lines 401-407) once more, returning the
index `i` of the entry whose address `&cfgs[i]` is stored through `cfg`. -/
def classify_back_index (ipath : CStr) (ipath_len : Nat) : List cfg_entry → Option Nat
  | [] => none
  | c :: rest =>
    if is_equal_or_parent c.cpath c.cpath.length ipath ipath_len ≠ 0 then some 0
    else (classify_back_index ipath ipath_len rest).map (fun i => i + 1)

/-- A table whose second entry lies beneath its first. -/
def shadow_table : List cfg_entry :=
  [⟨.FILTER_PASS, "/a".toList, [⟨"/x".toList, "s".toList, 3⟩]⟩,
    ⟨.FILTER_BIN, "/a/b".toList, [⟨"/y".toList, "t".toList, 4⟩]⟩]

/-- The descriptor lines 926-944 of `cfg_add` settle on for a stratum: the
one of the last backing entry of the table naming the stratum, or else the
return value of the open of the stratum root. -/
def root_fd_for (env : add_env) (stratum : CStr) (cfgs : List cfg_entry) : Int :=
  if find_root_fd stratum cfgs (-1) < 0 then env.open_root stratum
  else find_root_fd stratum cfgs (-1)

/-! ## Lemmas on the byte-level helpers -/

theorem cbyte_nil (i : Nat) : cbyte [] i = NUL := by
  simp [cbyte]

theorem cbyte_cons_zero (x : Char) (s : CStr) : cbyte (x :: s) 0 = x := by
  simp [cbyte]

theorem cbyte_cons_succ (x : Char) (s : CStr) (i : Nat) : cbyte (x :: s) (i + 1) = cbyte s i := by
  simp [cbyte]

theorem cbyte_of_le (s : CStr) (i : Nat) (h : s.length ≤ i) : cbyte s i = NUL := by
  simp [cbyte, List.getD_eq_getElem?_getD, List.getElem?_eq_none h]

theorem cbyte_of_lt (s : CStr) (i : Nat) (h : i < s.length) : s[i]? = some (cbyte s i) := by
  simp [cbyte, List.getD_eq_getElem?_getD, List.getElem?_eq_getElem h]

theorem cbyte_mem (s : CStr) (i : Nat) (h : i < s.length) : cbyte s i ∈ s := by
  have h1 := cbyte_of_lt s i h
  rw [List.getElem?_eq_getElem h] at h1
  have h2 : s[i] = cbyte s i := Option.some.inj h1
  rw [← h2]
  exact List.getElem_mem h

theorem cbyte_eq_iff (s : CStr) (i : Nat) (c : Char) (hc : c ≠ NUL) :
    cbyte s i = c ↔ s[i]? = some c := by
  by_cases h : i < s.length
  · rw [cbyte_of_lt s i h]; simp
  · have h1 : s.length ≤ i := Nat.le_of_not_lt h
    rw [cbyte_of_le s i h1, List.getElem?_eq_none h1]
    constructor
    · intro e; exact absurd e.symm hc
    · intro e; cases e

theorem char_sub_ne_zero (x y : Char) (h : x ≠ y) : ((x.toNat : Int) - (y.toNat : Int)) ≠ 0 := by
  intro e
  apply h
  apply Char.ext
  have h1 : x.toNat = y.toNat := by omega
  have h2 : x.val.toNat = y.val.toNat := h1
  cases hx : x.val with
  | mk vx =>
    cases hy : y.val with
    | mk vy =>
      rw [hx, hy] at h2
      have h3 : vx.toNat = vy.toNat := h2
      have h4 : vx = vy := BitVec.eq_of_toNat_eq h3
      rw [h4]

theorem memcmp_prefix (a : CStr) : ∀ b : CStr, a.length ≤ b.length →
    (memcmp b a a.length = 0 ↔ a <+: b) := by
  induction a with
  | nil => intro b _; simp [memcmp]
  | cons x a ih =>
    intro b hb
    cases b with
    | nil => simp at hb
    | cons y b =>
      have hb1 : a.length ≤ b.length := by simpa using hb
      simp only [List.length_cons, memcmp, cbyte_cons_zero, List.tail_cons, List.cons_prefix_cons]
      by_cases hxy : y = x
      · subst hxy
        simp [ih b hb1]
      · have hne := char_sub_ne_zero y x hxy
        have hxy1 : ¬ x = y := fun e => hxy e.symm
        simp [hxy, hxy1, hne]

theorem pstrcmp_eq_zero_iff (a b : CStr) : pstrcmp a a.length b b.length = 0 ↔ a = b := by
  unfold pstrcmp
  by_cases hl : a.length = b.length
  · have h1 : memcmp a b a.length = 0 ↔ b <+: a := by
      have := memcmp_prefix b a (Nat.le_of_eq hl.symm)
      rw [hl]; exact this
    simp only [hl, ne_eq, not_true_eq_false, if_false]
    rw [← hl, h1]
    constructor
    · intro h; exact (h.eq_of_length hl.symm).symm
    · intro h; subst h; exact List.prefix_refl _
  · simp only [ne_eq, hl, not_false_eq_true, if_true]
    constructor
    · intro h; exact absurd h (by decide)
    · intro h; subst h; exact absurd rfl hl

theorem is_parent_ne_zero_iff (a b : CStr) :
    is_parent a a.length b b.length ≠ 0 ↔ (a <+: b ∧ a ≠ b ∧ b[a.length]? = some '/') := by
  unfold is_parent
  by_cases h1 : a.length ≥ b.length
  · simp only [h1, if_true, ne_eq, not_true_eq_false, false_iff]
    rintro ⟨hp, hne, _⟩
    exact hne (hp.eq_of_length (Nat.le_antisymm hp.length_le h1))
  · have h1a : a.length < b.length := Nat.lt_of_not_le h1
    simp only [h1, if_false]
    have hsl : cbyte b a.length = '/' ↔ b[a.length]? = some '/' :=
      cbyte_eq_iff b a.length '/' (by decide)
    by_cases h2 : cbyte b a.length = '/'
    · have hm := memcmp_prefix a b (Nat.le_of_lt h1a)
      have hne : a ≠ b := fun e => by rw [e] at h1a; exact Nat.lt_irrefl _ h1a
      by_cases h3 : memcmp b a a.length = 0
      · simp [h2, h3, hm.mp h3, hne, hsl.mp h2]
      · have : ¬ a <+: b := fun hp => h3 (hm.mpr hp)
        simp [h2, h3, this]
    · have : ¬ b[a.length]? = some '/' := fun e => h2 (hsl.mpr e)
      simp [h2, this]

theorem is_equal_or_parent_ne_zero_iff (a b : CStr) (hb : NUL ∉ b) :
    is_equal_or_parent a a.length b b.length ≠ 0 ↔
      (a = b ∨ (a <+: b ∧ b[a.length]? = some '/')) := by
  unfold is_equal_or_parent
  by_cases h1 : a.length > b.length
  · simp only [h1, if_true, ne_eq, not_true_eq_false, false_iff]
    rintro (e | ⟨hp, _⟩)
    · rw [e] at h1; exact Nat.lt_irrefl _ h1
    · exact absurd hp.length_le (Nat.not_le_of_gt h1)
  · have h1a : a.length ≤ b.length := Nat.le_of_not_lt h1
    simp only [h1, if_false]
    have hsl : cbyte b a.length = '/' ↔ b[a.length]? = some '/' :=
      cbyte_eq_iff b a.length '/' (by decide)
    have hm := memcmp_prefix a b h1a
    have hnul : cbyte b a.length = NUL ↔ a.length = b.length := by
      constructor
      · intro e
        by_contra hne
        have hlt : a.length < b.length := Nat.lt_of_le_of_ne h1a hne
        have := cbyte_mem b a.length hlt
        rw [e] at this
        exact hb this
      · intro e; exact cbyte_of_le b a.length (Nat.le_of_eq e.symm)
    by_cases h3 : memcmp b a a.length = 0
    · have hp := hm.mp h3
      by_cases h2 : cbyte b a.length = NUL
      · have e : a = b := hp.eq_of_length (hnul.mp h2)
        simp [h2, h3]
        exact Or.inl e
      · by_cases h4 : cbyte b a.length = '/'
        · simp [h4, h3, hp, hsl.mp h4]
        · have hne : a ≠ b := fun e => h2 (hnul.mpr (by rw [e]))
          have : ¬ b[a.length]? = some '/' := fun e => h4 (hsl.mpr e)
          simp [h2, h4, hne, this]
    · have hnp : ¬ a <+: b := fun hp => h3 (hm.mpr hp)
      have hne : a ≠ b := fun e => hnp (by rw [e])
      by_cases h5 : cbyte b a.length ≠ NUL ∧ cbyte b a.length ≠ '/'
      · simp [h5, h3, hnp, hne]
      · simp [h5, h3, hnp, hne]

/-! ## Path predicates and classifier: specification -/

/-- C2: on strings taken with their true lengths, `is_equal_or_parent a b` is
non-zero exactly when `a = b` or `a` is a prefix of `b` followed in `b` by a
slash, and `is_parent a b` is non-zero exactly when `a` is a strict prefix of
`b` followed in `b` by a slash; the six examples of the documentation comment
of `is_parent` hold. -/
theorem path_predicates_spec (a b : CStr) (hb : NUL ∉ b) :
    (is_equal_or_parent a a.length b b.length ≠ 0 ↔
      (a = b ∨ (a <+: b ∧ b[a.length]? = some '/'))) ∧
    (is_parent a a.length b b.length ≠ 0 ↔
      (a <+: b ∧ a ≠ b ∧ b[a.length]? = some '/')) ∧
    is_parent "/proc".toList 5 "/proc".toList 5 = 0 ∧
    is_parent "/proc".toList 5 "/proc/1".toList 7 ≠ 0 ∧
    is_parent "/proc".toList 5 "/proc/1/root".toList 12 ≠ 0 ∧
    is_parent "/proc".toList 5 "/".toList 1 = 0 ∧
    is_parent "/proc".toList 5 "/dev".toList 4 = 0 ∧
    is_parent "/proc".toList 5 "/dev/shm".toList 8 = 0 :=
  ⟨is_equal_or_parent_ne_zero_iff a b hb, is_parent_ne_zero_iff a b,
    by decide, by decide, by decide, by decide, by decide, by decide⟩

theorem path_predicates_spec_witness :
    NUL ∉ "/bin/vi".toList ∧
    (is_equal_or_parent "/bin".toList 4 "/bin/vi".toList 7 ≠ 0 ↔
      ("/bin".toList = "/bin/vi".toList ∨
        ("/bin".toList <+: "/bin/vi".toList ∧ "/bin/vi".toList[4]? = some '/'))) :=
  ⟨by decide, (path_predicates_spec "/bin".toList "/bin/vi".toList (by decide)).1⟩

theorem classify_back_some_iff (P : CStr) (n : Nat) (cfgs : List cfg_entry) (E : cfg_entry) :
    classify_back P n cfgs = some E ↔
      ∃ i : Nat, cfgs[i]? = some E ∧ is_equal_or_parent E.cpath E.cpath.length P n ≠ 0 ∧
        ∀ j : Nat, j < i → ∀ E1 : cfg_entry, cfgs[j]? = some E1 →
          is_equal_or_parent E1.cpath E1.cpath.length P n = 0 := by
  induction cfgs with
  | nil => simp [classify_back]
  | cons c rest ih =>
    unfold classify_back
    by_cases hc : is_equal_or_parent c.cpath c.cpath.length P n ≠ 0
    · rw [if_pos hc]
      constructor
      · intro h
        have hcE : c = E := Option.some.inj h
        subst hcE
        exact ⟨0, by simp, hc, fun j hj => absurd hj (Nat.not_lt_zero j)⟩
      · rintro ⟨i, hi, _, hfirst⟩
        cases i with
        | zero => simpa using hi
        | succ k =>
          have := hfirst 0 (Nat.succ_pos k) c (by simp)
          exact absurd this hc
    · rw [if_neg hc, ih]
      have hc0 : is_equal_or_parent c.cpath c.cpath.length P n = 0 := by
        by_contra h; exact hc h
      constructor
      · rintro ⟨i, hi, hE, hfirst⟩
        refine ⟨i + 1, by simpa using hi, hE, ?_⟩
        intro j hj E1 hE1
        cases j with
        | zero =>
          have : c = E1 := by simpa using hE1
          rw [← this]; exact hc0
        | succ k =>
          exact hfirst k (Nat.lt_of_succ_lt_succ hj) E1 (by simpa using hE1)
      · rintro ⟨i, hi, hE, hfirst⟩
        cases i with
        | zero =>
          have : c = E := by simpa using hi
          rw [this] at hc
          exact absurd hE hc
        | succ k =>
          refine ⟨k, by simpa using hi, hE, ?_⟩
          intro j hj E1 hE1
          exact hfirst (j + 1) (Nat.succ_lt_succ hj) E1 (by simpa using hE1)

theorem classify_back_none_iff (P : CStr) (n : Nat) (cfgs : List cfg_entry) :
    classify_back P n cfgs = none ↔
      ∀ E ∈ cfgs, is_equal_or_parent E.cpath E.cpath.length P n = 0 := by
  induction cfgs with
  | nil => simp [classify_back]
  | cons c rest ih =>
    unfold classify_back
    by_cases hc : is_equal_or_parent c.cpath c.cpath.length P n ≠ 0
    · rw [if_pos hc]
      constructor
      · intro h; cases h
      · intro h; exact absurd (h c (List.mem_cons_self _ _)) hc
    · have hc0 : is_equal_or_parent c.cpath c.cpath.length P n = 0 := by
        by_contra h; exact hc h
      rw [if_neg hc, ih]
      simp only [List.mem_cons, forall_eq_or_imp, hc0, true_and]

theorem classify_vdir_none_iff (P : CStr) (n : Nat) (cfgs : List cfg_entry) :
    classify_vdir P n cfgs = none ↔
      ∀ E ∈ cfgs, is_parent P n E.cpath E.cpath.length = 0 := by
  induction cfgs with
  | nil => simp [classify_vdir]
  | cons c rest ih =>
    unfold classify_vdir
    by_cases hc : is_parent P n c.cpath c.cpath.length ≠ 0
    · rw [if_pos hc]
      constructor
      · intro h; cases h
      · intro h; exact absurd (h c (List.mem_cons_self _ _)) hc
    · have hc0 : is_parent P n c.cpath c.cpath.length = 0 := by
        by_contra h; exact hc h
      rw [if_neg hc, ih]
      simp only [List.mem_cons, forall_eq_or_imp, hc0, true_and]

theorem classify_vdir_mem (P : CStr) (n : Nat) (cfgs : List cfg_entry) (E : cfg_entry)
    (h : classify_vdir P n cfgs = some E) :
    E ∈ cfgs ∧ is_parent P n E.cpath E.cpath.length ≠ 0 := by
  induction cfgs with
  | nil => simp [classify_vdir] at h
  | cons c rest ih =>
    unfold classify_vdir at h
    by_cases hc : is_parent P n c.cpath c.cpath.length ≠ 0
    · rw [if_pos hc] at h
      have : c = E := Option.some.inj h
      subst this
      exact ⟨List.mem_cons_self _ _, hc⟩
    · rw [if_neg hc] at h
      exact ⟨List.mem_cons_of_mem _ (ih h).1, (ih h).2⟩

theorem some_backs_iff (cfgs : List cfg_entry) (P : CStr) :
    some_backs cfgs P ↔ classify_back P P.length cfgs ≠ none := by
  rw [ne_eq, classify_back_none_iff]
  unfold some_backs
  constructor
  · rintro ⟨E, hE, h⟩ hall; exact h (hall E hE)
  · intro h
    by_contra hne
    apply h
    intro E hE
    by_contra h0
    exact hne ⟨E, hE, h0⟩

theorem some_virt_iff (cfgs : List cfg_entry) (P : CStr) :
    some_virt cfgs P ↔ classify_vdir P P.length cfgs ≠ none := by
  rw [ne_eq, classify_vdir_none_iff]
  unfold some_virt
  constructor
  · rintro ⟨E, hE, h⟩ hall; exact h (hall E hE)
  · intro h
    by_contra hne
    apply h
    intro E hE
    by_contra h0
    exact hne ⟨E, hE, h0⟩

theorem root_test_iff (P : CStr) (hP : NUL ∉ P) :
    (cbyte P 0 = '/' ∧ cbyte P 1 = NUL) ↔ P = "/".toList := by
  constructor
  · rintro ⟨h0, h1⟩
    cases P with
    | nil => rw [cbyte_nil] at h0; exact absurd h0 (by decide)
    | cons x r =>
      rw [cbyte_cons_zero] at h0
      rw [cbyte_cons_succ] at h1
      cases r with
      | nil => rw [h0]; rfl
      | cons y r2 =>
        rw [cbyte_cons_zero] at h1
        exact absurd (by rw [h1]; simp) hP
  · intro h; subst h; exact ⟨by decide, by decide⟩

/-- C1: `classify_ipath` returns one class, decided in order: backed with
entry `E` iff `E` is the first entry in table order that is equal to or a
parent of the path (then `E.cpath` is the path or a proper prefix of it ending
at a slash); else virtual directory iff the path is a parent of some entry;
else root iff the path is `/`; else control iff the path is
`/.config-filesystem`; else absent. -/
theorem classify_ipath_spec (cfgs : List cfg_entry) (P : CStr) (hP : NUL ∉ P) :
    (∀ E : cfg_entry, classify_ipath cfgs P P.length = (.CLASS_BACK, some E) ↔
      ∃ i : Nat, first_backs cfgs P i E) ∧
    ((classify_ipath cfgs P P.length).1 = .CLASS_BACK ↔ some_backs cfgs P) ∧
    ((classify_ipath cfgs P P.length).1 = .CLASS_BACK →
      ∃ E : cfg_entry, (classify_ipath cfgs P P.length).2 = some E) ∧
    (∀ E : cfg_entry, classify_ipath cfgs P P.length = (.CLASS_BACK, some E) →
      E.cpath = P ∨ (E.cpath <+: P ∧ E.cpath ≠ P ∧ P[E.cpath.length]? = some '/')) ∧
    ((classify_ipath cfgs P P.length).1 = .CLASS_VDIR ↔
      ¬ some_backs cfgs P ∧ some_virt cfgs P) ∧
    ((classify_ipath cfgs P P.length).1 = .CLASS_ROOT ↔
      ¬ some_backs cfgs P ∧ ¬ some_virt cfgs P ∧ P = "/".toList) ∧
    ((classify_ipath cfgs P P.length).1 = .CLASS_CFG ↔
      ¬ some_backs cfgs P ∧ ¬ some_virt cfgs P ∧ P ≠ "/".toList ∧
        P = "/.config-filesystem".toList) ∧
    ((classify_ipath cfgs P P.length).1 = .CLASS_ENOENT ↔
      ¬ some_backs cfgs P ∧ ¬ some_virt cfgs P ∧ P ≠ "/".toList ∧
        P ≠ "/.config-filesystem".toList) := by
  have hroot := root_test_iff P hP
  have hcfg : pstrcmp P P.length CFG_PATH CFG_PATH.length = 0 ↔
      P = "/.config-filesystem".toList := pstrcmp_eq_zero_iff P CFG_PATH
  have hsb := some_backs_iff cfgs P
  have hsv := some_virt_iff cfgs P
  have hfirst : ∀ E : cfg_entry, classify_back P P.length cfgs = some E ↔
      ∃ i : Nat, first_backs cfgs P i E := fun E => classify_back_some_iff P P.length cfgs E
  unfold classify_ipath
  cases hb : classify_back P P.length cfgs with
  | some c =>
    have hsb1 : some_backs cfgs P := hsb.mpr (by rw [hb]; simp)
    have hc := (hfirst c).mp hb
    refine ⟨?_, ?_, ?_, ?_, ?_, ?_, ?_, ?_⟩
    · intro E
      constructor
      · intro h
        have hcE : c = E := by simpa using h
        rw [← hcE]; exact hc
      · intro h
        have h2 := (hfirst E).mpr h
        rw [hb] at h2
        have hcE : c = E := Option.some.inj h2
        rw [hcE]
    · simp [hsb1]
    · intro _; exact ⟨c, rfl⟩
    · intro E h
      have hcE : c = E := by simpa using h
      obtain ⟨i, _, hne, _⟩ := hc
      rw [hcE] at hne
      rcases (is_equal_or_parent_ne_zero_iff E.cpath P hP).mp hne with e | ⟨hp, hs⟩
      · exact Or.inl e
      · by_cases e : E.cpath = P
        · exact Or.inl e
        · exact Or.inr ⟨hp, e, hs⟩
    · simp [hsb1]
    · simp [hsb1]
    · simp [hsb1]
    · simp [hsb1]
  | none =>
    have hsb1 : ¬ some_backs cfgs P := fun h => (hsb.mp h) hb
    have hnone : ∀ E : cfg_entry, ¬ ∃ i : Nat, first_backs cfgs P i E := by
      intro E h
      have := (hfirst E).mpr h
      rw [hb] at this
      cases this
    cases hv : classify_vdir P P.length cfgs with
    | some c =>
      have hsv1 : some_virt cfgs P := hsv.mpr (by rw [hv]; simp)
      refine ⟨?_, ?_, ?_, ?_, ?_, ?_, ?_, ?_⟩
      · intro E; simp [hnone E]
      · simp [hsb1]
      · intro h; simp at h
      · intro E h; simp at h
      · simp [hsb1, hsv1]
      · simp [hsv1]
      · simp [hsv1]
      · simp [hsv1]
    | none =>
      have hsv1 : ¬ some_virt cfgs P := fun h => (hsv.mp h) hv
      by_cases hr : cbyte P 0 = '/' ∧ cbyte P 1 = NUL
      · have hr1 : P = "/".toList := hroot.mp hr
        rw [if_pos hr]
        refine ⟨?_, ?_, ?_, ?_, ?_, ?_, ?_, ?_⟩
        · intro E; simp [hnone E]
        · simp [hsb1]
        · intro h; simp at h
        · intro E h; simp at h
        · simp [hsv1]
        · exact ⟨fun _ => ⟨hsb1, hsv1, hr1⟩, fun _ => rfl⟩
        · exact ⟨fun h => by simp at h, fun h => absurd hr1 h.2.2.1⟩
        · exact ⟨fun h => by simp at h, fun h => absurd hr1 h.2.2.1⟩
      · have hr1 : P ≠ "/".toList := fun e => hr (hroot.mpr e)
        rw [if_neg hr]
        by_cases hc : pstrcmp P P.length CFG_PATH CFG_PATH.length = 0
        · have hc1 := hcfg.mp hc
          rw [if_pos hc]
          refine ⟨?_, ?_, ?_, ?_, ?_, ?_, ?_, ?_⟩
          · intro E; simp [hnone E]
          · simp [hsb1]
          · intro h; simp at h
          · intro E h; simp at h
          · simp [hsv1]
          · exact ⟨fun h => by simp at h, fun h => absurd h.2.2 hr1⟩
          · exact ⟨fun _ => ⟨hsb1, hsv1, hr1, hc1⟩, fun _ => rfl⟩
          · exact ⟨fun h => by simp at h, fun h => absurd hc1 h.2.2.2⟩
        · have hc1 : P ≠ "/.config-filesystem".toList := fun e => hc (hcfg.mpr e)
          rw [if_neg hc]
          refine ⟨?_, ?_, ?_, ?_, ?_, ?_, ?_, ?_⟩
          · intro E; simp [hnone E]
          · simp [hsb1]
          · intro h; simp at h
          · intro E h; simp at h
          · simp [hsv1]
          · exact ⟨fun h => by simp at h, fun h => absurd h.2.2 hr1⟩
          · exact ⟨fun h => by simp at h, fun h => absurd h.2.2.2 hc1⟩
          · exact ⟨fun _ => ⟨hsb1, hsv1, hr1, hc1⟩, fun _ => rfl⟩

theorem classify_ipath_spec_witness :
    NUL ∉ "/bin/vi".toList ∧
    ((classify_ipath [⟨.FILTER_BIN, "/bin".toList, []⟩] "/bin/vi".toList 7).1 = .CLASS_BACK ↔
      some_backs [⟨.FILTER_BIN, "/bin".toList, []⟩] "/bin/vi".toList) :=
  ⟨by decide,
    (classify_ipath_spec [⟨.FILTER_BIN, "/bin".toList, []⟩] "/bin/vi".toList (by decide)).2.1⟩

/-! ## Backing-path construction: specification -/

theorem mem_read_succ (s : CStr) (off n : Nat) :
    mem_read s off (n + 1) = mem_read s off n ++ [cbyte s (off + n)] := by
  simp [mem_read, List.range_succ]

theorem mem_read_eq_take (s : CStr) (off : Nat) :
    ∀ n : Nat, n ≤ s.length - off → mem_read s off n = (s.drop off).take n := by
  intro n
  induction n with
  | zero => intro _; simp [mem_read]
  | succ k ih =>
    intro hk
    have hlt : off + k < s.length := by omega
    rw [mem_read_succ, ih (by omega), List.take_succ, List.getElem?_drop,
      cbyte_of_lt s (off + k) hlt]
    rfl

theorem mem_read_all (s : CStr) : mem_read s 0 s.length = s := by
  rw [mem_read_eq_take s 0 s.length (by simp)]
  simp

theorem mem_read_tail (s : CStr) (off : Nat) (h : off ≤ s.length) :
    mem_read s off (s.length - off + 1) = s.drop off ++ [NUL] := by
  rw [mem_read_succ, mem_read_eq_take s off (s.length - off) (Nat.le_refl _)]
  have h1 : off + (s.length - off) = s.length := by omega
  rw [h1, cbyte_of_le s s.length (Nat.le_refl _)]
  have h2 : (s.drop off).length = s.length - off := by simp
  rw [← h2, List.take_length]

theorem cstr_of_append_nul (x y : List Char) (hx : NUL ∉ x) : cstr_of (x ++ NUL :: y) = x := by
  unfold cstr_of
  rw [List.takeWhile_append_of_pos]
  · rw [List.takeWhile_cons_of_neg]
    · simp
    · simp
  · intro a ha
    have : a ≠ NUL := fun e => hx (e ▸ ha)
    simpa using this

theorem cstr_of_self (x : List Char) (hx : NUL ∉ x) : cstr_of x = x := by
  have := cstr_of_append_nul x [] hx
  unfold cstr_of at this ⊢
  rw [List.takeWhile_eq_self_iff]
  intro a ha
  have : a ≠ NUL := fun e => hx (e ▸ ha)
  simpa using this

/-- C3: for a path `P` that entry `E` is equal to or a parent of,
`calc_bpath` returns `B.lpath` when `P = E.cpath`; otherwise the tail of `P`
after `len(E.cpath)` bytes starts with a slash, the result is `B.lpath`
followed by that tail when
`len(B.lpath) + len(P) - len(E.cpath) + 1 <= PATH_MAX`, and the result is
`NULL` exactly when that bound is exceeded; the last equivalence also holds
when `P = E.cpath`, for a local path that fits in `PATH_MAX` with its NUL. -/
theorem calc_bpath_spec (E : cfg_entry) (B : back_entry) (P : CStr)
    (hP : NUL ∉ P) (hL : NUL ∉ B.lpath)
    (h : is_equal_or_parent E.cpath E.cpath.length P P.length ≠ 0) :
    PATH_MAX = 4096 ∧
    (P = E.cpath → calc_bpath E B P P.length = some B.lpath) ∧
    (P ≠ E.cpath →
      (P.drop E.cpath.length).head? = some '/' ∧
      (B.lpath.length + P.length - E.cpath.length + 1 ≤ PATH_MAX →
        calc_bpath E B P P.length = some (B.lpath ++ P.drop E.cpath.length)) ∧
      (calc_bpath E B P P.length = none ↔
        B.lpath.length + P.length - E.cpath.length + 1 > PATH_MAX)) ∧
    (B.lpath.length + 1 ≤ PATH_MAX → P = E.cpath →
      (calc_bpath E B P P.length = none ↔
        B.lpath.length + P.length - E.cpath.length + 1 > PATH_MAX)) := by
  have heq : P = E.cpath → calc_bpath E B P P.length = some B.lpath := by
    intro e
    unfold calc_bpath
    rw [e, if_neg (Nat.lt_irrefl _), if_pos (cbyte_of_le _ _ (Nat.le_refl _))]
  refine ⟨rfl, heq, ?_, ?_⟩
  rotate_left
  · intro hlen e
    rw [heq e, e]
    constructor
    · intro h; cases h
    · intro h; omega
  · intro hne
    rcases (is_equal_or_parent_ne_zero_iff E.cpath P hP).mp h with e | ⟨hp, hs⟩
    · exact absurd e.symm hne
    · have hle : E.cpath.length ≤ P.length := hp.length_le
      have hb : cbyte P E.cpath.length = '/' :=
        (cbyte_eq_iff P E.cpath.length '/' (by decide)).mpr hs
      have hb1 : ¬ cbyte P E.cpath.length = NUL := by rw [hb]; decide
      have hdrop : NUL ∉ P.drop E.cpath.length := fun hm => hP (List.mem_of_mem_drop hm)
      have hcat : NUL ∉ B.lpath ++ P.drop E.cpath.length := by
        intro hm
        rcases List.mem_append.mp hm with h1 | h1
        · exact hL h1
        · exact hdrop h1
      unfold calc_bpath
      rw [if_neg (Nat.not_lt_of_le hle), if_neg hb1, if_neg (not_not.mpr hb)]
      refine ⟨by rw [List.head?_drop]; exact hs, ?_, ?_⟩
      · intro hbound
        rw [if_neg (Nat.not_lt_of_le hbound), mem_read_all, mem_read_tail P _ hle,
          ← List.append_assoc, cstr_of_append_nul _ [] hcat]
      · by_cases hbound : B.lpath.length + P.length - E.cpath.length + 1 > PATH_MAX
        · rw [if_pos hbound]; simp [hbound]
        · rw [if_neg hbound]; simp [hbound]

theorem calc_bpath_spec_witness :
    NUL ∉ "/bin/vi".toList ∧ NUL ∉ "/usr/bin".toList ∧
    is_equal_or_parent "/bin".toList 4 "/bin/vi".toList 7 ≠ 0 ∧
    ("/bin/vi".toList ≠ "/bin".toList →
      calc_bpath ⟨.FILTER_BIN, "/bin".toList, []⟩ ⟨"/usr/bin".toList, "s".toList, 3⟩
        "/bin/vi".toList 7 = some "/usr/bin/vi".toList) :=
  ⟨by decide, by decide, by decide, fun hne =>
    ((calc_bpath_spec ⟨.FILTER_BIN, "/bin".toList, []⟩ ⟨"/usr/bin".toList, "s".toList, 3⟩
      "/bin/vi".toList (by decide) (by decide) (by decide)).2.2.1 hne).2.1 (by decide)⟩

/-! ## First-match resolution: specification -/

theorem break_iff (e : Int) (r : sys_result) :
    (r.rv ≥ 0 ∨ errno_after e r ≠ ENOENT) ↔ ¬ not_found r := by
  unfold errno_after not_found
  by_cases h : r.rv < 0
  · rw [if_pos h]
    constructor
    · rintro (h1 | h1)
      · omega
      · exact fun hh => h1 hh.2
    · intro h1
      exact Or.inr (fun e1 => h1 ⟨h, e1⟩)
  · rw [if_neg h]
    constructor
    · intro _ hh; exact h hh.1
    · intro _; exact Or.inl (by omega)

theorem candidates_append (cfg : cfg_entry) (ipath : CStr) (n : Nat) (xs ys : List back_entry) :
    candidates cfg ipath n (xs ++ ys) = candidates cfg ipath n xs ++ candidates cfg ipath n ys := by
  induction xs with
  | nil => simp [candidates]
  | cons b rest ih =>
    simp only [List.cons_append, candidates]
    cases calc_bpath cfg b ipath n with
    | none => simpa using ih
    | some p => simpa using ih

theorem candidates_single (cfg : cfg_entry) (ipath : CStr) (n : Nat) (b : back_entry) (p : CStr)
    (h : calc_bpath cfg b ipath n = some p) :
    candidates cfg ipath n [b] = [(b.root_fd, p)] := by
  simp [candidates, h]

/-- Splitting a list at an index that holds `B`. -/
theorem split_at_index {α : Type} (l : List α) (i : Nat) (B : α) (h : l[i]? = some B) :
    l = l.take i ++ B :: l.drop (i + 1) ∧
      ∀ x : α, x ∈ l.take i → ∃ j : Nat, j < i ∧ l[j]? = some x := by
  obtain ⟨hi, hB⟩ := List.getElem?_eq_some.mp h
  constructor
  · have h1 := List.drop_eq_getElem_cons hi
    rw [hB] at h1
    rw [← h1, List.take_append_drop]
  · intro x hx
    obtain ⟨j, hj, hjx⟩ := List.getElem_of_mem hx
    have hj1 : j < i := by
      have := hj
      rw [List.length_take] at this
      omega
    refine ⟨j, hj1, ?_⟩
    rw [List.getElem_take] at hjx
    rw [List.getElem?_eq_some]
    exact ⟨by omega, hjx⟩

theorem open_loop_miss (probe : Int → CStr → sys_result) (cfg : cfg_entry) (ipath : CStr)
    (n : Nat) (bs : List back_entry) :
    ∀ acc : scan_result,
    (∀ B : back_entry, B ∈ bs → ∀ p : CStr, calc_bpath cfg B ipath n = some p →
      not_found (probe B.root_fd p)) →
    (open_first_loop probe cfg ipath n bs acc).calls = acc.calls ++ candidates cfg ipath n bs ∧
    (candidates cfg ipath n bs = [] → open_first_loop probe cfg ipath n bs acc = acc) ∧
    (candidates cfg ipath n bs ≠ [] →
      (open_first_loop probe cfg ipath n bs acc).rv < 0 ∧
      (open_first_loop probe cfg ipath n bs acc).errno = ENOENT) := by
  induction bs with
  | nil => intro acc _; simp [open_first_loop, candidates]
  | cons b rest ih =>
    intro acc hall
    have hrest : ∀ B : back_entry, B ∈ rest → ∀ p : CStr, calc_bpath cfg B ipath n = some p →
        not_found (probe B.root_fd p) := fun B hB => hall B (List.mem_cons_of_mem _ hB)
    unfold open_first_loop candidates
    cases hc : calc_bpath cfg b ipath n with
    | none => exact ih acc hrest
    | some p =>
      have hnf := hall b (List.mem_cons_self _ _) p hc
      have hcond : ¬ ((probe b.root_fd p).rv ≥ 0 ∨
          errno_after acc.errno (probe b.root_fd p) ≠ ENOENT) :=
        fun hh => (break_iff _ _).mp hh hnf
      simp only [hcond, if_false]
      have ih1 := ih ⟨(probe b.root_fd p).rv, errno_after acc.errno (probe b.root_fd p),
        acc.calls ++ [(b.root_fd, p)]⟩ hrest
      refine ⟨by rw [ih1.1]; simp, fun h => by simp at h, fun _ => ?_⟩
      by_cases hr : candidates cfg ipath n rest = []
      · rw [ih1.2.1 hr]
        have he : errno_after acc.errno (probe b.root_fd p) = ENOENT := by
          unfold errno_after; rw [if_pos hnf.1]; exact hnf.2
        exact ⟨hnf.1, he⟩
      · exact ih1.2.2 hr

theorem open_loop_hit (probe : Int → CStr → sys_result) (cfg : cfg_entry) (ipath : CStr)
    (n : Nat) (pre : List back_entry) (B : back_entry) (post : List back_entry) (p : CStr)
    (hB : calc_bpath cfg B ipath n = some p) (hnf : ¬ not_found (probe B.root_fd p)) :
    ∀ acc : scan_result,
    (∀ B1 : back_entry, B1 ∈ pre → ∀ p1 : CStr, calc_bpath cfg B1 ipath n = some p1 →
      not_found (probe B1.root_fd p1)) →
    (open_first_loop probe cfg ipath n (pre ++ B :: post) acc).rv = (probe B.root_fd p).rv ∧
    ((probe B.root_fd p).rv < 0 →
      (open_first_loop probe cfg ipath n (pre ++ B :: post) acc).errno
        = (probe B.root_fd p).errno) ∧
    (open_first_loop probe cfg ipath n (pre ++ B :: post) acc).calls
      = acc.calls ++ candidates cfg ipath n (pre ++ [B]) := by
  induction pre with
  | nil =>
    intro acc _
    simp only [List.nil_append]
    unfold open_first_loop
    simp only [hB]
    have hcond := (break_iff acc.errno (probe B.root_fd p)).mpr hnf
    simp only [hcond, if_true, candidates_single cfg ipath n B p hB]
    refine ⟨trivial, fun h => ?_, trivial⟩
    unfold errno_after; rw [if_pos h]
  | cons b rest ih =>
    intro acc hall
    have hrest : ∀ B1 : back_entry, B1 ∈ rest → ∀ p1 : CStr,
        calc_bpath cfg B1 ipath n = some p1 → not_found (probe B1.root_fd p1) :=
      fun B1 h1 => hall B1 (List.mem_cons_of_mem _ h1)
    simp only [List.cons_append]
    unfold open_first_loop candidates
    cases hc : calc_bpath cfg b ipath n with
    | none => exact ih acc hrest
    | some q =>
      have hq := hall b (List.mem_cons_self _ _) q hc
      have hcond : ¬ ((probe b.root_fd q).rv ≥ 0 ∨
          errno_after acc.errno (probe b.root_fd q) ≠ ENOENT) :=
        fun hh => (break_iff _ _).mp hh hq
      simp only [hcond, if_false]
      have ih1 := ih ⟨(probe b.root_fd q).rv, errno_after acc.errno (probe b.root_fd q),
        acc.calls ++ [(b.root_fd, q)]⟩ hrest
      exact ⟨ih1.1, ih1.2.1, by rw [ih1.2.2]; simp⟩

theorem stat_loop_miss (probe : Int → CStr → sys_result × c_stat) (cfg : cfg_entry)
    (ipath : CStr) (n : Nat) (bs : List back_entry) :
    ∀ (acc : scan_result) (stbuf : c_stat),
    (∀ B : back_entry, B ∈ bs → ∀ p : CStr, calc_bpath cfg B ipath n = some p →
      not_found (probe B.root_fd p).1) →
    (stat_first_loop probe cfg ipath n bs acc stbuf).1.calls
      = acc.calls ++ candidates cfg ipath n bs ∧
    (stat_first_loop probe cfg ipath n bs acc stbuf).2 = stbuf ∧
    (candidates cfg ipath n bs = [] → (stat_first_loop probe cfg ipath n bs acc stbuf).1 = acc) ∧
    (candidates cfg ipath n bs ≠ [] →
      (stat_first_loop probe cfg ipath n bs acc stbuf).1.rv < 0 ∧
      (stat_first_loop probe cfg ipath n bs acc stbuf).1.errno = ENOENT) := by
  induction bs with
  | nil => intro acc stbuf _; simp [stat_first_loop, candidates]
  | cons b rest ih =>
    intro acc stbuf hall
    have hrest : ∀ B : back_entry, B ∈ rest → ∀ p : CStr, calc_bpath cfg B ipath n = some p →
        not_found (probe B.root_fd p).1 := fun B hB => hall B (List.mem_cons_of_mem _ hB)
    unfold stat_first_loop candidates
    cases hc : calc_bpath cfg b ipath n with
    | none => exact ih acc stbuf hrest
    | some p =>
      have hnf := hall b (List.mem_cons_self _ _) p hc
      have hcond : ¬ ((probe b.root_fd p).1.rv ≥ 0 ∨
          errno_after acc.errno (probe b.root_fd p).1 ≠ ENOENT) :=
        fun hh => (break_iff _ _).mp hh hnf
      simp only [hcond, if_false, if_pos hnf.1]
      have ih1 := ih ⟨(probe b.root_fd p).1.rv, errno_after acc.errno (probe b.root_fd p).1,
        acc.calls ++ [(b.root_fd, p)]⟩ stbuf hrest
      refine ⟨by rw [ih1.1]; simp, ih1.2.1, fun h => by simp at h, fun _ => ?_⟩
      by_cases hr : candidates cfg ipath n rest = []
      · rw [ih1.2.2.1 hr]
        have he : errno_after acc.errno (probe b.root_fd p).1 = ENOENT := by
          unfold errno_after; rw [if_pos hnf.1]; exact hnf.2
        exact ⟨hnf.1, he⟩
      · exact ih1.2.2.2 hr

theorem stat_loop_hit (probe : Int → CStr → sys_result × c_stat) (cfg : cfg_entry)
    (ipath : CStr) (n : Nat) (pre : List back_entry) (B : back_entry)
    (post : List back_entry) (p : CStr)
    (hB : calc_bpath cfg B ipath n = some p) (hnf : ¬ not_found (probe B.root_fd p).1) :
    ∀ (acc : scan_result) (stbuf : c_stat),
    (∀ B1 : back_entry, B1 ∈ pre → ∀ p1 : CStr, calc_bpath cfg B1 ipath n = some p1 →
      not_found (probe B1.root_fd p1).1) →
    (stat_first_loop probe cfg ipath n (pre ++ B :: post) acc stbuf).1.rv
      = (probe B.root_fd p).1.rv ∧
    ((probe B.root_fd p).1.rv < 0 →
      (stat_first_loop probe cfg ipath n (pre ++ B :: post) acc stbuf).1.errno
        = (probe B.root_fd p).1.errno) ∧
    (stat_first_loop probe cfg ipath n (pre ++ B :: post) acc stbuf).1.calls
      = acc.calls ++ candidates cfg ipath n (pre ++ [B]) ∧
    (stat_first_loop probe cfg ipath n (pre ++ B :: post) acc stbuf).2
      = (if (probe B.root_fd p).1.rv < 0 then stbuf else (probe B.root_fd p).2) := by
  induction pre with
  | nil =>
    intro acc stbuf _
    simp only [List.nil_append]
    unfold stat_first_loop
    simp only [hB]
    have hcond := (break_iff acc.errno (probe B.root_fd p).1).mpr hnf
    simp only [hcond, if_true, candidates_single cfg ipath n B p hB]
    refine ⟨trivial, fun h => ?_, trivial, trivial⟩
    unfold errno_after; rw [if_pos h]
  | cons b rest ih =>
    intro acc stbuf hall
    have hrest : ∀ B1 : back_entry, B1 ∈ rest → ∀ p1 : CStr,
        calc_bpath cfg B1 ipath n = some p1 → not_found (probe B1.root_fd p1).1 :=
      fun B1 h1 => hall B1 (List.mem_cons_of_mem _ h1)
    simp only [List.cons_append]
    unfold stat_first_loop candidates
    cases hc : calc_bpath cfg b ipath n with
    | none => exact ih acc stbuf hrest
    | some q =>
      have hq := hall b (List.mem_cons_self _ _) q hc
      have hcond : ¬ ((probe b.root_fd q).1.rv ≥ 0 ∨
          errno_after acc.errno (probe b.root_fd q).1 ≠ ENOENT) :=
        fun hh => (break_iff _ _).mp hh hq
      simp only [hcond, if_false, if_pos hq.1]
      have ih1 := ih ⟨(probe b.root_fd q).1.rv, errno_after acc.errno (probe b.root_fd q).1,
        acc.calls ++ [(b.root_fd, q)]⟩ stbuf hrest
      exact ⟨ih1.1, ih1.2.1, by rw [ih1.2.2.1]; simp, ih1.2.2.2⟩

theorem loc_loop_miss (probe : Int → CStr → sys_result) (cfg : cfg_entry) (ipath : CStr)
    (n : Nat) (bs : List back_entry) :
    ∀ acc : scan_result,
    (∀ B : back_entry, B ∈ bs → ∀ p : CStr, calc_bpath cfg B ipath n = some p →
      not_found (probe B.root_fd p)) →
    (loc_first_loop probe cfg ipath n bs acc).1.calls = acc.calls ++ candidates cfg ipath n bs ∧
    (loc_first_loop probe cfg ipath n bs acc).2 = none ∧
    (candidates cfg ipath n bs = [] → (loc_first_loop probe cfg ipath n bs acc).1 = acc) ∧
    (candidates cfg ipath n bs ≠ [] →
      (loc_first_loop probe cfg ipath n bs acc).1.rv < 0 ∧
      (loc_first_loop probe cfg ipath n bs acc).1.errno = ENOENT) := by
  induction bs with
  | nil => intro acc _; simp [loc_first_loop, candidates]
  | cons b rest ih =>
    intro acc hall
    have hrest : ∀ B : back_entry, B ∈ rest → ∀ p : CStr, calc_bpath cfg B ipath n = some p →
        not_found (probe B.root_fd p) := fun B hB => hall B (List.mem_cons_of_mem _ hB)
    unfold loc_first_loop candidates
    cases hc : calc_bpath cfg b ipath n with
    | none => exact ih acc hrest
    | some p =>
      have hnf := hall b (List.mem_cons_self _ _) p hc
      have hcond : ¬ ((probe b.root_fd p).rv ≥ 0 ∨
          errno_after acc.errno (probe b.root_fd p) ≠ ENOENT) :=
        fun hh => (break_iff _ _).mp hh hnf
      simp only [hcond, if_false]
      have ih1 := ih ⟨(probe b.root_fd p).rv, errno_after acc.errno (probe b.root_fd p),
        acc.calls ++ [(b.root_fd, p)]⟩ hrest
      refine ⟨by rw [ih1.1]; simp, ih1.2.1, fun h => by simp at h, fun _ => ?_⟩
      by_cases hr : candidates cfg ipath n rest = []
      · rw [ih1.2.2.1 hr]
        have he : errno_after acc.errno (probe b.root_fd p) = ENOENT := by
          unfold errno_after; rw [if_pos hnf.1]; exact hnf.2
        exact ⟨hnf.1, he⟩
      · exact ih1.2.2.2 hr

theorem loc_loop_hit (probe : Int → CStr → sys_result) (cfg : cfg_entry) (ipath : CStr)
    (n : Nat) (pre : List back_entry) (B : back_entry) (post : List back_entry) (p : CStr)
    (hB : calc_bpath cfg B ipath n = some p) (hnf : ¬ not_found (probe B.root_fd p)) :
    ∀ acc : scan_result,
    (∀ B1 : back_entry, B1 ∈ pre → ∀ p1 : CStr, calc_bpath cfg B1 ipath n = some p1 →
      not_found (probe B1.root_fd p1)) →
    (loc_first_loop probe cfg ipath n (pre ++ B :: post) acc).1.rv
      = (if p.length ≥ PATH_MAX then -E2BIG else 0) ∧
    (loc_first_loop probe cfg ipath n (pre ++ B :: post) acc).1.calls
      = acc.calls ++ candidates cfg ipath n (pre ++ [B]) ∧
    (loc_first_loop probe cfg ipath n (pre ++ B :: post) acc).2
      = some (B, p.take PATH_MAX) := by
  induction pre with
  | nil =>
    intro acc _
    simp only [List.nil_append]
    unfold loc_first_loop
    simp only [hB]
    have hcond := (break_iff acc.errno (probe B.root_fd p)).mpr hnf
    simp only [hcond, if_true, candidates_single cfg ipath n B p hB]
    exact ⟨trivial, trivial, trivial⟩
  | cons b rest ih =>
    intro acc hall
    have hrest : ∀ B1 : back_entry, B1 ∈ rest → ∀ p1 : CStr,
        calc_bpath cfg B1 ipath n = some p1 → not_found (probe B1.root_fd p1) :=
      fun B1 h1 => hall B1 (List.mem_cons_of_mem _ h1)
    simp only [List.cons_append]
    unfold loc_first_loop candidates
    cases hc : calc_bpath cfg b ipath n with
    | none => exact ih acc hrest
    | some q =>
      have hq := hall b (List.mem_cons_self _ _) q hc
      have hcond : ¬ ((probe b.root_fd q).rv ≥ 0 ∨
          errno_after acc.errno (probe b.root_fd q) ≠ ENOENT) :=
        fun hh => (break_iff _ _).mp hh hq
      simp only [hcond, if_false]
      have ih1 := ih ⟨(probe b.root_fd q).rv, errno_after acc.errno (probe b.root_fd q),
        acc.calls ++ [(b.root_fd, q)]⟩ hrest
      exact ⟨ih1.1, by rw [ih1.2.1]; simp, ih1.2.2⟩

theorem first_hit_split (res : Int → CStr → sys_result) (cfg : cfg_entry) (ipath : CStr)
    (i : Nat) (B : back_entry) (p : CStr) (h : first_hit res cfg ipath i B p) :
    cfg.back = cfg.back.take i ++ B :: cfg.back.drop (i + 1) ∧
    cfg.back.take (i + 1) = cfg.back.take i ++ [B] ∧
    (∀ B1 : back_entry, B1 ∈ cfg.back.take i → ∀ p1 : CStr,
      calc_bpath cfg B1 ipath ipath.length = some p1 → not_found (res B1.root_fd p1)) := by
  obtain ⟨hB, _, _, hpre⟩ := h
  obtain ⟨h1, h2⟩ := split_at_index cfg.back i B hB
  refine ⟨h1, ?_, ?_⟩
  · rw [List.take_succ, hB]; rfl
  · intro B1 hB1 p1 hp1
    obtain ⟨j, hj, hjB⟩ := h2 B1 hB1
    exact hpre j hj B1 hjB p1 hp1

/-- C4: with each scoped probe given as a function of (stratum root, backing
path), `stat_first_bpath`, `open_first_bpath` and `loc_first_bpath` return the
outcome for the lowest-index backing entry whose candidate is constructible
and whose probe is not "not found", issuing calls for no later entry; when
there is no such entry they return a negative value (`-ENOENT` untouched when
no call was issued, else the last call's value with `errno == ENOENT`). -/
theorem first_bpath_spec (sprobe : Int → CStr → sys_result × c_stat)
    (oprobe lprobe : Int → CStr → sys_result) (cfg : cfg_entry) (ipath : CStr)
    (stbuf0 : c_stat) (errno0 : Int) :
    (∀ (i : Nat) (B : back_entry) (p : CStr),
      first_hit (fun fd q => (sprobe fd q).1) cfg ipath i B p →
      (stat_first_bpath sprobe cfg ipath ipath.length stbuf0 errno0).1.rv
        = (sprobe B.root_fd p).1.rv ∧
      ((sprobe B.root_fd p).1.rv < 0 →
        (stat_first_bpath sprobe cfg ipath ipath.length stbuf0 errno0).1.errno
          = (sprobe B.root_fd p).1.errno) ∧
      (stat_first_bpath sprobe cfg ipath ipath.length stbuf0 errno0).2
        = (if (sprobe B.root_fd p).1.rv < 0 then stbuf0 else (sprobe B.root_fd p).2) ∧
      (stat_first_bpath sprobe cfg ipath ipath.length stbuf0 errno0).1.calls
        = candidates cfg ipath ipath.length (cfg.back.take (i + 1))) ∧
    (no_hit (fun fd q => (sprobe fd q).1) cfg ipath →
      (stat_first_bpath sprobe cfg ipath ipath.length stbuf0 errno0).1.rv < 0 ∧
      ((stat_first_bpath sprobe cfg ipath ipath.length stbuf0 errno0).1.calls = [] →
        (stat_first_bpath sprobe cfg ipath ipath.length stbuf0 errno0).1.rv = -ENOENT) ∧
      ((stat_first_bpath sprobe cfg ipath ipath.length stbuf0 errno0).1.calls ≠ [] →
        (stat_first_bpath sprobe cfg ipath ipath.length stbuf0 errno0).1.errno = ENOENT) ∧
      (stat_first_bpath sprobe cfg ipath ipath.length stbuf0 errno0).2 = stbuf0) ∧
    (∀ (i : Nat) (B : back_entry) (p : CStr), first_hit oprobe cfg ipath i B p →
      (open_first_bpath oprobe cfg ipath ipath.length errno0).rv = (oprobe B.root_fd p).rv ∧
      ((oprobe B.root_fd p).rv < 0 →
        (open_first_bpath oprobe cfg ipath ipath.length errno0).errno
          = (oprobe B.root_fd p).errno) ∧
      (open_first_bpath oprobe cfg ipath ipath.length errno0).calls
        = candidates cfg ipath ipath.length (cfg.back.take (i + 1))) ∧
    (no_hit oprobe cfg ipath →
      (open_first_bpath oprobe cfg ipath ipath.length errno0).rv < 0 ∧
      ((open_first_bpath oprobe cfg ipath ipath.length errno0).calls = [] →
        (open_first_bpath oprobe cfg ipath ipath.length errno0).rv = -ENOENT) ∧
      ((open_first_bpath oprobe cfg ipath ipath.length errno0).calls ≠ [] →
        (open_first_bpath oprobe cfg ipath ipath.length errno0).errno = ENOENT)) ∧
    (∀ (i : Nat) (B : back_entry) (p : CStr), first_hit lprobe cfg ipath i B p →
      (loc_first_bpath lprobe cfg ipath ipath.length errno0).2 = some (B, p.take PATH_MAX) ∧
      (loc_first_bpath lprobe cfg ipath ipath.length errno0).1.rv
        = (if p.length ≥ PATH_MAX then -E2BIG else 0) ∧
      (loc_first_bpath lprobe cfg ipath ipath.length errno0).1.calls
        = candidates cfg ipath ipath.length (cfg.back.take (i + 1))) ∧
    (no_hit lprobe cfg ipath →
      (loc_first_bpath lprobe cfg ipath ipath.length errno0).2 = none ∧
      (loc_first_bpath lprobe cfg ipath ipath.length errno0).1.rv < 0 ∧
      ((loc_first_bpath lprobe cfg ipath ipath.length errno0).1.calls = [] →
        (loc_first_bpath lprobe cfg ipath ipath.length errno0).1.rv = -ENOENT) ∧
      ((loc_first_bpath lprobe cfg ipath ipath.length errno0).1.calls ≠ [] →
        (loc_first_bpath lprobe cfg ipath ipath.length errno0).1.errno = ENOENT)) := by
  refine ⟨?_, ?_, ?_, ?_, ?_, ?_⟩
  · intro i B p h
    obtain ⟨h1, h2, h3⟩ := first_hit_split _ cfg ipath i B p h
    have hh := stat_loop_hit sprobe cfg ipath ipath.length (cfg.back.take i) B
      (cfg.back.drop (i + 1)) p h.2.1 h.2.2.1 ⟨-ENOENT, errno0, []⟩ stbuf0 h3
    rw [← h1, ← h2] at hh
    unfold stat_first_bpath
    exact ⟨hh.1, hh.2.1, hh.2.2.2, by rw [hh.2.2.1]; simp⟩
  · intro h
    have hh := stat_loop_miss sprobe cfg ipath ipath.length cfg.back ⟨-ENOENT, errno0, []⟩
      stbuf0 h
    unfold stat_first_bpath
    by_cases hc : candidates cfg ipath ipath.length cfg.back = []
    · have e := hh.2.2.1 hc
      rw [e]
      exact ⟨show -ENOENT < 0 by decide, fun _ => rfl, fun hne => absurd rfl hne, by rw [hh.2.1]⟩
    · have e := hh.2.2.2 hc
      refine ⟨e.1, fun hnil => ?_, fun _ => e.2, hh.2.1⟩
      rw [hh.1] at hnil
      simp at hnil
      exact absurd hnil hc
  · intro i B p h
    obtain ⟨h1, h2, h3⟩ := first_hit_split _ cfg ipath i B p h
    have hh := open_loop_hit oprobe cfg ipath ipath.length (cfg.back.take i) B
      (cfg.back.drop (i + 1)) p h.2.1 h.2.2.1 ⟨-ENOENT, errno0, []⟩ h3
    rw [← h1, ← h2] at hh
    unfold open_first_bpath
    exact ⟨hh.1, hh.2.1, by rw [hh.2.2]; simp⟩
  · intro h
    have hh := open_loop_miss oprobe cfg ipath ipath.length cfg.back ⟨-ENOENT, errno0, []⟩ h
    unfold open_first_bpath
    by_cases hc : candidates cfg ipath ipath.length cfg.back = []
    · have e := hh.2.1 hc
      rw [e]
      exact ⟨show -ENOENT < 0 by decide, fun _ => rfl, fun hne => absurd rfl hne⟩
    · have e := hh.2.2 hc
      refine ⟨e.1, fun hnil => ?_, fun _ => e.2⟩
      rw [hh.1] at hnil
      simp at hnil
      exact absurd hnil hc
  · intro i B p h
    obtain ⟨h1, h2, h3⟩ := first_hit_split _ cfg ipath i B p h
    have hh := loc_loop_hit lprobe cfg ipath ipath.length (cfg.back.take i) B
      (cfg.back.drop (i + 1)) p h.2.1 h.2.2.1 ⟨-ENOENT, errno0, []⟩ h3
    rw [← h1, ← h2] at hh
    unfold loc_first_bpath
    exact ⟨hh.2.2, hh.1, by rw [hh.2.1]; simp⟩
  · intro h
    have hh := loc_loop_miss lprobe cfg ipath ipath.length cfg.back ⟨-ENOENT, errno0, []⟩ h
    unfold loc_first_bpath
    refine ⟨hh.2.1, ?_⟩
    by_cases hc : candidates cfg ipath ipath.length cfg.back = []
    · have e := hh.2.2.1 hc
      rw [e]
      exact ⟨show -ENOENT < 0 by decide, fun _ => rfl, fun hne => absurd rfl hne⟩
    · have e := hh.2.2.2 hc
      refine ⟨e.1, fun hnil => ?_, fun _ => e.2⟩
      rw [hh.1] at hnil
      simp at hnil
      exact absurd hnil hc

theorem first_bpath_spec_witness :
    first_hit probe_ok ex_cfg "/etc/hostname".toList 0 ⟨"/etc".toList, "a".toList, 3⟩
      "/etc/hostname".toList ∧
    (loc_first_bpath probe_ok ex_cfg "/etc/hostname".toList 13 0).2
      = some (⟨"/etc".toList, "a".toList, 3⟩, "/etc/hostname".toList.take PATH_MAX) ∧
    (loc_first_bpath probe_ok ex_cfg "/etc/hostname".toList 13 0).1.calls
      = candidates ex_cfg "/etc/hostname".toList 13 (ex_cfg.back.take 1) :=
  have h : first_hit probe_ok ex_cfg "/etc/hostname".toList 0 ⟨"/etc".toList, "a".toList, 3⟩
      "/etc/hostname".toList :=
    ⟨by decide, by decide, by unfold not_found; decide,
      fun j hj => absurd hj (Nat.not_lt_zero j)⟩
  ⟨h, ((first_bpath_spec (fun _ _ => (⟨0, 0⟩, ⟨0, 0⟩)) probe_ok probe_ok ex_cfg
      "/etc/hostname".toList ⟨0, 0⟩ 0).2.2.2.2.1 0 _ _ h).1,
    ((first_bpath_spec (fun _ _ => (⟨0, 0⟩, ⟨0, 0⟩)) probe_ok probe_ok ex_cfg
      "/etc/hostname".toList ⟨0, 0⟩ 0).2.2.2.2.1 0 _ _ h).2.2⟩

/-! ## Lemmas on `cfg_add` -/

theorem find_cfg_none_iff (c : CStr) (cfgs : List cfg_entry) :
    find_cfg c cfgs = none ↔ ∀ e : cfg_entry, e ∈ cfgs → e.cpath ≠ c := by
  induction cfgs with
  | nil => simp [find_cfg]
  | cons x rest ih =>
    unfold find_cfg
    by_cases hx : pstrcmp x.cpath x.cpath.length c c.length = 0
    · have hxc : x.cpath = c := (pstrcmp_eq_zero_iff _ _).mp hx
      rw [if_pos hx]
      constructor
      · intro h; cases h
      · intro h; exact absurd hxc (h x (List.mem_cons_self _ _))
    · have hxc : x.cpath ≠ c := fun e => hx ((pstrcmp_eq_zero_iff _ _).mpr e)
      rw [if_neg hx]
      simp only [Option.map_eq_none', ih, List.mem_cons, forall_eq_or_imp]
      exact ⟨fun h => ⟨hxc, h⟩, fun h => h.2⟩

theorem find_cfg_some (c : CStr) (cfgs : List cfg_entry) :
    ∀ i : Nat, find_cfg c cfgs = some i →
      ∃ e : cfg_entry, cfgs[i]? = some e ∧ e.cpath = c ∧
        ∀ j : Nat, j < i → ∀ e1 : cfg_entry, cfgs[j]? = some e1 → e1.cpath ≠ c := by
  induction cfgs with
  | nil => intro i h; simp [find_cfg] at h
  | cons x rest ih =>
    intro i h
    unfold find_cfg at h
    by_cases hx : pstrcmp x.cpath x.cpath.length c c.length = 0
    · have hxc : x.cpath = c := (pstrcmp_eq_zero_iff _ _).mp hx
      rw [if_pos hx] at h
      have hi : 0 = i := Option.some.inj h
      subst hi
      exact ⟨x, by simp, hxc, fun j hj => absurd hj (Nat.not_lt_zero j)⟩
    · have hxc : x.cpath ≠ c := fun e => hx ((pstrcmp_eq_zero_iff _ _).mpr e)
      rw [if_neg hx] at h
      cases hr : find_cfg c rest with
      | none => rw [hr] at h; simp at h
      | some k =>
        rw [hr] at h
        have hi : k + 1 = i := by simpa using h
        subst hi
        obtain ⟨e, he, hec, hfirst⟩ := ih k hr
        refine ⟨e, by simpa using he, hec, ?_⟩
        intro j hj e1 he1
        cases j with
        | zero =>
          have : x = e1 := by simpa using he1
          rw [← this]; exact hxc
        | succ m => exact hfirst m (Nat.lt_of_succ_lt_succ hj) e1 (by simpa using he1)

theorem find_cfg_congr (c : CStr) :
    ∀ cfgs cfgs1 : List cfg_entry, cfgs.map (fun e => e.cpath) = cfgs1.map (fun e => e.cpath) →
      find_cfg c cfgs = find_cfg c cfgs1 := by
  intro cfgs
  induction cfgs with
  | nil =>
    intro cfgs1 h
    cases cfgs1 with
    | nil => rfl
    | cons y r => simp at h
  | cons x rest ih =>
    intro cfgs1 h
    cases cfgs1 with
    | nil => simp at h
    | cons y r =>
      simp only [List.map_cons, List.cons.injEq] at h
      unfold find_cfg
      rw [h.1, ih r h.2]

theorem has_back_iff (s l : CStr) (bs : List back_entry) :
    has_back s l bs = true ↔ ∃ b : back_entry, b ∈ bs ∧ b.stratum = s ∧ b.lpath = l := by
  induction bs with
  | nil => simp [has_back]
  | cons x rest ih =>
    unfold has_back
    have hiff : (pstrcmp x.stratum x.stratum.length s s.length = 0
        ∧ pstrcmp x.lpath x.lpath.length l l.length = 0) ↔ (x.stratum = s ∧ x.lpath = l) := by
      rw [pstrcmp_eq_zero_iff, pstrcmp_eq_zero_iff]
    by_cases hx : x.stratum = s ∧ x.lpath = l
    · rw [if_pos (hiff.mpr hx)]
      simp only [List.mem_cons, true_iff]
      exact ⟨x, Or.inl rfl, hx⟩
    · rw [if_neg (fun h => hx (hiff.mp h)), ih]
      constructor
      · rintro ⟨b, hb, h⟩; exact ⟨b, List.mem_cons_of_mem _ hb, h⟩
      · rintro ⟨b, hb, h⟩
        rcases List.mem_cons.mp hb with e | hb1
        · rw [e] at h; exact absurd h hx
        · exact ⟨b, hb1, h⟩

theorem push_back_map_cpath (b : back_entry) :
    ∀ (cfgs : List cfg_entry) (i : Nat),
      (push_back cfgs i b).map (fun e => e.cpath) = cfgs.map (fun e => e.cpath) := by
  intro cfgs
  induction cfgs with
  | nil => intro i; simp [push_back]
  | cons x rest ih =>
    intro i
    cases i with
    | zero => simp [push_back]
    | succ k => simp [push_back, ih k]

theorem push_back_getElem (b : back_entry) :
    ∀ (cfgs : List cfg_entry) (i j : Nat),
      (push_back cfgs i b)[j]? =
        if j = i then cfgs[j]?.map (fun c => { c with back := c.back ++ [b] }) else cfgs[j]? := by
  intro cfgs
  induction cfgs with
  | nil => intro i j; simp [push_back]
  | cons x rest ih =>
    intro i j
    cases i with
    | zero =>
      cases j with
      | zero => simp [push_back]
      | succ m => simp [push_back]
    | succ k =>
      cases j with
      | zero => simp [push_back]
      | succ m => simp [push_back, ih k m]

theorem push_back_last (b : back_entry) (e : cfg_entry) :
    ∀ init : List cfg_entry,
      push_back (init ++ [e]) init.length b = init ++ [{ e with back := e.back ++ [b] }] := by
  intro init
  induction init with
  | nil => simp [push_back]
  | cons x rest ih => simp [push_back, ih]

theorem cfg_add_apply_none (env : add_env) (st : cfg_state) (f : filter) (c s l : CStr)
    (alen size : Nat) (hfind : find_cfg c st.cfgs = none) :
    cfg_add_apply env st f c s l alen size =
      if ¬ env.malloc_cpath ∨ ¬ env.realloc_cfgs then (-ENOMEM, st)
      else if ¬ env.malloc_lpath ∨ ¬ env.malloc_stratum ∨
          (if find_root_fd s (st.cfgs ++ [⟨f, c, []⟩]) (-1) < 0 then env.open_root s
            else find_root_fd s (st.cfgs ++ [⟨f, c, []⟩]) (-1)) < 0 ∨ ¬ env.realloc_back
        then (-ENOMEM, ⟨st.cfgs ++ [⟨f, c, []⟩], st.st_size⟩)
      else ((size : Int), ⟨st.cfgs ++ [⟨f, c, [⟨l, s,
        (if find_root_fd s (st.cfgs ++ [⟨f, c, []⟩]) (-1) < 0 then env.open_root s
            else find_root_fd s (st.cfgs ++ [⟨f, c, []⟩]) (-1))⟩]⟩], st.st_size + alen⟩) := by
  unfold cfg_add_apply
  simp only [hfind, true_and, if_true, Option.getD_none]
  have hget : (((st.cfgs ++ [(⟨f, c, []⟩ : cfg_entry)]).get? st.cfgs.length).map
      (fun c => c.back)).getD [] = [] := by simp
  rw [hget]
  have hhb : has_back s l [] = false := rfl
  rw [hhb, push_back_last]
  obtain ⟨m1, m2, m3, m4, orf, m6⟩ := env
  cases m1 <;> cases m2 <;> cases m3 <;> cases m4 <;> cases m6 <;> simp

theorem cfg_add_apply_some (env : add_env) (st : cfg_state) (f : filter) (c s l : CStr)
    (alen size : Nat) (i : Nat) (e : cfg_entry) (hfind : find_cfg c st.cfgs = some i)
    (he : st.cfgs[i]? = some e) :
    cfg_add_apply env st f c s l alen size =
      if has_back s l e.back = true then ((size : Int), st)
      else if ¬ env.malloc_lpath ∨ ¬ env.malloc_stratum ∨
          (if find_root_fd s st.cfgs (-1) < 0 then env.open_root s
            else find_root_fd s st.cfgs (-1)) < 0 ∨ ¬ env.realloc_back
        then (-ENOMEM, st)
      else ((size : Int), ⟨push_back st.cfgs i ⟨l, s,
        (if find_root_fd s st.cfgs (-1) < 0 then env.open_root s
            else find_root_fd s st.cfgs (-1))⟩, st.st_size + alen⟩) := by
  unfold cfg_add_apply
  have hne : ¬ (some i = (none : Option Nat)) := by simp
  simp only [hfind, hne, false_and, if_false, Option.getD_some]
  have hget : ((st.cfgs.get? i).map (fun c => c.back)).getD [] = e.back := by
    rw [List.get?_eq_getElem?, he]; rfl
  rw [hget]
  obtain ⟨m1, m2, m3, m4, orf, m6⟩ := env
  cases has_back s l e.back <;> cases m3 <;> cases m4 <;> cases m6 <;> simp

theorem cfg_add_apply_outcome (env : add_env) (st : cfg_state) (f : filter) (c s l : CStr)
    (alen size : Nat) :
    add_outcome st f c s l alen size (cfg_add_apply env st f c s l alen size).1
      (cfg_add_apply env st f c s l alen size).2 := by
  cases hfind : find_cfg c st.cfgs with
  | none =>
    rw [cfg_add_apply_none env st f c s l alen size hfind]
    unfold add_outcome
    by_cases h1 : ¬ env.malloc_cpath ∨ ¬ env.realloc_cfgs
    · rw [if_pos h1]; exact Or.inl ⟨rfl, rfl⟩
    · rw [if_neg h1]
      by_cases h2 : ¬ env.malloc_lpath ∨ ¬ env.malloc_stratum ∨
          (if find_root_fd s (st.cfgs ++ [⟨f, c, []⟩]) (-1) < 0 then env.open_root s
            else find_root_fd s (st.cfgs ++ [⟨f, c, []⟩]) (-1)) < 0 ∨ ¬ env.realloc_back
      · rw [if_pos h2]; exact Or.inr (Or.inl ⟨rfl, hfind, rfl⟩)
      · rw [if_neg h2]
        have h5 := fun h => h2 (Or.inr (Or.inr (Or.inl h)))
        exact Or.inr (Or.inr (Or.inr (Or.inr ⟨rfl, hfind, _, Int.not_lt.mp h5, rfl⟩)))
  | some i =>
    obtain ⟨e, he, _, _⟩ := find_cfg_some c st.cfgs i hfind
    rw [cfg_add_apply_some env st f c s l alen size i e hfind he]
    unfold add_outcome
    by_cases hb : has_back s l e.back = true
    · rw [if_pos hb]
      exact Or.inr (Or.inr (Or.inl ⟨rfl, rfl, i, e, hfind, he, hb⟩))
    · rw [if_neg hb]
      by_cases h2 : ¬ env.malloc_lpath ∨ ¬ env.malloc_stratum ∨
          (if find_root_fd s st.cfgs (-1) < 0 then env.open_root s
            else find_root_fd s st.cfgs (-1)) < 0 ∨ ¬ env.realloc_back
      · rw [if_pos h2]; exact Or.inl ⟨rfl, rfl⟩
      · rw [if_neg h2]
        have h5 := fun h => h2 (Or.inr (Or.inr (Or.inl h)))
        have hb1 : has_back s l e.back = false := by simpa using hb
        exact Or.inr (Or.inr (Or.inr (Or.inl
          ⟨rfl, i, e, _, hfind, he, hb1, Int.not_lt.mp h5, rfl⟩)))

theorem nodup_snoc {α : Type} (l : List α) (a : α) (h : a ∉ l) (hl : l.Nodup) :
    (l ++ [a]).Nodup := by
  rw [List.nodup_append]
  refine ⟨hl, List.nodup_singleton a, ?_⟩
  intro x hx hx1
  have : x = a := by simpa using hx1
  exact h (this ▸ hx)

theorem cfg_add_parse_error (buf : CStr) (size : Nat) (e : Int)
    (h : cfg_add_parse buf size = .error e) : e = -ENAMETOOLONG ∨ e = -EINVAL := by
  unfold cfg_add_parse at h
  split at h
  · exact Or.inl (by cases h; rfl)
  · split at h
    · exact Or.inr (by cases h; rfl)
    · split at h
      · exact Or.inr (by cases h; rfl)
      · split at h
        · exact Or.inr (by cases h; rfl)
        · cases h

theorem find_cfg_append_new (c : CStr) (e : cfg_entry) (he : e.cpath = c) :
    ∀ cfgs : List cfg_entry, find_cfg c cfgs = none →
      find_cfg c (cfgs ++ [e]) = some cfgs.length := by
  intro cfgs
  induction cfgs with
  | nil =>
    intro _
    simp only [List.nil_append, find_cfg, List.length_nil]
    rw [if_pos ((pstrcmp_eq_zero_iff _ _).mpr he)]
  | cons x rest ih =>
    intro h
    unfold find_cfg at h
    by_cases hx : pstrcmp x.cpath x.cpath.length c c.length = 0
    · rw [if_pos hx] at h; cases h
    · rw [if_neg hx] at h
      have hr : find_cfg c rest = none := by simpa using h
      have ih1 := ih hr
      show find_cfg c (x :: (rest ++ [e])) = some (rest.length + 1)
      unfold find_cfg
      rw [if_neg hx, ih1]
      rfl

theorem push_back_mem (b : back_entry) :
    ∀ (cfgs : List cfg_entry) (i : Nat) (x : cfg_entry), x ∈ push_back cfgs i b →
      x ∈ cfgs ∨ ∃ e : cfg_entry, cfgs[i]? = some e ∧ x = { e with back := e.back ++ [b] } := by
  intro cfgs
  induction cfgs with
  | nil => intro i x hx; simp [push_back] at hx
  | cons y rest ih =>
    intro i x hx
    cases i with
    | zero =>
      simp only [push_back, List.mem_cons] at hx
      rcases hx with e | hx
      · exact Or.inr ⟨y, by simp, e⟩
      · exact Or.inl (List.mem_cons_of_mem _ hx)
    | succ k =>
      simp only [push_back, List.mem_cons] at hx
      rcases hx with e | hx
      · exact Or.inl (by rw [e]; exact List.mem_cons_self _ _)
      · rcases ih k x hx with h1 | ⟨e, he, hxe⟩
        · exact Or.inl (List.mem_cons_of_mem _ h1)
        · exact Or.inr ⟨e, by simpa using he, hxe⟩

theorem push_back_split (b : back_entry) :
    ∀ (cfgs : List cfg_entry) (i : Nat) (e : cfg_entry), cfgs[i]? = some e →
      cfgs = cfgs.take i ++ e :: cfgs.drop (i + 1) ∧
      push_back cfgs i b
        = cfgs.take i ++ { e with back := e.back ++ [b] } :: cfgs.drop (i + 1) := by
  intro cfgs
  induction cfgs with
  | nil => intro i e h; simp at h
  | cons y rest ih =>
    intro i e h
    cases i with
    | zero =>
      have : y = e := by simpa using h
      subst this
      simp [push_back]
    | succ k =>
      have h1 : rest[k]? = some e := by simpa using h
      obtain ⟨h2, h3⟩ := ih k e h1
      constructor
      · simp only [List.take_succ_cons, List.drop_succ_cons, List.cons_append]
        rw [← h2]
      · simp only [push_back, List.take_succ_cons, List.drop_succ_cons, List.cons_append]
        rw [h3]

theorem add_outcome_inv (st : cfg_state) (f : filter) (c s l : CStr) (alen size : Nat)
    (rv : Int) (st1 : cfg_state) (hinv : table_inv st.cfgs)
    (h : add_outcome st f c s l alen size rv st1) : table_inv st1.cfgs := by
  have hnew : find_cfg c st.cfgs = none → ∀ bs : List back_entry,
      (bs.map (fun b => (b.stratum, b.lpath))).Nodup →
      table_inv (st.cfgs ++ [⟨f, c, bs⟩]) := by
    intro hfind bs hbs
    constructor
    · rw [List.map_append]
      apply nodup_snoc _ _ _ hinv.1
      intro hm
      obtain ⟨e, he, hec⟩ := List.mem_map.mp hm
      exact (find_cfg_none_iff c st.cfgs).mp hfind e he hec
    · intro e he
      rcases List.mem_append.mp he with h1 | h1
      · exact hinv.2 e h1
      · have : e = ⟨f, c, bs⟩ := by simpa using h1
        rw [this]; exact hbs
  rcases h with ⟨_, h1⟩ | ⟨_, hfind, h1⟩ | ⟨_, h1, _⟩ | ⟨_, i, e, fd, hfind, he, hb, _, h1⟩ |
    ⟨_, hfind, fd, _, h1⟩
  · rw [h1]; exact hinv
  · rw [h1]; exact hnew hfind [] (by simp)
  · rw [h1]; exact hinv
  · rw [h1]
    constructor
    · show ((push_back st.cfgs i ⟨l, s, fd⟩).map (fun e => e.cpath)).Nodup
      rw [push_back_map_cpath]; exact hinv.1
    · intro x hx
      rcases push_back_mem _ st.cfgs i x hx with h2 | ⟨e1, he1, hxe⟩
      · exact hinv.2 x h2
      · rw [he] at he1
        have : e = e1 := Option.some.inj he1
        subst this
        rw [hxe]
        show ((e.back ++ [(⟨l, s, fd⟩ : back_entry)]).map
          (fun b => (b.stratum, b.lpath))).Nodup
        rw [List.map_append]
        apply nodup_snoc _ _ _ (hinv.2 e (List.mem_iff_getElem?.mpr ⟨i, he⟩))
        intro hm
        obtain ⟨b, hb1, hb2⟩ := List.mem_map.mp hm
        have hb3 : b.stratum = s ∧ b.lpath = l := by
          simp only [Prod.mk.injEq] at hb2; exact hb2
        have : has_back s l e.back = true := (has_back_iff s l e.back).mpr ⟨b, hb1, hb3⟩
        rw [hb] at this
        cases this
  · rw [h1]; exact hnew hfind [⟨l, s, fd⟩] (by simp)

theorem cfg_add_inv (env : add_env) (st : cfg_state) (buf : CStr) (size : Nat)
    (hinv : table_inv st.cfgs) : table_inv (cfg_add_tab env st buf size).2.cfgs := by
  unfold cfg_add_tab
  cases hp : cfg_add_parse buf size with
  | error e => exact hinv
  | ok r =>
    obtain ⟨f, c, s, l⟩ := r
    exact add_outcome_inv st f c s l (strlen buf) size _ _ hinv
      (cfg_add_apply_outcome env st f c s l (strlen buf) size)

theorem m_write_inv (env : add_env) (st : cfg_state) (uid : Nat) (ipath buf : CStr)
    (size : Nat) (hinv : table_inv st.cfgs) :
    table_inv (m_write_tab env st uid ipath buf size).2.cfgs := by
  unfold m_write_tab
  split
  · exact hinv
  · split
    · exact hinv
    · split
      · exact ⟨List.nodup_nil, fun e he => by cases he⟩
      · split
        · exact cfg_add_inv env st buf size hinv
        · exact hinv

theorem run_writes_inv (ws : List write_req) :
    ∀ st : cfg_state, table_inv st.cfgs → table_inv (run_writes_tab st ws).cfgs := by
  induction ws with
  | nil => intro st h; exact h
  | cons w rest ih =>
    intro st h
    exact ih _ (m_write_inv w.env st w.uid w.ipath w.buf w.size h)

/-! ## Control file: idempotence and uniqueness -/

theorem add_outcome_again (env2 : add_env) (st : cfg_state) (f : filter) (c s l : CStr)
    (alen size : Nat) (rv : Int) (st1 : cfg_state)
    (h : add_outcome st f c s l alen size rv st1) (hrv : rv = (size : Int)) :
    cfg_add_apply env2 st1 f c s l alen size = ((size : Int), st1) := by
  have hneg : ¬ ((size : Int) = -ENOMEM) := by
    have h0 : (0 : Int) ≤ (size : Int) := Int.ofNat_nonneg size
    have h1 : -ENOMEM < 0 := by decide
    omega
  rcases h with ⟨h0, _⟩ | ⟨h0, _, _⟩ | ⟨_, h1, i, e, hfind, he, hb⟩ |
    ⟨_, i, e, fd, hfind, he, hb, _, h1⟩ | ⟨_, hfind, fd, _, h1⟩
  · exact absurd (hrv ▸ h0) hneg
  · exact absurd (hrv ▸ h0) hneg
  · rw [h1, cfg_add_apply_some env2 st f c s l alen size i e hfind he, if_pos hb]
  · have hfind1 : find_cfg c st1.cfgs = some i := by
      rw [h1]
      show find_cfg c (push_back st.cfgs i ⟨l, s, fd⟩) = some i
      rw [find_cfg_congr c _ st.cfgs (push_back_map_cpath _ st.cfgs i)]
      exact hfind
    have he1 : st1.cfgs[i]? = some { e with back := e.back ++ [⟨l, s, fd⟩] } := by
      rw [h1]
      show (push_back st.cfgs i ⟨l, s, fd⟩)[i]? = _
      rw [push_back_getElem, if_pos rfl, he]
      rfl
    have hb1 : has_back s l (e.back ++ [(⟨l, s, fd⟩ : back_entry)]) = true :=
      (has_back_iff s l _).mpr ⟨⟨l, s, fd⟩, by simp, rfl, rfl⟩
    rw [cfg_add_apply_some env2 st1 f c s l alen size i _ hfind1 he1, if_pos hb1]
  · have hfind1 : find_cfg c st1.cfgs = some st.cfgs.length := by
      rw [h1]
      exact find_cfg_append_new c ⟨f, c, [⟨l, s, fd⟩]⟩ rfl st.cfgs hfind
    have he1 : st1.cfgs[st.cfgs.length]? = some ⟨f, c, [⟨l, s, fd⟩]⟩ := by
      rw [h1]
      simp
    have hb1 : has_back s l [(⟨l, s, fd⟩ : back_entry)] = true :=
      (has_back_iff s l _).mpr ⟨⟨l, s, fd⟩, by simp, rfl, rfl⟩
    rw [cfg_add_apply_some env2 st1 f c s l alen size _ _ hfind1 he1, if_pos hb1]

/-- If `cfg_add_tab` accepts a line on a table, applying the same line again
returns the write size and leaves the table and the cached size as they were
after the first application; and on a table with distinct configured paths an
add whose (cpath, stratum, lpath) is already present returns the write size
without changing the table, whatever (recognised) filter it names. -/
theorem add_idempotent_tab (env env2 : add_env) (st : cfg_state) (buf : CStr) (size : Nat) :
    ((cfg_add_tab env st buf size).1 = (size : Int) →
      cfg_add_tab env2 (cfg_add_tab env st buf size).2 buf size
        = ((size : Int), (cfg_add_tab env st buf size).2)) ∧
    (∀ (f : filter) (c s l : CStr), cfg_add_parse buf size = .ok (f, c, s, l) →
      (st.cfgs.map (fun e => e.cpath)).Nodup →
      (∃ e : cfg_entry, e ∈ st.cfgs ∧ e.cpath = c ∧
        ∃ b : back_entry, b ∈ e.back ∧ b.stratum = s ∧ b.lpath = l) →
      cfg_add_tab env st buf size = ((size : Int), st)) := by
  constructor
  · intro hrv
    unfold cfg_add_tab at hrv ⊢
    cases hp : cfg_add_parse buf size with
    | error e =>
      rw [hp] at hrv
      have h0 : (0 : Int) ≤ (size : Int) := Int.ofNat_nonneg size
      have h1 : -ENAMETOOLONG < 0 := by decide
      have h2 : -EINVAL < 0 := by decide
      have hrv1 : e = (size : Int) := hrv
      rcases cfg_add_parse_error buf size e hp with h | h <;> omega
    | ok r =>
      obtain ⟨f, c, s, l⟩ := r
      rw [hp] at hrv
      simp only at hrv ⊢
      exact add_outcome_again env2 st f c s l (strlen buf) size _ _
        (cfg_add_apply_outcome env st f c s l (strlen buf) size) hrv
  · intro f c s l hp hnd ⟨e, he, hec, b, hb, hbs, hbl⟩
    unfold cfg_add_tab
    rw [hp]
    cases hfind : find_cfg c st.cfgs with
    | none => exact absurd hec ((find_cfg_none_iff c st.cfgs).mp hfind e he)
    | some i =>
      obtain ⟨e1, he1, he1c, _⟩ := find_cfg_some c st.cfgs i hfind
      have hmem : e1 ∈ st.cfgs := List.mem_iff_getElem?.mpr ⟨i, he1⟩
      have hee : e1 = e := List.inj_on_of_nodup_map hnd hmem he (by rw [he1c, hec])
      have hb1 : has_back s l e1.back = true := by
        rw [hee]; exact (has_back_iff s l e.back).mpr ⟨b, hb, hbs, hbl⟩
      show cfg_add_apply env st f c s l (strlen buf) size = _
      rw [cfg_add_apply_some env st f c s l (strlen buf) size i e1 hfind he1, if_pos hb1]

/-! ## Tokenizer lemmas -/

theorem token_head (t : CStr) (ht : is_token t) :
    ∃ (h : Char) (r : CStr), t = h :: r ∧ isspace h = false := by
  obtain ⟨hne, hall⟩ := ht
  cases t with
  | nil => exact absurd rfl hne
  | cons h r => exact ⟨h, r, rfl, (hall h (List.mem_cons_self _ _)).1⟩

theorem dropWhile_space_head (t rest : CStr)
    (ht : ∃ (h : Char) (r : CStr), t = h :: r ∧ isspace h = false) :
    (t ++ rest).dropWhile isspace = t ++ rest := by
  obtain ⟨h, r, e, hh⟩ := ht
  subst e
  simp [List.dropWhile, hh]

theorem dropWhile_one_space (w : Char) (t rest : CStr) (hw : isspace w = true)
    (ht : ∃ (h : Char) (r : CStr), t = h :: r ∧ isspace h = false) :
    (w :: (t ++ rest)).dropWhile isspace = t ++ rest := by
  rw [List.dropWhile_cons, if_pos hw]
  exact dropWhile_space_head t rest ht

theorem scan_s_token (t : CStr) (w : Char) (rest : CStr) (ht : is_token t)
    (hw : isspace w = true) : scan_s (t ++ w :: rest) = some (t, w :: rest) := by
  unfold scan_s
  have hall : ∀ a : Char, a ∈ t → (!isspace a) = true := by
    intro a ha; simp [(ht.2 a ha).1]
  have hw1 : ¬ ((!isspace w) = true) := by simp [hw]
  have h1 : (t ++ w :: rest).dropWhile isspace = t ++ w :: rest :=
    dropWhile_space_head t (w :: rest) (token_head t ht)
  have h2 : (t ++ w :: rest).takeWhile (fun c => !isspace c) = t := by
    rw [List.takeWhile_append_of_pos hall]
    simp [List.takeWhile_cons, hw]
  have h3 : (t ++ w :: rest).dropWhile (fun c => !isspace c) = w :: rest := by
    rw [List.dropWhile_append_of_pos hall]
    simp [List.dropWhile_cons, hw]
  simp only [h1, h2, h3]
  rw [if_neg ht.1]

theorem scan_not_colon_label (t rest : CStr) (hne : t ≠ [])
    (hall : ∀ x : Char, x ∈ t → x ≠ ':') :
    scan_not_colon (t ++ ':' :: rest) = some (t, ':' :: rest) := by
  unfold scan_not_colon
  have hall1 : ∀ a : Char, a ∈ t → (a != ':') = true := by
    intro a ha; simp [hall a ha]
  have hw1 : ¬ ((':' != ':') = true) := by simp
  have h2 : (t ++ ':' :: rest).takeWhile (fun c => c != ':') = t := by
    rw [List.takeWhile_append_of_pos hall1]
    simp [List.takeWhile_cons]
  have h3 : (t ++ ':' :: rest).dropWhile (fun c => c != ':') = ':' :: rest := by
    rw [List.dropWhile_append_of_pos hall1]
    simp [List.dropWhile_cons]
  simp only [h2, h3]
  rw [if_neg hne]

theorem sscanf_add_canonical (a f c s l : CStr) (rest : CStr) (ha : is_token a)
    (hf : is_token f) (hc : is_token c) (hl : is_token l) (hs : is_label s) :
    sscanf_add (a ++ ' ' :: (f ++ ' ' :: (c ++ ' ' :: (s ++ ':' :: (l ++ '\n' :: rest)))))
      = some ⟨a, f, c, s, l, '\n'⟩ := by
  have hsp : isspace ' ' = true := by decide
  have hnl : isspace '\n' = true := by decide
  have hsne : s ≠ [] := by
    obtain ⟨⟨h, r, e, _⟩, _⟩ := hs
    rw [e]; simp
  unfold sscanf_add
  rw [scan_s_token a ' ' _ ha hsp]
  simp only
  rw [dropWhile_one_space ' ' f _ hsp (token_head f hf), scan_s_token f ' ' _ hf hsp]
  simp only
  rw [dropWhile_one_space ' ' c _ hsp (token_head c hc), scan_s_token c ' ' _ hc hsp]
  simp only
  rw [dropWhile_one_space ' ' s _ hsp hs.1,
    scan_not_colon_label s _ hsne (fun x hx => (hs.2 x hx).1)]
  simp only [ne_eq, not_true_eq_false, if_false]
  rw [scan_s_token l '\n' _ hl hnl]

theorem sscanf_add_empty_stratum (a f c : CStr) (rest : CStr) (ha : is_token a)
    (hf : is_token f) (hc : is_token c) :
    sscanf_add (a ++ ' ' :: (f ++ ' ' :: (c ++ ' ' :: ':' :: rest))) = none := by
  have hsp : isspace ' ' = true := by decide
  unfold sscanf_add
  rw [scan_s_token a ' ' _ ha hsp]
  simp only
  rw [dropWhile_one_space ' ' f _ hsp (token_head f hf), scan_s_token f ' ' _ hf hsp]
  simp only
  rw [dropWhile_one_space ' ' c _ hsp (token_head c hc), scan_s_token c ' ' _ hc hsp]
  simp only
  have h1 : (' ' :: ':' :: rest).dropWhile isspace = ':' :: rest := by
    simp [List.dropWhile, isspace]
  rw [h1]
  simp [scan_not_colon]

theorem filter_str_token (f : filter) : is_token (filter_str f) := by
  cases f <;> exact ⟨by decide, by decide⟩

theorem find_filter_str (f : filter) : find_filter (filter_str f) = some f := by
  cases f <;> decide

theorem find_filter_none_iff (name : CStr) :
    find_filter name = none ↔
      (name ≠ "pass".toList ∧ name ≠ "bin".toList ∧ name ≠ "ini".toList ∧
        name ≠ "font".toList) := by
  unfold find_filter
  simp only [List.find?_eq_none, List.mem_cons, List.mem_singleton, decide_eq_true_eq]
  constructor
  · intro h
    refine ⟨?_, ?_, ?_, ?_⟩
    · exact fun e => h .FILTER_PASS (by simp) (by rw [e]; rfl)
    · exact fun e => h .FILTER_BIN (by simp) (by rw [e]; rfl)
    · exact fun e => h .FILTER_INI (by simp) (by rw [e]; rfl)
    · exact fun e => h .FILTER_FONT (by simp) (by rw [e]; rfl)
  · rintro ⟨h1, h2, h3, h4⟩ f _ e
    cases f
    · exact h2 e.symm
    · exact h3 e.symm
    · exact h4 e.symm
    · exact h1 e.symm

/-! ## Control file: parsing -/

theorem cbyte_head_iff (x : CStr) : cbyte x 0 = '/' ↔ x.head? = some '/' := by
  cases x with
  | nil => simp [cbyte_nil]; decide
  | cons h r => simp [cbyte_cons_zero]

theorem add_line_nested (f : filter) (c s l : CStr) :
    add_line f c s l
      = CMD_ADD ++ ' ' :: (filter_str f ++ ' ' :: (c ++ ' ' :: (s ++ ':' :: (l ++ ['\n'])))) := by
  simp [add_line, CMD_ADD]

theorem cfg_line_eq (e : cfg_entry) (b : back_entry) :
    cfg_line e b = add_line e.filter e.cpath b.stratum b.lpath := rfl

theorem add_line_no_nul (f : filter) (c s l : CStr) (hc : is_token c) (hl : is_token l)
    (hs : is_label s) : NUL ∉ add_line f c s l := by
  have hf := filter_str_token f
  intro hm
  simp only [add_line, List.mem_append] at hm
  rcases hm with (((((((h | h) | h) | h) | h) | h) | h) | h) | h
  · revert h; decide
  · exact (hf.2 _ h).2 rfl
  · revert h; decide
  · exact (hc.2 _ h).2 rfl
  · revert h; decide
  · exact (hs.2 _ h).2.2 rfl
  · revert h; decide
  · exact (hl.2 _ h).2 rfl
  · revert h; decide

theorem strlen_of_no_nul (x : CStr) (hx : NUL ∉ x) : strlen x = x.length := by
  have := cstr_of_self x hx
  unfold cstr_of at this
  unfold strlen
  rw [this]

theorem cfg_add_parse_line (f : filter) (c s l : CStr) (h : valid_add f c s l) :
    cfg_add_parse (add_line f c s l) (add_line f c s l).length = .ok (f, c, s, l) := by
  obtain ⟨hc, hc0, hl, hl0, hs, hlen⟩ := h
  have hnul := add_line_no_nul f c s l hc hl hs
  have hadd : is_token CMD_ADD := ⟨by decide, by decide⟩
  unfold cfg_add_parse
  rw [if_neg (Nat.not_lt_of_le hlen), mem_read_all, cstr_of_self _ hnul, add_line_nested,
    sscanf_add_canonical CMD_ADD (filter_str f) c s l [] hadd (filter_str_token f) hc hl hs]
  simp only
  have h1 : cbyte c 0 = '/' := (cbyte_head_iff c).mpr hc0
  have h2 : cbyte l 0 = '/' := (cbyte_head_iff l).mpr hl0
  have h3 : '/' ∉ s := fun hm => (hs.2 _ hm).2.1 rfl
  have hcond : ¬ (CMD_ADD ≠ CMD_ADD ∨ cbyte c 0 ≠ '/' ∨ cbyte l 0 ≠ '/' ∨ '\n' ≠ '\n'
      ∨ '/' ∈ s) := by
    simp [h1, h2, h3]
  rw [if_neg hcond, find_filter_str]

/-! ## Control file: round trip -/

theorem cfg_dump_append (xs ys : List cfg_entry) :
    cfg_dump (xs ++ ys) = cfg_dump xs ++ cfg_dump ys := by
  induction xs with
  | nil => simp [cfg_dump]
  | cons x rest ih => simp [cfg_dump, ih]

theorem cfg_dump_single (e : cfg_entry) :
    cfg_dump [e] = (e.back.map (cfg_line e)).flatten := by
  simp [cfg_dump]

theorem memcmp_add_line (f : filter) (c s l : CStr) :
    memcmp (add_line f c s l) CMD_ADD 3 = 0 ∧ memcmp (add_line f c s l) CMD_CLEAR 6 ≠ 0 := by
  rw [add_line_nested]
  constructor
  · rfl
  · show memcmp ('a' :: 'd' :: 'd' :: _) CMD_CLEAR (5 + 1) ≠ 0
    unfold memcmp
    have h0 : cbyte CMD_CLEAR 0 = 'c' := by decide
    have hne : ¬ ('a' = 'c') := by decide
    rw [cbyte_cons_zero, h0, if_neg hne]
    decide

theorem add_line_length_ge (f : filter) (c s l : CStr) : 3 ≤ (add_line f c s l).length := by
  rw [add_line_nested]
  simp [CMD_ADD]

theorem m_write_req (st : cfg_state) (r : add_req) (h : valid_add r.f r.c r.s r.l) :
    m_write_tab r.env st 0 CFG_PATH (req_line r) (req_line r).length
      = cfg_add_apply r.env st r.f r.c r.s r.l (req_line r).length (req_line r).length := by
  obtain ⟨hm1, hm2⟩ := memcmp_add_line r.f r.c r.s r.l
  have hlen := add_line_length_ge r.f r.c r.s r.l
  unfold m_write_tab
  have hpath : ¬ (pstrcmp CFG_PATH CFG_PATH.length CFG_PATH CFG_PATH.length ≠ 0) := by decide
  have huid : ¬ ((0 : Nat) ≠ 0) := by decide
  have hclear : ¬ ((req_line r).length ≥ CMD_CLEAR.length ∧
      memcmp (req_line r) CMD_CLEAR CMD_CLEAR.length = 0) := fun hh => hm2 hh.2
  have hadd : (req_line r).length ≥ CMD_ADD.length ∧
      memcmp (req_line r) CMD_ADD CMD_ADD.length = 0 := ⟨hlen, hm1⟩
  rw [if_neg hpath, if_neg huid, if_neg hclear, if_pos hadd]
  unfold cfg_add_tab
  have hp : cfg_add_parse (req_line r) (req_line r).length = .ok (r.f, r.c, r.s, r.l) :=
    cfg_add_parse_line r.f r.c r.s r.l h
  rw [hp]
  simp only
  have hs : strlen (req_line r) = (req_line r).length :=
    strlen_of_no_nul _ (add_line_no_nul r.f r.c r.s r.l h.1 h.2.2.1 h.2.2.2.2.1)
  rw [hs]

theorem nodup_last_unique (pre post : List cfg_entry) (e e1 : cfg_entry)
    (hnd : ((pre ++ e :: post).map (fun x => x.cpath)).Nodup)
    (hlast : (pre ++ e :: post).getLast? = some e1) (hc : e1.cpath = e.cpath) : post = [] := by
  by_contra hpost
  have hsome : post.getLast?.isSome := List.getLast?_isSome.mpr hpost
  obtain ⟨z, hz⟩ := Option.isSome_iff_exists.mp hsome
  obtain ⟨zs, hzs⟩ := List.getLast?_eq_some_iff.mp hz
  have hz1 : (pre ++ e :: post).getLast? = some z := by
    rw [hzs, show pre ++ e :: (zs ++ [z]) = (pre ++ e :: zs) ++ [z] by simp]
    exact List.getLast?_concat _
  rw [hlast] at hz1
  have hze : e1 = z := Option.some.inj hz1
  have hmem : e1 ∈ post := by rw [hze]; exact List.mem_of_getLast?_eq_some hz
  rw [List.map_append, List.map_cons] at hnd
  have h2 := (List.nodup_append.mp hnd).2.1
  have h3 := (List.nodup_cons.mp h2).1
  apply h3
  rw [← hc]
  exact List.mem_map.mpr ⟨e1, hmem, rfl⟩

theorem dump_inv_snoc (pre : List add_req) (r : add_req) (cfgs init : List cfg_entry)
    (e_new : cfg_entry) (hJ : dump_inv pre cfgs)
    (hc : e_new.cpath = r.c) (hf : e_new.filter = r.f)
    (hdump : cfg_dump (init ++ [e_new]) = cfg_dump cfgs ++ req_line r)
    (hinit : ∀ e : cfg_entry, e ∈ init → e ∈ cfgs)
    (hcp : ∀ e : cfg_entry, e ∈ cfgs → e ∈ init ∨ e.cpath = r.c)
    (hback : ∀ b : back_entry, b ∈ e_new.back → (b.stratum = r.s ∧ b.lpath = r.l) ∨
      ∃ e : cfg_entry, e ∈ cfgs ∧ e.cpath = r.c ∧ b ∈ e.back) :
    dump_inv (pre ++ [r]) (init ++ [e_new]) := by
  obtain ⟨J1, J2, _, J5, J6⟩ := hJ
  refine ⟨?_, ?_, ?_, ?_, ?_⟩
  · rw [hdump, J1]; simp
  · intro c
    constructor
    · rintro ⟨e, he, hec⟩
      rcases List.mem_append.mp he with h1 | h1
      · obtain ⟨q, hq, hqc⟩ := (J2 c).mp ⟨e, hinit e h1, hec⟩
        exact ⟨q, List.mem_append_left _ hq, hqc⟩
      · have : e = e_new := by simpa using h1
        exact ⟨r, by simp, by rw [← hec, this, hc]⟩
    · rintro ⟨q, hq, hqc⟩
      rcases List.mem_append.mp hq with h1 | h1
      · obtain ⟨e, he, hec⟩ := (J2 c).mpr ⟨q, h1, hqc⟩
        rcases hcp e he with h2 | h2
        · exact ⟨e, List.mem_append_left _ h2, hec⟩
        · exact ⟨e_new, by simp, by rw [hc, ← h2, hec]⟩
      · have : q = r := by simpa using h1
        exact ⟨e_new, by simp, by rw [hc, ← hqc, this]⟩
  · intro q hq
    rw [List.getLast?_concat] at hq
    have : r = q := Option.some.inj hq
    exact ⟨e_new, List.getLast?_concat _, by rw [hc, this]⟩
  · intro e he
    rcases List.mem_append.mp he with h1 | h1
    · obtain ⟨q, hq, h⟩ := J5 e (hinit e h1)
      exact ⟨q, List.mem_append_left _ hq, h⟩
    · have : e = e_new := by simpa using h1
      exact ⟨r, by simp, by rw [this, hc], by rw [this, hf]⟩
  · intro e he b hb
    rcases List.mem_append.mp he with h1 | h1
    · obtain ⟨q, hq, h⟩ := J6 e (hinit e h1) b hb
      exact ⟨q, List.mem_append_left _ hq, h⟩
    · have hee : e = e_new := by simpa using h1
      rw [hee] at hb
      rcases hback b hb with ⟨h2, h3⟩ | ⟨e1, he1, he1c, hb1⟩
      · exact ⟨r, by simp, by rw [hee, hc], h2.symm, h3.symm⟩
      · obtain ⟨q, hq, hqc, hqs, hql⟩ := J6 e1 he1 b hb1
        exact ⟨q, List.mem_append_left _ hq, by rw [hqc, he1c, hee, hc], hqs, hql⟩

theorem dump_inv_step (pre : List add_req) (r : add_req) (st : cfg_state)
    (hv : valid_add r.f r.c r.s r.l) (hok : next_ok pre r)
    (hJ : dump_inv pre st.cfgs) (hinv : table_inv st.cfgs)
    (hrv : (m_write_tab r.env st 0 CFG_PATH (req_line r) (req_line r).length).1
      = ((req_line r).length : Int)) :
    dump_inv (pre ++ [r]) (m_write_tab r.env st 0 CFG_PATH (req_line r) (req_line r).length).2.cfgs := by
  rw [m_write_req st r hv] at hrv ⊢
  have ho := cfg_add_apply_outcome r.env st r.f r.c r.s r.l (req_line r).length
    (req_line r).length
  have hneg : ¬ (((req_line r).length : Int) = -ENOMEM) := by
    have h0 : (0 : Int) ≤ ((req_line r).length : Int) := Int.ofNat_nonneg _
    have h1 : -ENOMEM < 0 := by decide
    omega
  rcases ho with ⟨h0, _⟩ | ⟨h0, _, _⟩ | ⟨_, _, i, e, hfind, he, hb⟩ |
    ⟨_, i, e, fd, hfind, he, hb, _, h1⟩ | ⟨_, hfind, fd, _, h1⟩
  · exact absurd (hrv ▸ h0) hneg
  · exact absurd (hrv ▸ h0) hneg
  · -- the pair would have to stem from an earlier request
    exfalso
    obtain ⟨e2, he2, he2c, _⟩ := find_cfg_some r.c st.cfgs i hfind
    rw [he] at he2
    have hee : e = e2 := Option.some.inj he2
    have hmem : e ∈ st.cfgs := List.mem_iff_getElem?.mpr ⟨i, he⟩
    obtain ⟨b, hbm, hbs, hbl⟩ := (has_back_iff r.s r.l e.back).mp hb
    obtain ⟨q, hq, hqc, hqs, hql⟩ := hJ.2.2.2.2 e hmem b hbm
    have hqc1 : q.c = r.c := by rw [hqc, hee]; exact he2c
    rcases hok with h | ⟨_, _, h⟩
    · exact h q hq hqc1
    · exact h q hq ⟨hqc1, by rw [hqs, hbs], by rw [hql, hbl]⟩
  · -- the pair goes to the last entry
    obtain ⟨e2, he2, he2c, _⟩ := find_cfg_some r.c st.cfgs i hfind
    rw [he] at he2
    have hee : e = e2 := Option.some.inj he2
    have hec : e.cpath = r.c := by rw [hee]; exact he2c
    have hmem : e ∈ st.cfgs := List.mem_iff_getElem?.mpr ⟨i, he⟩
    obtain ⟨hs1, hs2⟩ := push_back_split ⟨r.l, r.s, fd⟩ st.cfgs i e he
    have hpre_has : ∃ q : add_req, q ∈ pre ∧ q.c = r.c := (hJ.2.1 r.c).mp ⟨e, hmem, hec⟩
    rcases hok with h | ⟨⟨q, hq, hqc⟩, hsame, _⟩
    · obtain ⟨q, hq, hqc⟩ := hpre_has
      exact absurd hqc (h q hq)
    · obtain ⟨e1, he1, he1c⟩ := hJ.2.2.1 q hq
      have hpost : st.cfgs.drop (i + 1) = [] := by
        apply nodup_last_unique (st.cfgs.take i) _ e e1
        · rw [← hs1]; exact hinv.1
        · rw [← hs1]; exact he1
        · rw [he1c, hqc, hec]
      rw [hpost] at hs1 hs2
      rw [h1]
      show dump_inv (pre ++ [r]) (push_back st.cfgs i ⟨r.l, r.s, fd⟩)
      rw [hs2]
      have hfilter : e.filter = r.f := by
        obtain ⟨q1, hq1, hq1c, hq1f⟩ := hJ.2.2.2.1 e hmem
        rw [← hq1f]
        exact hsame q1 hq1 (by rw [hq1c, hec])
      apply dump_inv_snoc pre r st.cfgs (st.cfgs.take i)
        { e with back := e.back ++ [⟨r.l, r.s, fd⟩] } hJ hec hfilter
      · have hd : cfg_dump st.cfgs = cfg_dump (st.cfgs.take i) ++ cfg_dump [e] := by
          conv_lhs => rw [hs1]
          exact cfg_dump_append _ _
        rw [hd, cfg_dump_append, cfg_dump_single, cfg_dump_single]
        have hl : req_line r = cfg_line e ⟨r.l, r.s, fd⟩ := by
          rw [cfg_line_eq, hfilter, hec]; rfl
        rw [hl]
        show cfg_dump (st.cfgs.take i) ++
          ((e.back ++ [(⟨r.l, r.s, fd⟩ : back_entry)]).map (cfg_line e)).flatten = _
        simp
      · intro x hx; exact List.mem_of_mem_take hx
      · intro x hx
        rw [hs1] at hx
        rcases List.mem_append.mp hx with h2 | h2
        · exact Or.inl h2
        · have : x = e := by simpa using h2
          exact Or.inr (by rw [this]; exact hec)
      · intro b hbm
        have hbm1 : b ∈ e.back ++ [(⟨r.l, r.s, fd⟩ : back_entry)] := hbm
        rcases List.mem_append.mp hbm1 with h2 | h2
        · exact Or.inr ⟨e, hmem, hec, h2⟩
        · have : b = ⟨r.l, r.s, fd⟩ := by simpa using h2
          rw [this]; exact Or.inl ⟨rfl, rfl⟩
  · rw [h1]
    apply dump_inv_snoc pre r st.cfgs st.cfgs ⟨r.f, r.c, [⟨r.l, r.s, fd⟩]⟩ hJ rfl rfl
    · rw [cfg_dump_append, cfg_dump_single]
      simp [cfg_line_eq, req_line]
    · intro x hx; exact hx
    · intro x hx; exact Or.inl hx
    · intro b hbm
      have : b = ⟨r.l, r.s, fd⟩ := by simpa using hbm
      rw [this]; exact Or.inl ⟨rfl, rfl⟩

theorem run_writes_snoc (st : cfg_state) (ws : List write_req) (w : write_req) :
    run_writes_tab st (ws ++ [w])
      = (m_write_tab w.env (run_writes_tab st ws) w.uid w.ipath w.buf w.size).2 := by
  simp [run_writes_tab, List.foldl_append]

theorem write_rvs_snoc (ws : List write_req) (w : write_req) :
    ∀ st : cfg_state, write_rvs_tab st (ws ++ [w])
      = write_rvs_tab st ws ++ [(m_write_tab w.env (run_writes_tab st ws) w.uid w.ipath w.buf w.size).1] := by
  induction ws with
  | nil => intro st; simp [write_rvs_tab, run_writes_tab]
  | cons x rest ih =>
    intro st
    have h1 := ih (m_write_tab x.env st x.uid x.ipath x.buf x.size).2
    show (m_write_tab x.env st x.uid x.ipath x.buf x.size).1 ::
        write_rvs_tab (m_write_tab x.env st x.uid x.ipath x.buf x.size).2 (rest ++ [w]) = _
    rw [h1]
    rfl

theorem write_rvs_length (ws : List write_req) :
    ∀ st : cfg_state, (write_rvs_tab st ws).length = ws.length := by
  induction ws with
  | nil => intro st; rfl
  | cons x rest ih => intro st; simp [write_rvs_tab, ih]

theorem grouped_snoc (pre : List add_req) (r : add_req) (h : grouped (pre ++ [r])) :
    grouped pre ∧ next_ok pre r := by
  constructor
  · intro k q hq
    have hk : k < pre.length := (List.getElem?_eq_some.mp hq).1
    have h1 := h k q (by rw [List.getElem?_append_left hk]; exact hq)
    rw [List.take_append_of_le_length (Nat.le_of_lt hk)] at h1
    exact h1
  · have h1 := h pre.length r (by simp)
    simpa using h1

theorem dump_inv_run (rs : List add_req) :
    (∀ r : add_req, r ∈ rs → valid_add r.f r.c r.s r.l) → grouped rs →
    write_rvs_tab cfg_init (rs.map req_write) = (rs.map req_write).map (fun w => (w.size : Int)) →
    dump_inv rs (run_writes_tab cfg_init (rs.map req_write)).cfgs := by
  induction rs using List.reverseRecOn with
  | nil =>
    intro _ _ _
    refine ⟨rfl, ?_, ?_, ?_, ?_⟩
    · intro c; simp [run_writes_tab, cfg_init]
    · intro q hq; simp at hq
    · intro e he; simp [run_writes_tab, cfg_init] at he
    · intro e he; simp [run_writes_tab, cfg_init] at he
  | append_singleton pre r ih =>
    intro hvalid hgrp hrv
    obtain ⟨hg1, hg2⟩ := grouped_snoc pre r hgrp
    have hv1 : ∀ q : add_req, q ∈ pre → valid_add q.f q.c q.s q.l :=
      fun q hq => hvalid q (List.mem_append_left _ hq)
    have hvr : valid_add r.f r.c r.s r.l := hvalid r (by simp)
    rw [List.map_append, List.map_singleton] at hrv ⊢
    rw [write_rvs_snoc, List.map_append, List.map_singleton] at hrv
    have hlen : (write_rvs_tab cfg_init (pre.map req_write)).length
        = ((pre.map req_write).map (fun w => (w.size : Int))).length := by
      rw [write_rvs_length]; simp
    obtain ⟨hrv1, hrv2⟩ := List.append_inj hrv hlen
    have hrv3 : (m_write_tab r.env (run_writes_tab cfg_init (pre.map req_write)) 0 CFG_PATH
        (req_line r) (req_line r).length).1 = ((req_line r).length : Int) := by
      simpa [req_write] using hrv2
    have hJ := ih hv1 hg1 hrv1
    have hinv := run_writes_inv (pre.map req_write) cfg_init
      ⟨List.nodup_nil, fun e he => by cases he⟩
    rw [run_writes_snoc]
    exact dump_inv_step pre r _ hvr hg2 hJ hinv hrv3

theorem off_control_classify (c : CStr) (hc0 : c.head? = some '/') (hoff : off_control c) :
    is_equal_or_parent c c.length CFG_PATH CFG_PATH.length = 0 ∧
      is_parent CFG_PATH CFG_PATH.length c c.length = 0 := by
  constructor
  · by_contra hne
    rcases (is_equal_or_parent_ne_zero_iff c CFG_PATH (by decide)).mp hne with h | ⟨_, h⟩
    · exact hoff.1 h
    · cases c with
      | nil => simp at hc0
      | cons x t =>
        have h1 : (".config-filesystem".toList)[t.length]? = some '/' := by
          have h2 : CFG_PATH = '/' :: ".config-filesystem".toList := by decide
          rw [h2] at h
          simpa using h
        have h3 : '/' ∈ ".config-filesystem".toList := List.mem_iff_getElem?.mpr ⟨_, h1⟩
        revert h3
        decide
  · by_contra hne
    obtain ⟨hp, _, h⟩ := (is_parent_ne_zero_iff CFG_PATH c).mp hne
    apply hoff.2
    obtain ⟨t, ht⟩ := hp
    rw [← ht, List.getElem?_append_right (Nat.le_refl _)] at h
    cases t with
    | nil => simp at h
    | cons y t1 =>
      have hy : y = '/' := by simpa using h
      rw [← ht, hy]
      exact ⟨t1, by simp⟩

theorem classify_control (cfgs : List cfg_entry)
    (h : ∀ e : cfg_entry, e ∈ cfgs →
      is_equal_or_parent e.cpath e.cpath.length CFG_PATH CFG_PATH.length = 0 ∧
        is_parent CFG_PATH CFG_PATH.length e.cpath e.cpath.length = 0) :
    classify_ipath cfgs CFG_PATH CFG_PATH.length = (.CLASS_CFG, none) := by
  unfold classify_ipath
  rw [(classify_back_none_iff CFG_PATH CFG_PATH.length cfgs).mpr (fun e he => (h e he).1)]
  simp only
  rw [(classify_vdir_none_iff CFG_PATH CFG_PATH.length cfgs).mpr (fun e he => (h e he).2)]
  simp only
  have hr : ¬ (cbyte CFG_PATH 0 = '/' ∧ cbyte CFG_PATH 1 = NUL) := by decide
  have hc : pstrcmp CFG_PATH CFG_PATH.length CFG_PATH CFG_PATH.length = 0 := by decide
  rw [if_neg hr, if_pos hc]

theorem flatten_no_nul (ls : List CStr) (h : ∀ x : CStr, x ∈ ls → NUL ∉ x) :
    NUL ∉ ls.flatten := by
  intro hm
  obtain ⟨x, hx, hnx⟩ := List.mem_flatten.mp hm
  exact h x hx hnx

theorem ex_reqs_grouped : grouped ex_reqs := by
  intro k r hk
  cases k with
  | zero => exact Or.inl (fun q hq => by simp at hq)
  | succ k1 =>
    cases k1 with
    | zero =>
      have hr : (⟨⟨true, true, true, true, fun _ => 3, true⟩, .FILTER_BIN, "/a".toList,
          "t".toList, "/c".toList⟩ : add_req) = r := by
        simpa [ex_reqs] using hk
      subst hr
      refine Or.inr ⟨⟨_, rfl, rfl⟩, ?_, ?_⟩
      · intro q hq _
        have : q = ⟨⟨true, true, true, true, fun _ => 3, true⟩, .FILTER_BIN, "/a".toList,
            "s".toList, "/b".toList⟩ := by simpa [ex_reqs] using hq
        rw [this]
      · intro q hq
        have : q = ⟨⟨true, true, true, true, fun _ => 3, true⟩, .FILTER_BIN, "/a".toList,
            "s".toList, "/b".toList⟩ := by simpa [ex_reqs] using hq
        rw [this]
        decide
    | succ k2 => simp [ex_reqs] at hk

theorem ex_reqs_valid (r : add_req) (hr : r ∈ ex_reqs) :
    valid_add r.f r.c r.s r.l ∧ off_control r.c := by
  have h : r = ⟨⟨true, true, true, true, fun _ => 3, true⟩, .FILTER_BIN, "/a".toList,
      "s".toList, "/b".toList⟩ ∨
      r = ⟨⟨true, true, true, true, fun _ => 3, true⟩, .FILTER_BIN, "/a".toList,
      "t".toList, "/c".toList⟩ := by simpa [ex_reqs] using hr
  rcases h with h | h
  · rw [h]
    exact ⟨⟨⟨by decide, by decide⟩, by decide, ⟨by decide, by decide⟩, by decide,
      ⟨⟨'s', [], rfl, by decide⟩, by decide⟩, by decide⟩, by decide, by decide⟩
  · rw [h]
    exact ⟨⟨⟨by decide, by decide⟩, by decide, ⟨by decide, by decide⟩, by decide,
      ⟨⟨'t', [], rfl, by decide⟩, by decide⟩, by decide⟩, by decide, by decide⟩

/-! ## Control file: evaluations at concrete inputs -/

/-- C8: after `add font /a s:/b` and `add bin /a t:/c` the cached size is 33
while the dump `cfg_read` builds has 34 bytes (the entry keeps its first
filter, `font`, and the second line is dumped with it). -/
theorem cached_size_diverges :
    write_rvs globals_init [root_write env_ok "add font /a s:/b\n".toList,
      root_write env_ok "add bin /a t:/c\n".toList] = some [17, 16] ∧
    (run_writes globals_init [root_write env_ok "add font /a s:/b\n".toList,
      root_write env_ok "add bin /a t:/c\n".toList]).map (fun g => g.st.st_size) = some 33 ∧
    (run_writes globals_init [root_write env_ok "add font /a s:/b\n".toList,
      root_write env_ok "add bin /a t:/c\n".toList]).map
        (fun g => (cfg_dump g.st.cfgs).length) = some 34 := by
  decide

/-- C9: a buffer that begins with `add` and whose last byte is `X`, not a
newline, is accepted: `cfg_add` returns its size, 17, and extends the table.
The byte tested against the newline is the one `%c` reads right behind the
`lpath` token: the same line cut before its newline is refused, and so is the
line with ` X` put before its newline. Refused as well, with `-EINVAL` and no
change: a line without stratum and lpath, with an empty stratum, with a first
token other than `add`, with an unknown filter name, with a cpath or an lpath
that does not begin with a slash, with a slash in the stratum. -/
theorem add_accepts_bytes_after_newline :
    "add bin /a s:/b\nX".toList.getLast? = some 'X' ∧
    "add bin /a s:/b\nX".toList.length ≤ PATH_MAX - 1 ∧
    cfg_add env_ok globals_init "add bin /a s:/b\nX".toList 17
      = some (17, ⟨.live,
          ⟨[⟨.FILTER_BIN, "/a".toList, [⟨"/b".toList, "s".toList, 3⟩]⟩], 17⟩⟩) ∧
    cfg_add env_ok globals_init "add bin /a s:/b".toList 15 = some (-EINVAL, globals_init) ∧
    cfg_add env_ok globals_init "add bin /a s:/b X\n".toList 18 = some (-EINVAL, globals_init) ∧
    cfg_add env_ok globals_init "add bin /a\n".toList 11 = some (-EINVAL, globals_init) ∧
    cfg_add env_ok globals_init "add bin /a :/b\n".toList 15 = some (-EINVAL, globals_init) ∧
    cfg_add env_ok globals_init "addx bin /a s:/b\n".toList 17 = some (-EINVAL, globals_init) ∧
    cfg_add env_ok globals_init "add zip /a s:/b\n".toList 16 = some (-EINVAL, globals_init) ∧
    cfg_add env_ok globals_init "add bin a s:/b\n".toList 15 = some (-EINVAL, globals_init) ∧
    cfg_add env_ok globals_init "add bin /a s:b\n".toList 15 = some (-EINVAL, globals_init) ∧
    cfg_add env_ok globals_init "add bin /a s/t:/b\n".toList 18
      = some (-EINVAL, globals_init) := by
  decide

/-- C10: on the empty table, `add bin /a s:/b` with the stratum root failing
to open returns `-ENOMEM` and leaves a new configured entry `/a` with no
backing entry behind. -/
theorem failed_add_leaves_entry :
    m_write env_no_root globals_init 0 CFG_PATH "add bin /a s:/b\n".toList 16
      = some (-ENOMEM, ⟨.live, ⟨[⟨.FILTER_BIN, "/a".toList, []⟩], 0⟩⟩) ∧
    (m_write env_no_root globals_init 0 CFG_PATH "add bin /a s:/b\n".toList 16).map
      (fun r => r.2.st) ≠ some cfg_init := by
  decide

/-! ## Control file: frame, gating, clear and read -/

/-- An add for a cpath that the table already holds leaves every filter and
every cpath of the table as it was; the list of entries is unchanged, or the
first entry for that cpath, with its filter kept, gets one backing entry
appended at the end while all other entries stay as they were. -/
theorem add_keeps_filter_tab (env : add_env) (st : cfg_state) (buf : CStr) (size : Nat)
    (f : filter) (c s l : CStr) (hp : cfg_add_parse buf size = .ok (f, c, s, l))
    (hex : ∃ e : cfg_entry, e ∈ st.cfgs ∧ e.cpath = c) :
    (cfg_add_tab env st buf size).2.cfgs.map (fun e => e.filter)
      = st.cfgs.map (fun e => e.filter) ∧
    (cfg_add_tab env st buf size).2.cfgs.map (fun e => e.cpath)
      = st.cfgs.map (fun e => e.cpath) ∧
    ((cfg_add_tab env st buf size).2.cfgs = st.cfgs ∨
      ∃ (pre : List cfg_entry) (e : cfg_entry) (post : List cfg_entry) (fd : Int),
        st.cfgs = pre ++ e :: post ∧ e.cpath = c ∧
        (∀ x : cfg_entry, x ∈ pre → x.cpath ≠ c) ∧
        (cfg_add_tab env st buf size).2.cfgs
          = pre ++ ⟨e.filter, e.cpath, e.back ++ [⟨l, s, fd⟩]⟩ :: post) := by
  obtain ⟨e0, he0, he0c⟩ := hex
  have hsome : find_cfg c st.cfgs ≠ none :=
    fun h => (find_cfg_none_iff c _).mp h e0 he0 he0c
  unfold cfg_add_tab
  rw [hp]
  have ho := cfg_add_apply_outcome env st f c s l (strlen buf) size
  rcases ho with ⟨_, h1⟩ | ⟨_, hfind, _⟩ | ⟨_, h1, _⟩ | ⟨_, i, e1, fd, hfind, he1, _, _, h1⟩ |
    ⟨_, hfind, _⟩
  · simp only
    rw [h1]
    exact ⟨rfl, rfl, Or.inl rfl⟩
  · exact absurd hfind hsome
  · simp only
    rw [h1]
    exact ⟨rfl, rfl, Or.inl rfl⟩
  · obtain ⟨e2, he2, he2c, hfirst⟩ := find_cfg_some c _ i hfind
    rw [he1] at he2
    have hee : e1 = e2 := Option.some.inj he2
    obtain ⟨hs1, hs2⟩ := push_back_split ⟨l, s, fd⟩ _ i e1 he1
    obtain ⟨_, hpre⟩ := split_at_index st.cfgs i e1 he1
    simp only
    rw [h1]
    show (push_back st.cfgs i ⟨l, s, fd⟩).map (fun e => e.filter) = _ ∧
      (push_back st.cfgs i ⟨l, s, fd⟩).map (fun e => e.cpath) = _ ∧
      (push_back st.cfgs i ⟨l, s, fd⟩ = st.cfgs ∨ _)
    refine ⟨?_, push_back_map_cpath _ _ _, Or.inr ⟨_, e1, _, fd, hs1, by rw [hee]; exact he2c,
      ?_, hs2⟩⟩
    · rw [hs2]
      conv_rhs => rw [hs1]
      simp
    · intro x hx
      obtain ⟨j, hj, hjx⟩ := hpre x hx
      exact hfirst j hj x hjx
  · exact absurd hfind hsome

theorem cfg_dump_lines : ∀ cfgs : List cfg_entry, cfg_dump cfgs = (dump_lines cfgs).flatten := by
  intro cfgs
  induction cfgs with
  | nil => rfl
  | cons x rest ih =>
    unfold cfg_dump
    rw [ih]
    have hl : cfg_line x = fun b => add_line x.filter x.cpath b.stratum b.lpath :=
      funext (fun b => cfg_line_eq x b)
    simp [dump_lines, hl]

theorem dump_lines_no_nul (cfgs : List cfg_entry) (hstr : table_cstr cfgs) :
    NUL ∉ (dump_lines cfgs).flatten := by
  apply flatten_no_nul
  intro x hx
  unfold dump_lines at hx
  obtain ⟨ls, hls, hxl⟩ := List.mem_flatten.mp hx
  obtain ⟨c, hc, hcl⟩ := List.mem_map.mp hls
  rw [← hcl] at hxl
  obtain ⟨b, hb, hbx⟩ := List.mem_map.mp hxl
  rw [← hbx]
  have h1 := hstr c hc
  have h2 := h1.2 b hb
  have hf := filter_str_token c.filter
  intro hm
  simp only [add_line, List.mem_append] at hm
  rcases hm with (((((((h | h) | h) | h) | h) | h) | h) | h) | h
  · revert h; decide
  · exact (hf.2 _ h).2 rfl
  · revert h; decide
  · exact h1.1 h
  · revert h; decide
  · exact h2.1 h
  · revert h; decide
  · exact h2.2 h
  · revert h; decide

/-! ## Filters: mode scrubbing and font index parsing -/

theorem getattr_ini_mode (env : fs_env) (cfg : cfg_entry) (ipath : CStr) (ipath_len : Nat)
    (rv : Int) (stbuf : c_stat) (errno : Int) :
    (getattr_ini env cfg ipath ipath_len rv stbuf errno).2.st_mode = stbuf.st_mode := by
  unfold getattr_ini
  split
  · rfl
  · simp only
    split
    · rfl
    · split
      · rfl
      · split <;> rfl

theorem getattr_font_mode (env : fs_env) (cfg : cfg_entry) (ipath : CStr) (ipath_len : Nat)
    (rv : Int) (stbuf : c_stat) :
    (getattr_font env cfg ipath ipath_len rv stbuf).2.st_mode = stbuf.st_mode := by
  unfold getattr_font
  split
  · rfl
  · split
    · rfl
    · simp only
      split
      · rfl
      · split
        · split <;> rfl
        · rfl

theorem getattr_back_mode (env : fs_env) (cfg : cfg_entry) (ipath : CStr) (ipath_len : Nat)
    (stbuf : c_stat) (errno : Int)
    (h : 0 ≤ (stat_first_bpath env.stat cfg ipath ipath_len stbuf errno).1.rv) :
    (getattr_back env cfg ipath ipath_len stbuf errno).2.st_mode
      = clear_mode_bits (stat_first_bpath env.stat cfg ipath ipath_len stbuf errno).2.st_mode := by
  unfold getattr_back
  simp only
  rw [if_neg (not_lt.mpr h)]
  cases cfg.filter with
  | FILTER_BIN =>
    simp only
    split <;> rfl
  | FILTER_INI =>
    simp only
    rw [getattr_ini_mode]
  | FILTER_FONT =>
    simp only
    rw [getattr_font_mode]
  | FILTER_PASS => rfl

theorem clear_mode_bits_testBit (m i : Nat) (hi : i < 32) :
    (clear_mode_bits m).testBit i = (m.testBit i && !decide (i ∈ [1, 4, 7, 9, 10, 11])) := by
  unfold clear_mode_bits
  rw [Nat.testBit_land]
  congr 1
  interval_cases i <;> decide

/-- C15: for every filter, when the stat-first scan succeeds the mode left by
`getattr_back` is the mode the scan stored with the setuid (bit 11), setgid
(bit 10), sticky (bit 9), owner-write (bit 7), group-write (bit 4) and
other-write (bit 1) bits cleared and every other bit of the 32-bit mode as it
was, whatever value the size projection makes `getattr_back` return. -/
theorem getattr_back_scrubs (env : fs_env) (cfg : cfg_entry) (ipath : CStr) (ipath_len : Nat)
    (stbuf : c_stat) (errno : Int) (i : Nat)
    (h : 0 ≤ (stat_first_bpath env.stat cfg ipath ipath_len stbuf errno).1.rv)
    (hi : i < 32) :
    [S_ISUID, S_ISGID, S_ISVTX, S_IWUSR, S_IWGRP, S_IWOTH]
      = [2 ^ 11, 2 ^ 10, 2 ^ 9, 2 ^ 7, 2 ^ 4, 2 ^ 1] ∧
    (i ∈ [1, 4, 7, 9, 10, 11] →
      (getattr_back env cfg ipath ipath_len stbuf errno).2.st_mode.testBit i = false) ∧
    (i ∉ [1, 4, 7, 9, 10, 11] →
      (getattr_back env cfg ipath ipath_len stbuf errno).2.st_mode.testBit i
        = (stat_first_bpath env.stat cfg ipath ipath_len stbuf errno).2.st_mode.testBit i) := by
  rw [getattr_back_mode env cfg ipath ipath_len stbuf errno h, clear_mode_bits_testBit _ i hi]
  refine ⟨by decide, ?_, ?_⟩
  · intro hm
    simp [hm]
  · intro hm
    simp [hm]

theorem getattr_back_scrubs_witness :
    (getattr_back (ex_env ini_files ⟨0o104755, 30⟩) ini_cfg
      "/applications/vim.desktop".toList 25 ⟨0, 0⟩ 0).2.st_mode.testBit 11 = false :=
  (getattr_back_scrubs (ex_env ini_files ⟨0o104755, 30⟩) ini_cfg
    "/applications/vim.desktop".toList 25 ⟨0, 0⟩ 0 11 (by decide) (by decide)).2.1 (by decide)

/-- C20: `font_merge_kv` looks for a blank first and for a TAB only in a line
without any blank, so the line `a TAB b SPACE c NEWLINE` is split into the key
`a TAB b` and the value `c NEWLINE`, not into the key `a` and the value
`b SPACE c NEWLINE`; a line starting with `!` and a line without blank and TAB
are skipped, and a run of blanks and TABs after the separator is dropped. -/
theorem font_split_prefers_space :
    font_split "a\tb c\n".toList = some ("a\tb".toList, "c\n".toList) ∧
    font_split "a\tb c\n".toList ≠ some ("a".toList, "b c\n".toList) ∧
    font_merge_kv (ex_env (two_files "/u/a/fonts.alias" "a\tb c\n" "" "") ⟨0o100644, 6⟩)
      font_cfg "/fonts/fonts.alias".toList 18 = (0, [⟨"a\tb".toList, "c\n".toList⟩]) ∧
    font_split "!a b\n".toList = none ∧
    font_split "abc\n".toList = none ∧
    font_split "a \t b c\n".toList = some ("a".toList, "b c\n".toList) := by
  refine ⟨by decide, by decide, ?_, by decide, by decide, by decide⟩
  set_option maxRecDepth 100000 in decide

/-- C19: for a `fonts.dir` merged from ten pairs `getattr_back` reports 42
bytes while a full read through `read_back` returns 43: the size projection
formats a counter that is never incremented (2 bytes, `0` and a newline) where
the read emits the count line `10` and a newline (3 bytes). -/
theorem font_size_misses_count_digits :
    getattr_back (ex_env (two_files "/u/a/fonts.dir"
        "a 1\nb 1\nc 1\nd 1\ne 1\nf 1\ng 1\nh 1\ni 1\nj 1\n" "" "") ⟨0o100644, 40⟩)
      font_cfg "/fonts/fonts.dir".toList 16 ⟨0, 0⟩ 0 = (0, ⟨0o100444, 42⟩) ∧
    read_back (ex_env (two_files "/u/a/fonts.dir"
        "a 1\nb 1\nc 1\nd 1\ne 1\nf 1\ng 1\nh 1\ni 1\nj 1\n" "" "") ⟨0o100644, 40⟩)
      font_cfg "/fonts/fonts.dir".toList 16 100 0 0
      = (43, "10\na\t1\nb\t1\nc\t1\nd\t1\ne\t1\nf\t1\ng\t1\nh\t1\ni\t1\nj\t1\n".toList) := by
  constructor
  · set_option maxRecDepth 100000 in decide
  · set_option maxRecDepth 100000 in decide

/-! ## `strcatoff`: the window it copies -/

theorem strlen_le (s : CStr) : strlen s ≤ s.length := by
  unfold strlen
  exact (List.takeWhile_sublist _).length_le

theorem take_strlen (s : CStr) : s.take (strlen s) = cstr_of s := by
  unfold strlen cstr_of
  induction s with
  | nil => rfl
  | cons x r ih =>
    by_cases hx : (x != NUL) = true
    · simp [List.takeWhile_cons, hx, ih]
    · simp [List.takeWhile_cons, hx]

theorem strcatoff_cat_at (S : List Char) (o max : Nat) (str : CStr) (n : Nat)
    (hn : n ≤ str.length) (hmax : max < 2 ^ 64) :
    strcatoff (cat_at S o max) str n max = cat_at (S ++ str.take n) o max := by
  have hlen : (S ++ str.take n).length = S.length + n := by
    rw [List.length_append, List.length_take, Nat.min_eq_left hn]
  unfold cat_at
  rw [hlen]
  by_cases h1 : S.length ≤ o
  · rw [if_pos h1]
    unfold strcatoff
    by_cases h2 : o - S.length ≥ n
    · rw [if_pos h2, if_pos (by omega)]
      simp only [cat_state.mk.injEq, true_and, and_true]
      omega
    · rw [if_neg h2, if_neg (by omega)]
      have hroom : (max + 2 ^ 64 - 0) % 2 ^ 64 = max := by
        rw [Nat.sub_zero, Nat.add_mod_right, Nat.mod_eq_of_lt hmax]
      simp only [hroom, List.take_zero, List.nil_append, Nat.zero_add]
      clear hroom hmax
      have hd : (S ++ str.take n).drop o = (str.drop (o - S.length)).take (n - (o - S.length)) := by
        rw [List.drop_append_eq_append_drop, List.drop_eq_nil_of_le h1, List.nil_append,
          List.drop_take]
      by_cases h3 : n - (o - S.length) < max
      · rw [if_pos h3, mem_read_eq_take _ _ _ (by omega), hd, List.take_take,
          Nat.min_eq_right (Nat.le_of_lt h3)]
        congr 1
        omega
      · rw [if_neg h3, mem_read_eq_take _ _ _ (by omega), hd, List.take_take,
          Nat.min_eq_left (Nat.le_of_not_lt h3)]
        congr 1
        omega
  · rw [if_neg h1]
    unfold strcatoff
    by_cases h2 : n = 0
    · subst h2
      rw [if_pos (Nat.zero_le _), if_neg (by omega)]
      simp
    · rw [if_neg (by simp only [ge_iff_le, Nat.le_zero]; exact h2), if_neg (by omega)]
      have hw : min max (S.length - o) ≤ max := Nat.min_le_left _ _
      have hroom : (max + 2 ^ 64 - min max (S.length - o)) % 2 ^ 64
          = max - min max (S.length - o) := by
        have : max + 2 ^ 64 - min max (S.length - o)
            = (max - min max (S.length - o)) + 2 ^ 64 := by omega
        rw [this, Nat.add_mod_right, Nat.mod_eq_of_lt (by omega)]
      simp only [hroom, Nat.sub_zero]
      clear hroom hmax
      have hd : (S ++ str.take n).drop o = S.drop o ++ str.take n :=
        List.drop_append_of_le_length (by omega)
      have hA : (S.drop o).length = S.length - o := List.length_drop _ _
      rw [hd, List.take_append_eq_append_take, hA, List.take_take, List.take_take]
      by_cases h3 : S.length - o ≤ max
      · rw [Nat.min_eq_right h3]
        have h4 : (if n < max - (S.length - o) then n else max - (S.length - o))
            = min (max - (S.length - o)) n := by
          split <;> omega
        rw [h4, mem_read_eq_take _ _ _ (by simp only [Nat.sub_zero]; omega)]
        simp only [List.drop_zero]
        have h5 : min (S.length - o) max = S.length - o := Nat.min_eq_left h3
        rw [h5]
        congr 1
        · congr 1
          · rw [List.take_of_length_le (by omega), List.take_of_length_le (by omega)]
        · omega
      · have h3l : max < S.length - o := Nat.lt_of_not_le h3
        rw [Nat.min_eq_left (Nat.le_of_lt h3l)]
        have h4 : (if n < max - max then n else max - max) = 0 := by
          split <;> omega
        rw [h4, Nat.min_self]
        have h6 : max - (S.length - o) = 0 := by omega
        rw [h6, Nat.min_eq_left (Nat.zero_le _)]
        simp [mem_read]
        omega

theorem cat_at_buf (S : List Char) (o max : Nat) :
    (cat_at S o max).buf = (S.drop o).take max := by
  unfold cat_at
  split
  · rename_i h
    rw [List.drop_eq_nil_of_le h]
    simp
  · rfl

theorem cat_at_wrote (S : List Char) (o max : Nat) :
    (cat_at S o max).wrote = ((S.drop o).take max).length := by
  unfold cat_at
  split
  · rename_i h
    rw [List.drop_eq_nil_of_le h]
    simp
  · simp

theorem cat_at_full (S X : List Char) (o max : Nat) (h : (cat_at S o max).wrote ≥ max) :
    (cat_at (S ++ X) o max).buf = (cat_at S o max).buf ∧
    (cat_at (S ++ X) o max).wrote = (cat_at S o max).wrote := by
  rw [cat_at_wrote] at h
  simp only [cat_at_buf, cat_at_wrote]
  have h1 : ((S ++ X).drop o).take max = (S.drop o).take max := by
    simp only [List.length_take, List.length_drop] at h
    by_cases h2 : o ≤ S.length
    · rw [List.drop_append_of_le_length h2, List.take_append_of_le_length]
      rw [List.length_drop]
      omega
    · have h3 : max = 0 := by omega
      subst h3
      simp
  rw [h1]
  exact ⟨rfl, rfl⟩

theorem cat_at_nil (o max : Nat) : cat_at [] o max = ⟨[], o, 0⟩ := by
  simp [cat_at]

theorem ini_cat_line_at (stratum : CStr) (line : List Char) (size : Nat) (hsize : size < 2 ^ 64)
    (o : Nat) : ∀ (ps : List (CStr × Nat)) (S : List Char),
    (∀ p : CStr × Nat, p ∈ ps → p.2 ≤ p.1.length) →
    ini_cat_line stratum size line ps (cat_at S o size)
      = cat_at (S ++ ini_line_out stratum line ps) o size := by
  intro ps
  induction ps with
  | nil =>
    intro S _
    simp only [ini_cat_line, ini_line_out]
    exact strcatoff_cat_at S o size line (strlen line) (strlen_le line) hsize
  | cons p rest ih =>
    intro S hps
    simp only [ini_cat_line, ini_line_out]
    by_cases hm : strncmp line p.1 p.2 ≠ 0
    · rw [if_pos hm, if_pos hm]
      exact ih S (fun q hq => hps q (List.mem_cons_of_mem _ hq))
    · rw [if_neg hm, if_neg hm]
      rw [strcatoff_cat_at S o size p.1 p.2 (hps p (List.mem_cons_self _ _)) hsize,
        strcatoff_cat_at _ o size STRAT_PATH STRAT_PATH.length (Nat.le_refl _) hsize,
        strcatoff_cat_at _ o size " ".toList 1 (by decide) hsize,
        strcatoff_cat_at _ o size stratum stratum.length (Nat.le_refl _) hsize,
        strcatoff_cat_at _ o size " ".toList 1 (by decide) hsize,
        strcatoff_cat_at _ o size (line.drop p.2) (strlen (line.drop p.2)) (strlen_le _) hsize]
      congr 1
      simp only [List.take_length, List.append_assoc]
      rfl

theorem ini_read_loop_at (stratum : CStr) (size : Nat) (hsize : size < 2 ^ 64) (o : Nat) :
    ∀ (lines : List (List Char)) (S : List Char),
    (ini_read_loop stratum size lines (cat_at S o size)).buf
      = (cat_at (S ++ (lines.map (fun l => ini_line_out stratum l ini_exec)).flatten) o size).buf ∧
    (ini_read_loop stratum size lines (cat_at S o size)).wrote
      = (cat_at (S ++ (lines.map (fun l => ini_line_out stratum l ini_exec)).flatten) o size).wrote
    := by
  have hexec : ∀ p : CStr × Nat, p ∈ ini_exec → p.2 ≤ p.1.length := by decide
  intro lines
  induction lines with
  | nil =>
    intro S
    simp [ini_read_loop]
  | cons line rest ih =>
    intro S
    simp only [ini_read_loop, List.map_cons, List.flatten_cons]
    rw [ini_cat_line_at stratum line size hsize o ini_exec S hexec, ← List.append_assoc]
    by_cases hfull : (cat_at (S ++ ini_line_out stratum line ini_exec) o size).wrote ≥ size
    · rw [if_pos hfull]
      have := cat_at_full (S ++ ini_line_out stratum line ini_exec)
        (rest.map (fun l => ini_line_out stratum l ini_exec)).flatten o size hfull
      exact ⟨this.1.symm, this.2.symm⟩
    · rw [if_neg hfull]
      exact ih _

theorem read_ini_eq (env : fs_env) (cfg : cfg_entry) (ipath : CStr) (ipath_len size : Nat)
    (offset errno : Int) (B : back_entry) (bpath : CStr) (content : List Char)
    (hsize : size < 2 ^ 64)
    (hrv : 0 ≤ (loc_first_bpath env.readlink cfg ipath ipath_len errno).1.rv)
    (hloc : (loc_first_bpath env.readlink cfg ipath ipath_len errno).2 = some (B, bpath))
    (hopen : env.fopen B.root_fd bpath = .opened content) (hoff : 0 ≤ offset) :
    read_ini env cfg ipath ipath_len size offset errno
      = ((((((fgets_all content).map (fun l => ini_line_out B.stratum l ini_exec)).flatten.drop
            offset.toNat).take size).length : Int),
          ((((fgets_all content).map (fun l => ini_line_out B.stratum l ini_exec)).flatten.drop
            offset.toNat).take size)) := by
  unfold read_ini
  simp only
  rw [if_neg (not_lt.mpr hrv), hloc]
  simp only
  rw [hopen]
  simp only
  rw [if_neg (not_lt.mpr hoff)]
  have h := ini_read_loop_at B.stratum size hsize offset.toNat (fgets_all content) []
  rw [cat_at_nil, List.nil_append, cat_at_buf, cat_at_wrote] at h
  rw [h.1, h.2]

theorem strncmp_zero_iff (a : CStr) : ∀ b : CStr, NUL ∉ a →
    (strncmp b a a.length = 0 ↔ a <+: b) := by
  induction a with
  | nil => intro b _; simp [strncmp]
  | cons x a ih =>
    intro b hx
    have hx0 : x ≠ NUL := fun e => hx (e ▸ List.mem_cons_self _ _)
    have ha : NUL ∉ a := fun h => hx (List.mem_cons_of_mem _ h)
    cases b with
    | nil =>
      simp only [List.length_cons, strncmp, cbyte_nil, cbyte_cons_zero]
      rw [if_pos (fun e => hx0 e.symm)]
      simp only [List.prefix_nil, reduceCtorEq, iff_false]
      exact char_sub_ne_zero NUL x (fun e => hx0 e.symm)
    | cons y b =>
      simp only [List.length_cons, strncmp, cbyte_cons_zero, List.tail_cons]
      by_cases hyx : y = x
      · subst hyx
        rw [if_neg (by simp), if_neg hx0, ih b ha]
        simp [List.cons_prefix_cons]
      · rw [if_pos hyx]
        simp only [List.cons_prefix_cons]
        constructor
        · intro h
          exact absurd h (char_sub_ne_zero y x hyx)
        · intro h
          exact absurd h.1.symm hyx

theorem memcmp_prefix_cstr (a : CStr) : ∀ b : CStr, NUL ∉ a →
    (memcmp b a a.length = 0 ↔ a <+: b) := by
  induction a with
  | nil => intro b _; simp [memcmp]
  | cons x a ih =>
    intro b hx
    have hx0 : x ≠ NUL := fun e => hx (e ▸ List.mem_cons_self _ _)
    have ha : NUL ∉ a := fun h => hx (List.mem_cons_of_mem _ h)
    cases b with
    | nil =>
      simp only [List.length_cons, memcmp, cbyte_nil, cbyte_cons_zero]
      rw [if_neg (fun e => hx0 e.symm)]
      simp only [List.prefix_nil, reduceCtorEq, iff_false]
      exact char_sub_ne_zero NUL x (fun e => hx0 e.symm)
    | cons y b =>
      simp only [List.length_cons, memcmp, cbyte_cons_zero, List.tail_cons]
      by_cases hyx : y = x
      · subst hyx
        rw [if_pos rfl, ih b ha]
        simp [List.cons_prefix_cons]
      · rw [if_neg hyx]
        simp only [List.cons_prefix_cons]
        constructor
        · intro h
          exact absurd h (char_sub_ne_zero y x hyx)
        · intro h
          exact absurd h.1.symm hyx

/-! ## `fgets`: buffer-loads and lines -/

theorem fgets_take_append : ∀ (n : Nat) (s : List Char),
    (fgets_take n s).1 ++ (fgets_take n s).2 = s := by
  intro n
  induction n with
  | zero => intro s; simp [fgets_take]
  | succ k ih =>
    intro s
    cases s with
    | nil => simp [fgets_take]
    | cons c r =>
      by_cases hc : c = '\n'
      · simp [fgets_take, hc]
      · simp [fgets_take, hc, ih r]

theorem fgets_take_ne_nil (n : Nat) (s : List Char) (hs : s ≠ []) :
    (fgets_take (n + 1) s).1 ≠ [] := by
  cases s with
  | nil => exact absurd rfl hs
  | cons c r =>
    by_cases hc : c = '\n'
    · simp [fgets_take, hc]
    · simp [fgets_take, hc]

theorem fgets_take_rest_lt (s : List Char) (hs : s ≠ []) :
    (fgets_take (PATH_MAX - 1) s).2.length < s.length := by
  have h1 := fgets_take_append (PATH_MAX - 1) s
  have h2 : (fgets_take (PATH_MAX - 1) s).1 ≠ [] := fgets_take_ne_nil 4094 s hs
  have h3 : 0 < (fgets_take (PATH_MAX - 1) s).1.length := List.length_pos.mpr h2
  have h4 := congrArg List.length h1
  rw [List.length_append] at h4
  omega

theorem fgets_loop_flatten : ∀ (fuel : Nat) (s : List Char), s.length ≤ fuel →
    (fgets_loop fuel s).flatten = s := by
  intro fuel
  induction fuel with
  | zero =>
    intro s hs
    have : s = [] := List.length_eq_zero.mp (Nat.le_zero.mp hs)
    subst this
    rfl
  | succ k ih =>
    intro s hs
    by_cases he : s = []
    · subst he
      rfl
    · simp only [fgets_loop, if_neg he, List.flatten_cons]
      rw [ih _ (by have := fgets_take_rest_lt s he; omega)]
      exact fgets_take_append _ s

theorem fgets_all_flatten (s : List Char) : (fgets_all s).flatten = s :=
  fgets_loop_flatten s.length s (Nat.le_refl _)

theorem fgets_all_no_nul (s : List Char) (hs : NUL ∉ s) (l : List Char)
    (hl : l ∈ fgets_all s) : NUL ∉ l := by
  intro h
  apply hs
  rw [← fgets_all_flatten s]
  exact List.mem_flatten.mpr ⟨l, hl, h⟩

theorem split_lines_eq_nil (s : List Char) (h : split_lines s = []) : s = [] := by
  cases s with
  | nil => rfl
  | cons c r =>
    exfalso
    simp only [split_lines] at h
    split at h
    · exact absurd h (List.cons_ne_nil _ _)
    · split at h <;> exact absurd h (List.cons_ne_nil _ _)

theorem fgets_take_line : ∀ (s : List Char) (n : Nat) (l : List Char) (ls : List (List Char)),
    split_lines s = l :: ls → l.length ≤ n →
    (fgets_take n s).1 = l ∧ split_lines (fgets_take n s).2 = ls := by
  intro s
  induction s with
  | nil => intro n l ls h; simp [split_lines] at h
  | cons c r ih =>
    intro n l ls h hn
    simp only [split_lines] at h
    by_cases hc : c = '\n'
    · rw [if_pos hc] at h
      obtain ⟨h1, h2⟩ := List.cons.inj h
      subst h1
      cases n with
      | zero => simp at hn
      | succ k =>
        simp only [fgets_take, if_pos hc]
        exact ⟨trivial, h2⟩
    · rw [if_neg hc] at h
      cases hr : split_lines r with
      | nil =>
        rw [hr] at h
        obtain ⟨h1, h2⟩ := List.cons.inj h
        have hrn : r = [] := split_lines_eq_nil r hr
        subst hrn
        subst h1
        cases n with
        | zero => simp at hn
        | succ k =>
          simp only [fgets_take, if_neg hc]
          cases k with
          | zero => exact ⟨rfl, by rw [← h2]; rfl⟩
          | succ j => exact ⟨rfl, by rw [← h2]; rfl⟩
      | cons l1 ls1 =>
        rw [hr] at h
        obtain ⟨h1, h2⟩ := List.cons.inj h
        subst h1
        subst h2
        cases n with
        | zero => simp at hn
        | succ k =>
          have hk : l1.length ≤ k := by
            simp only [List.length_cons] at hn
            omega
          have := ih k l1 ls1 hr hk
          simp only [fgets_take, if_neg hc]
          exact ⟨by rw [this.1], this.2⟩

theorem fgets_loop_lines : ∀ (fuel : Nat) (s : List Char), s.length ≤ fuel →
    (∀ l : List Char, l ∈ split_lines s → l.length < PATH_MAX) →
    fgets_loop fuel s = split_lines s := by
  intro fuel
  induction fuel with
  | zero =>
    intro s hs _
    have : s = [] := List.length_eq_zero.mp (Nat.le_zero.mp hs)
    subst this
    rfl
  | succ k ih =>
    intro s hs hl
    by_cases he : s = []
    · subst he
      rfl
    · simp only [fgets_loop, if_neg he]
      cases hsp : split_lines s with
      | nil => exact absurd (split_lines_eq_nil s hsp) he
      | cons l ls =>
        have hlen : l.length ≤ PATH_MAX - 1 := by
          have := hl l (by rw [hsp]; exact List.mem_cons_self _ _)
          have hp : PATH_MAX = 4096 := rfl
          omega
        obtain ⟨h1, h2⟩ := fgets_take_line s (PATH_MAX - 1) l ls hsp hlen
        rw [h1, ih _ (by have := fgets_take_rest_lt s he; omega) (by
          intro x hx
          rw [h2] at hx
          exact hl x (by rw [hsp]; exact List.mem_cons_of_mem _ hx)), h2]

theorem fgets_all_lines (s : List Char)
    (h : ∀ l : List Char, l ∈ split_lines s → l.length < PATH_MAX) :
    fgets_all s = split_lines s :=
  fgets_loop_lines s.length s (Nat.le_refl _) h

/-! ## The ini filter on text -/

theorem drop_no_nul (s : List Char) (n : Nat) (h : NUL ∉ s) : NUL ∉ s.drop n :=
  fun hm => h (List.mem_of_mem_drop hm)

theorem ini_line_out_find (stratum : CStr) (line : List Char) (hl : NUL ∉ line) :
    ∀ ps : List (CStr × Nat), (∀ p : CStr × Nat, p ∈ ps → p.2 = p.1.length ∧ NUL ∉ p.1) →
    ini_line_out stratum line ps
      = (match (ps.map (fun p => p.1)).find? (fun p => p.isPrefixOf line) with
        | some p => p ++ "/bedrock/bin/strat".toList ++ " ".toList ++ stratum ++ " ".toList
            ++ line.drop p.length
        | none => line) := by
  intro ps
  induction ps with
  | nil =>
    intro _
    simp only [ini_line_out, List.map_nil, List.find?_nil]
    rw [strlen_of_no_nul line hl, List.take_length]
  | cons p rest ih =>
    intro hps
    obtain ⟨hp2, hpn⟩ := hps p (List.mem_cons_self _ _)
    have hrest := ih (fun q hq => hps q (List.mem_cons_of_mem _ hq))
    simp only [ini_line_out, List.map_cons, List.find?_cons]
    by_cases hpre : p.1 <+: line
    · have h0 : ¬ strncmp line p.1 p.2 ≠ 0 := by
        rw [hp2]
        exact not_not.mpr ((strncmp_zero_iff p.1 line hpn).mpr hpre)
      have hb : p.1.isPrefixOf line = true := List.isPrefixOf_iff_prefix.mpr hpre
      rw [if_neg h0, hb]
      simp only
      rw [hp2, List.take_length, strlen_of_no_nul _ (drop_no_nul line _ hl), List.take_length]
      rfl
    · have h0 : strncmp line p.1 p.2 ≠ 0 := by
        rw [hp2]
        exact fun e => hpre ((strncmp_zero_iff p.1 line hpn).mp e)
      have hb : p.1.isPrefixOf line = false := by
        cases hq : p.1.isPrefixOf line with
        | false => rfl
        | true => exact absurd (List.isPrefixOf_iff_prefix.mp hq) hpre
      rw [if_pos h0, hb]
      exact hrest

theorem ini_exec_rows : ∀ p : CStr × Nat, p ∈ ini_exec → p.2 = p.1.length ∧ NUL ∉ p.1 := by
  decide

theorem ini_line_out_rewrite (stratum : CStr) (line : List Char) (hl : NUL ∉ line) :
    ini_line_out stratum line ini_exec = ini_rewrite stratum line := by
  rw [ini_line_out_find stratum line hl ini_exec ini_exec_rows]
  rfl

theorem ini_out_text (stratum : CStr) (content : List Char) (hnul : NUL ∉ content) :
    (fgets_all content).map (fun l => ini_line_out stratum l ini_exec)
      = (fgets_all content).map (ini_rewrite stratum) := by
  apply List.map_congr_left
  intro l hl
  exact ini_line_out_rewrite stratum l (fgets_all_no_nul content hnul l hl)

/-- C16 (counterexample): a one-line ini file holding a NUL byte, `a NUL b
NEWLINE`, matches no prefix, yet a read of 100 bytes at offset 0 returns the
single byte `a` instead of the line unchanged. -/
theorem ini_read_cuts_at_nul :
    read_back (ex_env (two_files "/usr/share/applications/x" "a\x00b\n" "" "") ⟨0o100644, 4⟩)
      ini_cfg "/applications/x".toList 15 100 0 0 = (1, "a".toList) ∧
    ini_rewrite "strat-B".toList "a\x00b\n".toList = "a\x00b\n".toList := by
  constructor
  · set_option maxRecDepth 100000 in decide
  · decide

/-- C16 (amended): for an ini-filtered path resolved through backing entry
`B` to a file that holds no NUL byte and whose lines (newline included) are
each shorter than the 4096-byte line buffer, a read at offset 0 with a size of
at least the output length returns the concatenation over the lines of the
file of the rewritten line: prefix, `/bedrock/bin/strat`, a blank, the stratum
of `B`, a blank and the rest of the line where the line starts with one of the
five prefixes, and the line itself otherwise. -/
theorem read_ini_rewrites (env : fs_env) (cfg : cfg_entry) (ipath : CStr) (size : Nat)
    (errno : Int) (B : back_entry) (bpath : CStr) (content : List Char)
    (hf : cfg.filter = .FILTER_INI)
    (hrv : 0 ≤ (loc_first_bpath env.readlink cfg ipath ipath.length errno).1.rv)
    (hloc : (loc_first_bpath env.readlink cfg ipath ipath.length errno).2 = some (B, bpath))
    (hopen : env.fopen B.root_fd bpath = .opened content)
    (hnul : NUL ∉ content)
    (hlines : ∀ l : List Char, l ∈ split_lines content → l.length < PATH_MAX)
    (hsize : ((split_lines content).map (ini_rewrite B.stratum)).flatten.length ≤ size)
    (hmax : size < 2 ^ 64) :
    read_back env cfg ipath ipath.length size 0 errno
      = ((((split_lines content).map (ini_rewrite B.stratum)).flatten.length : Int),
        ((split_lines content).map (ini_rewrite B.stratum)).flatten) := by
  unfold read_back
  rw [hf]
  simp only
  rw [read_ini_eq env cfg ipath ipath.length size 0 errno B bpath content hmax hrv hloc hopen
    (Int.le_refl 0), ini_out_text B.stratum content hnul, fgets_all_lines content hlines]
  simp only [Int.toNat_zero, List.drop_zero]
  rw [List.take_of_length_le hsize]

theorem read_ini_rewrites_witness :
    read_back (ex_env ini_files ⟨0o100644, 30⟩) ini_cfg "/applications/vim.desktop".toList
      "/applications/vim.desktop".toList.length 100 0 0
      = (57, "Name=Vim\nExec=/bedrock/bin/strat strat-B /usr/bin/vim %F\n".toList) :=
  (read_ini_rewrites (ex_env ini_files ⟨0o100644, 30⟩) ini_cfg "/applications/vim.desktop".toList
    100 0 ⟨"/usr/share/applications".toList, "strat-B".toList, 5⟩
    "/usr/share/applications/vim.desktop".toList "Name=Vim\nExec=/usr/bin/vim %F\n".toList
    rfl (by decide) (by decide) (by decide) (by decide) (by decide) (by decide)
    (by decide)).trans (by decide)

/-! ## The ini filter: size projection against a sequential read -/

theorem loc_first_loop_indep (probe : Int → CStr → sys_result) (cfg : cfg_entry)
    (ipath : CStr) (n : Nat) : ∀ (bs : List back_entry) (a1 a2 : scan_result),
    a1.rv = a2.rv →
    (loc_first_loop probe cfg ipath n bs a1).2 = (loc_first_loop probe cfg ipath n bs a2).2 ∧
    (loc_first_loop probe cfg ipath n bs a1).1.rv
      = (loc_first_loop probe cfg ipath n bs a2).1.rv := by
  intro bs
  induction bs with
  | nil => intro a1 a2 h; exact ⟨rfl, h⟩
  | cons b rest ih =>
    intro a1 a2 h
    simp only [loc_first_loop]
    cases hc : calc_bpath cfg b ipath n with
    | none => exact ih a1 a2 h
    | some bpath =>
      simp only
      by_cases hr : (probe b.root_fd bpath).rv < 0
      · have e1 : errno_after a1.errno (probe b.root_fd bpath) = (probe b.root_fd bpath).errno :=
          if_pos hr
        have e2 : errno_after a2.errno (probe b.root_fd bpath) = (probe b.root_fd bpath).errno :=
          if_pos hr
        rw [e1, e2]
        by_cases hhit : (probe b.root_fd bpath).rv ≥ 0 ∨ (probe b.root_fd bpath).errno ≠ ENOENT
        · rw [if_pos hhit, if_pos hhit]
          exact ⟨rfl, rfl⟩
        · rw [if_neg hhit, if_neg hhit]
          exact ih _ _ rfl
      · have hge : (probe b.root_fd bpath).rv ≥ 0 := not_lt.mp hr
        rw [if_pos (Or.inl hge), if_pos (Or.inl hge)]
        exact ⟨rfl, rfl⟩

theorem loc_first_indep (probe : Int → CStr → sys_result) (cfg : cfg_entry)
    (ipath : CStr) (n : Nat) (e1 e2 : Int) :
    (loc_first_bpath probe cfg ipath n e1).2 = (loc_first_bpath probe cfg ipath n e2).2 ∧
    (loc_first_bpath probe cfg ipath n e1).1.rv = (loc_first_bpath probe cfg ipath n e2).1.rv :=
  loc_first_loop_indep probe cfg ipath n cfg.back _ _ rfl

theorem ini_size_line_any (n : Nat) (line : List Char) : ∀ (ps : List (CStr × Nat)) (sz : Int),
    (∀ p : CStr × Nat, p ∈ ps → p.2 = p.1.length ∧ NUL ∉ p.1) →
    ini_size_line n line ps sz
      = if ps.any (fun p => p.1.isPrefixOf line) then sz + STRAT_PATH.length + 1 + n + 1
        else sz := by
  intro ps
  induction ps with
  | nil => intro sz _; rfl
  | cons p rest ih =>
    intro sz hps
    obtain ⟨hp2, hpn⟩ := hps p (List.mem_cons_self _ _)
    have hrest := ih sz (fun q hq => hps q (List.mem_cons_of_mem _ hq))
    simp only [ini_size_line, List.any_cons]
    by_cases hpre : p.1 <+: line
    · have h0 : ¬ memcmp line p.1 p.2 ≠ 0 := by
        rw [hp2]
        exact not_not.mpr ((memcmp_prefix_cstr p.1 line hpn).mpr hpre)
      have hb : p.1.isPrefixOf line = true := List.isPrefixOf_iff_prefix.mpr hpre
      rw [if_neg h0]
      simp [hb]
    · have h0 : memcmp line p.1 p.2 ≠ 0 := by
        rw [hp2]
        exact fun e => hpre ((memcmp_prefix_cstr p.1 line hpn).mp e)
      have hb : p.1.isPrefixOf line = false := by
        cases hq : p.1.isPrefixOf line with
        | false => rfl
        | true => exact absurd (List.isPrefixOf_iff_prefix.mp hq) hpre
      rw [if_pos h0, hrest]
      simp only [hb, Bool.false_or]

theorem ini_size_fold (n : Nat) : ∀ (lines : List (List Char)) (z : Int),
    lines.foldl (fun sz line => ini_size_line n line ini_exec sz) z
      = z + (lines.countP ini_match : Nat) * ((STRAT_PATH.length + 1 + n + 1 : Nat) : Int) := by
  intro lines
  induction lines with
  | nil => intro z; simp
  | cons l rest ih =>
    intro z
    simp only [List.foldl_cons, List.countP_cons]
    rw [ih, ini_size_line_any n l ini_exec z ini_exec_rows]
    have hm2 : ini_exec.any (fun p : CStr × Nat => p.1.isPrefixOf l) = ini_match l := rfl
    rw [hm2]
    by_cases hm : ini_match l = true
    · rw [if_pos hm, if_pos hm]
      push_cast
      ring
    · rw [if_neg hm, if_neg hm]
      simp

theorem ini_find_length (stratum : CStr) (line : List Char) : ∀ ps : List (CStr × Nat),
    (match (ps.map (fun p : CStr × Nat => p.1)).find? (fun p : CStr => p.isPrefixOf line) with
      | some p => p ++ "/bedrock/bin/strat".toList ++ " ".toList ++ stratum ++ " ".toList
          ++ line.drop p.length
      | none => line).length
      = line.length + if ps.any (fun p : CStr × Nat => p.1.isPrefixOf line) then
          STRAT_PATH.length + 1 + stratum.length + 1 else 0 := by
  intro ps
  induction ps with
  | nil => simp
  | cons p rest ih =>
    simp only [List.map_cons, List.find?_cons, List.any_cons]
    by_cases hq : p.1.isPrefixOf line = true
    · have hle : p.1.length ≤ line.length := (List.isPrefixOf_iff_prefix.mp hq).length_le
      simp only [hq, Bool.true_or, if_true, List.length_append, List.length_drop]
      have h18 : "/bedrock/bin/strat".toList.length = STRAT_PATH.length := rfl
      have h1 : " ".toList.length = 1 := rfl
      rw [h18, h1]
      omega
    · have hq2 : p.1.isPrefixOf line = false := by
        cases hx : p.1.isPrefixOf line with
        | false => rfl
        | true => exact absurd hx hq
      simp only [hq2, Bool.false_or]
      exact ih

theorem ini_rewrite_length (stratum : CStr) (line : List Char) :
    (ini_rewrite stratum line).length
      = line.length + if ini_match line then STRAT_PATH.length + 1 + stratum.length + 1 else 0 :=
  ini_find_length stratum line ini_exec

theorem ini_out_length (stratum : CStr) : ∀ lines : List (List Char),
    (lines.map (ini_rewrite stratum)).flatten.length
      = lines.flatten.length
        + lines.countP ini_match * (STRAT_PATH.length + 1 + stratum.length + 1) := by
  intro lines
  induction lines with
  | nil => simp
  | cons l rest ih =>
    simp only [List.map_cons, List.flatten_cons, List.length_append, List.countP_cons]
    rw [ih, ini_rewrite_length]
    by_cases hm : ini_match l = true
    · rw [if_pos hm, if_pos hm]
      ring
    · rw [if_neg hm, if_neg hm]
      ring

theorem seq_read_all (S : List Char) (size : Nat) (hsize : 0 < size)
    (rd : Int → Int × List Char)
    (hrd : ∀ off : Nat, rd off
      = ((((S.drop off).take size).length : Int), (S.drop off).take size)) :
    ∀ (fuel off : Nat), S.length - off < fuel → seq_read rd fuel off = S.drop off := by
  intro fuel
  induction fuel with
  | zero => intro off h; omega
  | succ k ih =>
    intro off h
    simp only [seq_read, hrd off]
    by_cases hz : ((S.drop off).take size).length = 0
    · rw [if_pos (by rw [hz]; exact Int.le_refl 0)]
      have h1 : (S.drop off).take size = [] := List.length_eq_zero.mp hz
      rcases List.take_eq_nil_iff.mp h1 with h2 | h2
      · omega
      · exact h2.symm
    · rw [if_neg (by omega)]
      have hcast : (((S.drop off).take size).length : Int).toNat
          = ((S.drop off).take size).length := Int.toNat_ofNat _
      rw [hcast, ih _ (by
        simp only [List.length_take, List.length_drop] at hz ⊢
        omega)]
      have h3 : S.drop (off + ((S.drop off).take size).length) = (S.drop off).drop size := by
        rw [List.drop_drop]
        simp only [List.length_take, List.length_drop]
        by_cases h4 : size ≤ S.length - off
        · rw [Nat.min_eq_left h4, Nat.add_comm]
        · rw [Nat.min_eq_right (by omega), List.drop_eq_nil_of_le (by omega),
            List.drop_eq_nil_of_le (by omega)]
      rw [h3, List.take_append_drop]

theorem getattr_ini_size (env : fs_env) (cfg : cfg_entry) (ipath : CStr) (n : Nat) (rv : Int)
    (stbuf : c_stat) (errno e2 : Int) (B : back_entry) (bpath : CStr) (content : List Char)
    (hreg : S_ISREG stbuf.st_mode = true)
    (hrv : 0 ≤ (loc_first_bpath env.readlink cfg ipath n e2).1.rv)
    (hloc : (loc_first_bpath env.readlink cfg ipath n e2).2 = some (B, bpath))
    (hopen : env.fopen B.root_fd bpath = .opened content) :
    (getattr_ini env cfg ipath n rv stbuf errno).2.st_size
      = stbuf.st_size + ((fgets_all content).countP ini_match : Nat)
          * ((STRAT_PATH.length + 1 + B.stratum.length + 1 : Nat) : Int) := by
  obtain ⟨hi2, hi1⟩ := loc_first_indep env.readlink cfg ipath n errno e2
  unfold getattr_ini
  rw [if_neg (by simp [hreg])]
  simp only
  rw [if_neg (by rw [hi1]; exact not_lt.mpr hrv), hi2, hloc]
  simp only
  rw [hopen]
  simp only
  exact ini_size_fold B.stratum.length (fgets_all content) stbuf.st_size

/-- C17 (counterexample): for the 4-byte ini file `a NUL b NEWLINE`
`getattr_back` reports a size of 4, while a full sequential read through
`read_back` delivers the single byte `a`. -/
theorem ini_size_exceeds_read_on_nul :
    (getattr_back (ex_env (two_files "/usr/share/applications/x" "a\x00b\n" "" "")
        ⟨0o100644, 4⟩) ini_cfg "/applications/x".toList 15 ⟨0, 0⟩ 0).2.st_size = 4 ∧
    seq_read (fun off => read_back (ex_env (two_files "/usr/share/applications/x" "a\x00b\n"
        "" "") ⟨0o100644, 4⟩) ini_cfg "/applications/x".toList 15 100 off 0) 5 0
      = "a".toList := by
  constructor
  · set_option maxRecDepth 100000 in decide
  · set_option maxRecDepth 100000 in decide

/-- C17 (amended): for an ini-filtered path whose stat-first scan yields a
regular file of the size of its content, resolved through backing entry `B`
to a file that holds no NUL byte, the size `getattr_back` reports is the
backing size plus, for each buffer-load of `fgets` (each line, where lines are
shorter than the buffer) that starts with one of the five prefixes,
`len("/bedrock/bin/strat") + 1 + len(stratum) + 1`; and a full sequential read
through `read_back` in requests of any size from 1 byte up delivers that many
bytes. -/
theorem ini_size_agrees (env : fs_env) (cfg : cfg_entry) (ipath : CStr) (stbuf : c_stat)
    (errno e2 : Int) (B : back_entry) (bpath : CStr) (content : List Char) (size fuel : Nat)
    (hf : cfg.filter = .FILTER_INI)
    (hst : 0 ≤ (stat_first_bpath env.stat cfg ipath ipath.length stbuf errno).1.rv)
    (hreg : S_ISREG (stat_first_bpath env.stat cfg ipath ipath.length stbuf errno).2.st_mode
      = true)
    (hlen : (stat_first_bpath env.stat cfg ipath ipath.length stbuf errno).2.st_size
      = content.length)
    (hrv : 0 ≤ (loc_first_bpath env.readlink cfg ipath ipath.length e2).1.rv)
    (hloc : (loc_first_bpath env.readlink cfg ipath ipath.length e2).2 = some (B, bpath))
    (hopen : env.fopen B.root_fd bpath = .opened content)
    (hnul : NUL ∉ content)
    (hsize : 0 < size) (hmax : size < 2 ^ 64)
    (hfuel : content.length + (fgets_all content).countP ini_match
      * (STRAT_PATH.length + 1 + B.stratum.length + 1) < fuel) :
    (getattr_back env cfg ipath ipath.length stbuf errno).2.st_size
      = ((content.length + (fgets_all content).countP ini_match
          * (STRAT_PATH.length + 1 + B.stratum.length + 1) : Nat) : Int) ∧
    ((seq_read (fun off => read_back env cfg ipath ipath.length size off e2) fuel 0).length
        : Int)
      = (getattr_back env cfg ipath ipath.length stbuf errno).2.st_size := by
  have hg : (getattr_back env cfg ipath ipath.length stbuf errno).2.st_size
      = ((content.length + (fgets_all content).countP ini_match
          * (STRAT_PATH.length + 1 + B.stratum.length + 1) : Nat) : Int) := by
    unfold getattr_back
    simp only
    rw [if_neg (not_lt.mpr hst), hf]
    simp only
    rw [getattr_ini_size env cfg ipath ipath.length _ _ _ e2 B bpath content hreg hrv hloc hopen,
      hlen]
    push_cast
    ring
  have hS : ((fgets_all content).map (ini_rewrite B.stratum)).flatten.length
      = content.length + (fgets_all content).countP ini_match
          * (STRAT_PATH.length + 1 + B.stratum.length + 1) := by
    rw [ini_out_length, fgets_all_flatten]
  have hrd : ∀ off : Nat,
      (fun off : Int => read_back env cfg ipath ipath.length size off e2) off
        = ((((((fgets_all content).map (ini_rewrite B.stratum)).flatten.drop off).take
              size).length : Int),
            (((fgets_all content).map (ini_rewrite B.stratum)).flatten.drop off).take size) := by
    intro off
    show read_back env cfg ipath ipath.length size (off : Int) e2 = _
    unfold read_back
    rw [hf]
    simp only
    rw [read_ini_eq env cfg ipath ipath.length size off e2 B bpath content hmax hrv hloc hopen
      (Int.ofNat_nonneg off), ini_out_text B.stratum content hnul, Int.toNat_ofNat]
  have hall := seq_read_all _ size hsize
    (fun off : Int => read_back env cfg ipath ipath.length size off e2) hrd fuel 0
    (by rw [hS]; omega)
  refine ⟨hg, ?_⟩
  rw [hg, hall, List.drop_zero, hS]

theorem ini_size_agrees_witness :
    (getattr_back (ex_env ini_files ⟨0o100644, 30⟩) ini_cfg "/applications/vim.desktop".toList
      "/applications/vim.desktop".toList.length ⟨0, 0⟩ 0).2.st_size = 57 ∧
    ((seq_read (fun off => read_back (ex_env ini_files ⟨0o100644, 30⟩) ini_cfg
        "/applications/vim.desktop".toList "/applications/vim.desktop".toList.length 16 off 0)
      58 0).length : Int) = 57 :=
  have h := ini_size_agrees (ex_env ini_files ⟨0o100644, 30⟩) ini_cfg
    "/applications/vim.desktop".toList ⟨0, 0⟩ 0 0 ⟨"/usr/share/applications".toList,
      "strat-B".toList, 5⟩ "/usr/share/applications/vim.desktop".toList
    "Name=Vim\nExec=/usr/bin/vim %F\n".toList 16 58
    rfl (by decide) (by decide) (by decide) (by decide) (by decide) (by decide) (by decide)
    (by decide) (by decide) (by set_option maxRecDepth 100000 in decide)
  ⟨h.1.trans (by set_option maxRecDepth 100000 in decide),
    h.2.trans (h.1.trans (by set_option maxRecDepth 100000 in decide))⟩

/-! ## Font index: parsing and merging -/

theorem cstr_of_no_nul (s : List Char) : NUL ∉ cstr_of s := by
  unfold cstr_of
  intro h
  have := List.mem_takeWhile_imp h
  simp at this

theorem strchr_take (c : Char) : ∀ (s : CStr) (i : Nat), strchr s c = some i →
    NUL ∉ s.take i := by
  intro s
  induction s with
  | nil => intro i h; simp [strchr] at h
  | cons x r ih =>
    intro i h
    simp only [strchr] at h
    by_cases hx : x = c
    · rw [if_pos hx] at h
      have : i = 0 := (Option.some.inj h).symm
      subst this
      simp
    · rw [if_neg hx] at h
      by_cases hn : x = NUL
      · rw [if_pos hn] at h
        exact absurd h (by simp)
      · rw [if_neg hn] at h
        cases hr : strchr r c with
        | none => rw [hr] at h; simp at h
        | some j =>
          rw [hr] at h
          have hi : i = j + 1 := by
            simp at h
            omega
          subst hi
          simp only [List.take_succ_cons, List.mem_cons, not_or]
          exact ⟨fun e => hn e.symm, ih j hr⟩

theorem font_split_no_nul (line : List Char) (k v : CStr)
    (h : font_split line = some (k, v)) : NUL ∉ k ∧ NUL ∉ v := by
  unfold font_split at h
  split at h
  · exact absurd h (by simp)
  · split at h
    · exact absurd h (by simp)
    · rename_i sep hsep
      have hkv := Option.some.inj h
      have hk : k = line.take sep := (congrArg Prod.fst hkv).symm
      have hv : v = cstr_of ((line.drop (sep + 1)).dropWhile (fun c => c = ' ' || c = '\t')) :=
        (congrArg Prod.snd hkv).symm
      refine ⟨?_, by rw [hv]; exact cstr_of_no_nul _⟩
      rw [hk]
      cases h1 : strchr line ' ' with
      | some i =>
        rw [h1] at hsep
        have : sep = i := (Option.some.inj hsep).symm
        subst this
        exact strchr_take ' ' line sep h1
      | none =>
        rw [h1] at hsep
        exact strchr_take '\t' line sep hsep

theorem insert_h_kv_ok (malloc : Nat → Bool) (hm : ∀ n : Nat, malloc n = true)
    (kvs : List h_kv) (n : Nat) (key value : CStr) :
    (insert_h_kv malloc kvs n key value).1 = 0 ∧
    (insert_h_kv malloc kvs n key value).2.1 = merge_pairs [(key, value)] kvs := by
  unfold insert_h_kv
  simp only [merge_pairs]
  by_cases hk : (kvs.any fun e => e.key == key) = true
  · rw [if_pos hk, if_pos hk]
    exact ⟨rfl, rfl⟩
  · rw [if_neg hk, if_neg hk, if_neg (by simp [hm]), if_neg (by simp [hm])]
    exact ⟨rfl, rfl⟩

theorem font_merge_lines_ok (malloc : Nat → Bool) (hm : ∀ n : Nat, malloc n = true) :
    ∀ (lines : List (List Char)) (acc : Int × List h_kv × Nat),
    (font_merge_lines malloc lines acc).1
      = (if lines.filterMap font_split = [] then acc.1 else 0) ∧
    (font_merge_lines malloc lines acc).2.1
      = merge_pairs (lines.filterMap font_split) acc.2.1 := by
  intro lines
  induction lines with
  | nil => intro acc; exact ⟨rfl, rfl⟩
  | cons line rest ih =>
    intro acc
    simp only [font_merge_lines]
    cases hs : font_split line with
    | none =>
      simp only [List.filterMap_cons, hs]
      exact ih acc
    | some kv =>
      simp only [List.filterMap_cons, hs]
      obtain ⟨h1, h2⟩ := insert_h_kv_ok malloc hm acc.2.1 acc.2.2 kv.1 kv.2
      rw [if_neg (by rw [h1]; decide)]
      obtain ⟨i1, i2⟩ := ih (insert_h_kv malloc acc.2.1 acc.2.2 kv.1 kv.2)
      rw [i1, i2, h1, h2]
      refine ⟨?_, ?_⟩
      · simp
      · simp only [merge_pairs]
        split <;> rfl

theorem merge_pairs_append : ∀ (a b : List (CStr × CStr)) (kvs : List h_kv),
    merge_pairs (a ++ b) kvs = merge_pairs b (merge_pairs a kvs) := by
  intro a
  induction a with
  | nil => intro b kvs; rfl
  | cons q rest ih =>
    intro b kvs
    simp only [List.cons_append, merge_pairs]
    split
    · exact ih b kvs
    · exact ih b _

theorem font_merge_backs_ok (env : fs_env) (hm : ∀ n : Nat, env.malloc n = true)
    (cfg : cfg_entry) (ipath : CStr) (n : Nat) :
    ∀ (bs : List back_entry) (acc : Int × List h_kv × Nat),
    (font_merge_backs env cfg ipath n bs acc).1
      = (if font_pairs (font_files env cfg ipath n bs) = [] then acc.1 else 0) ∧
    (font_merge_backs env cfg ipath n bs acc).2.1
      = merge_pairs (font_pairs (font_files env cfg ipath n bs)) acc.2.1 := by
  intro bs
  induction bs with
  | nil => intro acc; exact ⟨rfl, rfl⟩
  | cons b rest ih =>
    intro acc
    cases hc : calc_bpath cfg b ipath n with
    | none =>
      simp only [font_merge_backs, font_files, hc]
      exact ih acc
    | some bpath =>
      cases ho : env.fopen b.root_fd bpath with
      | null e =>
        simp only [font_merge_backs, font_files, hc, ho]
        exact ih acc
      | opened bytes =>
        simp only [font_merge_backs, font_files, hc, ho, font_pairs]
        obtain ⟨l1, l2⟩ := font_merge_lines_ok env.malloc hm (fgets_all bytes) acc
        obtain ⟨i1, i2⟩ := ih (font_merge_lines env.malloc (fgets_all bytes) acc)
        rw [i1, i2, l1, l2, merge_pairs_append]
        refine ⟨?_, rfl⟩
        by_cases ha : (fgets_all bytes).filterMap font_split = []
        · simp [ha]
        · simp [ha]

theorem font_merge_kv_ok (env : fs_env) (hm : ∀ n : Nat, env.malloc n = true)
    (cfg : cfg_entry) (ipath : CStr) (n : Nat)
    (hp : font_pairs (font_files env cfg ipath n cfg.back) ≠ []) :
    font_merge_kv env cfg ipath n
      = (0, merge_pairs (font_pairs (font_files env cfg ipath n cfg.back)) []) := by
  obtain ⟨h1, h2⟩ := font_merge_backs_ok env hm cfg ipath n cfg.back (-ENOENT, [], 0)
  unfold font_merge_kv
  rw [h1, h2, if_neg hp]

theorem merge_pairs_mem : ∀ (pairs : List (CStr × CStr)) (kvs : List h_kv) (k v : CStr),
    (⟨k, v⟩ : h_kv) ∈ merge_pairs pairs kvs ↔
      (⟨k, v⟩ : h_kv) ∈ kvs ∨
        ((∀ e : h_kv, e ∈ kvs → e.key ≠ k) ∧
          pairs.find? (fun q => q.1 == k) = some (k, v)) := by
  intro pairs
  induction pairs with
  | nil => intro kvs k v; simp [merge_pairs]
  | cons q rest ih =>
    intro kvs k v
    simp only [merge_pairs, List.find?_cons]
    by_cases hpres : (kvs.any fun e => e.key == q.1) = true
    · rw [if_pos hpres, ih]
      by_cases hq : q.1 = k
      · have hno : ¬ ∀ e : h_kv, e ∈ kvs → e.key ≠ k := by
          intro hall
          obtain ⟨e, he, hek⟩ := List.any_eq_true.mp hpres
          exact hall e he ((beq_iff_eq.mp hek).trans hq)
        simp [hno]
      · have hb : (q.1 == k) = false := beq_false_of_ne hq
        simp [hb]
    · rw [if_neg hpres, ih]
      have habs : ∀ e : h_kv, e ∈ kvs → e.key ≠ q.1 := by
        intro e he hek
        exact hpres (List.any_eq_true.mpr ⟨e, he, beq_iff_eq.mpr hek⟩)
      by_cases hq : q.1 = k
      · have hb : (q.1 == k) = true := beq_iff_eq.mpr hq
        simp only [hb, List.mem_append, List.mem_singleton, h_kv.mk.injEq, Option.some.injEq]
        constructor
        · rintro ((h | ⟨_, h2⟩) | ⟨hall, _⟩)
          · exact Or.inl h
          · refine Or.inr ⟨fun e he => hq ▸ habs e he, ?_⟩
            exact Prod.ext hq h2.symm
          · exact absurd hq (hall ⟨q.1, q.2⟩ (Or.inr rfl))
        · rintro (h | ⟨_, h2⟩)
          · exact Or.inl (Or.inl h)
          · refine Or.inl (Or.inr ⟨hq.symm, ?_⟩)
            rw [h2]
      · have hb : (q.1 == k) = false := beq_false_of_ne hq
        simp only [hb, List.mem_append, List.mem_singleton, h_kv.mk.injEq]
        constructor
        · rintro ((h | ⟨h1, _⟩) | ⟨hall, hf⟩)
          · exact Or.inl h
          · exact absurd h1.symm hq
          · exact Or.inr ⟨fun e he => hall e (Or.inl he), hf⟩
        · rintro (h | ⟨hall, hf⟩)
          · exact Or.inl (Or.inl h)
          · refine Or.inr ⟨?_, hf⟩
            rintro e (he | he)
            · exact hall e he
            · rw [he]
              exact hq

theorem merge_pairs_nodup : ∀ (pairs : List (CStr × CStr)) (kvs : List h_kv),
    (kvs.map (fun e => e.key)).Nodup →
    ((merge_pairs pairs kvs).map (fun e => e.key)).Nodup := by
  intro pairs
  induction pairs with
  | nil => intro kvs h; exact h
  | cons q rest ih =>
    intro kvs h
    simp only [merge_pairs]
    by_cases hpres : (kvs.any fun e => e.key == q.1) = true
    · rw [if_pos hpres]
      exact ih kvs h
    · rw [if_neg hpres]
      apply ih
      rw [List.map_append, List.map_singleton]
      apply List.Nodup.append h (List.nodup_singleton _)
      intro x hx hx2
      rw [List.mem_singleton] at hx2
      obtain ⟨e, he, hek⟩ := List.mem_map.mp hx
      exact hpres (List.any_eq_true.mpr ⟨e, he, beq_iff_eq.mpr (hek.trans hx2)⟩)

theorem font_pairs_mem : ∀ (files : List (List Char)) (q : CStr × CStr),
    q ∈ font_pairs files → ∃ line : List Char, font_split line = some q := by
  intro files
  induction files with
  | nil => intro q h; simp [font_pairs] at h
  | cons f rest ih =>
    intro q h
    simp only [font_pairs, List.mem_append] at h
    rcases h with h | h
    · obtain ⟨line, _, hl⟩ := List.mem_filterMap.mp h
      exact ⟨line, hl⟩
    · exact ih q h

theorem merged_no_nul (files : List (List Char)) (e : h_kv)
    (he : e ∈ merge_pairs (font_pairs files) []) : NUL ∉ e.key ∧ NUL ∉ e.value := by
  have h1 := (merge_pairs_mem (font_pairs files) [] e.key e.value).mp he
  rcases h1 with h1 | ⟨_, h1⟩
  · simp at h1
  · obtain ⟨line, hl⟩ := font_pairs_mem files _ (List.mem_of_find?_eq_some h1)
    exact font_split_no_nul line e.key e.value hl

/-! ## `strcmp` is a total preorder; `HASH_SORT` -/

theorem toNat_eq_iff (x y : Char) : x.toNat = y.toNat ↔ x = y := by
  constructor
  · intro h
    by_contra hne
    exact char_sub_ne_zero x y hne (by omega)
  · intro h
    rw [h]

theorem NUL_toNat : NUL.toNat = 0 := rfl

theorem strcmp_total : ∀ a b : CStr, strcmp a b ≤ 0 ∨ strcmp b a ≤ 0 := by
  intro a
  induction a with
  | nil =>
    intro b
    left
    simp only [strcmp, NUL_toNat]
    omega
  | cons x a ih =>
    intro b
    cases b with
    | nil =>
      right
      simp only [strcmp, NUL_toNat]
      omega
    | cons y b =>
      simp only [strcmp, cbyte_cons_zero, List.tail_cons]
      by_cases hxy : x = y
      · subst hxy
        have hxx : ¬ (x ≠ x) := fun h => h rfl
        simp only [if_neg hxx]
        by_cases hn : x = NUL
        · simp only [if_pos hn]
          left
          exact Int.le_refl 0
        · simp only [if_neg hn]
          exact ih b
      · rw [if_pos hxy, if_pos (fun e => hxy e.symm)]
        omega

theorem strcmp_trans : ∀ a b c : CStr, strcmp a b ≤ 0 → strcmp b c ≤ 0 → strcmp a c ≤ 0 := by
  intro a
  induction a with
  | nil =>
    intro b c _ _
    simp only [strcmp, NUL_toNat]
    omega
  | cons x a ih =>
    intro b c h1 h2
    simp only [strcmp] at h1 ⊢
    by_cases hxy : x = cbyte b 0
    · rw [if_neg (not_not.mpr hxy)] at h1
      by_cases hn : x = NUL
      · rw [if_pos hn]
        subst hn
        split
        · rw [NUL_toNat]
          omega
        · exact Int.le_refl 0
      · rw [if_neg hn] at h1
        rw [if_neg hn]
        cases b with
        | nil => exact absurd (hxy.trans (cbyte_nil 0)) hn
        | cons y b =>
          rw [cbyte_cons_zero] at hxy
          subst hxy
          simp only [strcmp, List.tail_cons] at h1 h2
          by_cases hxz : x = cbyte c 0
          · rw [if_neg (not_not.mpr hxz), if_neg hn] at h2
            rw [if_neg (not_not.mpr hxz)]
            exact ih b c.tail h1 h2
          · rw [if_pos hxz] at h2
            rw [if_pos hxz]
            exact h2
    · rw [if_pos hxy] at h1
      have hlt : x.toNat < (cbyte b 0).toNat := by
        have := (toNat_eq_iff x (cbyte b 0)).not.mpr hxy
        omega
      cases b with
      | nil =>
        rw [cbyte_nil, NUL_toNat] at hlt
        omega
      | cons y b =>
        rw [cbyte_cons_zero] at hlt
        simp only [strcmp] at h2
        have hle : y.toNat ≤ (cbyte c 0).toNat := by
          by_cases hyz : y = cbyte c 0
          · rw [hyz]
          · rw [if_pos hyz] at h2
            omega
        have hxz : x ≠ cbyte c 0 := by
          intro e
          rw [e] at hlt
          omega
        rw [if_pos hxz]
        omega

theorem strcmp_eq_zero : ∀ a b : CStr, NUL ∉ a → NUL ∉ b → strcmp a b = 0 → a = b := by
  intro a
  induction a with
  | nil =>
    intro b _ hb h
    cases b with
    | nil => rfl
    | cons y b =>
      exfalso
      simp only [strcmp, cbyte_cons_zero] at h
      have hy : y ≠ NUL := fun e => hb (e ▸ List.mem_cons_self _ _)
      exact char_sub_ne_zero NUL y (fun e => hy e.symm) h
  | cons x a ih =>
    intro b ha hb h
    have hx : x ≠ NUL := fun e => ha (e ▸ List.mem_cons_self _ _)
    simp only [strcmp] at h
    by_cases hxy : x = cbyte b 0
    · rw [if_neg (not_not.mpr hxy), if_neg hx] at h
      cases b with
      | nil => exact absurd (hxy.trans (cbyte_nil 0)) hx
      | cons y b =>
        rw [cbyte_cons_zero] at hxy
        subst hxy
        rw [ih b (fun e => ha (List.mem_cons_of_mem _ e))
          (fun e => hb (List.mem_cons_of_mem _ e)) h]
    · rw [if_pos hxy] at h
      exact absurd h (char_sub_ne_zero x _ hxy)

theorem sort_insert_perm (e : h_kv) : ∀ l : List h_kv, (sort_insert e l).Perm (e :: l) := by
  intro l
  induction l with
  | nil => exact List.Perm.refl _
  | cons x rest ih =>
    simp only [sort_insert]
    split
    · exact List.Perm.refl _
    · exact (List.Perm.cons x ih).trans (List.Perm.swap e x rest)

theorem hash_sort_perm : ∀ l : List h_kv, (hash_sort l).Perm l := by
  intro l
  induction l with
  | nil => exact List.Perm.refl _
  | cons e rest ih =>
    simp only [hash_sort]
    exact (sort_insert_perm e _).trans (List.Perm.cons e ih)

theorem sort_insert_sorted (e : h_kv) : ∀ l : List h_kv,
    l.Pairwise (fun a b => strcmp a.key b.key ≤ 0) →
    (sort_insert e l).Pairwise (fun a b => strcmp a.key b.key ≤ 0) := by
  intro l
  induction l with
  | nil => intro _; simp [sort_insert]
  | cons x rest ih =>
    intro h
    obtain ⟨hx, hrest⟩ := List.pairwise_cons.mp h
    simp only [sort_insert]
    by_cases hex : strcmp e.key x.key ≤ 0
    · rw [if_pos hex]
      refine List.pairwise_cons.mpr ⟨?_, h⟩
      intro y hy
      rcases List.mem_cons.mp hy with hy | hy
      · rw [hy]
        exact hex
      · exact strcmp_trans _ _ _ hex (hx y hy)
    · rw [if_neg hex]
      refine List.pairwise_cons.mpr ⟨?_, ih hrest⟩
      intro y hy
      have hy2 := (sort_insert_perm e rest).subset hy
      rcases List.mem_cons.mp hy2 with hy2 | hy2
      · rw [hy2]
        rcases strcmp_total e.key x.key with h1 | h1
        · exact absurd h1 hex
        · exact h1
      · exact hx y hy2

theorem hash_sort_sorted : ∀ l : List h_kv,
    (hash_sort l).Pairwise (fun a b => strcmp a.key b.key ≤ 0) := by
  intro l
  induction l with
  | nil => exact List.Pairwise.nil
  | cons e rest ih => exact sort_insert_sorted e _ ih

/-! ## Font index: the merged read -/

theorem font_emit_at (rv : Int) (hrv : rv ≥ 0) (size : Nat) (hsize : size < 2 ^ 64) (o : Nat) :
    ∀ (kvs : List h_kv) (S : List Char),
    (∀ e : h_kv, e ∈ kvs → NUL ∉ e.key ∧ NUL ∉ e.value) →
    font_emit rv size kvs (cat_at S o size)
      = cat_at (S ++ (kvs.map (fun e => e.key ++ "\t".toList ++ e.value)).flatten) o size := by
  intro kvs
  induction kvs with
  | nil => intro S _; simp [font_emit]
  | cons e rest ih =>
    intro S h
    obtain ⟨hk, hv⟩ := h e (List.mem_cons_self _ _)
    simp only [font_emit]
    rw [if_pos hrv,
      strcatoff_cat_at S o size e.key (strlen e.key) (strlen_le _) hsize,
      strcatoff_cat_at _ o size "\t".toList 1 (by decide) hsize,
      strcatoff_cat_at _ o size e.value (strlen e.value) (strlen_le _) hsize,
      ih _ (fun x hx => h x (List.mem_cons_of_mem _ hx)),
      strlen_of_no_nul _ hk, strlen_of_no_nul _ hv]
    congr 1
    simp only [List.take_length, List.map_cons, List.flatten_cons, List.append_assoc]
    rfl

theorem fmt_count_length (k : Nat) (hk : k < 1000000) : (fmt_count k).length < SIZEOF_PTR := by
  have h := Nat.toDigitsCore_length 10 (by decide) (k + 1) k 6 (by omega) (by decide)
  have h2 : (fmt_count k).length = (Nat.toDigitsCore 10 (k + 1) k []).length + 1 := by
    simp [fmt_count, Nat.toDigits]
  rw [h2]
  have h3 : SIZEOF_PTR = 8 := rfl
  omega

theorem read_font_text (env : fs_env) (cfg : cfg_entry) (ipath : CStr) (slash size : Nat)
    (errno : Int) (L : List h_kv)
    (hslash : strrchr ipath '/' = some slash)
    (hbase : base_is ipath ipath.length slash FONTS_DIR = true ∨
      base_is ipath ipath.length slash FONTS_ALIAS = true)
    (hm : font_merge_kv env cfg ipath ipath.length = (0, L))
    (hnul : ∀ e : h_kv, e ∈ L → NUL ∉ e.key ∧ NUL ∉ e.value)
    (hcount : L.length < 1000000)
    (hsize : (font_text (base_is ipath ipath.length slash FONTS_DIR) (hash_sort L)).length
      ≤ size)
    (hmax : size < 2 ^ 64) :
    read_font env cfg ipath ipath.length size 0 errno
      = (((font_text (base_is ipath ipath.length slash FONTS_DIR) (hash_sort L)).length : Int),
        font_text (base_is ipath ipath.length slash FONTS_DIR) (hash_sort L)) := by
  have hlen : (hash_sort L).length = L.length := (hash_sort_perm L).length_eq
  have hnul2 : ∀ e : h_kv, e ∈ hash_sort L → NUL ∉ e.key ∧ NUL ∉ e.value :=
    fun e he => hnul e ((hash_sort_perm L).subset he)
  have hst0 : (⟨[], ((0 : Int) % 2 ^ 64).toNat, 0⟩ : cat_state) = cat_at [] 0 size := by
    rw [cat_at_nil]
    rfl
  have hfin : ∀ S : List Char, S.length ≤ size →
      (((cat_at S 0 size).wrote : Int), (cat_at S 0 size).buf) = ((S.length : Int), S) := by
    intro S hS
    rw [cat_at_wrote, cat_at_buf, List.drop_zero, List.take_of_length_le hS]
  unfold read_font
  rw [hslash]
  simp only
  rw [if_neg (by
    intro h
    rcases hbase with hb | hb
    · exact h.1 hb
    · exact h.2 hb), hm]
  simp only
  rw [if_neg (by decide), hst0]
  by_cases hd : base_is ipath ipath.length slash FONTS_DIR = true
  · rw [hd] at hsize ⊢
    have hmod : L.length % 2 ^ 32 = L.length := Nat.mod_eq_of_lt (by omega)
    rw [if_pos rfl, hmod, if_neg (by
      have := fmt_count_length L.length hcount
      omega)]
    rw [strcatoff_cat_at [] 0 size _ _ (Nat.le_refl _) hmax,
      font_emit_at 0 (Int.le_refl 0) size hmax 0 (hash_sort L) _ hnul2]
    have hS : [] ++ (fmt_count L.length).take (fmt_count L.length).length
        ++ ((hash_sort L).map (fun e => e.key ++ "\t".toList ++ e.value)).flatten
        = font_text true (hash_sort L) := by
      simp only [List.nil_append, List.take_length, font_text, if_true, hlen]
    rw [hS]
    exact hfin _ hsize
  · have hd2 : base_is ipath ipath.length slash FONTS_DIR = false := by
      cases hx : base_is ipath ipath.length slash FONTS_DIR with
      | false => rfl
      | true => exact absurd hx hd
    rw [hd2] at hsize ⊢
    rw [if_neg (by decide), font_emit_at 0 (Int.le_refl 0) size hmax 0 (hash_sort L) _ hnul2]
    have hS : [] ++ ((hash_sort L).map (fun e => e.key ++ "\t".toList ++ e.value)).flatten
        = font_text false (hash_sort L) := by
      simp [font_text]
    rw [hS]
    exact hfin _ hsize

/-- C18: for a `fonts.dir` whose only backing file is the count line `0` and
a newline, so that no pair is parsed, a read of 100 bytes at offset 0 returns
`-ENOENT` and no bytes, not the count line of an index with zero entries, and
`getattr_back` returns `-ENOENT` as well, while `m_open` on the same path
returns 0. -/
theorem font_read_empty_index :
    read_back (ex_env (two_files "/u/a/fonts.dir" "0\n" "" "") ⟨0o100644, 2⟩) font_cfg
      "/fonts/fonts.dir".toList 16 100 0 0 = (-ENOENT, []) ∧
    font_pairs (font_files (ex_env (two_files "/u/a/fonts.dir" "0\n" "" "") ⟨0o100644, 2⟩)
      font_cfg "/fonts/fonts.dir".toList 16 font_cfg.back) = [] ∧
    font_text true [] = "0\n".toList ∧
    (getattr_back (ex_env (two_files "/u/a/fonts.dir" "0\n" "" "") ⟨0o100644, 2⟩) font_cfg
      "/fonts/fonts.dir".toList 16 ⟨0, 0⟩ 0).1 = -ENOENT ∧
    m_open (fun _ => (ex_env (two_files "/u/a/fonts.dir" "0\n" "" "") ⟨0o100644, 2⟩).open_ro)
      ⟨[font_cfg], 0⟩ 0 "/fonts/fonts.dir".toList 0 0 = 0 := by
  refine ⟨?_, ?_, by decide, ?_, by decide⟩
  · set_option maxRecDepth 100000 in decide
  · set_option maxRecDepth 100000 in decide
  · set_option maxRecDepth 100000 in decide

/-- Merged font index: for a font-filtered path whose base name is
`fonts.dir` or `fonts.alias`, when the backing files yield at least one pair
and fewer than 1000000 merged pairs and no allocation fails, a full read
(offset 0, size at least the output length) returns, for `fonts.dir`, a first
line with the decimal number `k` of merged pairs and a newline, and for both
names the `k` entries `key TAB value` in strictly ascending `strcmp` order of
key; the entries are exactly the pairs whose value is that of the first line
defining the key, in the order of backing files and of lines. -/
theorem font_read_merged (env : fs_env) (cfg : cfg_entry) (ipath : CStr) (slash size : Nat)
    (errno : Int)
    (hf : cfg.filter = .FILTER_FONT)
    (hslash : strrchr ipath '/' = some slash)
    (hbase : base_is ipath ipath.length slash FONTS_DIR = true ∨
      base_is ipath ipath.length slash FONTS_ALIAS = true)
    (hmalloc : ∀ n : Nat, env.malloc n = true)
    (hpairs : font_pairs (font_files env cfg ipath ipath.length cfg.back) ≠ [])
    (hcount : (font_merged env cfg ipath).length < 1000000)
    (hsize : (font_text (base_is ipath ipath.length slash FONTS_DIR)
      (font_merged env cfg ipath)).length ≤ size)
    (hmax : size < 2 ^ 64) :
    read_back env cfg ipath ipath.length size 0 errno
      = (((font_text (base_is ipath ipath.length slash FONTS_DIR)
            (font_merged env cfg ipath)).length : Int),
          font_text (base_is ipath ipath.length slash FONTS_DIR) (font_merged env cfg ipath)) ∧
    (font_merged env cfg ipath).Pairwise (fun a b => strcmp a.key b.key < 0) ∧
    ∀ k v : CStr, (⟨k, v⟩ : h_kv) ∈ font_merged env cfg ipath ↔
      (font_pairs (font_files env cfg ipath ipath.length cfg.back)).find?
        (fun q => q.1 == k) = some (k, v) := by
  have hperm := hash_sort_perm
    (merge_pairs (font_pairs (font_files env cfg ipath ipath.length cfg.back)) [])
  have hnul := merged_no_nul (font_files env cfg ipath ipath.length cfg.back)
  have hnul2 : ∀ e : h_kv, e ∈ font_merged env cfg ipath → NUL ∉ e.key ∧ NUL ∉ e.value :=
    fun e he => hnul e (hperm.subset he)
  refine ⟨?_, ?_, ?_⟩
  · unfold read_back
    rw [hf]
    simp only
    exact read_font_text env cfg ipath slash size errno _ hslash hbase
      (font_merge_kv_ok env hmalloc cfg ipath ipath.length hpairs) hnul
      (by rw [← hperm.length_eq]; exact hcount) hsize hmax
  · have hnd : ((font_merged env cfg ipath).map (fun e => e.key)).Nodup :=
      ((hperm.map (fun e => e.key)).nodup_iff).mpr
        (merge_pairs_nodup _ [] List.nodup_nil)
    have hne : (font_merged env cfg ipath).Pairwise (fun a b => a.key ≠ b.key) :=
      List.pairwise_map.mp hnd
    have hle : (font_merged env cfg ipath).Pairwise (fun a b => strcmp a.key b.key ≤ 0) :=
      hash_sort_sorted _
    refine List.Pairwise.imp_of_mem ?_ (hle.and hne)
    intro a b ha hb hab
    by_cases h : strcmp a.key b.key = 0
    · exact absurd (strcmp_eq_zero a.key b.key (hnul2 a ha).1 (hnul2 b hb).1 h) hab.2
    · have := hab.1
      omega
  · intro k v
    rw [show font_merged env cfg ipath = hash_sort
      (merge_pairs (font_pairs (font_files env cfg ipath ipath.length cfg.back)) []) from rfl,
      hperm.mem_iff, merge_pairs_mem]
    simp

theorem font_read_merged_witness :
    read_back (ex_env (two_files "/u/a/fonts.dir" "2\nfoo a\nbar b\n" "/u/b/fonts.dir"
        "1\nbaz c\n") ⟨0o100644, 14⟩) font_cfg "/fonts/fonts.dir".toList
      "/fonts/fonts.dir".toList.length 100 0 0
      = (20, "3\nbar\tb\nbaz\tc\nfoo\ta\n".toList) :=
  (font_read_merged (ex_env (two_files "/u/a/fonts.dir" "2\nfoo a\nbar b\n" "/u/b/fonts.dir"
      "1\nbaz c\n") ⟨0o100644, 14⟩) font_cfg "/fonts/fonts.dir".toList 6 100 0
    rfl (by decide) (Or.inl (by decide)) (fun _ => rfl)
    (by set_option maxRecDepth 100000 in decide)
    (by set_option maxRecDepth 100000 in decide)
    (by set_option maxRecDepth 100000 in decide)
    (by decide)).1.trans (by set_option maxRecDepth 100000 in decide)

/-! ## Entry points: extended attributes, open, bin size, lock, `strcatoff` -/

theorem m_getxattr_virtual (env : fs_env) (st : cfg_state) (ipath name : CStr) (size : Nat)
    (errno : Int)
    (hcls : (classify_ipath st.cfgs ipath ipath.length).1 = .CLASS_VDIR ∨
      (classify_ipath st.cfgs ipath ipath.length).1 = .CLASS_ROOT ∨
      (classify_ipath st.cfgs ipath ipath.length).1 = .CLASS_CFG) :
    m_getxattr env st ipath name size errno
      = if pstrcmp name name.length STRATUM_XATTR STRATUM_XATTR.length = 0 then
          xattr_reply VIRTUAL_STRATUM VIRTUAL_STRATUM.length size
        else if pstrcmp name name.length LPATH_XATTR LPATH_XATTR.length = 0 then
          xattr_reply VIRTUAL_LPATH VIRTUAL_LPATH.length size
        else (-ENOTSUP, []) := by
  unfold m_getxattr
  rcases hc : classify_ipath st.cfgs ipath ipath.length with ⟨cls, oc⟩
  rw [hc] at hcls
  cases cls with
  | CLASS_BACK => simp at hcls
  | CLASS_ENOENT => simp at hcls
  | CLASS_VDIR => rfl
  | CLASS_ROOT => rfl
  | CLASS_CFG => rfl

/-- C22: on a path classified as virtual directory, root or control file,
`m_getxattr` for `user.bedrock.stratum` returns 8 for size 0, `-ERANGE` for a
size from 1 to 7, and 8 with the bytes `virtual` and a NUL for a size of 8 or
more; for `user.bedrock.localpath` it returns 2 for size 0, `-ERANGE` for size
1, and 2 with the bytes `/` and NUL for a size of 2 or more; for any other
name it returns `-ENOTSUP`; on a path classified as absent it returns
`-ENOENT`. -/
theorem m_getxattr_virtual_spec (env : fs_env) (st : cfg_state) (ipath name : CStr)
    (size : Nat) (errno : Int) :
    ((classify_ipath st.cfgs ipath ipath.length).1 = .CLASS_VDIR ∨
      (classify_ipath st.cfgs ipath ipath.length).1 = .CLASS_ROOT ∨
      (classify_ipath st.cfgs ipath ipath.length).1 = .CLASS_CFG →
      (m_getxattr env st ipath "user.bedrock.stratum".toList size errno
        = if size = 0 then (8, [])
          else if size < 8 then (-ERANGE, [])
          else (8, "virtual".toList ++ [NUL])) ∧
      (m_getxattr env st ipath "user.bedrock.localpath".toList size errno
        = if size = 0 then (2, [])
          else if size < 2 then (-ERANGE, [])
          else (2, "/".toList ++ [NUL])) ∧
      (name ≠ "user.bedrock.stratum".toList → name ≠ "user.bedrock.localpath".toList →
        m_getxattr env st ipath name size errno = (-ENOTSUP, []))) ∧
    ((classify_ipath st.cfgs ipath ipath.length).1 = .CLASS_ENOENT →
      m_getxattr env st ipath name size errno = (-ENOENT, [])) ∧
    ERANGE = 34 ∧ ENOTSUP = 95 := by
  refine ⟨?_, ?_, rfl, rfl⟩
  · intro hcls
    refine ⟨?_, ?_, ?_⟩
    · rw [m_getxattr_virtual env st ipath _ size errno hcls]
      rw [if_pos (by decide)]
      unfold xattr_reply
      have h7 : VIRTUAL_STRATUM.length + 1 = 8 := rfl
      have hb : mem_read VIRTUAL_STRATUM 0 8 = "virtual".toList ++ [NUL] := by decide
      rw [h7, hb]
      rfl
    · rw [m_getxattr_virtual env st ipath _ size errno hcls]
      rw [if_neg (by decide), if_pos (by decide)]
      unfold xattr_reply
      have h7 : VIRTUAL_LPATH.length + 1 = 2 := rfl
      have hb : mem_read VIRTUAL_LPATH 0 2 = "/".toList ++ [NUL] := by decide
      rw [h7, hb]
      rfl
    · intro h1 h2
      rw [m_getxattr_virtual env st ipath name size errno hcls]
      have e1 : pstrcmp name name.length STRATUM_XATTR STRATUM_XATTR.length ≠ 0 :=
        fun e => h1 ((pstrcmp_eq_zero_iff name STRATUM_XATTR).mp e)
      have e2 : pstrcmp name name.length LPATH_XATTR LPATH_XATTR.length ≠ 0 :=
        fun e => h2 ((pstrcmp_eq_zero_iff name LPATH_XATTR).mp e)
      rw [if_neg e1, if_neg e2]
  · intro hcls
    unfold m_getxattr
    rcases hc : classify_ipath st.cfgs ipath ipath.length with ⟨cls, oc⟩
    rw [hc] at hcls
    simp only at hcls
    subst hcls
    rfl

theorem m_getxattr_virtual_spec_witness :
    m_getxattr dir_env cfg_init "/".toList "user.bedrock.stratum".toList 8 0
      = (8, "virtual".toList ++ [NUL]) :=
  ((m_getxattr_virtual_spec dir_env cfg_init "/".toList [] 8 0).1 (Or.inr (Or.inl rfl))).1

/-- C23: `m_open` returns 0 on a virtual directory and on the root; on the
control file 0 exactly for uid 0 and `-EACCES` for every other uid; `-ENOENT`
on an absent path; and on a backed path whose open-first scan succeeds
`-EROFS` exactly when `flags & 3` is not `O_RDONLY`, and 0 otherwise. -/
theorem m_open_spec (open_probe : Nat → Int → CStr → sys_result) (st : cfg_state) (uid : Nat)
    (ipath : CStr) (flags : Nat) (errno : Int) :
    ((classify_ipath st.cfgs ipath ipath.length).1 = .CLASS_VDIR ∨
      (classify_ipath st.cfgs ipath ipath.length).1 = .CLASS_ROOT →
      m_open open_probe st uid ipath flags errno = 0) ∧
    ((classify_ipath st.cfgs ipath ipath.length).1 = .CLASS_CFG →
      (m_open open_probe st uid ipath flags errno = 0 ↔ uid = 0) ∧
      (uid ≠ 0 → m_open open_probe st uid ipath flags errno = -EACCES)) ∧
    ((classify_ipath st.cfgs ipath ipath.length).1 = .CLASS_ENOENT →
      m_open open_probe st uid ipath flags errno = -ENOENT) ∧
    (∀ c : cfg_entry, classify_ipath st.cfgs ipath ipath.length = (.CLASS_BACK, some c) →
      0 ≤ (open_first_bpath (open_probe flags) c ipath ipath.length errno).rv →
      (m_open open_probe st uid ipath flags errno = -EROFS ↔ flags &&& 3 ≠ 0) ∧
      (flags &&& 3 = 0 → m_open open_probe st uid ipath flags errno = 0)) := by
  unfold m_open
  rcases hc : classify_ipath st.cfgs ipath ipath.length with ⟨cls, oc⟩
  refine ⟨?_, ?_, ?_, ?_⟩
  · intro h
    simp only at h
    rcases h with h | h <;> subst h <;> rfl
  · intro h
    simp only at h
    subst h
    simp only
    by_cases hu : uid = 0
    · subst hu
      exact ⟨⟨fun _ => rfl, fun _ => rfl⟩, fun h => absurd rfl h⟩
    · rw [if_pos hu]
      exact ⟨⟨fun h => absurd h (by decide), fun h => absurd h hu⟩, fun _ => rfl⟩
  · intro h
    simp only at h
    subst h
    rfl
  · intro c h hrv
    obtain ⟨h1, h2⟩ := Prod.mk.inj h
    subst h1
    subst h2
    simp only
    rw [if_neg (not_lt.mpr hrv)]
    by_cases hf : flags &&& 3 ≠ 0
    · rw [if_pos hf]
      exact ⟨⟨fun _ => hf, fun _ => rfl⟩, fun h => absurd h hf⟩
    · rw [if_neg hf]
      exact ⟨⟨fun h => absurd h (by decide), fun h => absurd h hf⟩, fun _ => rfl⟩

theorem m_open_spec_witness :
    m_open (fun _ => probe_ok) ⟨[ex_cfg], 0⟩ 1000 "/etc/passwd".toList 1 0 = -EROFS :=
  (((m_open_spec (fun _ => probe_ok) ⟨[ex_cfg], 0⟩ 1000 "/etc/passwd".toList 1 0).2.2.2
    ex_cfg (by decide) (by decide)).1).mpr (by decide)

/-- C24: for a bin-filtered path whose stat-first scan succeeds,
`getattr_back` reports `bouncer_size` as `st_size` when the backing object is
a regular file (it does so for everything that is not a directory), whatever
size `stat` stored, and the size `stat` stored when it is a directory. -/
theorem getattr_back_bin (env : fs_env) (cfg : cfg_entry) (ipath : CStr) (ipath_len : Nat)
    (stbuf : c_stat) (errno : Int)
    (hf : cfg.filter = .FILTER_BIN)
    (h : 0 ≤ (stat_first_bpath env.stat cfg ipath ipath_len stbuf errno).1.rv) :
    (S_ISREG (stat_first_bpath env.stat cfg ipath ipath_len stbuf errno).2.st_mode = true →
      (getattr_back env cfg ipath ipath_len stbuf errno).2.st_size = env.bouncer_size) ∧
    (S_ISDIR (stat_first_bpath env.stat cfg ipath ipath_len stbuf errno).2.st_mode = false →
      (getattr_back env cfg ipath ipath_len stbuf errno).2.st_size = env.bouncer_size) ∧
    (S_ISDIR (stat_first_bpath env.stat cfg ipath ipath_len stbuf errno).2.st_mode = true →
      (getattr_back env cfg ipath ipath_len stbuf errno).2.st_size
        = (stat_first_bpath env.stat cfg ipath ipath_len stbuf errno).2.st_size) := by
  have hnd : S_ISDIR (stat_first_bpath env.stat cfg ipath ipath_len stbuf errno).2.st_mode
      = false →
      (getattr_back env cfg ipath ipath_len stbuf errno).2.st_size = env.bouncer_size := by
    intro hd
    unfold getattr_back
    simp only
    rw [if_neg (not_lt.mpr h), hf]
    simp only
    rw [if_pos (by simp [hd])]
  refine ⟨?_, hnd, ?_⟩
  · intro hreg
    apply hnd
    unfold S_ISREG at hreg
    unfold S_ISDIR
    have h1 := beq_iff_eq.mp hreg
    rw [h1]
    decide
  · intro hd
    unfold getattr_back
    simp only
    rw [if_neg (not_lt.mpr h), hf]
    simp only
    rw [if_neg (by simp [hd])]

theorem getattr_back_bin_witness :
    (getattr_back (ex_env (fun _ _ => .null ENOENT) ⟨0o100755, 77⟩)
      ⟨.FILTER_BIN, "/bin".toList, [⟨"/usr/bin".toList, "a".toList, 3⟩]⟩ "/bin/vi".toList 7
      ⟨0, 0⟩ 0).2.st_size = 0 :=
  (getattr_back_bin (ex_env (fun _ _ => .null ENOENT) ⟨0o100755, 77⟩)
    ⟨.FILTER_BIN, "/bin".toList, [⟨"/usr/bin".toList, "a".toList, 3⟩]⟩ "/bin/vi".toList 7
    ⟨0, 0⟩ 0 rfl (by decide)).1 (by decide)

theorem paths_early_return :
    paths early_return_flow
      = [([lock_op.rdlock], flow_end.returned),
          ([lock_op.rdlock, lock_op.unlock], flow_end.returned)] := by
  decide

theorem cat_all_at (max : Nat) (hmax : max < 2 ^ 64) (o : Nat) :
    ∀ (strs : List CStr) (S : List Char),
    cat_all max strs (cat_at S o max) = cat_at (S ++ strs.flatten) o max := by
  intro strs
  induction strs with
  | nil => intro S; simp [cat_all]
  | cons s rest ih =>
    intro S
    have h := ih (S ++ s)
    unfold cat_all at h ⊢
    rw [List.foldl_cons, strcatoff_cat_at S o max s s.length (Nat.le_refl _) hmax,
      List.take_length, h, List.flatten_cons, List.append_assoc]

/-- C27: starting from `offset = o` and `wrote = 0`, one call of `strcatoff`
per string of a list with concatenation `S` ends with
`wrote = min(max, len(S) - o)` when `o <= len(S)` and with `wrote = 0` when
`o > len(S)`; the first `wrote` bytes of the buffer are `S[o .. o + wrote)`;
and after every number `k` of calls `wrote <= max`. -/
theorem strcatoff_window (strs : List CStr) (o max k : Nat) (hmax : max < 2 ^ 64) :
    (o ≤ strs.flatten.length →
      (cat_all max strs ⟨[], o, 0⟩).wrote = min max (strs.flatten.length - o)) ∧
    (strs.flatten.length < o → (cat_all max strs ⟨[], o, 0⟩).wrote = 0) ∧
    (cat_all max strs ⟨[], o, 0⟩).buf.take (cat_all max strs ⟨[], o, 0⟩).wrote
      = (strs.flatten.drop o).take (cat_all max strs ⟨[], o, 0⟩).wrote ∧
    (cat_all max (strs.take k) ⟨[], o, 0⟩).wrote ≤ max := by
  have hrun : ∀ l : List CStr, cat_all max l ⟨[], o, 0⟩ = cat_at l.flatten o max := by
    intro l
    have h := cat_all_at max hmax o l []
    rw [cat_at_nil, List.nil_append] at h
    exact h
  have htake : ∀ (X : List Char) (m : Nat), X.take (X.take m).length = X.take m := by
    intro X m
    rw [List.length_take]
    by_cases hm : m ≤ X.length
    · rw [Nat.min_eq_left hm]
    · rw [Nat.min_eq_right (by omega), List.take_of_length_le (Nat.le_refl _),
        List.take_of_length_le (by omega)]
  rw [hrun strs, hrun (strs.take k)]
  simp only [cat_at_wrote, cat_at_buf]
  refine ⟨?_, ?_, ?_, ?_⟩
  · intro _
    rw [List.length_take, List.length_drop]
  · intro h
    rw [List.drop_eq_nil_of_le (Nat.le_of_lt h)]
    simp
  · rw [List.take_length, htake]
  · exact List.length_take_le _ _

theorem strcatoff_window_witness :
    (cat_all 4 ["ab".toList, "cde".toList, "fg".toList] ⟨[], 1, 0⟩).wrote = 4 :=
  ((strcatoff_window ["ab".toList, "cde".toList, "fg".toList] 1 4 0 (by decide)).1
    (by decide)).trans (by decide)

/-- C28: a uid-0 write of `clear`, newline and one more byte is accepted: it
returns 7 and empties the table; and a write of a well-formed add line
followed by one more byte is accepted: it returns 17 and adds the entry. `m_write`
compares only the first six bytes with `clear` and newline, and `cfg_add`
reads nothing behind the newline. -/
theorem trailing_bytes_accepted :
    m_write env_ok ⟨.live, ⟨[ex_cfg], 40⟩⟩ 0 CFG_PATH "clear\nX".toList 7
      = some (7, ⟨.freed, ⟨[], 0⟩⟩) ∧
    m_write env_ok globals_init 0 CFG_PATH "add bin /a s:/b\nX".toList 17
      = some (17, ⟨.live,
          ⟨[⟨.FILTER_BIN, "/a".toList, [⟨"/b".toList, "s".toList, 3⟩]⟩], 17⟩⟩) := by
  constructor
  · decide
  · decide

/-- C25: the uid-0 write `add pass /x/ s:/p` to the control file of the empty
table is accepted (it returns its size, 18) and leaves a configured path that
ends in a slash: `cfg_add` checks only that the first byte of the path is a
slash. -/
theorem cpath_keeps_trailing_slash :
    write_rvs globals_init [root_write env_ok "add pass /x/ s:/p\n".toList] = some [18] ∧
    (run_writes globals_init [root_write env_ok "add pass /x/ s:/p\n".toList]).map
        (fun g => g.st.cfgs)
      = some [⟨.FILTER_PASS, "/x/".toList, [⟨"/p".toList, "s".toList, 3⟩]⟩] ∧
    "/x/".toList.getLast? = some '/' := by
  refine ⟨by decide, by decide, by decide⟩

/-- C30: in the table reached by the uid-0 write `add pass /x/ s:/p` the path
`/x` is a virtual directory, and `m_readdir` on it returns 0 and lists, after
`.` and `..`, one entry with the empty name: `virt_filldir` inserts the rest
of the configured path behind `/x/`, which is empty. -/
theorem virt_filldir_empty_name :
    (run_writes globals_init [root_write env_ok "add pass /x/ s:/p\n".toList]).map
        (fun g => (classify_ipath g.st.cfgs "/x".toList 2).1)
      = some .CLASS_VDIR ∧
    (run_writes globals_init [root_write env_ok "add pass /x/ s:/p\n".toList]).map
        (fun g => m_readdir dir_env nodir g.st "/x".toList)
      = some (0, [".".toList, "..".toList, []]) := by
  constructor
  · decide
  · decide

/-! ## Virtual directories: the names listed -/

theorem dropWhile_head_false {α : Type} (p : α → Bool) : ∀ (l : List α) (h : α) (r : List α),
    l.dropWhile p = h :: r → p h = false := by
  intro l
  induction l with
  | nil => intro h r e; simp at e
  | cons x t ih =>
    intro h r e
    by_cases hx : p x = true
    · rw [List.dropWhile_cons_of_pos hx] at e
      exact ih h r e
    · rw [List.dropWhile_cons_of_neg hx] at e
      obtain ⟨e1, _⟩ := List.cons.inj e
      rw [← e1]
      simpa using hx

theorem scan_s_sound (s t r : CStr) (h : scan_s s = some (t, r)) :
    t ≠ [] ∧ (∀ x : Char, x ∈ t → isspace x = false ∧ x ∈ s) ∧ (∀ x : Char, x ∈ r → x ∈ s) := by
  unfold scan_s at h
  simp only at h
  split at h
  · exact absurd h (by simp)
  · rename_i hne
    obtain ⟨h1, h2⟩ := Prod.mk.inj (Option.some.inj h)
    subst h1
    subst h2
    refine ⟨hne, ?_, ?_⟩
    · intro x hx
      have hp := List.mem_takeWhile_imp hx
      have hm := (List.dropWhile_sublist isspace).subset
        ((List.takeWhile_sublist _).subset hx)
      exact ⟨by simpa using hp, hm⟩
    · intro x hx
      exact (List.dropWhile_sublist isspace).subset ((List.dropWhile_sublist _).subset hx)

theorem scan_not_colon_sound (s t r : CStr) (h : scan_not_colon s = some (t, r)) :
    (∃ (a : Char) (u v : CStr), t = a :: u ∧ s = a :: v) ∧
    (∀ x : Char, x ∈ t → x ≠ ':' ∧ x ∈ s) ∧ (∀ x : Char, x ∈ r → x ∈ s) := by
  unfold scan_not_colon at h
  simp only at h
  split at h
  · exact absurd h (by simp)
  · rename_i hne
    obtain ⟨h1, h2⟩ := Prod.mk.inj (Option.some.inj h)
    subst h1
    subst h2
    refine ⟨?_, ?_, ?_⟩
    · cases s with
      | nil => exact absurd rfl hne
      | cons a v =>
        by_cases ha : (a != ':') = true
        · exact ⟨a, v.takeWhile (fun c => c != ':'), v, by simp [List.takeWhile_cons, ha], rfl⟩
        · exact absurd (by simp [List.takeWhile_cons, ha]) hne
    · intro x hx
      have hp := List.mem_takeWhile_imp hx
      exact ⟨by simpa using hp, (List.takeWhile_sublist _).subset hx⟩
    · intro x hx
      exact (List.dropWhile_sublist _).subset hx

theorem sscanf_add_sound (s : CStr) (t : add_tokens) (hs : NUL ∉ s)
    (h : sscanf_add s = some t) :
    is_token t.buf_cpath ∧ is_token t.buf_lpath ∧
    (∃ (a : Char) (u : CStr), t.buf_stratum = a :: u ∧ isspace a = false) ∧
    (∀ x : Char, x ∈ t.buf_stratum → x ≠ ':' ∧ x ≠ NUL) := by
  unfold sscanf_add at h
  cases h1 : scan_s s with
  | none => rw [h1] at h; simp at h
  | some p1 =>
    obtain ⟨t1, s1⟩ := p1
    rw [h1] at h
    simp only at h
    obtain ⟨_, _, r1⟩ := scan_s_sound s t1 s1 h1
    have m1 : ∀ x : Char, x ∈ s1.dropWhile isspace → x ∈ s :=
      fun x hx => r1 x ((List.dropWhile_sublist _).subset hx)
    cases h2 : scan_s (s1.dropWhile isspace) with
    | none => rw [h2] at h; simp at h
    | some p2 =>
      obtain ⟨t2, s2⟩ := p2
      rw [h2] at h
      simp only at h
      obtain ⟨_, _, r2⟩ := scan_s_sound _ t2 s2 h2
      have m2 : ∀ x : Char, x ∈ s2.dropWhile isspace → x ∈ s :=
        fun x hx => m1 x (r2 x ((List.dropWhile_sublist _).subset hx))
      cases h3 : scan_s (s2.dropWhile isspace) with
      | none => rw [h3] at h; simp at h
      | some p3 =>
        obtain ⟨t3, s3⟩ := p3
        rw [h3] at h
        simp only at h
        obtain ⟨n3, k3, r3⟩ := scan_s_sound _ t3 s3 h3
        have m3 : ∀ x : Char, x ∈ s3.dropWhile isspace → x ∈ s :=
          fun x hx => m2 x (r3 x ((List.dropWhile_sublist _).subset hx))
        cases h4 : scan_not_colon (s3.dropWhile isspace) with
        | none => rw [h4] at h; simp at h
        | some p4 =>
          obtain ⟨t4, s4⟩ := p4
          rw [h4] at h
          simp only at h
          obtain ⟨⟨a, u, v, ht4, hv⟩, k4, r4⟩ := scan_not_colon_sound _ t4 s4 h4
          have ha : isspace a = false := dropWhile_head_false isspace s3 a v hv
          cases s4 with
          | nil => simp at h
          | cons c s5 =>
            simp only at h
            by_cases hc : c ≠ ':'
            · rw [if_pos hc] at h
              simp at h
            · rw [if_neg hc] at h
              cases h5 : scan_s s5 with
              | none => rw [h5] at h; simp at h
              | some p5 =>
                obtain ⟨t5, s6⟩ := p5
                rw [h5] at h
                simp only at h
                obtain ⟨n5, k5, _⟩ := scan_s_sound _ t5 s6 h5
                cases s6 with
                | nil => simp at h
                | cons nl rest =>
                  simp only at h
                  have ht := Option.some.inj h
                  subst ht
                  have nn : ∀ x : Char, x ∈ s → x ≠ NUL := fun x hx e => hs (e ▸ hx)
                  refine ⟨⟨n3, fun x hx => ⟨(k3 x hx).1, nn x (m2 x (k3 x hx).2)⟩⟩,
                    ⟨n5, fun x hx => ⟨(k5 x hx).1,
                      nn x (m3 x (r4 x (List.mem_cons_of_mem _ (k5 x hx).2)))⟩⟩,
                    ⟨a, u, ht4, ha⟩,
                    fun x hx => ⟨(k4 x hx).1, nn x (m3 x (k4 x hx).2)⟩⟩

theorem cfg_add_parse_fields (buf : CStr) (size : Nat) (f : filter) (c s l : CStr)
    (h : cfg_add_parse buf size = .ok (f, c, s, l)) :
    is_token c ∧ c.head? = some '/' ∧ is_token l ∧ l.head? = some '/' ∧ is_label s := by
  unfold cfg_add_parse at h
  split at h
  · simp at h
  · cases hsc : sscanf_add (cstr_of (mem_read buf 0 size)) with
    | none => rw [hsc] at h; simp at h
    | some t =>
      rw [hsc] at h
      simp only at h
      obtain ⟨tc, tl, th, ts⟩ := sscanf_add_sound _ t (cstr_of_no_nul _) hsc
      split at h
      · simp at h
      · rename_i hcond
        simp only [not_or, not_not] at hcond
        obtain ⟨_, hc0, hl0, _, hslash⟩ := hcond
        cases hff : find_filter t.buf_filter with
        | none => rw [hff] at h; simp at h
        | some f1 =>
          rw [hff] at h
          simp only [Except.ok.injEq, Prod.mk.injEq] at h
          obtain ⟨_, e2, e3, e4⟩ := h
          subst e2
          subst e3
          subst e4
          refine ⟨tc, (cbyte_head_iff _).mp hc0, tl, (cbyte_head_iff _).mp hl0, ?_⟩
          obtain ⟨a, u, hau, ha⟩ := th
          refine ⟨⟨a, u, hau, ha⟩, fun x hx => ⟨(ts x hx).1, ?_, (ts x hx).2⟩⟩
          intro e
          exact hslash (e ▸ hx)

theorem add_outcome_replayable (st : cfg_state) (f : filter) (c s l : CStr) (alen size : Nat)
    (rv : Int) (st1 : cfg_state)
    (hfield : fields_ok st.cfgs) (hne : ∀ e : cfg_entry, e ∈ st.cfgs → e.back ≠ [])
    (hc : is_token c ∧ c.head? = some '/') (hs : is_label s)
    (hl : is_token l ∧ l.head? = some '/')
    (hrv : rv = (size : Int)) (h : add_outcome st f c s l alen size rv st1) :
    fields_ok st1.cfgs ∧ ∀ e : cfg_entry, e ∈ st1.cfgs → e.back ≠ [] := by
  have hneg : ¬ ((size : Int) = -ENOMEM) := by
    unfold ENOMEM
    omega
  rcases h with ⟨h1, _⟩ | ⟨h1, _⟩ | ⟨_, h2, _⟩ | ⟨_, i, e, fd, _, he, _, _, h2⟩ |
    ⟨_, _, fd, _, h2⟩
  · exact absurd (hrv ▸ h1) hneg
  · exact absurd (hrv ▸ h1) hneg
  · rw [h2]
    exact ⟨hfield, hne⟩
  · rw [h2]
    obtain ⟨_, hp⟩ := push_back_split ⟨l, s, fd⟩ st.cfgs i e he
    have hemem : e ∈ st.cfgs := List.mem_iff_getElem?.mpr ⟨i, he⟩
    have hold : ∀ x : cfg_entry, x ∈ push_back st.cfgs i ⟨l, s, fd⟩ →
        x ∈ st.cfgs ∨ x = { e with back := e.back ++ [⟨l, s, fd⟩] } := by
      intro x hx
      rw [hp] at hx
      rcases List.mem_append.mp hx with hx | hx
      · exact Or.inl (List.mem_of_mem_take hx)
      · rcases List.mem_cons.mp hx with hx | hx
        · exact Or.inr hx
        · exact Or.inl (List.mem_of_mem_drop hx)
    constructor
    · intro x hx
      rcases hold x hx with hx | hx
      · exact hfield x hx
      · subst hx
        obtain ⟨f1, f2, f3⟩ := hfield e hemem
        refine ⟨f1, f2, ?_⟩
        intro b hb
        rcases List.mem_append.mp hb with hb | hb
        · exact f3 b hb
        · rw [List.mem_singleton] at hb
          subst hb
          exact ⟨hs, hl.1, hl.2⟩
    · intro x hx
      rcases hold x hx with hx | hx
      · exact hne x hx
      · subst hx
        simp
  · rw [h2]
    constructor
    · intro x hx
      rcases List.mem_append.mp hx with hx | hx
      · exact hfield x hx
      · rw [List.mem_singleton] at hx
        subst hx
        refine ⟨hc.1, hc.2, ?_⟩
        intro b hb
        rw [List.mem_singleton] at hb
        subst hb
        exact ⟨hs, hl.1, hl.2⟩
    · intro x hx
      rcases List.mem_append.mp hx with hx | hx
      · exact hne x hx
      · rw [List.mem_singleton] at hx
        subst hx
        simp

theorem m_write_ok_replayable (env : add_env) (st : cfg_state) (uid : Nat) (ipath buf : CStr)
    (size : Nat) (hinv : replayable st.cfgs)
    (hrv : (m_write_tab env st uid ipath buf size).1 = (size : Int)) :
    replayable (m_write_tab env st uid ipath buf size).2.cfgs := by
  refine ⟨m_write_inv env st uid ipath buf size hinv.1, ?_⟩
  have hE1 : ¬ ((size : Int) = -EROFS) := by unfold EROFS; omega
  have hE2 : ¬ ((size : Int) = -EACCES) := by unfold EACCES; omega
  have hE3 : ¬ ((size : Int) = -EINVAL) := by unfold EINVAL; omega
  have hE4 : ¬ ((size : Int) = -ENAMETOOLONG) := by unfold ENAMETOOLONG; omega
  unfold m_write_tab at hrv ⊢
  split at hrv
  · exact absurd hrv.symm hE1
  · split at hrv
    · exact absurd hrv.symm hE2
    · rename_i h1 h2
      rw [if_neg h1, if_neg h2]
      split
      · exact ⟨fun e he => absurd he (List.not_mem_nil e),
          fun e he => absurd he (List.not_mem_nil e)⟩
      · rename_i h3
        rw [if_neg h3] at hrv
        split
        · rename_i h4
          rw [if_pos h4] at hrv
          unfold cfg_add_tab at hrv ⊢
          cases hp : cfg_add_parse buf size with
          | error e =>
            rw [hp] at hrv
            simp only at hrv
            rcases cfg_add_parse_error buf size e hp with he | he
            · exact absurd (hrv.symm.trans he) hE4
            · exact absurd (hrv.symm.trans he) hE3
          | ok r =>
            obtain ⟨f, c, s, l⟩ := r
            rw [hp] at hrv
            simp only at hrv ⊢
            obtain ⟨c1, c2, l1, l2, s1⟩ := cfg_add_parse_fields buf size f c s l hp
            exact add_outcome_replayable st f c s l (strlen buf) size _ _ hinv.2.1 hinv.2.2
              ⟨c1, c2⟩ s1 ⟨l1, l2⟩ hrv
              (cfg_add_apply_outcome env st f c s l (strlen buf) size)
        · rename_i h4
          rw [if_neg h4] at hrv
          exact absurd hrv.symm hE3

theorem run_writes_ok_replayable : ∀ (ws : List write_req) (st : cfg_state),
    replayable st.cfgs →
    write_rvs_tab st ws = ws.map (fun w => (w.size : Int)) →
    replayable (run_writes_tab st ws).cfgs := by
  intro ws
  induction ws with
  | nil => intro st h _; exact h
  | cons w rest ih =>
    intro st hinv hrv
    simp only [write_rvs_tab, List.map_cons] at hrv
    obtain ⟨h1, h2⟩ := List.cons.inj hrv
    have hstep : run_writes_tab st (w :: rest)
        = run_writes_tab (m_write_tab w.env st w.uid w.ipath w.buf w.size).2 rest := rfl
    rw [hstep]
    exact ih _ (m_write_ok_replayable w.env st w.uid w.ipath w.buf w.size hinv h1) h2

/-! ## Replaying a dump -/

theorem run_writes_append (st : cfg_state) (a b : List write_req) :
    run_writes_tab st (a ++ b) = run_writes_tab (run_writes_tab st a) b := by
  unfold run_writes_tab
  rw [List.foldl_append]

theorem write_rvs_append : ∀ (a b : List write_req) (st : cfg_state),
    write_rvs_tab st (a ++ b) = write_rvs_tab st a ++ write_rvs_tab (run_writes_tab st a) b := by
  intro a
  induction a with
  | nil => intro b st; rfl
  | cons w rest ih =>
    intro b st
    show (m_write_tab w.env st w.uid w.ipath w.buf w.size).1 ::
        write_rvs_tab (m_write_tab w.env st w.uid w.ipath w.buf w.size).2 (rest ++ b) = _
    rw [ih]
    rfl

theorem root_fd_nonneg (env : add_env) (henv : env_good env) (s : CStr) (A : Int) :
    ¬ ((if A < 0 then env.open_root s else A) < 0) := by
  by_cases h : A < 0
  · rw [if_pos h]
    exact not_lt.mpr (henv.2.2.2.2.2 s)
  · rw [if_neg h]
    exact h

theorem replay_new (env : add_env) (henv : env_good env) (st : cfg_state) (f : filter)
    (c s l : CStr) (hv : valid_add f c s l) (hfind : find_cfg c st.cfgs = none) :
    ∃ fd : Int, m_write_tab env st 0 CFG_PATH (add_line f c s l) (add_line f c s l).length
      = (((add_line f c s l).length : Int),
        ⟨st.cfgs ++ [⟨f, c, [⟨l, s, fd⟩]⟩], st.st_size + (add_line f c s l).length⟩) := by
  have h := m_write_req st ⟨env, f, c, s, l⟩ hv
  have hline : req_line ⟨env, f, c, s, l⟩ = add_line f c s l := rfl
  rw [hline] at h
  simp only at h
  rw [h, cfg_add_apply_none env st f c s l _ _ hfind]
  obtain ⟨e1, e2, e3, e4, e5, e6⟩ := henv
  refine ⟨(if find_root_fd s (st.cfgs ++ [⟨f, c, []⟩]) (-1) < 0 then env.open_root s
    else find_root_fd s (st.cfgs ++ [⟨f, c, []⟩]) (-1)), ?_⟩
  rw [if_neg (by simp [e1, e2]), if_neg (by
    simp only [e3, e4, e5, not_true_eq_false, false_or, or_false]
    exact root_fd_nonneg env ⟨e1, e2, e3, e4, e5, e6⟩ s _)]

theorem replay_more_fd (env : add_env) (henv : env_good env) (st : cfg_state) (f : filter)
    (c s l : CStr) (init : List cfg_entry) (e : cfg_entry)
    (hv : valid_add f c s l) (hst : st.cfgs = init ++ [e]) (hec : e.cpath = c)
    (hfind : find_cfg c init = none) (hhas : has_back s l e.back = false) :
    m_write_tab env st 0 CFG_PATH (add_line f c s l) (add_line f c s l).length
      = (((add_line f c s l).length : Int),
        ⟨init ++ [{ e with back := e.back ++ [⟨l, s,
            (if find_root_fd s st.cfgs (-1) < 0 then env.open_root s
              else find_root_fd s st.cfgs (-1))⟩] }],
          st.st_size + (add_line f c s l).length⟩) := by
  have h := m_write_req st ⟨env, f, c, s, l⟩ hv
  have hline : req_line ⟨env, f, c, s, l⟩ = add_line f c s l := rfl
  rw [hline] at h
  simp only at h
  have hidx : find_cfg c st.cfgs = some init.length := by
    rw [hst]
    exact find_cfg_append_new c e hec init hfind
  have hget : st.cfgs[init.length]? = some e := by
    rw [hst]
    simp
  rw [h, cfg_add_apply_some env st f c s l _ _ init.length e hidx hget]
  obtain ⟨e1, e2, e3, e4, e5, e6⟩ := henv
  rw [if_neg (by simp [hhas]), if_neg (by
    simp only [e3, e4, e5, not_true_eq_false, false_or, or_false]
    exact root_fd_nonneg env ⟨e1, e2, e3, e4, e5, e6⟩ s _)]
  rw [hst, push_back_last]

theorem replay_more (env : add_env) (henv : env_good env) (st : cfg_state) (f : filter)
    (c s l : CStr) (init : List cfg_entry) (e : cfg_entry)
    (hv : valid_add f c s l) (hst : st.cfgs = init ++ [e]) (hec : e.cpath = c)
    (hfind : find_cfg c init = none) (hhas : has_back s l e.back = false) :
    ∃ fd : Int, m_write_tab env st 0 CFG_PATH (add_line f c s l) (add_line f c s l).length
      = (((add_line f c s l).length : Int),
        ⟨init ++ [{ e with back := e.back ++ [⟨l, s, fd⟩] }],
          st.st_size + (add_line f c s l).length⟩) :=
  ⟨_, replay_more_fd env henv st f c s l init e hv hst hec hfind hhas⟩

theorem replay_backs (env : add_env) (henv : env_good env) (f : filter) (c : CStr) :
    ∀ (bs : List back_entry) (e1 : cfg_entry) (init : List cfg_entry) (st : cfg_state),
    st.cfgs = init ++ [e1] → e1.cpath = c → find_cfg c init = none →
    (∀ b : back_entry, b ∈ bs → valid_add f c b.stratum b.lpath) →
    ((e1.back ++ bs).map (fun b => (b.stratum, b.lpath))).Nodup →
    write_rvs_tab st (bs.map (fun b => root_write env (add_line f c b.stratum b.lpath)))
      = (bs.map (fun b => root_write env (add_line f c b.stratum b.lpath))).map
          (fun w => (w.size : Int)) ∧
    ∃ e2 : cfg_entry,
      (run_writes_tab st (bs.map (fun b => root_write env (add_line f c b.stratum b.lpath)))).cfgs
        = init ++ [e2] ∧ e2.cpath = c ∧ e2.filter = e1.filter ∧
      e2.back.map (fun b => (b.stratum, b.lpath))
        = (e1.back ++ bs).map (fun b => (b.stratum, b.lpath)) := by
  intro bs
  induction bs with
  | nil =>
    intro e1 init st hst hec _ _ _
    refine ⟨rfl, e1, hst, hec, rfl, ?_⟩
    rw [List.append_nil]
  | cons b rest ih =>
    intro e1 init st hst hec hfind hv hnd
    have hhas : has_back b.stratum b.lpath e1.back = false := by
      cases hh : has_back b.stratum b.lpath e1.back with
      | false => rfl
      | true =>
        exfalso
        obtain ⟨b0, hb0, hs0, hl0⟩ := (has_back_iff _ _ _).mp hh
        rw [List.map_append, List.nodup_append] at hnd
        apply hnd.2.2
          (List.mem_map.mpr ⟨b0, hb0, rfl⟩ : (b0.stratum, b0.lpath) ∈ e1.back.map _)
        rw [hs0, hl0]
        exact List.mem_map.mpr ⟨b, List.mem_cons_self _ _, rfl⟩
    obtain ⟨fd, hw⟩ := replay_more env henv st f c b.stratum b.lpath init e1
      (hv b (List.mem_cons_self _ _)) hst hec hfind hhas
    have hstep1 : write_rvs_tab st
        ((b :: rest).map (fun b => root_write env (add_line f c b.stratum b.lpath)))
        = (m_write_tab env st 0 CFG_PATH (add_line f c b.stratum b.lpath)
            (add_line f c b.stratum b.lpath).length).1 ::
          write_rvs_tab (m_write_tab env st 0 CFG_PATH (add_line f c b.stratum b.lpath)
            (add_line f c b.stratum b.lpath).length).2
            (rest.map (fun b => root_write env (add_line f c b.stratum b.lpath))) := rfl
    have hstep2 : run_writes_tab st
        ((b :: rest).map (fun b => root_write env (add_line f c b.stratum b.lpath)))
        = run_writes_tab (m_write_tab env st 0 CFG_PATH (add_line f c b.stratum b.lpath)
            (add_line f c b.stratum b.lpath).length).2
            (rest.map (fun b => root_write env (add_line f c b.stratum b.lpath))) := rfl
    rw [hstep1, hstep2, hw]
    simp only
    have hnd2 : (((({ e1 with back := e1.back ++ [⟨b.lpath, b.stratum, fd⟩] } :
        cfg_entry).back) ++ rest).map (fun b => (b.stratum, b.lpath))).Nodup := by
      simpa using hnd
    obtain ⟨r1, e2, r2, r3, r4, r5⟩ := ih
      { e1 with back := e1.back ++ [⟨b.lpath, b.stratum, fd⟩] } init
      ⟨init ++ [{ e1 with back := e1.back ++ [⟨b.lpath, b.stratum, fd⟩] }],
        st.st_size + (add_line f c b.stratum b.lpath).length⟩ rfl hec hfind
      (fun x hx => hv x (List.mem_cons_of_mem _ hx)) hnd2
    refine ⟨?_, e2, r2, r3, r4, ?_⟩
    · rw [r1]
      rfl
    · rw [r5]
      simp

theorem replay_writes_cons (env : add_env) (e : cfg_entry) (rest : List cfg_entry) :
    replay_writes env (e :: rest)
      = e.back.map (fun b => root_write env (add_line e.filter e.cpath b.stratum b.lpath))
        ++ replay_writes env rest := by
  simp [replay_writes, dump_lines, List.map_map, Function.comp_def]

theorem replay_table (env : add_env) (henv : env_good env) :
    ∀ (T : List cfg_entry) (st : cfg_state),
    (∀ e : cfg_entry, e ∈ T → find_cfg e.cpath st.cfgs = none) → replayable T →
    (∀ e : cfg_entry, e ∈ T → ∀ b : back_entry, b ∈ e.back →
      (add_line e.filter e.cpath b.stratum b.lpath).length ≤ PATH_MAX - 1) →
    write_rvs_tab st (replay_writes env T)
      = (replay_writes env T).map (fun w => (w.size : Int)) ∧
    (run_writes_tab st (replay_writes env T)).cfgs.map entry_view
      = st.cfgs.map entry_view ++ T.map entry_view := by
  intro T
  induction T with
  | nil =>
    intro st _ _ _
    exact ⟨rfl, by simp [replay_writes, dump_lines, run_writes_tab]⟩
  | cons e rest ih =>
    intro st hnew hrep hbound
    obtain ⟨⟨hnd, hpairs⟩, hfields, hne⟩ := hrep
    have hemem : e ∈ e :: rest := List.mem_cons_self _ _
    obtain ⟨fc1, fc2, fb⟩ := hfields e hemem
    have hvalid : ∀ b : back_entry, b ∈ e.back → valid_add e.filter e.cpath b.stratum b.lpath :=
      fun b hb => ⟨fc1, fc2, (fb b hb).2.1, (fb b hb).2.2, (fb b hb).1, hbound e hemem b hb⟩
    cases hback : e.back with
    | nil => exact absurd hback (hne e hemem)
    | cons b1 bs =>
      have hb1 : b1 ∈ e.back := by rw [hback]; exact List.mem_cons_self _ _
      obtain ⟨fd, hw⟩ := replay_new env henv st e.filter e.cpath b1.stratum b1.lpath
        (hvalid b1 hb1) (hnew e hemem)
      have hndp := hpairs e hemem
      rw [hback] at hndp
      obtain ⟨g1, e2, g2, g3, g4, g5⟩ := replay_backs env henv e.filter e.cpath bs
        ⟨e.filter, e.cpath, [⟨b1.lpath, b1.stratum, fd⟩]⟩ st.cfgs
        ⟨st.cfgs ++ [⟨e.filter, e.cpath, [⟨b1.lpath, b1.stratum, fd⟩]⟩],
          st.st_size + (add_line e.filter e.cpath b1.stratum b1.lpath).length⟩
        rfl rfl (hnew e hemem)
        (fun b hb => hvalid b (by rw [hback]; exact List.mem_cons_of_mem _ hb))
        (by simpa using hndp)
      have hview : entry_view e2 = entry_view e := by
        unfold entry_view
        rw [g3, g4, g5, hback]
        simp
      have hrest : ∀ x : cfg_entry, x ∈ rest →
          find_cfg x.cpath (st.cfgs ++ [e2]) = none := by
        intro x hx
        rw [find_cfg_none_iff]
        intro y hy
        rcases List.mem_append.mp hy with hy | hy
        · exact (find_cfg_none_iff _ _).mp (hnew x (List.mem_cons_of_mem _ hx)) y hy
        · rw [List.mem_singleton] at hy
          rw [hy, g3]
          intro heq
          rw [List.map_cons, List.nodup_cons] at hnd
          exact hnd.1 (List.mem_map.mpr ⟨x, hx, heq.symm⟩)
      have hreprest : replayable rest := by
        refine ⟨⟨?_, fun x hx => hpairs x (List.mem_cons_of_mem _ hx)⟩,
          fun x hx => hfields x (List.mem_cons_of_mem _ hx),
          fun x hx => hne x (List.mem_cons_of_mem _ hx)⟩
        rw [List.map_cons, List.nodup_cons] at hnd
        exact hnd.2
      have hfirst_rv : write_rvs_tab st (e.back.map (fun b => root_write env
          (add_line e.filter e.cpath b.stratum b.lpath)))
          = (e.back.map (fun b => root_write env
            (add_line e.filter e.cpath b.stratum b.lpath))).map (fun w => (w.size : Int)) := by
        rw [hback]
        show (m_write_tab env st 0 CFG_PATH (add_line e.filter e.cpath b1.stratum b1.lpath)
            (add_line e.filter e.cpath b1.stratum b1.lpath).length).1 ::
          write_rvs_tab (m_write_tab env st 0 CFG_PATH (add_line e.filter e.cpath b1.stratum b1.lpath)
            (add_line e.filter e.cpath b1.stratum b1.lpath).length).2
            (bs.map (fun b => root_write env (add_line e.filter e.cpath b.stratum b.lpath)))
          = _
        rw [hw]
        simp only
        rw [g1]
        rfl
      have hfirst_st : (run_writes_tab st (e.back.map (fun b => root_write env
          (add_line e.filter e.cpath b.stratum b.lpath)))).cfgs = st.cfgs ++ [e2] := by
        rw [hback]
        show (run_writes_tab (m_write_tab env st 0 CFG_PATH
            (add_line e.filter e.cpath b1.stratum b1.lpath)
            (add_line e.filter e.cpath b1.stratum b1.lpath).length).2
            (bs.map (fun b => root_write env
              (add_line e.filter e.cpath b.stratum b.lpath)))).cfgs = _
        rw [hw]
        exact g2
      obtain ⟨i1, i2⟩ := ih (run_writes_tab st (e.back.map (fun b => root_write env
          (add_line e.filter e.cpath b.stratum b.lpath))))
        (by rw [hfirst_st]; exact hrest) hreprest
        (fun x hx => hbound x (List.mem_cons_of_mem _ hx))
      rw [replay_writes_cons, write_rvs_append, run_writes_append, hfirst_rv, i1, i2,
        hfirst_st]
      refine ⟨by rw [List.map_append], ?_⟩
      rw [List.map_append, List.map_singleton, hview, List.map_cons, List.append_assoc]
      rfl

theorem cfg_dump_congr : ∀ A B : List cfg_entry, A.map entry_view = B.map entry_view →
    cfg_dump A = cfg_dump B := by
  intro A
  induction A with
  | nil =>
    intro B h
    cases B with
    | nil => rfl
    | cons b rest => simp at h
  | cons a resta ih =>
    intro B h
    cases B with
    | nil => simp at h
    | cons b restb =>
      simp only [List.map_cons, List.cons.injEq] at h
      obtain ⟨hv, hrest⟩ := h
      unfold entry_view at hv
      simp only [Prod.mk.injEq] at hv
      obtain ⟨hf, hc, hb⟩ := hv
      have hlines : a.back.map (cfg_line a) = b.back.map (cfg_line b) := by
        have ha : a.back.map (cfg_line a)
            = (a.back.map (fun x => (x.stratum, x.lpath))).map
              (fun p => add_line a.filter a.cpath p.1 p.2) := by
          rw [List.map_map]
          rfl
        have hb2 : b.back.map (cfg_line b)
            = (b.back.map (fun x => (x.stratum, x.lpath))).map
              (fun p => add_line b.filter b.cpath p.1 p.2) := by
          rw [List.map_map]
          rfl
        rw [ha, hb2, hb, hf, hc]
      unfold cfg_dump
      rw [hlines, ih restb hrest]

theorem mem_dump_lines (cfgs : List cfg_entry) (e : cfg_entry) (b : back_entry)
    (he : e ∈ cfgs) (hb : b ∈ e.back) :
    add_line e.filter e.cpath b.stratum b.lpath ∈ dump_lines cfgs := by
  unfold dump_lines
  exact List.mem_flatten.mpr ⟨_, List.mem_map.mpr ⟨e, he, rfl⟩, List.mem_map.mpr ⟨b, hb, rfl⟩⟩

theorem m_write_too_long (env : add_env) (st : cfg_state) (f : filter) (c s l : CStr)
    (h : (add_line f c s l).length > PATH_MAX - 1) :
    m_write_tab env st 0 CFG_PATH (add_line f c s l) (add_line f c s l).length
      = (-ENAMETOOLONG, st) := by
  obtain ⟨m1, m2⟩ := memcmp_add_line f c s l
  unfold m_write_tab
  have hpath : ¬ (pstrcmp CFG_PATH CFG_PATH.length CFG_PATH CFG_PATH.length ≠ 0) := by decide
  have huid : ¬ ((0 : Nat) ≠ 0) := by decide
  rw [if_neg hpath, if_neg huid, if_neg (fun hc => m2 hc.2),
    if_pos ⟨add_line_length_ge f c s l, m1⟩]
  unfold cfg_add_tab cfg_add_parse
  rw [if_pos h]

theorem env_ok_good : env_good env_ok :=
  ⟨rfl, rfl, rfl, rfl, rfl, fun _ => show (0 : Int) ≤ 3 by decide⟩

theorem add_line_length (f : filter) (c s l : CStr) :
    (add_line f c s l).length
      = 4 + (filter_str f).length + 1 + c.length + 1 + s.length + 1 + l.length + 1 := by
  unfold add_line
  simp only [List.length_append]
  rfl

theorem long_lpath_length : long_lpath.length = 4081 := by
  unfold long_lpath
  rw [List.length_cons, List.length_replicate]

theorem long_line_valid : valid_add .FILTER_BIN "/a".toList "t".toList long_lpath := by
  refine ⟨⟨by decide, by decide⟩, by decide, ⟨List.cons_ne_nil _ _, ?_⟩, rfl,
    ⟨⟨'t', [], rfl, by decide⟩, by decide⟩, ?_⟩
  · intro x hx
    have hx2 : x = '/' ∨ x = 'c' := by
      simp only [long_lpath, List.mem_cons, List.mem_replicate] at hx
      rcases hx with hx | hx
      · exact Or.inl hx
      · exact Or.inr hx.2
    rcases hx2 with hx2 | hx2 <;> subst hx2 <;> exact ⟨by decide, by decide⟩
  · have hlen : (add_line .FILTER_BIN "/a".toList "t".toList long_lpath).length = 4095 := by
      rw [add_line_length, long_lpath_length]
      rfl
    rw [hlen]
    decide

theorem writes_two (st s1 s2 : cfg_state) (w1 w2 : write_req) (r1 r2 : Int)
    (h1 : m_write_tab w1.env st w1.uid w1.ipath w1.buf w1.size = (r1, s1))
    (h2 : m_write_tab w2.env s1 w2.uid w2.ipath w2.buf w2.size = (r2, s2)) :
    write_rvs_tab st [w1, w2] = [r1, r2] ∧ run_writes_tab st [w1, w2] = s2 := by
  refine ⟨?_, ?_⟩
  · unfold write_rvs_tab
    rw [h1]
    unfold write_rvs_tab
    rw [h2]
    rfl
  · unfold run_writes_tab
    rw [List.foldl_cons, h1, List.foldl_cons, h2]
    rfl

theorem long_first : m_write_tab env_ok cfg_init 0 CFG_PATH "add font /a s:/b\n".toList
    "add font /a s:/b\n".toList.length
    = (17, ⟨[⟨.FILTER_FONT, "/a".toList, [⟨"/b".toList, "s".toList, 3⟩]⟩], 17⟩) := by
  decide

theorem long_second : m_write_tab env_ok
    ⟨[⟨.FILTER_FONT, "/a".toList, [⟨"/b".toList, "s".toList, 3⟩]⟩], 17⟩ 0 CFG_PATH
    (add_line .FILTER_BIN "/a".toList "t".toList long_lpath)
    (add_line .FILTER_BIN "/a".toList "t".toList long_lpath).length
    = (4095, ⟨long_table, 4112⟩) := by
  have hhas : has_back "t".toList long_lpath [⟨"/b".toList, "s".toList, 3⟩] = false := by
    cases hh : has_back "t".toList long_lpath [⟨"/b".toList, "s".toList, 3⟩] with
    | false => rfl
    | true =>
      exfalso
      obtain ⟨b0, hb0, hs0, _⟩ := (has_back_iff _ _ _).mp hh
      rw [List.mem_singleton] at hb0
      subst hb0
      revert hs0
      decide
  have hlenb : (add_line .FILTER_BIN "/a".toList "t".toList long_lpath).length = 4095 := by
    rw [add_line_length, long_lpath_length]
    rfl
  have hfd : (if find_root_fd "t".toList
      [⟨.FILTER_FONT, "/a".toList, [⟨"/b".toList, "s".toList, 3⟩]⟩] (-1) < 0
      then env_ok.open_root "t".toList
      else find_root_fd "t".toList
        [⟨.FILTER_FONT, "/a".toList, [⟨"/b".toList, "s".toList, 3⟩]⟩] (-1)) = 3 := by
    decide
  have h2 := replay_more_fd env_ok env_ok_good
    ⟨[⟨.FILTER_FONT, "/a".toList, [⟨"/b".toList, "s".toList, 3⟩]⟩], 17⟩ .FILTER_BIN
    "/a".toList "t".toList long_lpath []
    ⟨.FILTER_FONT, "/a".toList, [⟨"/b".toList, "s".toList, 3⟩]⟩ long_line_valid rfl rfl rfl hhas
  refine h2.trans ?_
  rw [hfd, hlenb]
  rfl

theorem long_replay_first : m_write_tab env_ok cfg_init 0 CFG_PATH
    (add_line .FILTER_FONT "/a".toList "s".toList "/b".toList)
    (add_line .FILTER_FONT "/a".toList "s".toList "/b".toList).length
    = (17, ⟨[⟨.FILTER_FONT, "/a".toList, [⟨"/b".toList, "s".toList, 3⟩]⟩], 17⟩) := by
  decide

theorem long_font_length :
    (add_line .FILTER_FONT "/a".toList "t".toList long_lpath).length = 4096 := by
  rw [add_line_length, long_lpath_length]
  rfl

theorem long_dump : dump_lines long_table
    = [add_line .FILTER_FONT "/a".toList "s".toList "/b".toList,
        add_line .FILTER_FONT "/a".toList "t".toList long_lpath] := rfl

/-- After the accepted writes `add font /a s:/b` and `add bin /a t:<lpath>`,
the second with the full 4095 bytes a write may have, the dump shows the
second backing entry under the filter name `font` of the entry, in a line of
4096 bytes; written back to an empty table after the first dump line, that
line is refused with `-ENAMETOOLONG`. -/
theorem replay_line_too_long_tab :
    write_rvs_tab cfg_init long_writes = [17, 4095] ∧
    (run_writes_tab cfg_init long_writes).cfgs = long_table ∧
    (dump_lines long_table).map (fun x => x.length) = [17, 4096] ∧
    write_rvs_tab cfg_init (replay_writes env_ok long_table) = [17, -ENAMETOOLONG] := by
  have h3 := m_write_too_long env_ok
    ⟨[⟨.FILTER_FONT, "/a".toList, [⟨"/b".toList, "s".toList, 3⟩]⟩], 17⟩ .FILTER_FONT
    "/a".toList "t".toList long_lpath (by rw [long_font_length]; decide)
  obtain ⟨a1, a2⟩ := writes_two cfg_init _ _ (root_write env_ok "add font /a s:/b\n".toList)
    (root_write env_ok (add_line .FILTER_BIN "/a".toList "t".toList long_lpath)) _ _
    long_first long_second
  obtain ⟨b1, _⟩ := writes_two cfg_init _ _
    (root_write env_ok (add_line .FILTER_FONT "/a".toList "s".toList "/b".toList))
    (root_write env_ok (add_line .FILTER_FONT "/a".toList "t".toList long_lpath)) _ _
    long_replay_first h3
  refine ⟨a1, ?_, ?_, ?_⟩
  · unfold long_writes
    rw [a2]
  · rw [long_dump, List.map_cons, List.map_cons, List.map_nil, long_font_length]
    rfl
  · unfold replay_writes
    rw [long_dump]
    exact b1

/-- Replay of a dump at the level of tables: for every table reached from the
empty table by writes that all return their size and whose canonical dump
lines have at most `PATH_MAX - 1` bytes, writing those lines to an empty
table yields a table with the same entries, filters and (stratum, lpath)
pairs in the same order, hence the same dump. -/
theorem dump_replay_tab (ws : List write_req) (env : add_env)
    (hok : write_rvs_tab cfg_init ws = ws.map (fun w => (w.size : Int)))
    (hbound : ∀ line : CStr, line ∈ dump_lines (run_writes_tab cfg_init ws).cfgs →
      line.length ≤ PATH_MAX - 1)
    (henv : env_good env) :
    write_rvs_tab cfg_init (replay_writes env (run_writes_tab cfg_init ws).cfgs)
      = (replay_writes env (run_writes_tab cfg_init ws).cfgs).map (fun w => (w.size : Int)) ∧
    (run_writes_tab cfg_init (replay_writes env (run_writes_tab cfg_init ws).cfgs)).cfgs.map entry_view
      = (run_writes_tab cfg_init ws).cfgs.map entry_view ∧
    cfg_dump (run_writes_tab cfg_init (replay_writes env (run_writes_tab cfg_init ws).cfgs)).cfgs
      = cfg_dump (run_writes_tab cfg_init ws).cfgs := by
  have hinit : replayable cfg_init.cfgs :=
    ⟨⟨List.nodup_nil, fun e he => absurd he (List.not_mem_nil e)⟩,
      fun e he => absurd he (List.not_mem_nil e), fun e he => absurd he (List.not_mem_nil e)⟩
  have hrep := run_writes_ok_replayable ws cfg_init hinit hok
  obtain ⟨r1, r2⟩ := replay_table env henv (run_writes_tab cfg_init ws).cfgs cfg_init
    (fun _ _ => rfl) hrep
    (fun e he b hb => hbound _ (mem_dump_lines _ e b he hb))
  have r3 : (run_writes_tab cfg_init
      (replay_writes env (run_writes_tab cfg_init ws).cfgs)).cfgs.map entry_view
      = (run_writes_tab cfg_init ws).cfgs.map entry_view := by
    rw [r2]
    rfl
  exact ⟨r1, r3, cfg_dump_congr _ _ r3⟩

/-! ## Shadowed entries and the examples of `is_equal_or_parent` -/

theorem cbyte_tail (s : CStr) (k : Nat) : cbyte s.tail k = cbyte s (k + 1) := by
  cases s with
  | nil => rfl
  | cons x rest => rfl

theorem memcmp_eq_zero_iff : ∀ (n : Nat) (x y : CStr),
    memcmp x y n = 0 ↔ ∀ k : Nat, k < n → cbyte x k = cbyte y k := by
  intro n
  induction n with
  | zero =>
    intro x y
    simp [memcmp]
  | succ m ih =>
    intro x y
    unfold memcmp
    by_cases h0 : cbyte x 0 = cbyte y 0
    · rw [if_pos h0, ih]
      constructor
      · intro h k hk
        cases k with
        | zero => exact h0
        | succ k1 =>
          have := h k1 (Nat.lt_of_succ_lt_succ hk)
          rwa [cbyte_tail, cbyte_tail] at this
      · intro h k hk
        rw [cbyte_tail, cbyte_tail]
        exact h (k + 1) (Nat.succ_lt_succ hk)
    · rw [if_neg h0]
      have hne := char_sub_ne_zero (cbyte x 0) (cbyte y 0) h0
      constructor
      · intro h; exact absurd h hne
      · intro h; exact absurd (h 0 (Nat.succ_pos m)) h0

theorem is_equal_or_parent_ne_zero (a : CStr) (al : Nat) (b : CStr) (bl : Nat) :
    is_equal_or_parent a al b bl ≠ 0 ↔
      al ≤ bl ∧ (cbyte b al = NUL ∨ cbyte b al = '/') ∧ memcmp b a al = 0 := by
  unfold is_equal_or_parent
  by_cases h1 : al > bl
  · rw [if_pos h1]
    constructor
    · intro h; exact absurd rfl h
    · rintro ⟨h, _, _⟩; omega
  · rw [if_neg h1]
    by_cases h2 : cbyte b al ≠ NUL ∧ cbyte b al ≠ '/'
    · rw [if_pos h2]
      constructor
      · intro h; exact absurd rfl h
      · rintro ⟨_, h | h, _⟩
        · exact absurd h h2.1
        · exact absurd h h2.2
    · rw [if_neg h2]
      have h2b : cbyte b al = NUL ∨ cbyte b al = '/' := by
        by_cases h3 : cbyte b al = NUL
        · exact Or.inl h3
        · by_cases h4 : cbyte b al = '/'
          · exact Or.inr h4
          · exact absurd ⟨h3, h4⟩ h2
      by_cases h5 : memcmp b a al = 0
      · rw [if_pos h5]
        exact ⟨fun _ => ⟨Nat.le_of_not_lt h1, h2b, h5⟩, fun _ => by decide⟩
      · rw [if_neg h5]
        constructor
        · intro h; exact absurd rfl h
        · rintro ⟨_, _, h⟩; exact absurd h h5

theorem is_equal_or_parent_trans (a b P : CStr) (n : Nat)
    (hab : is_equal_or_parent a a.length b b.length ≠ 0)
    (hbP : is_equal_or_parent b b.length P n ≠ 0) :
    is_equal_or_parent a a.length P n ≠ 0 := by
  obtain ⟨l1, c1, m1⟩ := (is_equal_or_parent_ne_zero a a.length b b.length).mp hab
  obtain ⟨l2, c2, m2⟩ := (is_equal_or_parent_ne_zero b b.length P n).mp hbP
  have e1 := (memcmp_eq_zero_iff a.length b a).mp m1
  have e2 := (memcmp_eq_zero_iff b.length P b).mp m2
  refine (is_equal_or_parent_ne_zero a a.length P n).mpr ⟨Nat.le_trans l1 l2, ?_, ?_⟩
  · by_cases hl : a.length = b.length
    · rw [hl]; exact c2
    · have hlt : a.length < b.length := Nat.lt_of_le_of_ne l1 hl
      rw [e2 a.length hlt]
      exact c1
  · refine (memcmp_eq_zero_iff a.length P a).mpr ?_
    intro k hk
    rw [e2 k (Nat.lt_of_lt_of_le hk l1)]
    exact e1 k hk

theorem classify_back_eq_index (P : CStr) (n : Nat) : ∀ cfgs : List cfg_entry,
    classify_back P n cfgs = (classify_back_index P n cfgs).bind (fun k => cfgs[k]?) := by
  intro cfgs
  induction cfgs with
  | nil => rfl
  | cons c rest ih =>
    unfold classify_back classify_back_index
    by_cases hc : is_equal_or_parent c.cpath c.cpath.length P n ≠ 0
    · rw [if_pos hc, if_pos hc]
      simp
    · rw [if_neg hc, if_neg hc, ih]
      cases classify_back_index P n rest with
      | none => rfl
      | some k => simp

theorem classify_back_index_sound (P : CStr) (n : Nat) : ∀ (cfgs : List cfg_entry) (k : Nat),
    classify_back_index P n cfgs = some k →
      ∃ E : cfg_entry, cfgs[k]? = some E ∧
        is_equal_or_parent E.cpath E.cpath.length P n ≠ 0 := by
  intro cfgs
  induction cfgs with
  | nil => intro k h; cases h
  | cons c rest ih =>
    intro k h
    unfold classify_back_index at h
    by_cases hc : is_equal_or_parent c.cpath c.cpath.length P n ≠ 0
    · rw [if_pos hc] at h
      have hk : 0 = k := Option.some.inj h
      subst hk
      exact ⟨c, List.getElem?_cons_zero, hc⟩
    · rw [if_neg hc] at h
      cases hr : classify_back_index P n rest with
      | none => rw [hr] at h; cases h
      | some k1 =>
        rw [hr] at h
        have hk : k1 + 1 = k := Option.some.inj h
        subst hk
        obtain ⟨E, hE, hm⟩ := ih k1 hr
        exact ⟨E, by rw [List.getElem?_cons_succ]; exact hE, hm⟩

theorem classify_back_index_le (P : CStr) (n : Nat) : ∀ (cfgs : List cfg_entry) (i : Nat)
    (E : cfg_entry), cfgs[i]? = some E →
    is_equal_or_parent E.cpath E.cpath.length P n ≠ 0 →
      ∃ k : Nat, k ≤ i ∧ classify_back_index P n cfgs = some k := by
  intro cfgs
  induction cfgs with
  | nil => intro i E h; simp at h
  | cons c rest ih =>
    intro i E h hm
    unfold classify_back_index
    by_cases hc : is_equal_or_parent c.cpath c.cpath.length P n ≠ 0
    · rw [if_pos hc]
      exact ⟨0, Nat.zero_le i, rfl⟩
    · rw [if_neg hc]
      cases i with
      | zero =>
        rw [List.getElem?_cons_zero] at h
        have hcE : c = E := Option.some.inj h
        rw [hcE] at hc
        exact absurd hm hc
      | succ i1 =>
        rw [List.getElem?_cons_succ] at h
        obtain ⟨k, hk, hidx⟩ := ih i1 E h hm
        exact ⟨k + 1, Nat.succ_le_succ hk, by rw [hidx]; rfl⟩

/-- C31: in a table whose entry at index `i` is equal to or a parent of the
entry at a later index `j`, for every incoming path and length: whenever
`classify_ipath` answers `CLASS_BACK`, the entry it stores is the one at the
index where the first loop stopped, and that index is not `j`; and when the
path is at or under the configured path of the entry at `j`, the answer is
`CLASS_BACK` with the entry at an index `k ≤ i`. -/
theorem shadowed_entry_unreachable (cfgs : List cfg_entry) (i j : Nat) (E1 E2 : cfg_entry)
    (hij : i < j) (h1 : cfgs[i]? = some E1) (h2 : cfgs[j]? = some E2)
    (hpar : is_equal_or_parent E1.cpath E1.cpath.length E2.cpath E2.cpath.length ≠ 0)
    (P : CStr) (n : Nat) :
    ((classify_ipath cfgs P n).1 = .CLASS_BACK →
      ∃ k : Nat, classify_back_index P n cfgs = some k ∧ k ≠ j ∧
        (classify_ipath cfgs P n).2 = cfgs[k]?) ∧
    (is_equal_or_parent E2.cpath E2.cpath.length P n ≠ 0 →
      ∃ k : Nat, k ≤ i ∧ classify_back_index P n cfgs = some k ∧
        classify_ipath cfgs P n = (.CLASS_BACK, cfgs[k]?)) := by
  have hunder : is_equal_or_parent E2.cpath E2.cpath.length P n ≠ 0 →
      ∃ k : Nat, k ≤ i ∧ classify_back_index P n cfgs = some k :=
    fun hm => classify_back_index_le P n cfgs i E1 h1
      (is_equal_or_parent_trans E1.cpath E2.cpath P n hpar hm)
  have hne : ∀ k : Nat, classify_back_index P n cfgs = some k → k ≠ j := by
    intro k hk hkj
    subst hkj
    obtain ⟨E, hE, hm⟩ := classify_back_index_sound P n cfgs k hk
    rw [h2] at hE
    have hEE : E2 = E := Option.some.inj hE
    subst hEE
    obtain ⟨k1, hk1, hidx⟩ := hunder hm
    rw [hk] at hidx
    have : k = k1 := Option.some.inj hidx
    omega
  have hcl : ∀ k : Nat, classify_back_index P n cfgs = some k →
      classify_ipath cfgs P n = (.CLASS_BACK, cfgs[k]?) := by
    intro k hk
    obtain ⟨E, hE, _⟩ := classify_back_index_sound P n cfgs k hk
    have hb : classify_back P n cfgs = some E := by
      rw [classify_back_eq_index, hk, ← hE]
      rfl
    unfold classify_ipath
    rw [hb, hE]
  refine ⟨?_, ?_⟩
  · intro hcls
    cases hidx : classify_back_index P n cfgs with
    | none =>
      exfalso
      have hb : classify_back P n cfgs = none := by
        rw [classify_back_eq_index, hidx]
        rfl
      revert hcls
      unfold classify_ipath
      rw [hb]
      cases classify_vdir P n cfgs with
      | some c => simp
      | none =>
        simp only
        split_ifs <;> simp
    | some k =>
      exact ⟨k, rfl, hne k hidx, by rw [hcl k hidx]⟩
  · intro hm
    obtain ⟨k, hk, hidx⟩ := hunder hm
    exact ⟨k, hk, hidx, hcl k hidx⟩

theorem shadowed_entry_unreachable_witness :
    classify_back_index "/a/b/c".toList 6 shadow_table = some 0 ∧
    classify_ipath shadow_table "/a/b/c".toList 6 = (.CLASS_BACK, shadow_table[0]?) := by
  obtain ⟨k, hk, hidx, hcl⟩ := (shadowed_entry_unreachable shadow_table 0 1
    ⟨.FILTER_PASS, "/a".toList, [⟨"/x".toList, "s".toList, 3⟩]⟩
    ⟨.FILTER_BIN, "/a/b".toList, [⟨"/y".toList, "t".toList, 4⟩]⟩
    (by decide) rfl rfl (by decide) "/a/b/c".toList 6).2 (by decide)
  have hk0 : k = 0 := Nat.le_zero.mp hk
  subst hk0
  exact ⟨hidx, hcl⟩

/-- C32 (counterexample): the values are not those of the examples in the
documentation comment: for `("/proc", "/proc")` the function returns 1, not 0,
and for `("/proc", "/")` it returns 0. -/
theorem eq_or_parent_examples_inverted :
    ¬ (is_equal_or_parent "/proc".toList 5 "/proc".toList 5 = 0 ∧
      is_equal_or_parent "/proc".toList 5 "/proc/1".toList 7 = 0 ∧
      is_equal_or_parent "/proc".toList 5 "/proc/1/root".toList 12 = 0 ∧
      is_equal_or_parent "/proc".toList 5 "/".toList 1 ≠ 0 ∧
      is_equal_or_parent "/proc".toList 5 "/dev".toList 4 ≠ 0 ∧
      is_equal_or_parent "/proc".toList 5 "/dev/shm".toList 8 ≠ 0) ∧
    is_equal_or_parent "/proc".toList 5 "/proc".toList 5 = 1 ∧
    is_equal_or_parent "/proc".toList 5 "/".toList 1 = 0 := by
  decide

/-- C32 (amended): `is_equal_or_parent` returns non-zero for
`("/proc", "/proc")`, `("/proc", "/proc/1")` and `("/proc", "/proc/1/root")`,
and returns 0 for `("/proc", "/")`, `("/proc", "/dev")` and
`("/proc", "/dev/shm")`: each example of the documentation comment with the
opposite outcome, as the first sentence of that comment says. -/
theorem eq_or_parent_examples :
    is_equal_or_parent "/proc".toList 5 "/proc".toList 5 ≠ 0 ∧
    is_equal_or_parent "/proc".toList 5 "/proc/1".toList 7 ≠ 0 ∧
    is_equal_or_parent "/proc".toList 5 "/proc/1/root".toList 12 ≠ 0 ∧
    is_equal_or_parent "/proc".toList 5 "/".toList 1 = 0 ∧
    is_equal_or_parent "/proc".toList 5 "/dev".toList 4 = 0 ∧
    is_equal_or_parent "/proc".toList 5 "/dev/shm".toList 8 = 0 := by
  decide

/-! ## The array pointer: calls on the globals and their effect on the table -/

theorem globals_eta (g : cfg_globals) : (⟨g.ptr, g.st⟩ : cfg_globals) = g := by
  cases g
  rfl

theorem cfg_add_tab_of_some (env : add_env) (g : cfg_globals) (buf : CStr) (size : Nat)
    (rv : Int) (g1 : cfg_globals) (h : cfg_add env g buf size = some (rv, g1)) :
    cfg_add_tab env g.st buf size = (rv, g1.st) := by
  unfold cfg_add at h
  unfold cfg_add_tab
  cases hp : cfg_add_parse buf size with
  | error e =>
    rw [hp] at h
    have h1 : (e, g) = (rv, g1) := Option.some.inj h
    have h2 : e = rv := congrArg Prod.fst h1
    have h3 : g = g1 := congrArg Prod.snd h1
    rw [h2, h3]
  | ok r =>
    obtain ⟨f, c, s, l⟩ := r
    rw [hp] at h
    simp only at h ⊢
    by_cases hc : (find_cfg c g.st.cfgs = none ∧ env.malloc_cpath = true) ∧ g.ptr = .freed
    · rw [if_pos hc] at h
      cases h
    · rw [if_neg hc] at h
      have h1 := Option.some.inj h
      have h2 := congrArg Prod.fst h1
      have h3 := congrArg Prod.snd h1
      simp only at h2 h3
      rw [← h2, ← h3]

theorem cfg_add_found (env : add_env) (g : cfg_globals) (buf : CStr) (size : Nat)
    (f : filter) (c s l : CStr) (hp : cfg_add_parse buf size = .ok (f, c, s, l))
    (hfind : find_cfg c g.st.cfgs ≠ none) :
    cfg_add env g buf size
      = some ((cfg_add_tab env g.st buf size).1, ⟨g.ptr, (cfg_add_tab env g.st buf size).2⟩) := by
  unfold cfg_add cfg_add_tab
  rw [hp]
  simp only
  have h1 : ¬ ((find_cfg c g.st.cfgs = none ∧ env.malloc_cpath = true) ∧ g.ptr = .freed) :=
    fun h => hfind h.1.1
  have h2 : ¬ ((find_cfg c g.st.cfgs = none ∧ env.malloc_cpath = true)
      ∧ env.realloc_cfgs = true) := fun h => hfind h.1.1
  rw [if_neg h1, if_neg h2]

theorem cfg_add_defined (env : add_env) (g : cfg_globals) (buf : CStr) (size : Nat)
    (hptr : g.ptr ≠ .freed) :
    ∃ p : cfgs_ptr, p ≠ .freed ∧ cfg_add env g buf size
      = some ((cfg_add_tab env g.st buf size).1, ⟨p, (cfg_add_tab env g.st buf size).2⟩) := by
  unfold cfg_add cfg_add_tab
  cases hp : cfg_add_parse buf size with
  | error e => exact ⟨g.ptr, hptr, by rw [globals_eta]⟩
  | ok r =>
    obtain ⟨f, c, s, l⟩ := r
    simp only
    have h1 : ¬ ((find_cfg c g.st.cfgs = none ∧ env.malloc_cpath = true) ∧ g.ptr = .freed) :=
      fun h => hptr h.2
    rw [if_neg h1]
    refine ⟨_, ?_, rfl⟩
    by_cases h2 : (find_cfg c g.st.cfgs = none ∧ env.malloc_cpath = true)
      ∧ env.realloc_cfgs = true
    · rw [if_pos h2]; decide
    · rw [if_neg h2]; exact hptr

theorem m_write_tab_of_some (env : add_env) (g : cfg_globals) (uid : Nat) (ipath buf : CStr)
    (size : Nat) (rv : Int) (g1 : cfg_globals)
    (h : m_write env g uid ipath buf size = some (rv, g1)) :
    m_write_tab env g.st uid ipath buf size = (rv, g1.st) := by
  unfold m_write at h
  unfold m_write_tab
  have hinj : ∀ (a : Int) (x : cfg_globals), some (a, x) = some (rv, g1) → (a, x.st) = (rv, g1.st) := by
    intro a x hx
    have h1 : (a, x) = (rv, g1) := Option.some.inj hx
    have h2 : a = rv := congrArg Prod.fst h1
    have h3 : x = g1 := congrArg Prod.snd h1
    rw [h2, h3]
  split at h
  · rename_i h1
    rw [if_pos h1]
    exact hinj _ _ h
  · rename_i h1
    rw [if_neg h1]
    split at h
    · rename_i h2
      rw [if_pos h2]
      exact hinj _ _ h
    · rename_i h2
      rw [if_neg h2]
      split at h
      · rename_i h3
        rw [if_pos h3]
        unfold cfg_clear at h
        unfold cfg_clear_tab
        cases hptr : g.ptr with
        | null => rw [hptr] at h; exact hinj _ _ h
        | live => rw [hptr] at h; exact hinj _ _ h
        | freed => rw [hptr] at h; cases h
      · rename_i h3
        rw [if_neg h3]
        split at h
        · rename_i h4
          rw [if_pos h4]
          exact cfg_add_tab_of_some env g buf size rv g1 h
        · rename_i h4
          rw [if_neg h4]
          exact hinj _ _ h

theorem m_write_defined (env : add_env) (g : cfg_globals) (uid : Nat) (ipath buf : CStr)
    (size : Nat) (hptr : g.ptr ≠ .freed) :
    ∃ p : cfgs_ptr, m_write env g uid ipath buf size
      = some ((m_write_tab env g.st uid ipath buf size).1,
          ⟨p, (m_write_tab env g.st uid ipath buf size).2⟩) ∧
      (¬ (size ≥ CMD_CLEAR.length ∧ memcmp buf CMD_CLEAR CMD_CLEAR.length = 0) → p ≠ .freed) := by
  unfold m_write m_write_tab
  by_cases h1 : pstrcmp ipath ipath.length CFG_PATH CFG_PATH.length ≠ 0
  · rw [if_pos h1, if_pos h1]
    exact ⟨g.ptr, by rw [globals_eta], fun _ => hptr⟩
  · rw [if_neg h1, if_neg h1]
    by_cases h2 : uid ≠ 0
    · rw [if_pos h2, if_pos h2]
      exact ⟨g.ptr, by rw [globals_eta], fun _ => hptr⟩
    · rw [if_neg h2, if_neg h2]
      by_cases h3 : size ≥ CMD_CLEAR.length ∧ memcmp buf CMD_CLEAR CMD_CLEAR.length = 0
      · rw [if_pos h3, if_pos h3]
        unfold cfg_clear cfg_clear_tab
        cases hp : g.ptr with
        | null => exact ⟨.null, rfl, fun hn => absurd h3 hn⟩
        | live => exact ⟨.freed, rfl, fun hn => absurd h3 hn⟩
        | freed => exact absurd hp hptr
      · rw [if_neg h3, if_neg h3]
        by_cases h4 : size ≥ CMD_ADD.length ∧ memcmp buf CMD_ADD CMD_ADD.length = 0
        · rw [if_pos h4, if_pos h4]
          obtain ⟨p, hp, he⟩ := cfg_add_defined env g buf size hptr
          exact ⟨p, he, fun _ => hp⟩
        · rw [if_neg h4, if_neg h4]
          exact ⟨g.ptr, by rw [globals_eta], fun _ => hptr⟩

theorem run_writes_tab_of_some : ∀ (ws : List write_req) (g g1 : cfg_globals),
    run_writes g ws = some g1 → g1.st = run_writes_tab g.st ws := by
  intro ws
  induction ws with
  | nil =>
    intro g g1 h
    have : g = g1 := Option.some.inj h
    rw [this]
    rfl
  | cons w rest ih =>
    intro g g1 h
    unfold run_writes at h
    cases hm : m_write w.env g w.uid w.ipath w.buf w.size with
    | none => rw [hm] at h; cases h
    | some r =>
      rw [hm] at h
      simp only at h
      have ht := m_write_tab_of_some w.env g w.uid w.ipath w.buf w.size r.1 r.2 hm
      have := ih r.2 g1 h
      rw [this]
      show run_writes_tab r.2.st rest
        = run_writes_tab (m_write_tab w.env g.st w.uid w.ipath w.buf w.size).2 rest
      rw [ht]

theorem write_rvs_tab_of_some : ∀ (ws : List write_req) (g : cfg_globals) (rvs : List Int),
    write_rvs g ws = some rvs →
      rvs = write_rvs_tab g.st ws ∧ ∃ g1 : cfg_globals, run_writes g ws = some g1 := by
  intro ws
  induction ws with
  | nil =>
    intro g rvs h
    have : [] = rvs := Option.some.inj h
    exact ⟨this.symm, g, rfl⟩
  | cons w rest ih =>
    intro g rvs h
    unfold write_rvs at h
    unfold run_writes
    cases hm : m_write w.env g w.uid w.ipath w.buf w.size with
    | none => rw [hm] at h; cases h
    | some r =>
      rw [hm] at h
      simp only at h ⊢
      have ht := m_write_tab_of_some w.env g w.uid w.ipath w.buf w.size r.1 r.2 hm
      cases hr : write_rvs r.2 rest with
      | none => rw [hr] at h; cases h
      | some rvs1 =>
        rw [hr] at h
        have he : r.1 :: rvs1 = rvs := Option.some.inj h
        obtain ⟨i1, g1, i2⟩ := ih r.2 rvs1 hr
        refine ⟨?_, g1, i2⟩
        rw [← he, i1]
        show _ = (m_write_tab w.env g.st w.uid w.ipath w.buf w.size).1 ::
          write_rvs_tab (m_write_tab w.env g.st w.uid w.ipath w.buf w.size).2 rest
        rw [ht]

/-- Writes that are not `clear` commands never meet a freed array when they
start without one. -/
theorem run_adds_defined : ∀ (ws : List write_req) (g : cfg_globals), g.ptr ≠ .freed →
    (∀ w : write_req, w ∈ ws →
      ¬ (w.size ≥ CMD_CLEAR.length ∧ memcmp w.buf CMD_CLEAR CMD_CLEAR.length = 0)) →
    ∃ p : cfgs_ptr, p ≠ .freed ∧ run_writes g ws = some ⟨p, run_writes_tab g.st ws⟩ ∧
      write_rvs g ws = some (write_rvs_tab g.st ws) := by
  intro ws
  induction ws with
  | nil =>
    intro g hptr _
    exact ⟨g.ptr, hptr, congrArg some (globals_eta g).symm, rfl⟩
  | cons w rest ih =>
    intro g hptr hnc
    obtain ⟨p, hm, hp⟩ := m_write_defined w.env g w.uid w.ipath w.buf w.size hptr
    have hp1 := hp (hnc w (List.mem_cons_self _ _))
    obtain ⟨p2, hp2, i1, i2⟩ := ih ⟨p, (m_write_tab w.env g.st w.uid w.ipath w.buf w.size).2⟩ hp1
      (fun x hx => hnc x (List.mem_cons_of_mem _ hx))
    refine ⟨p2, hp2, ?_, ?_⟩
    · unfold run_writes
      rw [hm]
      exact i1
    · unfold write_rvs
      rw [hm]
      simp only
      rw [i2]
      rfl

theorem run_writes_inv_globals (ws : List write_req) (g g1 : cfg_globals)
    (h : run_writes g ws = some g1) (hinv : table_inv g.st.cfgs) : table_inv g1.st.cfgs := by
  rw [run_writes_tab_of_some ws g g1 h]
  exact run_writes_inv ws g.st hinv

/-! ## Control file on the globals: gating, idempotence and frame -/

/-- C12: `m_write` on a path other than `/.config-filesystem` returns
`-EROFS`; on `/.config-filesystem` with a caller uid other than 0 it returns
`-EACCES`; the pointer `cfgs`, the table and the cached size are unchanged in
both cases. -/
theorem m_write_gate (env : add_env) (g : cfg_globals) (uid : Nat) (ipath buf : CStr)
    (size : Nat) :
    (ipath ≠ "/.config-filesystem".toList →
      m_write env g uid ipath buf size = some (-EROFS, g)) ∧
    (uid ≠ 0 →
      m_write env g uid "/.config-filesystem".toList buf size = some (-EACCES, g)) ∧
    EROFS = 30 ∧ EACCES = 13 := by
  refine ⟨?_, ?_, rfl, rfl⟩
  · intro hne
    unfold m_write
    have h : pstrcmp ipath ipath.length CFG_PATH CFG_PATH.length ≠ 0 :=
      fun e => hne ((pstrcmp_eq_zero_iff ipath CFG_PATH).mp e)
    rw [if_pos h]
  · intro huid
    unfold m_write
    have h : ¬ (pstrcmp "/.config-filesystem".toList "/.config-filesystem".toList.length
        CFG_PATH CFG_PATH.length ≠ 0) := by decide
    rw [if_neg h, if_pos huid]

theorem m_write_gate_witness :
    "/bin/vi".toList ≠ "/.config-filesystem".toList ∧
    m_write env_ok globals_init 0 "/bin/vi".toList "clear\n".toList 6
      = some (-EROFS, globals_init) :=
  ⟨by decide,
    (m_write_gate env_ok globals_init 0 "/bin/vi".toList "clear\n".toList 6).1 (by decide)⟩

theorem add_outcome_found (st : cfg_state) (f : filter) (c s l : CStr) (alen size : Nat)
    (rv : Int) (st1 : cfg_state) (h : add_outcome st f c s l alen size rv st1)
    (hrv : rv = (size : Int)) : find_cfg c st1.cfgs ≠ none := by
  have hneg : ¬ ((size : Int) = -ENOMEM) := by
    have h0 : (0 : Int) ≤ (size : Int) := Int.ofNat_nonneg size
    have h1 : -ENOMEM < 0 := by decide
    omega
  rcases h with ⟨h0, _⟩ | ⟨h0, _, _⟩ | ⟨_, h1, i, e, hfind, _, _⟩ |
    ⟨_, i, e, fd, hfind, _, _, _, h1⟩ | ⟨_, hfind, fd, _, h1⟩
  · exact absurd (hrv ▸ h0) hneg
  · exact absurd (hrv ▸ h0) hneg
  · rw [h1, hfind]
    exact fun hc => Option.noConfusion hc
  · rw [h1]
    show find_cfg c (push_back st.cfgs i ⟨l, s, fd⟩) ≠ none
    rw [find_cfg_congr c _ st.cfgs (push_back_map_cpath _ st.cfgs i), hfind]
    exact fun hc => Option.noConfusion hc
  · rw [h1]
    show find_cfg c (st.cfgs ++ [⟨f, c, [⟨l, s, fd⟩]⟩]) ≠ none
    rw [find_cfg_append_new c ⟨f, c, [⟨l, s, fd⟩]⟩ rfl st.cfgs hfind]
    exact fun hc => Option.noConfusion hc

/-- C6: if `cfg_add` accepts a line on a table (it returns the write size),
applying the same line again returns the write size and leaves the pointer
`cfgs`, the table and the cached size as they were after the first
application, whatever the allocator does the second time; and on a table with
distinct configured paths an add whose (cpath, stratum, lpath) is already
present returns the write size without changing anything, whatever
(recognised) filter it names. -/
theorem add_idempotent (env env2 : add_env) (g : cfg_globals) (buf : CStr) (size : Nat) :
    (∀ g1 : cfg_globals, cfg_add env g buf size = some ((size : Int), g1) →
      cfg_add env2 g1 buf size = some ((size : Int), g1)) ∧
    (∀ (f : filter) (c s l : CStr), cfg_add_parse buf size = .ok (f, c, s, l) →
      (g.st.cfgs.map (fun e => e.cpath)).Nodup →
      (∃ e : cfg_entry, e ∈ g.st.cfgs ∧ e.cpath = c ∧
        ∃ b : back_entry, b ∈ e.back ∧ b.stratum = s ∧ b.lpath = l) →
      cfg_add env g buf size = some ((size : Int), g)) := by
  constructor
  · intro g1 h
    have ht := cfg_add_tab_of_some env g buf size _ g1 h
    have hagain := (add_idempotent_tab env env2 g.st buf size).1 (by rw [ht])
    rw [ht] at hagain
    simp only at hagain
    cases hp : cfg_add_parse buf size with
    | error e =>
      exfalso
      unfold cfg_add_tab at ht
      rw [hp] at ht
      have he : e = (size : Int) := congrArg Prod.fst ht
      have h0 : (0 : Int) ≤ (size : Int) := Int.ofNat_nonneg size
      have h1 : -ENAMETOOLONG < 0 := by decide
      have h2 : -EINVAL < 0 := by decide
      rcases cfg_add_parse_error buf size e hp with h3 | h3 <;> omega
    | ok r =>
      obtain ⟨f, c, s, l⟩ := r
      have hap : cfg_add_apply env g.st f c s l (strlen buf) size = ((size : Int), g1.st) := by
        unfold cfg_add_tab at ht
        rw [hp] at ht
        exact ht
      have ho := cfg_add_apply_outcome env g.st f c s l (strlen buf) size
      rw [hap] at ho
      have hfind := add_outcome_found g.st f c s l (strlen buf) size _ _ ho rfl
      rw [cfg_add_found env2 g1 buf size f c s l hp hfind, hagain]
  · intro f c s l hp hnd hex
    have hfind : find_cfg c g.st.cfgs ≠ none := by
      obtain ⟨e, he, hec, _⟩ := hex
      exact fun h => (find_cfg_none_iff c _).mp h e he hec
    rw [cfg_add_found env g buf size f c s l hp hfind,
      (add_idempotent_tab env env2 g.st buf size).2 f c s l hp hnd hex]

theorem add_idempotent_witness :
    cfg_add env_ok globals_init "add bin /a s:/b\n".toList 16
      = some (((16 : Nat) : Int), ⟨.live,
          ⟨[⟨.FILTER_BIN, "/a".toList, [⟨"/b".toList, "s".toList, 3⟩]⟩], 16⟩⟩) ∧
    cfg_add env_no_root
        ⟨.live, ⟨[⟨.FILTER_BIN, "/a".toList, [⟨"/b".toList, "s".toList, 3⟩]⟩], 16⟩⟩
        "add bin /a s:/b\n".toList 16
      = some (((16 : Nat) : Int), ⟨.live,
          ⟨[⟨.FILTER_BIN, "/a".toList, [⟨"/b".toList, "s".toList, 3⟩]⟩], 16⟩⟩) :=
  ⟨by decide,
    (add_idempotent env_ok env_no_root globals_init "add bin /a s:/b\n".toList 16).1
      ⟨.live, ⟨[⟨.FILTER_BIN, "/a".toList, [⟨"/b".toList, "s".toList, 3⟩]⟩], 16⟩⟩ (by decide)⟩

/-- C11: an add for a cpath that the table already holds does not touch the
pointer `cfgs` and leaves every filter and every cpath of the table as it was;
the list of entries is unchanged, or the first entry for that cpath, with its
filter kept, gets one backing entry appended at the end while all other
entries stay as they were. -/
theorem add_keeps_filter (env : add_env) (g : cfg_globals) (buf : CStr) (size : Nat)
    (f : filter) (c s l : CStr) (hp : cfg_add_parse buf size = .ok (f, c, s, l))
    (hex : ∃ e : cfg_entry, e ∈ g.st.cfgs ∧ e.cpath = c) :
    ∃ (rv : Int) (g1 : cfg_globals), cfg_add env g buf size = some (rv, g1) ∧
      g1.ptr = g.ptr ∧
      g1.st.cfgs.map (fun e => e.filter) = g.st.cfgs.map (fun e => e.filter) ∧
      g1.st.cfgs.map (fun e => e.cpath) = g.st.cfgs.map (fun e => e.cpath) ∧
      (g1.st.cfgs = g.st.cfgs ∨
        ∃ (pre : List cfg_entry) (e : cfg_entry) (post : List cfg_entry) (fd : Int),
          g.st.cfgs = pre ++ e :: post ∧ e.cpath = c ∧
          (∀ x : cfg_entry, x ∈ pre → x.cpath ≠ c) ∧
          g1.st.cfgs = pre ++ ⟨e.filter, e.cpath, e.back ++ [⟨l, s, fd⟩]⟩ :: post) := by
  obtain ⟨e0, he0, he0c⟩ := hex
  have hfind : find_cfg c g.st.cfgs ≠ none :=
    fun h => (find_cfg_none_iff c _).mp h e0 he0 he0c
  obtain ⟨t1, t2, t3⟩ := add_keeps_filter_tab env g.st buf size f c s l hp ⟨e0, he0, he0c⟩
  exact ⟨_, _, cfg_add_found env g buf size f c s l hp hfind, rfl, t1, t2, t3⟩

theorem add_keeps_filter_witness :
    cfg_add_parse "add ini /a t:/c\n".toList 16
      = .ok (.FILTER_INI, "/a".toList, "t".toList, "/c".toList) ∧
    ∃ (rv : Int) (g1 : cfg_globals),
      cfg_add env_ok
        ⟨.live, ⟨[⟨.FILTER_BIN, "/a".toList, [⟨"/b".toList, "s".toList, 3⟩]⟩], 16⟩⟩
        "add ini /a t:/c\n".toList 16 = some (rv, g1) ∧
      g1.st.cfgs.map (fun e => e.filter) = [filter.FILTER_BIN] := by
  obtain ⟨rv, g1, h1, _, h3, _⟩ := add_keeps_filter env_ok
    ⟨.live, ⟨[⟨.FILTER_BIN, "/a".toList, [⟨"/b".toList, "s".toList, 3⟩]⟩], 16⟩⟩
    "add ini /a t:/c\n".toList 16 .FILTER_INI "/a".toList "t".toList "/c".toList (by rfl)
    ⟨⟨.FILTER_BIN, "/a".toList, [⟨"/b".toList, "s".toList, 3⟩]⟩, by decide, rfl⟩
  exact ⟨by rfl, rv, g1, h1, h3⟩

/-! ## Control file on the globals: replay of a dump -/

theorem dump_lines_form (cfgs : List cfg_entry) (x : CStr) (hx : x ∈ dump_lines cfgs) :
    ∃ (e : cfg_entry) (b : back_entry), x = add_line e.filter e.cpath b.stratum b.lpath := by
  unfold dump_lines at hx
  obtain ⟨ls, hls, hxl⟩ := List.mem_flatten.mp hx
  obtain ⟨e, _, hel⟩ := List.mem_map.mp hls
  rw [← hel] at hxl
  obtain ⟨b, _, hbx⟩ := List.mem_map.mp hxl
  exact ⟨e, b, hbx.symm⟩

theorem replay_writes_adds (env : add_env) (cfgs : List cfg_entry) (w : write_req)
    (hw : w ∈ replay_writes env cfgs) :
    ¬ (w.size ≥ CMD_CLEAR.length ∧ memcmp w.buf CMD_CLEAR CMD_CLEAR.length = 0) := by
  unfold replay_writes at hw
  obtain ⟨x, hx, hxw⟩ := List.mem_map.mp hw
  obtain ⟨e, b, hxe⟩ := dump_lines_form cfgs x hx
  rw [← hxw, hxe]
  exact fun h => (memcmp_add_line e.filter e.cpath b.stratum b.lpath).2 h.2

theorem replay_defined (env : add_env) (cfgs : List cfg_entry) :
    ∃ p : cfgs_ptr, p ≠ .freed ∧
      run_writes globals_init (replay_writes env cfgs)
        = some ⟨p, run_writes_tab cfg_init (replay_writes env cfgs)⟩ ∧
      write_rvs globals_init (replay_writes env cfgs)
        = some (write_rvs_tab cfg_init (replay_writes env cfgs)) :=
  run_adds_defined (replay_writes env cfgs) globals_init (by decide)
    (fun w hw => replay_writes_adds env cfgs w hw)

/-- C29 (counterexample): after the accepted writes `add font /a s:/b` and
`add bin /a t:<lpath>`, the second with the full 4095 bytes a write may have,
the dump shows the second backing entry under the filter name `font` of the
entry, in a line of 4096 bytes; written back to an empty table after the first
dump line, that line is refused with `-ENAMETOOLONG`. -/
theorem replay_line_too_long :
    write_rvs globals_init long_writes = some [17, 4095] ∧
    (run_writes globals_init long_writes).map (fun g => g.st.cfgs) = some long_table ∧
    (dump_lines long_table).map (fun x => x.length) = [17, 4096] ∧
    write_rvs globals_init (replay_writes env_ok long_table) = some [17, -ENAMETOOLONG] := by
  obtain ⟨t1, t2, t3, t4⟩ := replay_line_too_long_tab
  have hadds : ∀ w : write_req, w ∈ long_writes →
      ¬ (w.size ≥ CMD_CLEAR.length ∧ memcmp w.buf CMD_CLEAR CMD_CLEAR.length = 0) := by
    intro w hw
    unfold long_writes at hw
    rcases List.mem_cons.mp hw with h | h
    · rw [h]
      decide
    · have h2 : w = root_write env_ok (add_line .FILTER_BIN "/a".toList "t".toList long_lpath) :=
        List.mem_singleton.mp h
      rw [h2]
      exact fun hc => (memcmp_add_line .FILTER_BIN "/a".toList "t".toList long_lpath).2 hc.2
  obtain ⟨p, _, r1, r2⟩ := run_adds_defined long_writes globals_init (by decide) hadds
  obtain ⟨q, _, _, r4⟩ := replay_defined env_ok long_table
  refine ⟨?_, ?_, t3, ?_⟩
  · rw [r2]
    exact congrArg some t1
  · rw [r1]
    exact congrArg some t2
  · rw [r4]
    exact congrArg some t4

/-- C29 (amended): for every table reached from the empty table by writes that
all succeed (each returns its size) in which every canonical line of the dump
has at most `PATH_MAX - 1` bytes, writing those lines to an empty table, one
write per line in dump order, with no allocation failing and every stratum
root opening, succeeds for every line and yields a table with the same
configured paths in the same order, the same filters and the same
(stratum, lpath) pairs in the same order, hence the same dump. -/
theorem dump_replay (ws : List write_req) (env : add_env) (g : cfg_globals)
    (hrun : run_writes globals_init ws = some g)
    (hok : write_rvs globals_init ws = some (ws.map (fun w => (w.size : Int))))
    (hbound : ∀ line : CStr, line ∈ dump_lines g.st.cfgs → line.length ≤ PATH_MAX - 1)
    (henv : env_good env) :
    ∃ g2 : cfg_globals, run_writes globals_init (replay_writes env g.st.cfgs) = some g2 ∧
      write_rvs globals_init (replay_writes env g.st.cfgs)
        = some ((replay_writes env g.st.cfgs).map (fun w => (w.size : Int))) ∧
      g2.st.cfgs.map entry_view = g.st.cfgs.map entry_view ∧
      cfg_dump g2.st.cfgs = cfg_dump g.st.cfgs := by
  have e1 : g.st = run_writes_tab cfg_init ws := run_writes_tab_of_some ws globals_init g hrun
  have e2 : ws.map (fun w => (w.size : Int)) = write_rvs_tab cfg_init ws :=
    (write_rvs_tab_of_some ws globals_init _ hok).1
  rw [e1] at hbound ⊢
  obtain ⟨t1, t2, t3⟩ := dump_replay_tab ws env e2.symm hbound henv
  obtain ⟨p, _, r1, r2⟩ := replay_defined env (run_writes_tab cfg_init ws).cfgs
  exact ⟨_, r1, by rw [r2, t1], t2, t3⟩

theorem dump_replay_witness :
    ∃ g2 : cfg_globals,
      run_writes globals_init (replay_writes env_ok
        [⟨.FILTER_FONT, "/a".toList,
          [⟨"/b".toList, "s".toList, 3⟩, ⟨"/c".toList, "t".toList, 3⟩]⟩]) = some g2 ∧
      g2.st.cfgs.map entry_view
        = [(.FILTER_FONT, "/a".toList,
            [("s".toList, "/b".toList), ("t".toList, "/c".toList)])] := by
  obtain ⟨g2, h1, _, h3, _⟩ := dump_replay
    [root_write env_ok "add font /a s:/b\n".toList, root_write env_ok "add bin /a t:/c\n".toList]
    env_ok
    ⟨.live, ⟨[⟨.FILTER_FONT, "/a".toList,
      [⟨"/b".toList, "s".toList, 3⟩, ⟨"/c".toList, "t".toList, 3⟩]⟩], 33⟩⟩
    (by decide) (by decide) (by decide) env_ok_good
  exact ⟨g2, h1, h3.trans (by decide)⟩

/-! ## Control file on the globals: uniqueness and `clear` -/

theorem find_cfg_first (c : CStr) (e : cfg_entry) (post : List cfg_entry) (he : e.cpath = c) :
    ∀ pre : List cfg_entry, (∀ x : cfg_entry, x ∈ pre → x.cpath ≠ c) →
      find_cfg c (pre ++ e :: post) = some pre.length := by
  intro pre
  induction pre with
  | nil =>
    intro _
    show find_cfg c (e :: post) = some 0
    unfold find_cfg
    rw [if_pos ((pstrcmp_eq_zero_iff _ _).mpr he)]
  | cons x rest ih =>
    intro h
    have hx : ¬ pstrcmp x.cpath x.cpath.length c c.length = 0 :=
      fun h0 => h x (List.mem_cons_self _ _) ((pstrcmp_eq_zero_iff _ _).mp h0)
    show find_cfg c (x :: (rest ++ e :: post)) = some (rest.length + 1)
    unfold find_cfg
    rw [if_neg hx, ih (fun y hy => h y (List.mem_cons_of_mem _ hy))]
    rfl

theorem push_back_at (b : back_entry) (e : cfg_entry) (post : List cfg_entry) :
    ∀ pre : List cfg_entry,
      push_back (pre ++ e :: post) pre.length b
        = pre ++ { e with back := e.back ++ [b] } :: post := by
  intro pre
  induction pre with
  | nil => rfl
  | cons x rest ih =>
    show push_back (x :: (rest ++ e :: post)) (rest.length + 1) b = _
    unfold push_back
    rw [ih]
    rfl

theorem cfg_add_existing (env : add_env) (g : cfg_globals) (buf : CStr) (size : Nat)
    (f : filter) (c s l : CStr) (pre : List cfg_entry) (e : cfg_entry) (post : List cfg_entry)
    (hp : cfg_add_parse buf size = .ok (f, c, s, l))
    (hcfgs : g.st.cfgs = pre ++ e :: post) (hec : e.cpath = c)
    (hpre : ∀ x : cfg_entry, x ∈ pre → x.cpath ≠ c) :
    cfg_add env g buf size = some
      (if has_back s l e.back = true then ((size : Int), g)
      else if env.malloc_lpath = false ∨ env.malloc_stratum = false ∨
          root_fd_for env s g.st.cfgs < 0 ∨ env.realloc_back = false then (-ENOMEM, g)
      else ((size : Int), ⟨g.ptr,
        ⟨pre ++ { e with back := e.back ++ [⟨l, s, root_fd_for env s g.st.cfgs⟩] } :: post,
          g.st.st_size + strlen buf⟩⟩)) := by
  have hfind : find_cfg c g.st.cfgs = some pre.length := by
    rw [hcfgs]
    exact find_cfg_first c e post hec pre hpre
  have hget : g.st.cfgs[pre.length]? = some e := by
    rw [hcfgs, List.getElem?_append_right (Nat.le_refl _), Nat.sub_self]
    exact List.getElem?_cons_zero
  have hne : find_cfg c g.st.cfgs ≠ none := by
    rw [hfind]
    exact fun hc => Option.noConfusion hc
  rw [cfg_add_found env g buf size f c s l hp hne]
  have htab : cfg_add_tab env g.st buf size
      = cfg_add_apply env g.st f c s l (strlen buf) size := by
    unfold cfg_add_tab
    rw [hp]
  rw [htab, cfg_add_apply_some env g.st f c s l (strlen buf) size pre.length e hfind hget]
  unfold root_fd_for
  by_cases hb : has_back s l e.back = true
  · rw [if_pos hb, if_pos hb]
  · rw [if_neg hb, if_neg hb]
    by_cases hfail : env.malloc_lpath = false ∨ env.malloc_stratum = false ∨
        (if find_root_fd s g.st.cfgs (-1) < 0 then env.open_root s
          else find_root_fd s g.st.cfgs (-1)) < 0 ∨ env.realloc_back = false
    · have hfail2 : ¬ env.malloc_lpath = true ∨ ¬ env.malloc_stratum = true ∨
          (if find_root_fd s g.st.cfgs (-1) < 0 then env.open_root s
            else find_root_fd s g.st.cfgs (-1)) < 0 ∨ ¬ env.realloc_back = true := by
        rcases hfail with h | h | h | h
        · exact Or.inl (by rw [h]; decide)
        · exact Or.inr (Or.inl (by rw [h]; decide))
        · exact Or.inr (Or.inr (Or.inl h))
        · exact Or.inr (Or.inr (Or.inr (by rw [h]; decide)))
      rw [if_pos hfail, if_pos hfail2]
    · have hfail2 : ¬ (¬ env.malloc_lpath = true ∨ ¬ env.malloc_stratum = true ∨
          (if find_root_fd s g.st.cfgs (-1) < 0 then env.open_root s
            else find_root_fd s g.st.cfgs (-1)) < 0 ∨ ¬ env.realloc_back = true) := by
        intro h
        apply hfail
        rcases h with h | h | h | h
        · exact Or.inl (by simpa using h)
        · exact Or.inr (Or.inl (by simpa using h))
        · exact Or.inr (Or.inr (Or.inl h))
        · exact Or.inr (Or.inr (Or.inr (by simpa using h)))
      rw [if_neg hfail, if_neg hfail2]
      simp only
      have hpb := push_back_at ⟨l, s, (if find_root_fd s g.st.cfgs (-1) < 0 then env.open_root s
          else find_root_fd s g.st.cfgs (-1))⟩ e post pre
      rw [← hcfgs] at hpb
      rw [hpb]

/-- C7: every table reached from the empty one by control-file writes whose
run is defined has pairwise distinct configured paths and, within each entry,
pairwise distinct (stratum, lpath) pairs; an accepted add that names the
cpath of an entry leaves the table as it is when the pair is there (returning
the write size) or when an allocation or the open fails (returning
`-ENOMEM`), and otherwise appends the pair at the end of the backing list of
the first entry with that cpath, creating no entry. But a run is not always
defined: after the writes `add bin /a s:/b` and `clear` the pointer `cfgs`
holds a freed block, and the next add of a path hands it to `realloc`. -/
theorem table_unique :
    run_writes globals_init [root_write env_ok "add bin /a s:/b\n".toList,
      root_write env_ok "clear\n".toList] = some ⟨.freed, ⟨[], 0⟩⟩ ∧
    run_writes globals_init [root_write env_ok "add bin /a s:/b\n".toList,
      root_write env_ok "clear\n".toList, root_write env_ok "add bin /a s:/b\n".toList] = none ∧
    (∀ (ws : List write_req) (g : cfg_globals), run_writes globals_init ws = some g →
      table_inv g.st.cfgs) ∧
    (∀ (env : add_env) (g : cfg_globals) (buf : CStr) (size : Nat) (f : filter) (c s l : CStr)
      (pre : List cfg_entry) (e : cfg_entry) (post : List cfg_entry),
      cfg_add_parse buf size = .ok (f, c, s, l) →
      g.st.cfgs = pre ++ e :: post → e.cpath = c → (∀ x : cfg_entry, x ∈ pre → x.cpath ≠ c) →
      cfg_add env g buf size = some
        (if has_back s l e.back = true then ((size : Int), g)
        else if env.malloc_lpath = false ∨ env.malloc_stratum = false ∨
            root_fd_for env s g.st.cfgs < 0 ∨ env.realloc_back = false then (-ENOMEM, g)
        else ((size : Int), ⟨g.ptr,
          ⟨pre ++ { e with back := e.back ++ [⟨l, s, root_fd_for env s g.st.cfgs⟩] } :: post,
            g.st.st_size + strlen buf⟩⟩))) := by
  refine ⟨by decide, by decide, ?_, ?_⟩
  · intro ws g h
    exact run_writes_inv_globals ws globals_init g h
      ⟨List.nodup_nil, fun e he => absurd he (List.not_mem_nil e)⟩
  · intro env g buf size f c s l pre e post hp hcfgs hec hpre
    exact cfg_add_existing env g buf size f c s l pre e post hp hcfgs hec hpre

theorem m_write_clear (env : add_env) (g : cfg_globals) (after : CStr) :
    m_write env g 0 CFG_PATH ("clear\n".toList ++ after) 6
      = (match g.ptr with
        | .null => some (6, ⟨.null, ⟨[], 0⟩⟩)
        | .live => some (6, ⟨.freed, ⟨[], 0⟩⟩)
        | .freed => none) := by
  unfold m_write
  have hpath : ¬ (pstrcmp CFG_PATH CFG_PATH.length CFG_PATH CFG_PATH.length ≠ 0) := by decide
  have huid : ¬ ((0 : Nat) ≠ 0) := by decide
  have hclear : 6 ≥ CMD_CLEAR.length ∧
      memcmp ("clear\n".toList ++ after) CMD_CLEAR CMD_CLEAR.length = 0 := by
    refine ⟨by decide, ?_⟩
    show memcmp ('c' :: 'l' :: 'e' :: 'a' :: 'r' :: '\n' :: after)
      ['c', 'l', 'e', 'a', 'r', '\n'] 6 = 0
    simp [memcmp, cbyte]
  rw [if_neg hpath, if_neg huid, if_pos hclear]
  unfold cfg_clear
  cases g.ptr <;> rfl

/-- C13: a uid-0 write of the six bytes `clear` and newline to the control
file returns 6 and leaves no configured entry and a cached size of 0 when the
pointer `cfgs` is `NULL` or holds the live array; on the cleared table a
control-file read by uid 0 returns 0 bytes and every path is classified as on
the initial empty table. The pointer is left holding the freed array, and
when it holds a freed block the write frees that block again: after
`add bin /a s:/b` and `clear`, a second `clear` is undefined. -/
theorem clear_resets (env : add_env) (g : cfg_globals) (after : CStr)
    (rb : cfg_entry → CStr → Nat → Nat → Int × CStr) (malloc_ok : Bool)
    (size offset : Nat) (P : CStr) (n : Nat) :
    m_write env g 0 CFG_PATH ("clear\n".toList ++ after) 6
      = (match g.ptr with
        | .null => some (6, ⟨.null, ⟨[], 0⟩⟩)
        | .live => some (6, ⟨.freed, ⟨[], 0⟩⟩)
        | .freed => none) ∧
    m_read rb malloc_ok ⟨[], 0⟩ 0 CFG_PATH size offset = some (0, []) ∧
    classify_ipath ([] : List cfg_entry) P n = classify_ipath cfg_init.cfgs P n ∧
    run_writes globals_init [root_write env_ok "add bin /a s:/b\n".toList,
      root_write env_ok "clear\n".toList] = some ⟨.freed, ⟨[], 0⟩⟩ ∧
    run_writes globals_init [root_write env_ok "add bin /a s:/b\n".toList,
      root_write env_ok "clear\n".toList, root_write env_ok "clear\n".toList] = none := by
  exact ⟨m_write_clear env g after, rfl, rfl, by decide, by decide⟩

/-! ## Control file on the globals: the block `cfg_read` allocates -/

theorem cfg_read_short (st : cfg_state) (size offset : Nat) (hne : st.cfgs ≠ [])
    (hsz : st.st_size ≤ (cfg_dump st.cfgs).length) : cfg_read true st size offset = none := by
  unfold cfg_read
  have h0 : ¬ st.cfgs.length = 0 := fun h => hne (List.length_eq_zero.mp h)
  have hm : ¬ ¬ (true = true) := fun h => h rfl
  rw [if_neg h0, if_neg hm]
  dsimp only
  rw [if_pos (Nat.lt_succ_of_le hsz)]

theorem cfg_read_roomy (st : cfg_state) (size offset : Nat) (hstr : table_cstr st.cfgs)
    (hne : st.cfgs ≠ []) (hsz : (cfg_dump st.cfgs).length < st.st_size)
    (hoff : offset ≤ (cfg_dump st.cfgs).length) :
    cfg_read true st size offset
      = some (((min size ((cfg_dump st.cfgs).length - offset) : Nat) : Int),
          ((cfg_dump st.cfgs).drop offset).take
            (min size ((cfg_dump st.cfgs).length - offset))) := by
  unfold cfg_read
  have h0 : ¬ st.cfgs.length = 0 := fun h => hne (List.length_eq_zero.mp h)
  have hm : ¬ ¬ (true = true) := fun h => h rfl
  rw [if_neg h0, if_neg hm]
  dsimp only
  rw [if_neg (Nat.not_lt.mpr (Nat.succ_le_of_lt hsz)), if_neg (Nat.not_lt.mpr hoff)]
  have hnul : NUL ∉ cfg_dump st.cfgs := by
    rw [cfg_dump_lines]
    exact dump_lines_no_nul st.cfgs hstr
  have hnul2 : NUL ∉ (cfg_dump st.cfgs).drop offset :=
    fun hm => hnul (List.mem_of_mem_drop hm)
  rw [strlen_of_no_nul _ hnul2, List.length_drop]
  by_cases hlt : (cfg_dump st.cfgs).length - offset < size
  · rw [if_pos hlt, Nat.min_eq_right (Nat.le_of_lt hlt)]
  · rw [if_neg hlt, Nat.min_eq_left (Nat.le_of_not_lt hlt)]

/-- C14: `cfg_read` asks `malloc` for `cfg_stat.st_size` bytes and stores the
dump `D` and its terminator, `len(D) + 1` bytes, in that block. After the
write `add bin /a s:/b` the cached size and `len(D)` are both 16, and the read
stores its terminator behind the block; so does every read of a non-empty
table whose cached size is at most `len(D)`. When the cached size exceeds
`len(D)`, the table's strings being C strings, the read returns
`min(size, len(D) - offset)` for every size and every offset up to `len(D)`
and delivers the bytes of `D` from `offset` on, that many, where `D` is the
concatenation of the canonical lines in table order; on the empty table it
returns 0. A table with a larger cached size is the one the 17 bytes
`add bin /a s:/b`, newline, `X` leave: its dump has 16 bytes, and a read of 5
bytes at offset 4 returns `bin /`. -/
theorem cfg_read_overruns :
    run_writes globals_init [root_write env_ok "add bin /a s:/b\n".toList]
      = some ⟨.live, ⟨[⟨.FILTER_BIN, "/a".toList, [⟨"/b".toList, "s".toList, 3⟩]⟩], 16⟩⟩ ∧
    cfg_dump [⟨.FILTER_BIN, "/a".toList, [⟨"/b".toList, "s".toList, 3⟩]⟩]
      = "add bin /a s:/b\n".toList ∧
    cfg_read true ⟨[⟨.FILTER_BIN, "/a".toList, [⟨"/b".toList, "s".toList, 3⟩]⟩], 16⟩ 16 0
      = none ∧
    (∀ (st : cfg_state) (size offset : Nat), st.cfgs ≠ [] →
      st.st_size ≤ (cfg_dump st.cfgs).length → cfg_read true st size offset = none) ∧
    (∀ (st : cfg_state) (size offset : Nat), table_cstr st.cfgs → st.cfgs ≠ [] →
      (cfg_dump st.cfgs).length < st.st_size → offset ≤ (cfg_dump st.cfgs).length →
      cfg_dump st.cfgs = (dump_lines st.cfgs).flatten ∧
      cfg_read true st size offset
        = some (((min size ((cfg_dump st.cfgs).length - offset) : Nat) : Int),
            ((cfg_dump st.cfgs).drop offset).take
              (min size ((cfg_dump st.cfgs).length - offset)))) ∧
    (∀ (malloc_ok : Bool) (st_size size offset : Nat),
      cfg_read malloc_ok ⟨[], st_size⟩ size offset = some (0, [])) ∧
    run_writes globals_init [root_write env_ok "add bin /a s:/b\nX".toList]
      = some ⟨.live, ⟨[⟨.FILTER_BIN, "/a".toList, [⟨"/b".toList, "s".toList, 3⟩]⟩], 17⟩⟩ ∧
    cfg_read true ⟨[⟨.FILTER_BIN, "/a".toList, [⟨"/b".toList, "s".toList, 3⟩]⟩], 17⟩ 5 4
      = some (5, "bin /".toList) := by
  refine ⟨by decide, by decide, by decide, ?_, ?_, ?_, by decide, by decide⟩
  · intro st size offset hne hsz
    exact cfg_read_short st size offset hne hsz
  · intro st size offset hstr hne hsz hoff
    exact ⟨cfg_dump_lines st.cfgs, cfg_read_roomy st size offset hstr hne hsz hoff⟩
  · intro malloc_ok st_size size offset
    rfl

theorem size_inv_step (pre : List add_req) (r : add_req) (st : cfg_state)
    (hv : valid_add r.f r.c r.s r.l) (hok : next_ok pre r)
    (hJ : dump_inv pre st.cfgs)
    (hrv : (m_write_tab r.env st 0 CFG_PATH (req_line r) (req_line r).length).1
      = ((req_line r).length : Int)) :
    (m_write_tab r.env st 0 CFG_PATH (req_line r) (req_line r).length).2.st_size
      = st.st_size + (req_line r).length := by
  rw [m_write_req st r hv] at hrv ⊢
  have ho := cfg_add_apply_outcome r.env st r.f r.c r.s r.l (req_line r).length
    (req_line r).length
  have hneg : ¬ (((req_line r).length : Int) = -ENOMEM) := by
    have h0 : (0 : Int) ≤ ((req_line r).length : Int) := Int.ofNat_nonneg _
    have h1 : -ENOMEM < 0 := by decide
    omega
  rcases ho with ⟨h0, _⟩ | ⟨h0, _, _⟩ | ⟨_, _, i, e, hfind, he, hb⟩ |
    ⟨_, i, e, fd, _, _, _, _, h1⟩ | ⟨_, _, fd, _, h1⟩
  · exact absurd (hrv ▸ h0) hneg
  · exact absurd (hrv ▸ h0) hneg
  · exfalso
    obtain ⟨e2, he2, he2c, _⟩ := find_cfg_some r.c st.cfgs i hfind
    rw [he] at he2
    have hee : e = e2 := Option.some.inj he2
    have hmem : e ∈ st.cfgs := List.mem_iff_getElem?.mpr ⟨i, he⟩
    obtain ⟨b, hbm, hbs, hbl⟩ := (has_back_iff r.s r.l e.back).mp hb
    obtain ⟨q, hq, hqc, hqs, hql⟩ := hJ.2.2.2.2 e hmem b hbm
    have hqc1 : q.c = r.c := by rw [hqc, hee]; exact he2c
    rcases hok with h | ⟨_, _, h⟩
    · exact h q hq hqc1
    · exact h q hq ⟨hqc1, by rw [hqs, hbs], by rw [hql, hbl]⟩
  · rw [h1]
  · rw [h1]

theorem size_inv_run (rs : List add_req) :
    (∀ r : add_req, r ∈ rs → valid_add r.f r.c r.s r.l) → grouped rs →
    write_rvs_tab cfg_init (rs.map req_write) = (rs.map req_write).map (fun w => (w.size : Int)) →
    (run_writes_tab cfg_init (rs.map req_write)).st_size = (rs.map req_line).flatten.length := by
  induction rs using List.reverseRecOn with
  | nil =>
    intro _ _ _
    rfl
  | append_singleton pre r ih =>
    intro hvalid hgrp hrv
    obtain ⟨hg1, hg2⟩ := grouped_snoc pre r hgrp
    have hv1 : ∀ q : add_req, q ∈ pre → valid_add q.f q.c q.s q.l :=
      fun q hq => hvalid q (List.mem_append_left _ hq)
    have hvr : valid_add r.f r.c r.s r.l := hvalid r (by simp)
    rw [List.map_append, List.map_singleton] at hrv
    rw [write_rvs_snoc, List.map_append, List.map_singleton] at hrv
    have hlen : (write_rvs_tab cfg_init (pre.map req_write)).length
        = ((pre.map req_write).map (fun w => (w.size : Int))).length := by
      rw [write_rvs_length]; simp
    obtain ⟨hrv1, hrv2⟩ := List.append_inj hrv hlen
    have hrv3 : (m_write_tab r.env (run_writes_tab cfg_init (pre.map req_write)) 0 CFG_PATH
        (req_line r) (req_line r).length).1 = ((req_line r).length : Int) := by
      simpa [req_write] using hrv2
    have hJ := dump_inv_run pre hv1 hg1 hrv1
    have hs := ih hv1 hg1 hrv1
    rw [List.map_append, List.map_singleton, run_writes_snoc]
    have hstep := size_inv_step pre r _ hvr hg2 hJ hrv3
    show (m_write_tab r.env (run_writes_tab cfg_init (pre.map req_write)) 0 CFG_PATH
      (req_line r) (req_line r).length).2.st_size = _
    rw [hstep, hs]
    simp

theorem req_writes_adds (rs : List add_req) (w : write_req) (hw : w ∈ rs.map req_write) :
    ¬ (w.size ≥ CMD_CLEAR.length ∧ memcmp w.buf CMD_CLEAR CMD_CLEAR.length = 0) := by
  obtain ⟨r, _, hrw⟩ := List.mem_map.mp hw
  rw [← hrw]
  exact fun h => (memcmp_add_line r.f r.c r.s r.l).2 h.2

theorem round_trip_overrun (rs : List add_req)
    (rb : cfg_entry → CStr → Nat → Nat → Int × CStr) (size offset : Nat) (envc : add_env)
    (hvalid : ∀ r : add_req, r ∈ rs → valid_add r.f r.c r.s r.l)
    (hoff : ∀ r : add_req, r ∈ rs → off_control r.c)
    (hgrp : grouped rs) (hne : rs ≠ [])
    (hrv : write_rvs globals_init (rs.map req_write)
      = some ((rs.map req_write).map (fun w => (w.size : Int)))) :
    ∃ g : cfg_globals, run_writes globals_init (rs.map req_write) = some g ∧
      cfg_dump g.st.cfgs = (rs.map req_line).flatten ∧
      g.st.st_size = (rs.map req_line).flatten.length ∧
      m_read rb true g.st 0 CFG_PATH size offset = none ∧
      ∃ g1 : cfg_globals, m_write envc g 0 CFG_PATH CMD_CLEAR 6 = some (6, g1) ∧
        g1.st = ⟨[], 0⟩ ∧ m_read rb true g1.st 0 CFG_PATH size offset = some (0, []) := by
  obtain ⟨e2, _⟩ := write_rvs_tab_of_some (rs.map req_write) globals_init _ hrv
  obtain ⟨p, hp, r1, _⟩ := run_adds_defined (rs.map req_write) globals_init (by decide)
    (fun w hw => req_writes_adds rs w hw)
  have hJ := dump_inv_run rs hvalid hgrp e2.symm
  have hS := size_inv_run rs hvalid hgrp e2.symm
  obtain ⟨J1, J2, _, _, _⟩ := hJ
  have hcfgs : (run_writes_tab cfg_init (rs.map req_write)).cfgs ≠ [] := by
    cases rs with
    | nil => exact absurd rfl hne
    | cons r rest =>
      obtain ⟨e, he, _⟩ := (J2 r.c).mpr ⟨r, List.mem_cons_self _ _, rfl⟩
      exact List.ne_nil_of_mem he
  have hcl : classify_ipath (run_writes_tab cfg_init (rs.map req_write)).cfgs CFG_PATH
      CFG_PATH.length = (.CLASS_CFG, none) := by
    apply classify_control
    intro e he
    obtain ⟨q, hq, hqc⟩ := (J2 e.cpath).mp ⟨e, he, rfl⟩
    rw [← hqc]
    exact off_control_classify q.c (hvalid q hq).2.1 (hoff q hq)
  refine ⟨⟨p, run_writes_tab cfg_init (rs.map req_write)⟩, r1, J1, hS, ?_, ?_⟩
  · unfold m_read
    rw [hcl]
    simp only [if_true]
    exact cfg_read_short _ size offset hcfgs (by rw [hS, J1])
  · have hc := m_write_clear envc ⟨p, run_writes_tab cfg_init (rs.map req_write)⟩ []
    have hcmd : "clear\n".toList ++ [] = CMD_CLEAR := rfl
    rw [hcmd] at hc
    cases p with
    | null => exact ⟨_, hc, rfl, rfl⟩
    | live => exact ⟨_, hc, rfl, rfl⟩
    | freed => exact absurd rfl hp

/-- C5: for canonical add lines with valid fields, none naming a configured
path at or beneath `/.config-filesystem`, such that lines naming the same
configured path are consecutive, carry the same filter name and never repeat a
(stratum, lpath) pair, written in order by uid 0 from the empty table, each
write returning its size: the string `cfg_read` assembles is exactly the
concatenation of the lines, and the cached size is its length, so the block of
`cfg_stat.st_size` bytes has no room for the terminator and every read of the
control file stores one byte behind it; after a following write of `clear`
and newline (which returns 6) a read returns zero bytes. For the two lines
`add bin /a s:/b` and `add bin /a t:/c` the cached size and the length of the
dump are both 32. A line written twice is accepted twice and dumped once. -/
theorem control_read_overruns :
    write_rvs globals_init (ex_reqs.map req_write) = some [16, 16] ∧
    run_writes globals_init (ex_reqs.map req_write)
      = some ⟨.live, ⟨[⟨.FILTER_BIN, "/a".toList,
          [⟨"/b".toList, "s".toList, 3⟩, ⟨"/c".toList, "t".toList, 3⟩]⟩], 32⟩⟩ ∧
    cfg_dump [⟨.FILTER_BIN, "/a".toList,
        [⟨"/b".toList, "s".toList, 3⟩, ⟨"/c".toList, "t".toList, 3⟩]⟩]
      = "add bin /a s:/b\nadd bin /a t:/c\n".toList ∧
    m_read read_back_none true ⟨[⟨.FILTER_BIN, "/a".toList,
        [⟨"/b".toList, "s".toList, 3⟩, ⟨"/c".toList, "t".toList, 3⟩]⟩], 32⟩
      0 CFG_PATH 4096 0 = none ∧
    (∀ (rs : List add_req) (rb : cfg_entry → CStr → Nat → Nat → Int × CStr)
      (size offset : Nat) (envc : add_env),
      (∀ r : add_req, r ∈ rs → valid_add r.f r.c r.s r.l) →
      (∀ r : add_req, r ∈ rs → off_control r.c) →
      grouped rs → rs ≠ [] →
      write_rvs globals_init (rs.map req_write)
        = some ((rs.map req_write).map (fun w => (w.size : Int))) →
      ∃ g : cfg_globals, run_writes globals_init (rs.map req_write) = some g ∧
        cfg_dump g.st.cfgs = (rs.map req_line).flatten ∧
        g.st.st_size = (rs.map req_line).flatten.length ∧
        m_read rb true g.st 0 CFG_PATH size offset = none ∧
        ∃ g1 : cfg_globals, m_write envc g 0 CFG_PATH CMD_CLEAR 6 = some (6, g1) ∧
          g1.st = ⟨[], 0⟩ ∧ m_read rb true g1.st 0 CFG_PATH size offset = some (0, [])) ∧
    write_rvs globals_init [root_write env_ok "add bin /a s:/b\n".toList,
      root_write env_ok "add bin /a s:/b\n".toList] = some [16, 16] ∧
    (run_writes globals_init [root_write env_ok "add bin /a s:/b\n".toList,
      root_write env_ok "add bin /a s:/b\n".toList]).map (fun g => cfg_dump g.st.cfgs)
      = some "add bin /a s:/b\n".toList := by
  refine ⟨by decide, by decide, by decide, by decide, ?_, by decide, by decide⟩
  intro rs rb size offset envc hvalid hoff hgrp hne hrv
  exact round_trip_overrun rs rb size offset envc hvalid hoff hgrp hne hrv

theorem table_unique_witness :
    cfg_add env_ok
        ⟨.live, ⟨[⟨.FILTER_BIN, "/a".toList, [⟨"/b".toList, "s".toList, 3⟩]⟩], 16⟩⟩
        "add ini /a t:/c\n".toList 16
      = some (16, ⟨.live, ⟨[⟨.FILTER_BIN, "/a".toList,
          [⟨"/b".toList, "s".toList, 3⟩, ⟨"/c".toList, "t".toList, 3⟩]⟩], 32⟩⟩) :=
  (table_unique.2.2.2 env_ok
    ⟨.live, ⟨[⟨.FILTER_BIN, "/a".toList, [⟨"/b".toList, "s".toList, 3⟩]⟩], 16⟩⟩
    "add ini /a t:/c\n".toList 16 .FILTER_INI "/a".toList "t".toList "/c".toList
    [] ⟨.FILTER_BIN, "/a".toList, [⟨"/b".toList, "s".toList, 3⟩]⟩ [] (by rfl) rfl rfl
    (fun x hx => absurd hx (List.not_mem_nil x))).trans (by decide)

theorem cfg_read_overruns_witness :
    cfg_read true ⟨[⟨.FILTER_BIN, "/a".toList, [⟨"/b".toList, "s".toList, 3⟩]⟩], 16⟩ 4096 7
      = none :=
  cfg_read_overruns.2.2.2.1
    ⟨[⟨.FILTER_BIN, "/a".toList, [⟨"/b".toList, "s".toList, 3⟩]⟩], 16⟩ 4096 7
    (by decide) (by decide)

theorem control_read_overruns_witness :
    ∃ g : cfg_globals, run_writes globals_init (ex_reqs.map req_write) = some g ∧
      cfg_dump g.st.cfgs = "add bin /a s:/b\nadd bin /a t:/c\n".toList ∧
      m_read read_back_none true g.st 0 CFG_PATH 4096 0 = none := by
  obtain ⟨g, h1, h2, _, h4, _⟩ := control_read_overruns.2.2.2.2.1 ex_reqs read_back_none 4096 0
    env_ok (fun r hr => (ex_reqs_valid r hr).1) (fun r hr => (ex_reqs_valid r hr).2)
    ex_reqs_grouped (List.cons_ne_nil _ _) (by decide)
  exact ⟨g, h1, h2.trans (by decide), h4⟩

/-! ## The pointer variable and the table along a run -/

/-- Appending a back end to an entry of a table with entries leaves a table with
entries. -/
theorem push_back_ne_nil (b : back_entry) : ∀ (cfgs : List cfg_entry) (i : Nat),
    cfgs ≠ [] → push_back cfgs i b ≠ [] := by
  intro cfgs i h
  cases cfgs with
  | nil => exact absurd rfl h
  | cons c rest =>
    cases i with
    | zero => exact List.cons_ne_nil _ _
    | succ k => exact List.cons_ne_nil _ _

/-- A defined `cfg_add` keeps the table holding entries exactly while `cfgs` holds
the live array. -/
theorem cfg_add_live (env : add_env) (g : cfg_globals) (buf : CStr) (size : Nat)
    (rv : Int) (g1 : cfg_globals) (h : cfg_add env g buf size = some (rv, g1))
    (hinv : g.st.cfgs ≠ [] ↔ g.ptr = .live) : g1.st.cfgs ≠ [] ↔ g1.ptr = .live := by
  unfold cfg_add at h
  cases hp : cfg_add_parse buf size with
  | error e =>
    rw [hp] at h
    have h1 : (e, g) = (rv, g1) := Option.some.inj h
    have h3 : g = g1 := congrArg Prod.snd h1
    rw [← h3]
    exact hinv
  | ok r =>
    obtain ⟨f, c, s, l⟩ := r
    rw [hp] at h
    simp only at h
    by_cases hc : (find_cfg c g.st.cfgs = none ∧ env.malloc_cpath = true) ∧ g.ptr = .freed
    · rw [if_pos hc] at h
      cases h
    · rw [if_neg hc] at h
      have h1 := Option.some.inj h
      have h3 : (⟨if (find_cfg c g.st.cfgs = none ∧ env.malloc_cpath = true)
            ∧ env.realloc_cfgs = true then .live else g.ptr,
          (cfg_add_apply env g.st f c s l (strlen buf) size).2⟩ : cfg_globals) = g1 :=
        congrArg Prod.snd h1
      rw [← h3]
      show (cfg_add_apply env g.st f c s l (strlen buf) size).2.cfgs ≠ [] ↔
        (if (find_cfg c g.st.cfgs = none ∧ env.malloc_cpath = true)
            ∧ env.realloc_cfgs = true then cfgs_ptr.live else g.ptr) = .live
      cases hfind : find_cfg c g.st.cfgs with
      | none =>
        rw [cfg_add_apply_none env g.st f c s l (strlen buf) size hfind]
        by_cases hm : env.malloc_cpath = true ∧ env.realloc_cfgs = true
        · have h5 : ¬ (¬ env.malloc_cpath = true ∨ ¬ env.realloc_cfgs = true) :=
            fun hh => hh.elim (fun x => x hm.1) (fun x => x hm.2)
          have h6 : (none = (none : Option Nat) ∧ env.malloc_cpath = true)
              ∧ env.realloc_cfgs = true := ⟨⟨rfl, hm.1⟩, hm.2⟩
          rw [if_neg h5, if_pos h6]
          constructor
          · intro _; rfl
          · intro _
            repeat' split
            all_goals exact fun hn => by simp at hn
        · have h5 : ¬ env.malloc_cpath = true ∨ ¬ env.realloc_cfgs = true := by
            by_cases hx : env.malloc_cpath = true
            · exact Or.inr (fun hy => hm ⟨hx, hy⟩)
            · exact Or.inl hx
          have h6 : ¬ ((none = (none : Option Nat) ∧ env.malloc_cpath = true)
              ∧ env.realloc_cfgs = true) := fun hh => hm ⟨hh.1.2, hh.2⟩
          rw [if_pos h5, if_neg h6]
          exact hinv
      | some i =>
        obtain ⟨e, he, _, _⟩ := find_cfg_some c g.st.cfgs i hfind
        have hne : g.st.cfgs ≠ [] := List.ne_nil_of_mem (List.mem_iff_getElem?.mpr ⟨i, he⟩)
        have h6 : ¬ ((some i = (none : Option Nat) ∧ env.malloc_cpath = true)
            ∧ env.realloc_cfgs = true) := fun hh => Option.noConfusion hh.1.1
        rw [if_neg h6, cfg_add_apply_some env g.st f c s l (strlen buf) size i e hfind he]
        constructor
        · intro _; exact hinv.mp hne
        · intro _
          repeat' split
          all_goals first | exact hne | exact push_back_ne_nil _ _ _ hne

/-- A defined `m_write` keeps the table holding entries exactly while `cfgs` holds
the live array. -/
theorem m_write_live (env : add_env) (g : cfg_globals) (uid : Nat) (ipath buf : CStr)
    (size : Nat) (rv : Int) (g1 : cfg_globals)
    (h : m_write env g uid ipath buf size = some (rv, g1))
    (hinv : g.st.cfgs ≠ [] ↔ g.ptr = .live) : g1.st.cfgs ≠ [] ↔ g1.ptr = .live := by
  unfold m_write at h
  have hsame : ∀ a : Int, some (a, g) = some (rv, g1) → (g1.st.cfgs ≠ [] ↔ g1.ptr = .live) := by
    intro a hx
    have h1 : (a, g) = (rv, g1) := Option.some.inj hx
    have h3 : g = g1 := congrArg Prod.snd h1
    rw [← h3]
    exact hinv
  split at h
  · exact hsame _ h
  · split at h
    · exact hsame _ h
    · split at h
      · unfold cfg_clear at h
        cases hptr : g.ptr with
        | null =>
          rw [hptr] at h
          have h1 : ((size : Int), (⟨.null, ⟨[], 0⟩⟩ : cfg_globals)) = (rv, g1) :=
            Option.some.inj h
          have h3 : (⟨.null, ⟨[], 0⟩⟩ : cfg_globals) = g1 := congrArg Prod.snd h1
          rw [← h3]
          decide
        | live =>
          rw [hptr] at h
          have h1 : ((size : Int), (⟨.freed, ⟨[], 0⟩⟩ : cfg_globals)) = (rv, g1) :=
            Option.some.inj h
          have h3 : (⟨.freed, ⟨[], 0⟩⟩ : cfg_globals) = g1 := congrArg Prod.snd h1
          rw [← h3]
          decide
        | freed => rw [hptr] at h; cases h
      · split at h
        · exact cfg_add_live env g buf size rv g1 h hinv
        · exact hsame _ h

/-- Along every defined run of writes the table has entries exactly while `cfgs`
holds the live array; the startup state `globals_init` is such a state. -/
theorem globals_live : ∀ (ws : List write_req) (g g1 : cfg_globals),
    (g.st.cfgs ≠ [] ↔ g.ptr = .live) → run_writes g ws = some g1 →
      (g1.st.cfgs ≠ [] ↔ g1.ptr = .live) := by
  intro ws
  induction ws with
  | nil =>
    intro g g1 hinv h
    have : g = g1 := Option.some.inj h
    rw [← this]
    exact hinv
  | cons w rest ih =>
    intro g g1 hinv h
    unfold run_writes at h
    cases hm : m_write w.env g w.uid w.ipath w.buf w.size with
    | none => rw [hm] at h; cases h
    | some r =>
      rw [hm] at h
      exact ih r.2 g1 (m_write_live w.env g w.uid w.ipath w.buf w.size r.1 r.2 hm hinv) h

end Crossfs
